import Mathlib

set_option maxHeartbeats 1000000
set_option maxRecDepth 10000

/-!
# Verification of the portage-metadata cache parser and serializer

A shallow embedding of the `portage-metadata` Rust crate: the md5-cache record
parser/serializer (`src/cache.rs`), the four expression grammars
(`src/license.rs`, `src/required_use.rs`, `src/restrict.rs`, `src/src_uri.rs`)
and the small value types (`src/eapi.rs`, `src/keyword.rs`, `src/iuse.rs`,
`src/phase.rs`), together with proofs about round-tripping, error handling and
field defaults.

Rust string slices are modelled as `List Char`.  The winnow combinators used by
the grammars are modelled by hand: a parser takes the remaining input and
returns `PRes`, with `ok value rest`, a backtrackable failure `fail`, or a
fatal failure `cut` (winnow's `ErrMode::Cut` produced by `cut_err`, which
`alt`/`repeat` do not recover from).
-/

/-- Rust `&str`, modelled as its list of characters. -/
abbrev Str : Type := List Char

/-- The characters of a Lean string literal; used to write concrete inputs. -/
def chars (s : String) : Str := s.data

/-- Rust `char::is_whitespace`: the Unicode `White_Space` property. -/
def rustIsWhitespace (c : Char) : Bool :=
  c = ' ' || c = '\t' || c = '\n' || c = Char.ofNat 0x0B || c = Char.ofNat 0x0C ||
  c = '\r' || c = Char.ofNat 0x85 || c = Char.ofNat 0xA0 || c = Char.ofNat 0x1680 ||
  (0x2000 ≤ c.toNat && c.toNat ≤ 0x200A) || c = Char.ofNat 0x2028 ||
  c = Char.ofNat 0x2029 || c = Char.ofNat 0x202F || c = Char.ofNat 0x205F ||
  c = Char.ofNat 0x3000

/-- winnow `multispace0/1` character class: space, tab, carriage return, line feed. -/
def isMultispace (c : Char) : Bool :=
  c = ' ' || c = '\t' || c = '\r' || c = '\n'

/-- winnow `multispace0`: drop the maximal leading run of multispace characters. -/
def ms0 (s : Str) : Str := s.dropWhile isMultispace

/-- Rust `str::trim_start` (Unicode whitespace). -/
def trimStart (s : Str) : Str := s.dropWhile rustIsWhitespace

/-- Rust `str::trim_end` (Unicode whitespace). -/
def trimEnd (s : Str) : Str := (s.reverse.dropWhile rustIsWhitespace).reverse

/-- Rust `str::trim`. -/
def trimWs (s : Str) : Str := trimEnd (trimStart s)

/-- Rust `str::split(sep)` for a character separator: always at least one piece,
`""` splits to `[""]`, adjacent separators give empty pieces. -/
def splitChar (sep : Char) : Str → List Str
  | [] => [[]]
  | c :: rest =>
    if c = sep then [] :: splitChar sep rest
    else
      match splitChar sep rest with
      | [] => [[c]]
      | g :: gs => (c :: g) :: gs

/-- Rust `str::split_once(sep)`: the pieces before and after the first
occurrence of `sep`, or `none` when `sep` does not occur. -/
def splitOnceChar (sep : Char) : Str → Option (Str × Str)
  | [] => none
  | c :: rest =>
    if c = sep then some ([], rest)
    else
      match splitOnceChar sep rest with
      | none => none
      | some (a, b) => some (c :: a, b)

theorem length_dropWhile_le {α : Type} (p : α → Bool) (l : List α) :
    (l.dropWhile p).length ≤ l.length := by
  induction l with
  | nil => simp [List.dropWhile]
  | cons c rest ih =>
    simp only [List.dropWhile]
    split
    · exact Nat.le_trans ih (Nat.le_succ _)
    · exact Nat.le_refl _

theorem length_ms0_le (s : Str) : (ms0 s).length ≤ s.length :=
  length_dropWhile_le isMultispace s

/-- The token accumulator loop behind `splitWs`; `acc` holds the current
token reversed. -/
def splitWsAux : Str → Str → List Str
  | [], acc => if acc.isEmpty then [] else [acc.reverse]
  | c :: rest, acc =>
    if rustIsWhitespace c then
      if acc.isEmpty then splitWsAux rest []
      else acc.reverse :: splitWsAux rest []
    else splitWsAux rest (c :: acc)

/-- Rust `str::split_whitespace`: maximal runs of non-whitespace characters
(Unicode whitespace), empty tokens never produced. -/
def splitWs (s : Str) : List Str := splitWsAux s []

/-- One line of Rust `str::lines`: a single trailing `'\r'` is stripped. -/
def stripCr (l : Str) : Str :=
  if l.getLast? = some '\r' then l.dropLast else l

/-- Rust `str::lines`: split on `'\n'`, a final line terminator produces no
trailing empty line, and a trailing `'\r'` is stripped from each line. -/
def linesOf (s : Str) : List Str :=
  if s = [] then []
  else
    let parts := splitChar '\n' s
    (if parts.getLast? = some [] then parts.dropLast else parts).map stripCr

/-- Join pieces with a single-character separator (Rust `Vec::join`). -/
def joinSep (sep : Char) (xs : List Str) : Str := List.intercalate [sep] xs

/-- The result of running an embedded winnow parser on some input: success with
the unconsumed rest, a backtrackable failure (`ErrMode::Backtrack`), or a fatal
failure (`ErrMode::Cut`). -/
inductive PRes (α : Type) where
  | ok (val : α) (rest : Str)
  | fail
  | cut
  deriving Repr, DecidableEq

/-- winnow `take_while(1.., p)`: the maximal nonempty prefix of characters
satisfying `p`, backtrackable failure when empty. -/
def takeWhile1 (p : Char → Bool) (s : Str) : PRes Str :=
  let tok := s.takeWhile p
  if tok.isEmpty then .fail else .ok tok (s.drop tok.length)

/-- The crate's error type (`src/error.rs`).  The payload of the grammar
errors is a remaining-input excerpt standing in for the formatted winnow
message, whose exact text is not modelled; `MissingField` and `InvalidEapi`
payloads are exact. -/
inductive Error where
  | InvalidEapi (s : Str)
  | InvalidKeyword (s : Str)
  | InvalidIUse (s : Str)
  | InvalidPhase (s : Str)
  | InvalidSrcUri (s : Str)
  | InvalidLicense (s : Str)
  | InvalidRequiredUse (s : Str)
  | InvalidRestrict (s : Str)
  | InvalidCacheEntry (s : Str)
  | MissingField (s : Str)
  | DepError (s : Str)
  deriving Repr, DecidableEq

instance {ε α : Type} [DecidableEq ε] [DecidableEq α] : DecidableEq (Except ε α) :=
  fun a b =>
    match a, b with
    | .ok x, .ok y => if h : x = y then isTrue (by rw [h]) else isFalse (by simp [h])
    | .ok _, .error _ => isFalse (by simp)
    | .error _, .ok _ => isFalse (by simp)
    | .error x, .error y => if h : x = y then isTrue (by rw [h]) else isFalse (by simp [h])

/-! ## The RESTRICT/PROPERTIES grammar (`src/restrict.rs`) -/

/-- A node in a `RESTRICT` or `PROPERTIES` expression (`enum RestrictExpr`). -/
inductive RestrictExpr where
  | Token (t : Str)
  | UseConditional (flag : Str) (negated : Bool) (entries : List RestrictExpr)

namespace Restrict

/-- `is_token_char` in `src/restrict.rs`. -/
def isTokenChar (c : Char) : Bool :=
  c.isAlphanum || c = '-' || c = '_' || c = '.' || c = '+'

/-- `is_flag_char` in `src/restrict.rs`. -/
def isFlagChar (c : Char) : Bool :=
  c.isAlphanum || c = '_' || c = '-' || c = '+'

/-- `parse_token` in `src/restrict.rs`. -/
def parseToken (s : Str) : PRes RestrictExpr :=
  match takeWhile1 isTokenChar s with
  | .ok t rest => .ok (.Token t) rest
  | .fail => .fail
  | .cut => .cut

mutual

/-- `parse_use_conditional` in `src/restrict.rs`: `[!]flag? ( entries )`, the
parenthesized group guarded by `cut_err`. -/
def parseUseConditional (s : Str) : PRes RestrictExpr :=
  let negated : Bool := s.head? = some '!'
  let s1 := if negated then s.tail else s
  let flag := s1.takeWhile isFlagChar
  if flag.isEmpty then .fail
  else
    match hq : s1.drop flag.length with
    | '?' :: s2 =>
      match hp : ms0 s2 with
      | '(' :: s3 =>
        match parseRestrictEntries s3 with
        | .ok entries rest =>
          match ms0 rest with
          | ')' :: rest2 => .ok (.UseConditional flag negated entries) rest2
          | _ => .cut
        | _ => .cut
      | _ => .cut
    | _ => .fail
termination_by (s.length, 0)
decreasing_by
  apply Prod.Lex.left
  have h1 : (ms0 s2).length = s3.length + 1 := by rw [hp]; simp
  have h2 := length_ms0_le s2
  have h3 : (s1.drop flag.length).length = s2.length + 1 := by rw [hq]; simp
  rw [List.length_drop] at h3
  have h4 : s1.length ≤ s.length := by
    show (if _ then s.tail else s).length ≤ s.length
    split
    · simp [List.length_tail]
    · exact Nat.le_refl _
  omega

/-- `parse_restrict_entry` in `src/restrict.rs`: dispatch on the first
character; `(` opens a bare paren group (collapsed to its sole entry, or to
`Token ""` otherwise), anything else tries a USE conditional then a bare
token. -/
def parseRestrictEntry (s : Str) : PRes RestrictExpr :=
  match s with
  | [] => .fail
  | c :: rest =>
    if c = '(' then
      match parseRestrictEntries rest with
      | .ok entries rest1 =>
        match ms0 rest1 with
        | ')' :: rest2 =>
          .ok (match entries with
               | [e] => e
               | _ => .Token []) rest2
        | _ => .cut
      | _ => .cut
    else
      match parseUseConditional (c :: rest) with
      | .ok e r => .ok e r
      | .cut => .cut
      | .fail => parseToken (c :: rest)
termination_by (s.length, 1)
decreasing_by
  · apply Prod.Lex.left
    simp
  · exact Prod.Lex.right _ (by omega)

/-- `parse_restrict_entries` in `src/restrict.rs`:
`repeat(0.., preceded(multispace0, parse_restrict_entry))`.  A failed
iteration backtracks (leading whitespace included); a `cut` aborts. -/
def parseRestrictEntries (s : Str) : PRes (List RestrictExpr) :=
  match parseRestrictEntry (ms0 s) with
  | .ok e rest =>
    if _h : rest.length < s.length then
      match parseRestrictEntries rest with
      | .ok es rest2 => .ok (e :: es) rest2
      | .fail => .fail
      | .cut => .cut
    else .cut
  | .fail => .ok [] s
  | .cut => .cut
termination_by (s.length, 2)
decreasing_by
  · rcases Nat.lt_or_eq_of_le (length_ms0_le s) with h | h
    · exact Prod.Lex.left _ _ h
    · rw [h]; exact Prod.Lex.right _ (by omega)
  · apply Prod.Lex.left
    omega

end

/-- `parse_restrict_string` in `src/restrict.rs`: the entries followed by
trailing whitespace. -/
def parseRestrictString (s : Str) : PRes (List RestrictExpr) :=
  match parseRestrictEntries s with
  | .ok es rest => .ok es (ms0 rest)
  | .fail => .fail
  | .cut => .cut

end Restrict

/-- `RestrictExpr::parse`: run `parse_restrict_string` requiring full
consumption (winnow `Parser::parse`), mapping failure to
`Error::InvalidRestrict`. -/
def RestrictExpr.parse (s : Str) : Except Error (List RestrictExpr) :=
  match Restrict.parseRestrictString s with
  | .ok es [] => .ok es
  | .ok _ rest => .error (.InvalidRestrict rest)
  | _ => .error (.InvalidRestrict s)

mutual

/-- `impl Display for RestrictExpr` in `src/restrict.rs`. -/
def RestrictExpr.render : RestrictExpr → Str
  | .Token t => t
  | .UseConditional flag negated entries =>
    (if negated then ['!'] else []) ++ flag ++ chars "? ( " ++
      renderRestrictList entries ++ chars " )"

/-- Space-joined rendering of a list of entries: the body of the `Display`
loops, and the `join(" ")` used by `CacheEntry::serialize`. -/
def renderRestrictList : List RestrictExpr → Str
  | [] => []
  | [e] => e.render
  | e :: es => e.render ++ ' ' :: renderRestrictList es

end

/-! ## The LICENSE grammar (`src/license.rs`) -/

/-- A node in a `LICENSE` expression tree (`enum LicenseExpr`). -/
inductive LicenseExpr where
  | License (name : Str)
  | AnyOf (entries : List LicenseExpr)
  | UseConditional (flag : Str) (negated : Bool) (entries : List LicenseExpr)
  | All (entries : List LicenseExpr)

namespace License

/-- `is_license_char` in `src/license.rs`. -/
def isLicenseChar (c : Char) : Bool :=
  c.isAlphanum || c = '-' || c = '_' || c = '.' || c = '+'

/-- `is_flag_char` in `src/license.rs` (licences allow `@` in flags). -/
def isFlagChar (c : Char) : Bool :=
  c.isAlphanum || c = '_' || c = '-' || c = '+' || c = '@'

/-- `parse_license_name` in `src/license.rs`: a nonempty run of licence
characters, rejected (`verify`) when it starts with `-`, `.` or `+`. -/
def parseLicenseName (s : Str) : PRes LicenseExpr :=
  match takeWhile1 isLicenseChar s with
  | .ok name rest =>
    if name.head? = some '-' || name.head? = some '.' || name.head? = some '+' then .fail
    else .ok (.License name) rest
  | .fail => .fail
  | .cut => .cut

mutual

/-- `parse_any_of` in `src/license.rs`: `|| ( entries )`, the group guarded
by `cut_err`. -/
def parseAnyOf (s : Str) : PRes LicenseExpr :=
  match s with
  | '|' :: '|' :: s1 =>
    match hp : ms0 s1 with
    | '(' :: s2 =>
      match parseLicenseEntries s2 with
      | .ok entries rest =>
        match ms0 rest with
        | ')' :: rest2 => .ok (.AnyOf entries) rest2
        | _ => .cut
      | _ => .cut
    | _ => .cut
  | _ => .fail
termination_by (s.length, 0)
decreasing_by
  apply Prod.Lex.left
  have h1 : (ms0 s1).length = s2.length + 1 := by rw [hp]; simp
  have h2 := length_ms0_le s1
  simp only [List.length_cons]
  omega

/-- `parse_use_conditional` in `src/license.rs`. -/
def parseUseConditional (s : Str) : PRes LicenseExpr :=
  let negated : Bool := s.head? = some '!'
  let s1 := if negated then s.tail else s
  let flag := s1.takeWhile isFlagChar
  if flag.isEmpty then .fail
  else
    match hq : s1.drop flag.length with
    | '?' :: s2 =>
      match hp : ms0 s2 with
      | '(' :: s3 =>
        match parseLicenseEntries s3 with
        | .ok entries rest =>
          match ms0 rest with
          | ')' :: rest2 => .ok (.UseConditional flag negated entries) rest2
          | _ => .cut
        | _ => .cut
      | _ => .cut
    | _ => .fail
termination_by (s.length, 0)
decreasing_by
  apply Prod.Lex.left
  have h1 : (ms0 s2).length = s3.length + 1 := by rw [hp]; simp
  have h2 := length_ms0_le s2
  have h3 : (s1.drop flag.length).length = s2.length + 1 := by rw [hq]; simp
  rw [List.length_drop] at h3
  have h4 : s1.length ≤ s.length := by
    show (if _ then s.tail else s).length ≤ s.length
    split
    · simp [List.length_tail]
    · exact Nat.le_refl _
  omega

/-- `parse_paren_group` in `src/license.rs`: a bare `( entries )`, only the
closing parenthesis guarded by `cut_err`. -/
def parseParenGroup (s : Str) : PRes (List LicenseExpr) :=
  match s with
  | '(' :: s1 =>
    match parseLicenseEntries s1 with
    | .ok entries rest =>
      match ms0 rest with
      | ')' :: rest2 => .ok entries rest2
      | _ => .cut
    | .fail => .fail
    | .cut => .cut
  | _ => .fail
termination_by (s.length, 0)
decreasing_by
  apply Prod.Lex.left
  simp

/-- `parse_license_entry` in `src/license.rs`: dispatch on the first
character; a bare paren group contributes its entries flattened. -/
def parseLicenseEntry (s : Str) : PRes (List LicenseExpr) :=
  match s with
  | [] => .fail
  | c :: rest =>
    if c = '|' then
      match parseAnyOf (c :: rest) with
      | .ok e r => .ok [e] r
      | .fail => .fail
      | .cut => .cut
    else if c = '(' then parseParenGroup (c :: rest)
    else
      match parseUseConditional (c :: rest) with
      | .ok e r => .ok [e] r
      | .cut => .cut
      | .fail =>
        match parseLicenseName (c :: rest) with
        | .ok e r => .ok [e] r
        | .fail => .fail
        | .cut => .cut
termination_by (s.length, 1)
decreasing_by
  · exact Prod.Lex.right _ (by omega)
  · exact Prod.Lex.right _ (by omega)
  · exact Prod.Lex.right _ (by omega)

/-- `parse_license_entries` in `src/license.rs`:
`repeat(0.., preceded(multispace0, parse_license_entry))` folded by
concatenation. -/
def parseLicenseEntries (s : Str) : PRes (List LicenseExpr) :=
  match parseLicenseEntry (ms0 s) with
  | .ok batch rest =>
    if _h : rest.length < s.length then
      match parseLicenseEntries rest with
      | .ok es rest2 => .ok (batch ++ es) rest2
      | .fail => .fail
      | .cut => .cut
    else .cut
  | .fail => .ok [] s
  | .cut => .cut
termination_by (s.length, 2)
decreasing_by
  · rcases Nat.lt_or_eq_of_le (length_ms0_le s) with h | h
    · exact Prod.Lex.left _ _ h
    · rw [h]; exact Prod.Lex.right _ (by omega)
  · apply Prod.Lex.left
    omega

end

/-- `parse_license_string` in `src/license.rs`. -/
def parseLicenseString (s : Str) : PRes (List LicenseExpr) :=
  match parseLicenseEntries s with
  | .ok es rest => .ok es (ms0 rest)
  | .fail => .fail
  | .cut => .cut

end License

/-- `LicenseExpr::parse`: the top-level entries, wrapped as in the source
(`0 => All []`, `1 => the entry itself`, `_ => All entries`). -/
def LicenseExpr.parse (s : Str) : Except Error LicenseExpr :=
  match License.parseLicenseString s with
  | .ok entries [] =>
    .ok (match entries with
         | [] => .All []
         | [e] => e
         | es => .All es)
  | .ok _ rest => .error (.InvalidLicense rest)
  | _ => .error (.InvalidLicense s)

mutual

/-- `impl Display for LicenseExpr` in `src/license.rs`. -/
def LicenseExpr.render : LicenseExpr → Str
  | .License name => name
  | .AnyOf entries => chars "|| ( " ++ renderLicenseList entries ++ chars " )"
  | .UseConditional flag negated entries =>
    (if negated then ['!'] else []) ++ flag ++ chars "? ( " ++
      renderLicenseList entries ++ chars " )"
  | .All entries => renderLicenseList entries

/-- The space-joined rendering of the `Display` loops. -/
def renderLicenseList : List LicenseExpr → Str
  | [] => []
  | [e] => e.render
  | e :: es => e.render ++ ' ' :: renderLicenseList es

end

/-! ## The REQUIRED_USE grammar (`src/required_use.rs`) -/

/-- A node in a `REQUIRED_USE` expression tree (`enum RequiredUseExpr`). -/
inductive RequiredUseExpr where
  | Flag (name : Str) (negated : Bool)
  | AnyOf (entries : List RequiredUseExpr)
  | ExactlyOne (entries : List RequiredUseExpr)
  | AtMostOne (entries : List RequiredUseExpr)
  | UseConditional (flag : Str) (negated : Bool) (entries : List RequiredUseExpr)
  | All (entries : List RequiredUseExpr)

namespace RequiredUse

/-- `is_flag_char` in `src/required_use.rs`. -/
def isFlagChar (c : Char) : Bool :=
  c.isAlphanum || c = '_' || c = '-' || c = '+'

/-- `parse_flag` in `src/required_use.rs`: `[!]name`. -/
def parseFlag (s : Str) : PRes RequiredUseExpr :=
  let negated : Bool := s.head? = some '!'
  let s1 := if negated then s.tail else s
  match takeWhile1 isFlagChar s1 with
  | .ok name rest => .ok (.Flag name negated) rest
  | .fail => .fail
  | .cut => .cut

mutual

/-- `parse_any_of` in `src/required_use.rs`: `|| ( entries )`. -/
def parseAnyOf (s : Str) : PRes RequiredUseExpr :=
  match s with
  | '|' :: '|' :: s1 =>
    match hp : ms0 s1 with
    | '(' :: s2 =>
      match parseRequiredUseEntries s2 with
      | .ok entries rest =>
        match ms0 rest with
        | ')' :: rest2 => .ok (.AnyOf entries) rest2
        | _ => .cut
      | _ => .cut
    | _ => .cut
  | _ => .fail
termination_by (s.length, 0)
decreasing_by
  apply Prod.Lex.left
  have h1 : (ms0 s1).length = s2.length + 1 := by rw [hp]; simp
  have h2 := length_ms0_le s1
  simp only [List.length_cons]
  omega

/-- `parse_exactly_one` in `src/required_use.rs`: `^^ ( entries )`. -/
def parseExactlyOne (s : Str) : PRes RequiredUseExpr :=
  match s with
  | '^' :: '^' :: s1 =>
    match hp : ms0 s1 with
    | '(' :: s2 =>
      match parseRequiredUseEntries s2 with
      | .ok entries rest =>
        match ms0 rest with
        | ')' :: rest2 => .ok (.ExactlyOne entries) rest2
        | _ => .cut
      | _ => .cut
    | _ => .cut
  | _ => .fail
termination_by (s.length, 0)
decreasing_by
  apply Prod.Lex.left
  have h1 : (ms0 s1).length = s2.length + 1 := by rw [hp]; simp
  have h2 := length_ms0_le s1
  simp only [List.length_cons]
  omega

/-- `parse_at_most_one` in `src/required_use.rs`: `?? ( entries )`. -/
def parseAtMostOne (s : Str) : PRes RequiredUseExpr :=
  match s with
  | '?' :: '?' :: s1 =>
    match hp : ms0 s1 with
    | '(' :: s2 =>
      match parseRequiredUseEntries s2 with
      | .ok entries rest =>
        match ms0 rest with
        | ')' :: rest2 => .ok (.AtMostOne entries) rest2
        | _ => .cut
      | _ => .cut
    | _ => .cut
  | _ => .fail
termination_by (s.length, 0)
decreasing_by
  apply Prod.Lex.left
  have h1 : (ms0 s1).length = s2.length + 1 := by rw [hp]; simp
  have h2 := length_ms0_le s1
  simp only [List.length_cons]
  omega

/-- `parse_use_conditional` in `src/required_use.rs`. -/
def parseUseConditional (s : Str) : PRes RequiredUseExpr :=
  let negated : Bool := s.head? = some '!'
  let s1 := if negated then s.tail else s
  let flag := s1.takeWhile isFlagChar
  if flag.isEmpty then .fail
  else
    match hq : s1.drop flag.length with
    | '?' :: s2 =>
      match hp : ms0 s2 with
      | '(' :: s3 =>
        match parseRequiredUseEntries s3 with
        | .ok entries rest =>
          match ms0 rest with
          | ')' :: rest2 => .ok (.UseConditional flag negated entries) rest2
          | _ => .cut
        | _ => .cut
      | _ => .cut
    | _ => .fail
termination_by (s.length, 0)
decreasing_by
  apply Prod.Lex.left
  have h1 : (ms0 s2).length = s3.length + 1 := by rw [hp]; simp
  have h2 := length_ms0_le s2
  have h3 : (s1.drop flag.length).length = s2.length + 1 := by rw [hq]; simp
  rw [List.length_drop] at h3
  have h4 : s1.length ≤ s.length := by
    show (if _ then s.tail else s).length ≤ s.length
    split
    · simp [List.length_tail]
    · exact Nat.le_refl _
  omega

/-- `parse_paren_group` in `src/required_use.rs`. -/
def parseParenGroup (s : Str) : PRes (List RequiredUseExpr) :=
  match s with
  | '(' :: s1 =>
    match parseRequiredUseEntries s1 with
    | .ok entries rest =>
      match ms0 rest with
      | ')' :: rest2 => .ok entries rest2
      | _ => .cut
    | .fail => .fail
    | .cut => .cut
  | _ => .fail
termination_by (s.length, 0)
decreasing_by
  apply Prod.Lex.left
  simp

/-- `parse_required_use_entry` in `src/required_use.rs`: dispatch on the
first character (`|`, `^`, `(`, `?`, else conditional-or-flag). -/
def parseRequiredUseEntry (s : Str) : PRes (List RequiredUseExpr) :=
  match s with
  | [] => .fail
  | c :: rest =>
    if c = '|' then
      match parseAnyOf (c :: rest) with
      | .ok e r => .ok [e] r
      | .fail => .fail
      | .cut => .cut
    else if c = '^' then
      match parseExactlyOne (c :: rest) with
      | .ok e r => .ok [e] r
      | .fail => .fail
      | .cut => .cut
    else if c = '(' then parseParenGroup (c :: rest)
    else if c = '?' then
      match parseAtMostOne (c :: rest) with
      | .ok e r => .ok [e] r
      | .fail => .fail
      | .cut => .cut
    else
      match parseUseConditional (c :: rest) with
      | .ok e r => .ok [e] r
      | .cut => .cut
      | .fail =>
        match parseFlag (c :: rest) with
        | .ok e r => .ok [e] r
        | .fail => .fail
        | .cut => .cut
termination_by (s.length, 1)
decreasing_by
  · exact Prod.Lex.right _ (by omega)
  · exact Prod.Lex.right _ (by omega)
  · exact Prod.Lex.right _ (by omega)
  · exact Prod.Lex.right _ (by omega)
  · exact Prod.Lex.right _ (by omega)

/-- `parse_required_use_entries` in `src/required_use.rs`. -/
def parseRequiredUseEntries (s : Str) : PRes (List RequiredUseExpr) :=
  match parseRequiredUseEntry (ms0 s) with
  | .ok batch rest =>
    if _h : rest.length < s.length then
      match parseRequiredUseEntries rest with
      | .ok es rest2 => .ok (batch ++ es) rest2
      | .fail => .fail
      | .cut => .cut
    else .cut
  | .fail => .ok [] s
  | .cut => .cut
termination_by (s.length, 2)
decreasing_by
  · rcases Nat.lt_or_eq_of_le (length_ms0_le s) with h | h
    · exact Prod.Lex.left _ _ h
    · rw [h]; exact Prod.Lex.right _ (by omega)
  · apply Prod.Lex.left
    omega

end

/-- `parse_required_use_string` in `src/required_use.rs`. -/
def parseRequiredUseString (s : Str) : PRes (List RequiredUseExpr) :=
  match parseRequiredUseEntries s with
  | .ok es rest => .ok es (ms0 rest)
  | .fail => .fail
  | .cut => .cut

end RequiredUse

/-- `RequiredUseExpr::parse`, wrapping the top-level entries as in the
source. -/
def RequiredUseExpr.parse (s : Str) : Except Error RequiredUseExpr :=
  match RequiredUse.parseRequiredUseString s with
  | .ok entries [] =>
    .ok (match entries with
         | [] => .All []
         | [e] => e
         | es => .All es)
  | .ok _ rest => .error (.InvalidRequiredUse rest)
  | _ => .error (.InvalidRequiredUse s)

mutual

/-- `impl Display for RequiredUseExpr` in `src/required_use.rs`. -/
def RequiredUseExpr.render : RequiredUseExpr → Str
  | .Flag name negated => (if negated then ['!'] else []) ++ name
  | .AnyOf entries => chars "|| ( " ++ renderRequiredUseList entries ++ chars " )"
  | .ExactlyOne entries => chars "^^ ( " ++ renderRequiredUseList entries ++ chars " )"
  | .AtMostOne entries => chars "?? ( " ++ renderRequiredUseList entries ++ chars " )"
  | .UseConditional flag negated entries =>
    (if negated then ['!'] else []) ++ flag ++ chars "? ( " ++
      renderRequiredUseList entries ++ chars " )"
  | .All entries => renderRequiredUseList entries

/-- `fmt_entries` in `src/required_use.rs`. -/
def renderRequiredUseList : List RequiredUseExpr → Str
  | [] => []
  | [e] => e.render
  | e :: es => e.render ++ ' ' :: renderRequiredUseList es

end

/-! ## The SRC_URI grammar (`src/src_uri.rs`) -/

/-- A single entry in a `SRC_URI` expression (`enum SrcUriEntry`). -/
inductive SrcUriEntry where
  | Uri (url : Str) (filename : Str) (restriction : Option Str)
  | Renamed (url : Str) (target : Str) (restriction : Option Str)
  | UseConditional (flag : Str) (negated : Bool) (entries : List SrcUriEntry)
  | Group (entries : List SrcUriEntry)

namespace SrcUri

/-- `is_uri_char` in `src/src_uri.rs`. -/
def isUriChar (c : Char) : Bool :=
  c.isAlphanum || c = ':' || c = '/' || c = '.' || c = '-' || c = '_' || c = '~' ||
  c = '$' || c = '&' || c = '\'' || c = '*' || c = '+' || c = ',' || c = ';' ||
  c = '=' || c = '%' || c = '@' || c = '#' || c = '?'

/-- `is_filename_char` in `src/src_uri.rs`. -/
def isFilenameChar (c : Char) : Bool :=
  c.isAlphanum || c = '.' || c = '-' || c = '_' || c = '+'

/-- `is_flag_char` in `src/src_uri.rs`. -/
def isFlagChar (c : Char) : Bool :=
  c.isAlphanum || c = '_' || c = '-' || c = '+'

/-- `filename_from_url` in `src/src_uri.rs`: the text after the last `/`,
truncated at the first `?`. -/
def filenameFromUrl (url : Str) : Str :=
  let afterSlash := (splitChar '/' url).getLastD url
  (splitChar '?' afterSlash).headD afterSlash

/-- `parse_restriction_prefix` in `src/src_uri.rs`:
`opt(alt(("fetch+", "mirror+")))`, yielding the marker without its `+`. -/
def parseRestrictionMarker (s : Str) : Option Str × Str :=
  if (chars "fetch+").isPrefixOf s then (some (chars "fetch"), s.drop 6)
  else if (chars "mirror+").isPrefixOf s then (some (chars "mirror"), s.drop 7)
  else (none, s)

/-- `parse_uri_entry` in `src/src_uri.rs`: optional restriction marker, a URI,
then an optional ` -> filename` rename. -/
def parseUriEntry (s : Str) : PRes SrcUriEntry :=
  let pr := parseRestrictionMarker s
  match takeWhile1 isUriChar pr.2 with
  | .ok url rest =>
    match ms0 rest with
    | '-' :: '>' :: rest2 =>
      match takeWhile1 isFilenameChar (ms0 rest2) with
      | .ok target rest3 => .ok (.Renamed url target pr.1) rest3
      | _ => .ok (.Uri url (filenameFromUrl url) pr.1) rest
    | _ => .ok (.Uri url (filenameFromUrl url) pr.1) rest
  | .fail => .fail
  | .cut => .cut

mutual

/-- `parse_use_conditional` in `src/src_uri.rs`. -/
def parseUseConditional (s : Str) : PRes SrcUriEntry :=
  let negated : Bool := s.head? = some '!'
  let s1 := if negated then s.tail else s
  let flag := s1.takeWhile isFlagChar
  if flag.isEmpty then .fail
  else
    match hq : s1.drop flag.length with
    | '?' :: s2 =>
      match hp : ms0 s2 with
      | '(' :: s3 =>
        match parseSrcUriEntries s3 with
        | .ok entries rest =>
          match ms0 rest with
          | ')' :: rest2 => .ok (.UseConditional flag negated entries) rest2
          | _ => .cut
        | _ => .cut
      | _ => .cut
    | _ => .fail
termination_by (s.length, 0)
decreasing_by
  apply Prod.Lex.left
  have h1 : (ms0 s2).length = s3.length + 1 := by rw [hp]; simp
  have h2 := length_ms0_le s2
  have h3 : (s1.drop flag.length).length = s2.length + 1 := by rw [hq]; simp
  rw [List.length_drop] at h3
  have h4 : s1.length ≤ s.length := by
    show (if _ then s.tail else s).length ≤ s.length
    split
    · simp [List.length_tail]
    · exact Nat.le_refl _
  omega

/-- `parse_group` in `src/src_uri.rs`: a bare `( entries )`, kept as a
`Group` node. -/
def parseGroup (s : Str) : PRes SrcUriEntry :=
  match s with
  | '(' :: s1 =>
    match parseSrcUriEntries s1 with
    | .ok entries rest =>
      match ms0 rest with
      | ')' :: rest2 => .ok (.Group entries) rest2
      | _ => .cut
    | .fail => .fail
    | .cut => .cut
  | _ => .fail
termination_by (s.length, 0)
decreasing_by
  apply Prod.Lex.left
  simp

/-- `parse_src_uri_entry` in `src/src_uri.rs`: dispatch on the first
character. -/
def parseSrcUriEntry (s : Str) : PRes SrcUriEntry :=
  match s with
  | [] => .fail
  | c :: rest =>
    if c = '(' then parseGroup (c :: rest)
    else
      match parseUseConditional (c :: rest) with
      | .ok e r => .ok e r
      | .cut => .cut
      | .fail => parseUriEntry (c :: rest)
termination_by (s.length, 1)
decreasing_by
  · exact Prod.Lex.right _ (by omega)
  · exact Prod.Lex.right _ (by omega)

/-- `parse_src_uri_entries` in `src/src_uri.rs`. -/
def parseSrcUriEntries (s : Str) : PRes (List SrcUriEntry) :=
  match parseSrcUriEntry (ms0 s) with
  | .ok e rest =>
    if _h : rest.length < s.length then
      match parseSrcUriEntries rest with
      | .ok es rest2 => .ok (e :: es) rest2
      | .fail => .fail
      | .cut => .cut
    else .cut
  | .fail => .ok [] s
  | .cut => .cut
termination_by (s.length, 2)
decreasing_by
  · rcases Nat.lt_or_eq_of_le (length_ms0_le s) with h | h
    · exact Prod.Lex.left _ _ h
    · rw [h]; exact Prod.Lex.right _ (by omega)
  · apply Prod.Lex.left
    omega

end

/-- `parse_src_uri_string` in `src/src_uri.rs`. -/
def parseSrcUriString (s : Str) : PRes (List SrcUriEntry) :=
  match parseSrcUriEntries s with
  | .ok es rest => .ok es (ms0 rest)
  | .fail => .fail
  | .cut => .cut

end SrcUri

/-- `SrcUriEntry::parse`: the list of entries, requiring full consumption. -/
def SrcUriEntry.parse (s : Str) : Except Error (List SrcUriEntry) :=
  match SrcUri.parseSrcUriString s with
  | .ok es [] => .ok es
  | .ok _ rest => .error (.InvalidSrcUri rest)
  | _ => .error (.InvalidSrcUri s)

mutual

/-- `impl Display for SrcUriEntry` in `src/src_uri.rs`. -/
def SrcUriEntry.render : SrcUriEntry → Str
  | .Uri url _ restriction =>
    (match restriction with
     | some p => p ++ ['+']
     | none => []) ++ url
  | .Renamed url target restriction =>
    (match restriction with
     | some p => p ++ ['+']
     | none => []) ++ url ++ chars " -> " ++ target
  | .UseConditional flag negated entries =>
    (if negated then ['!'] else []) ++ flag ++ chars "? ( " ++
      renderSrcUriList entries ++ chars " )"
  | .Group entries => chars "( " ++ renderSrcUriList entries ++ chars " )"

/-- The space-joined rendering of the `Display` loops, also the `join(" ")`
used by `CacheEntry::serialize`. -/
def renderSrcUriList : List SrcUriEntry → Str
  | [] => []
  | [e] => e.render
  | e :: es => e.render ++ ' ' :: renderSrcUriList es

end

/-! ## EAPI (`src/eapi.rs`) -/

/-- EAPI version (`enum Eapi`). -/
inductive Eapi where
  | Zero | One | Two | Three | Four | Five | Six | Seven | Eight | Nine
  deriving DecidableEq, Repr

/-- The position of the variant in declaration order: the derived
`PartialOrd`/`Ord` compare by this index. -/
def Eapi.idx : Eapi → Nat
  | .Zero => 0 | .One => 1 | .Two => 2 | .Three => 3 | .Four => 4
  | .Five => 5 | .Six => 6 | .Seven => 7 | .Eight => 8 | .Nine => 9

/-- `Eapi::has_bdepend`: `*self >= Eapi::Seven`. -/
def Eapi.hasBdepend (e : Eapi) : Bool := Eapi.Seven.idx ≤ e.idx

/-- `Eapi::has_idepend`: `*self >= Eapi::Eight`. -/
def Eapi.hasIdepend (e : Eapi) : Bool := Eapi.Eight.idx ≤ e.idx

/-- `impl FromStr for Eapi` (the caller re-attaches the `InvalidEapi`
payload, so the error case is `none` here). -/
def Eapi.fromStr (s : Str) : Option Eapi :=
  if s = chars "0" then some .Zero
  else if s = chars "1" then some .One
  else if s = chars "2" then some .Two
  else if s = chars "3" then some .Three
  else if s = chars "4" then some .Four
  else if s = chars "5" then some .Five
  else if s = chars "6" then some .Six
  else if s = chars "7" then some .Seven
  else if s = chars "8" then some .Eight
  else if s = chars "9" then some .Nine
  else none

/-- `impl Display for Eapi`. -/
def Eapi.render : Eapi → Str
  | .Zero => chars "0" | .One => chars "1" | .Two => chars "2"
  | .Three => chars "3" | .Four => chars "4" | .Five => chars "5"
  | .Six => chars "6" | .Seven => chars "7" | .Eight => chars "8"
  | .Nine => chars "9"

/-! ## KEYWORDS (`src/keyword.rs`) -/

/-- Stability level (`enum Stability`). -/
inductive Stability where
  | Stable | Testing | Disabled | DisabledAll
  deriving DecidableEq, Repr

/-- A single architecture keyword (`struct Keyword`). -/
structure Keyword where
  arch : Str
  stability : Stability
  deriving DecidableEq, Repr

/-- `impl FromStr for Keyword`. -/
def Keyword.fromStr (s : Str) : Except Error Keyword :=
  if s.isEmpty then .error (.InvalidKeyword (chars "empty keyword"))
  else if s = chars "-*" then .ok ⟨chars "*", .DisabledAll⟩
  else
    match s with
    | '~' :: arch =>
      if arch.isEmpty then .error (.InvalidKeyword s)
      else .ok ⟨arch, .Testing⟩
    | '-' :: arch =>
      if arch.isEmpty then .error (.InvalidKeyword s)
      else .ok ⟨arch, .Disabled⟩
    | _ => .ok ⟨s, .Stable⟩

/-- `Keyword::parse_line`: whitespace-split tokens, each parsed, collected
into a `Result`. -/
def Keyword.parseLine (input : Str) : Except Error (List Keyword) :=
  (splitWs input).mapM Keyword.fromStr

/-- `impl Display for Keyword`. -/
def Keyword.render (k : Keyword) : Str :=
  match k.stability with
  | .Stable => k.arch
  | .Testing => '~' :: k.arch
  | .Disabled => '-' :: k.arch
  | .DisabledAll => chars "-*"

/-! ## IUSE (`src/iuse.rs`) -/

/-- Default state for an IUSE flag (`enum IUseDefault`). -/
inductive IUseDefault where
  | Enabled | Disabled
  deriving DecidableEq, Repr

/-- A single USE flag entry (`struct IUse`). -/
structure IUse where
  name : Str
  default : Option IUseDefault
  deriving DecidableEq, Repr

/-- `impl FromStr for IUse`. -/
def IUse.fromStr (s : Str) : Except Error IUse :=
  if s.isEmpty then .error (.InvalidIUse (chars "empty IUSE entry"))
  else
    match s with
    | '+' :: name =>
      if name.isEmpty then .error (.InvalidIUse s)
      else .ok ⟨name, some .Enabled⟩
    | '-' :: name =>
      if name.isEmpty then .error (.InvalidIUse s)
      else .ok ⟨name, some .Disabled⟩
    | _ => .ok ⟨s, none⟩

/-- `IUse::parse_line`. -/
def IUse.parseLine (input : Str) : Except Error (List IUse) :=
  (splitWs input).mapM IUse.fromStr

/-- `impl Display for IUse`. -/
def IUse.render (i : IUse) : Str :=
  match i.default with
  | some .Enabled => '+' :: i.name
  | some .Disabled => '-' :: i.name
  | none => i.name

/-! ## DEFINED_PHASES (`src/phase.rs`) -/

/-- Ebuild phase function (`enum Phase`). -/
inductive Phase where
  | PkgPretend | PkgSetup | SrcUnpack | SrcPrepare | SrcConfigure | SrcCompile
  | SrcTest | SrcInstall | PkgPreinst | PkgPostinst | PkgPrerm | PkgPostrm
  | PkgConfig | PkgInfo | PkgNofetch
  deriving DecidableEq, Repr

/-- `impl FromStr for Phase`: short names as in `DEFINED_PHASES`, full names
also accepted. -/
def Phase.fromStr (s : Str) : Except Error Phase :=
  if s = chars "pretend" || s = chars "pkg_pretend" then .ok .PkgPretend
  else if s = chars "setup" || s = chars "pkg_setup" then .ok .PkgSetup
  else if s = chars "unpack" || s = chars "src_unpack" then .ok .SrcUnpack
  else if s = chars "prepare" || s = chars "src_prepare" then .ok .SrcPrepare
  else if s = chars "configure" || s = chars "src_configure" then .ok .SrcConfigure
  else if s = chars "compile" || s = chars "src_compile" then .ok .SrcCompile
  else if s = chars "test" || s = chars "src_test" then .ok .SrcTest
  else if s = chars "install" || s = chars "src_install" then .ok .SrcInstall
  else if s = chars "preinst" || s = chars "pkg_preinst" then .ok .PkgPreinst
  else if s = chars "postinst" || s = chars "pkg_postinst" then .ok .PkgPostinst
  else if s = chars "prerm" || s = chars "pkg_prerm" then .ok .PkgPrerm
  else if s = chars "postrm" || s = chars "pkg_postrm" then .ok .PkgPostrm
  else if s = chars "config" || s = chars "pkg_config" then .ok .PkgConfig
  else if s = chars "info" || s = chars "pkg_info" then .ok .PkgInfo
  else if s = chars "nofetch" || s = chars "pkg_nofetch" then .ok .PkgNofetch
  else .error (.InvalidPhase s)

/-- `Phase::parse_line`: trimmed input, with `""` and the `-` sentinel both
giving the empty list. -/
def Phase.parseLine (input : Str) : Except Error (List Phase) :=
  let trimmed := trimWs input
  if trimmed.isEmpty || trimmed = chars "-" then .ok []
  else (splitWs trimmed).mapM Phase.fromStr

/-- `impl Display for Phase` (short form). -/
def Phase.render : Phase → Str
  | .PkgPretend => chars "pretend"
  | .PkgSetup => chars "setup"
  | .SrcUnpack => chars "unpack"
  | .SrcPrepare => chars "prepare"
  | .SrcConfigure => chars "configure"
  | .SrcCompile => chars "compile"
  | .SrcTest => chars "test"
  | .SrcInstall => chars "install"
  | .PkgPreinst => chars "preinst"
  | .PkgPostinst => chars "postinst"
  | .PkgPrerm => chars "prerm"
  | .PkgPostrm => chars "postrm"
  | .PkgConfig => chars "config"
  | .PkgInfo => chars "info"
  | .PkgNofetch => chars "nofetch"

/-! ## External collaborators from the `portage-atom` crate -/

/-- Modelled from the spec: `portage_atom::Slot` is not part of this
repository's sources.  Per the spec (§4.6) a SLOT value is a mini-grammar
`value` or `value/subvalue` split on the first `/`; the tests access the
fields `slot` and `subslot`, and `Display` (used by `serialize`) renders the
value back. -/
structure Slot where
  slot : Str
  subslot : Option Str
  deriving DecidableEq, Repr

/-- `Slot::new` (no subslot). -/
def Slot.new (s : Str) : Slot := ⟨s, none⟩

/-- `Slot::with_subslot`. -/
def Slot.withSubslot (a b : Str) : Slot := ⟨a, some b⟩

/-- Modelled from the spec: `Display` renders `value` or `value/subvalue`. -/
def Slot.render (sl : Slot) : Str :=
  match sl.subslot with
  | some sub => sl.slot ++ '/' :: sub
  | none => sl.slot

/-- Modelled from the spec: `portage_atom::DepEntry` is not part of this
repository's sources.  Per the spec (§6) the dependency-field parser turns a
raw dependency-class string into an ordered list of dependency entries (or a
typed error) and `Display` renders an entry back; we model an entry as its
token text, parsed by whitespace splitting. -/
structure DepEntry where
  raw : Str
  deriving DecidableEq, Repr

/-- Modelled from the spec: `Display` for a dependency entry. -/
def DepEntry.render (d : DepEntry) : Str := d.raw

/-! ## The cache record assembler/serializer (`src/cache.rs`) -/

/-- `struct EbuildMetadata` (`src/metadata.rs`). -/
structure EbuildMetadata where
  eapi : Eapi
  description : Str
  slot : Slot
  homepage : List Str
  src_uri : List SrcUriEntry
  license : Option LicenseExpr
  keywords : List Keyword
  iuse : List IUse
  required_use : Option RequiredUseExpr
  restrict : List RestrictExpr
  properties : List RestrictExpr
  depend : List DepEntry
  rdepend : List DepEntry
  bdepend : List DepEntry
  pdepend : List DepEntry
  idepend : List DepEntry
  inherited : List Str
  defined_phases : List Phase

/-- `struct CacheEntry` (`src/cache.rs`). -/
structure CacheEntry where
  metadata : EbuildMetadata
  md5 : Option Str
  eclasses : List (Str × Str)

/-- The mutable accumulation variables of `CacheEntry::parse`, one per
recognized key. -/
structure RawFields where
  eapi : Option Str := none
  description : Option Str := none
  slot : Option Str := none
  homepage : Str := []
  src_uri : Str := []
  license : Str := []
  keywords : Str := []
  iuse : Str := []
  required_use : Str := []
  restrict : Str := []
  properties : Str := []
  depend : Str := []
  rdepend : Str := []
  bdepend : Str := []
  pdepend : Str := []
  idepend : Str := []
  inherited : Str := []
  defined_phases : Str := []
  md5 : Option Str := none
  eclasses_raw : Str := []

/-- The trimmed key/value split of one input line: `none` both for a line
that trims to nothing and for a line with no `=` (both are skipped by the
loop in `CacheEntry::parse`). -/
def lineKV (rawLine : Str) : Option (Str × Str) :=
  let line := trimWs rawLine
  if line.isEmpty then none else splitOnceChar '=' line

/-- The `match key` dispatch of the line loop in `CacheEntry::parse`
(unknown keys ignored). -/
def setKV (st : RawFields) (key value : Str) : RawFields :=
  if key = chars "EAPI" then { st with eapi := some value }
  else if key = chars "DESCRIPTION" then { st with description := some value }
  else if key = chars "SLOT" then { st with slot := some value }
  else if key = chars "HOMEPAGE" then { st with homepage := value }
  else if key = chars "SRC_URI" then { st with src_uri := value }
  else if key = chars "LICENSE" then { st with license := value }
  else if key = chars "KEYWORDS" then { st with keywords := value }
  else if key = chars "IUSE" then { st with iuse := value }
  else if key = chars "REQUIRED_USE" then { st with required_use := value }
  else if key = chars "RESTRICT" then { st with restrict := value }
  else if key = chars "PROPERTIES" then { st with properties := value }
  else if key = chars "DEPEND" then { st with depend := value }
  else if key = chars "RDEPEND" then { st with rdepend := value }
  else if key = chars "BDEPEND" then { st with bdepend := value }
  else if key = chars "PDEPEND" then { st with pdepend := value }
  else if key = chars "IDEPEND" then { st with idepend := value }
  else if key = chars "INHERITED" then { st with inherited := value }
  else if key = chars "DEFINED_PHASES" then { st with defined_phases := value }
  else if key = chars "_md5_" then { st with md5 := some value }
  else if key = chars "_eclasses_" then { st with eclasses_raw := value }
  else st

/-- The body of the line loop in `CacheEntry::parse`: trim, skip empty lines,
split at the first `=`, dispatch on the key. -/
def applyLine (st : RawFields) (rawLine : Str) : RawFields :=
  match lineKV rawLine with
  | some (key, value) => setKV st key value
  | none => st

/-- `parse_slot` in `src/cache.rs`: empty is the missing-field error, a `/`
splits off the subslot. -/
def parseSlot (s : Str) : Except Error Slot :=
  if s.isEmpty then .error (.MissingField (chars "SLOT"))
  else
    match splitOnceChar '/' s with
    | some (a, b) => .ok (Slot.withSubslot a b)
    | none => .ok (Slot.new s)

/-- Modelled from the spec: `parse_dep_field` in `src/cache.rs` delegates to
the external `DepEntry::parse`; empty input is the empty list, and the
modelled dependency parser splits on whitespace (never failing, so the
`DepError` wrapping is unreachable in the model). -/
def parseDepField (s : Str) : Except Error (List DepEntry) :=
  if s.isEmpty then .ok []
  else .ok ((splitWs s).map DepEntry.mk)

/-- The `chunks(2)`/`filter_map` pairing in `parse_eclasses`: tokens two at a
time, a trailing unpaired token dropped. -/
def chunkPairs : List Str → List (Str × Str)
  | a :: b :: rest => (a, b) :: chunkPairs rest
  | _ => []

/-- `parse_eclasses` in `src/cache.rs`. -/
def parseEclasses (s : Str) : List (Str × Str) :=
  if s.isEmpty then []
  else chunkPairs (splitChar '\t' s)

/-- The EAPI step of `CacheEntry::parse`: parse the stored value, or default
to EAPI 0 when the key was absent; an unrecognized value is `InvalidEapi`
carrying the value. -/
def eapiField (o : Option Str) : Except Error Eapi :=
  match o with
  | some s =>
    match Eapi.fromStr s with
    | some e => pure e
    | none => throw (.InvalidEapi s)
  | none => pure Eapi.Zero

/-- The DESCRIPTION step of `CacheEntry::parse`: mandatory. -/
def descriptionField (o : Option Str) : Except Error Str :=
  match o with
  | some d => pure d
  | none => throw (.MissingField (chars "DESCRIPTION"))

/-- The SLOT step of `CacheEntry::parse`: mandatory, then `parse_slot`. -/
def slotField (o : Option Str) : Except Error Slot :=
  match o with
  | some s => parseSlot s
  | none => throw (.MissingField (chars "SLOT"))

/-- The `if empty then Vec::new() else parse` pattern of the optional list
fields of `CacheEntry::parse`. -/
def optionalField {α : Type} (parse : Str → Except Error (List α)) (s : Str) :
    Except Error (List α) :=
  if s.isEmpty then pure [] else parse s

/-- The `if empty then None else Some(parse?)` pattern of the optional
expression fields of `CacheEntry::parse`. -/
def optionalExprField {α : Type} (parse : Str → Except Error α) (s : Str) :
    Except Error (Option α) :=
  if s.isEmpty then pure none else do pure (some (← parse s))

/-- The assembly stage of `CacheEntry::parse` (`src/cache.rs`), after the
line loop has filled the raw fields: EAPI defaults to 0, DESCRIPTION and
SLOT are mandatory, every other field is empty-as-default. -/
def assemble (st : RawFields) : Except Error CacheEntry := do
  let eapi_val ← eapiField st.eapi
  let description_val ← descriptionField st.description
  let slot_val ← slotField st.slot
  let homepage_val ← pure (if st.homepage.isEmpty then [] else splitWs st.homepage)
  let src_uri_val ← optionalField SrcUriEntry.parse st.src_uri
  let license_val ← optionalExprField LicenseExpr.parse st.license
  let keywords_val ← optionalField Keyword.parseLine st.keywords
  let iuse_val ← optionalField IUse.parseLine st.iuse
  let required_use_val ← optionalExprField RequiredUseExpr.parse st.required_use
  let restrict_val ← optionalField RestrictExpr.parse st.restrict
  let properties_val ← optionalField RestrictExpr.parse st.properties
  let depend_val ← parseDepField st.depend
  let rdepend_val ← parseDepField st.rdepend
  let bdepend_val ← parseDepField st.bdepend
  let pdepend_val ← parseDepField st.pdepend
  let idepend_val ← parseDepField st.idepend
  let inherited_val ← pure (if st.inherited.isEmpty then [] else splitWs st.inherited)
  let defined_phases_val ← Phase.parseLine st.defined_phases
  let eclasses ← pure (parseEclasses st.eclasses_raw)
  pure {
    metadata := {
      eapi := eapi_val
      description := description_val
      slot := slot_val
      homepage := homepage_val
      src_uri := src_uri_val
      license := license_val
      keywords := keywords_val
      iuse := iuse_val
      required_use := required_use_val
      restrict := restrict_val
      properties := properties_val
      depend := depend_val
      rdepend := rdepend_val
      bdepend := bdepend_val
      pdepend := pdepend_val
      idepend := idepend_val
      inherited := inherited_val
      defined_phases := defined_phases_val
    }
    md5 := st.md5
    eclasses := eclasses
  }

/-- `CacheEntry::parse` (`src/cache.rs`): fold the lines into the raw
fields, then assemble. -/
def CacheEntry.parse (input : Str) : Except Error CacheEntry :=
  assemble ((linesOf input).foldl applyLine {})

/-- `format_phases` in `src/cache.rs`: `-` for the empty list, else the
space-joined short names. -/
def formatPhases (phases : List Phase) : Str :=
  if phases.isEmpty then chars "-" else joinSep ' ' (phases.map Phase.render)

/-- `format_dep_entries` in `src/cache.rs`. -/
def formatDepEntries (entries : List DepEntry) : Str :=
  joinSep ' ' (entries.map DepEntry.render)

/-- The `flat_map` in `serialize` flattening eclass pairs to the
alternating `name`/`checksum` token list. -/
def eclassTokens (ecl : List (Str × Str)) : List Str :=
  ecl.foldr (fun p acc => p.1 :: p.2 :: acc) []

/-- The lines pushed by `CacheEntry::serialize`, in source order, including
the final empty string pushed for the trailing newline. -/
def CacheEntry.serializeLines (e : CacheEntry) : List Str :=
  let m := e.metadata
  [chars "DEFINED_PHASES=" ++ formatPhases m.defined_phases] ++
  (if m.depend.isEmpty then [] else [chars "DEPEND=" ++ formatDepEntries m.depend]) ++
  [chars "DESCRIPTION=" ++ m.description] ++
  [chars "EAPI=" ++ m.eapi.render] ++
  (if m.homepage.isEmpty then [] else [chars "HOMEPAGE=" ++ joinSep ' ' m.homepage]) ++
  (if m.iuse.isEmpty then []
   else [chars "IUSE=" ++ joinSep ' ' (m.iuse.map IUse.render)]) ++
  (if m.keywords.isEmpty then []
   else [chars "KEYWORDS=" ++ joinSep ' ' (m.keywords.map Keyword.render)]) ++
  (match m.license with
   | some lic => [chars "LICENSE=" ++ lic.render]
   | none => []) ++
  (if m.pdepend.isEmpty then [] else [chars "PDEPEND=" ++ formatDepEntries m.pdepend]) ++
  (if m.rdepend.isEmpty then [] else [chars "RDEPEND=" ++ formatDepEntries m.rdepend]) ++
  (match m.required_use with
   | some ru => [chars "REQUIRED_USE=" ++ ru.render]
   | none => []) ++
  (if m.restrict.isEmpty then []
   else [chars "RESTRICT=" ++ renderRestrictList m.restrict]) ++
  [chars "SLOT=" ++ m.slot.render] ++
  (if m.src_uri.isEmpty then []
   else [chars "SRC_URI=" ++ renderSrcUriList m.src_uri]) ++
  (if m.bdepend.isEmpty then [] else [chars "BDEPEND=" ++ formatDepEntries m.bdepend]) ++
  (if m.idepend.isEmpty then [] else [chars "IDEPEND=" ++ formatDepEntries m.idepend]) ++
  (if m.properties.isEmpty then []
   else [chars "PROPERTIES=" ++ renderRestrictList m.properties]) ++
  (if m.inherited.isEmpty then [] else [chars "INHERITED=" ++ joinSep ' ' m.inherited]) ++
  (if e.eclasses.isEmpty then []
   else [chars "_eclasses_=" ++ joinSep '\t' (eclassTokens e.eclasses)]) ++
  (match e.md5 with
   | some md5 => [chars "_md5_=" ++ md5]
   | none => []) ++
  [[]]

/-- `CacheEntry::serialize`: the lines joined with `\n` (the final empty line
gives the trailing newline). -/
def CacheEntry.serialize (e : CacheEntry) : Str :=
  joinSep '\n' e.serializeLines

/-! ## Invariant predicates and serialization-shape helpers used by the
statements below -/

mutual

/-- No empty-token placeholder anywhere in a RESTRICT/PROPERTIES entry (the
`Token ""` that a multi-entry bare paren group collapses to). -/
def RestrictExpr.noEmptyTok : RestrictExpr → Bool
  | .Token t => !t.isEmpty
  | .UseConditional _ _ entries => noEmptyTokList entries

/-- `noEmptyTok` on every entry of a list. -/
def noEmptyTokList : List RestrictExpr → Bool
  | [] => true
  | e :: es => e.noEmptyTok && noEmptyTokList es

end

mutual

/-- Character-set invariants a parsed RESTRICT/PROPERTIES entry satisfies:
token characters in tokens, nonempty flag of flag characters in
conditionals. -/
def Restrict.wfEntry : RestrictExpr → Bool
  | .Token t => t.all Restrict.isTokenChar
  | .UseConditional flag _ entries =>
    !flag.isEmpty && flag.all Restrict.isFlagChar && Restrict.wfEntries entries

/-- `Restrict.wfEntry` on every entry of a list. -/
def Restrict.wfEntries : List RestrictExpr → Bool
  | [] => true
  | e :: es => Restrict.wfEntry e && Restrict.wfEntries es

end

mutual

/-- Invariants a parsed LICENSE entry satisfies (`All` never occurs nested
among entries). -/
def License.wfEntry : LicenseExpr → Bool
  | .License name =>
    !name.isEmpty && name.all License.isLicenseChar &&
      !(name.head? = some '-' || name.head? = some '.' || name.head? = some '+')
  | .AnyOf entries => License.wfEntries entries
  | .UseConditional flag _ entries =>
    !flag.isEmpty && flag.all License.isFlagChar && License.wfEntries entries
  | .All _ => false

/-- `License.wfEntry` on every entry of a list. -/
def License.wfEntries : List LicenseExpr → Bool
  | [] => true
  | e :: es => License.wfEntry e && License.wfEntries es

end

/-- Invariants a tree returned by `LicenseExpr::parse` satisfies: either a
single well-formed entry, or an `All` of zero or at least two well-formed
entries. -/
def License.wfTree (t : LicenseExpr) : Bool :=
  match t with
  | .All es => License.wfEntries es && es.length ≠ 1
  | e => License.wfEntry e

mutual

/-- Invariants a parsed REQUIRED_USE entry satisfies. -/
def RequiredUse.wfEntry : RequiredUseExpr → Bool
  | .Flag name _ => !name.isEmpty && name.all RequiredUse.isFlagChar
  | .AnyOf entries => RequiredUse.wfEntries entries
  | .ExactlyOne entries => RequiredUse.wfEntries entries
  | .AtMostOne entries => RequiredUse.wfEntries entries
  | .UseConditional flag _ entries =>
    !flag.isEmpty && flag.all RequiredUse.isFlagChar && RequiredUse.wfEntries entries
  | .All _ => false

/-- `RequiredUse.wfEntry` on every entry of a list. -/
def RequiredUse.wfEntries : List RequiredUseExpr → Bool
  | [] => true
  | e :: es => RequiredUse.wfEntry e && RequiredUse.wfEntries es

end

/-- Invariants a tree returned by `RequiredUseExpr::parse` satisfies. -/
def RequiredUse.wfTree (t : RequiredUseExpr) : Bool :=
  match t with
  | .All es => RequiredUse.wfEntries es && es.length ≠ 1
  | e => RequiredUse.wfEntry e

/-- The restriction marker as rendered in front of a URL. -/
def SrcUri.markerText : Option Str → Str
  | some p => p ++ ['+']
  | none => []

/-- The marker invariant of a parsed SRC_URI atom: an absent marker means the
URL itself does not start with a marker (or the parser would have taken it),
and a present marker is `fetch` or `mirror`. -/
def SrcUri.wfMarker (restriction : Option Str) (url : Str) : Bool :=
  match restriction with
  | none => !((chars "fetch+").isPrefixOf url) && !((chars "mirror+").isPrefixOf url)
  | some p => p = chars "fetch" || p = chars "mirror"

/-- A parsed SRC_URI atom's text never looks like the start of a USE
conditional (a nonempty flag-character run immediately followed by `?`):
otherwise the conditional branch would have hit its `cut_err` and the parse
would have failed. -/
def SrcUri.atomSafe (s : Str) : Bool :=
  let f := s.takeWhile SrcUri.isFlagChar
  f.isEmpty || ((s.drop f.length).head? ≠ some '?')

mutual

/-- Invariants a parsed SRC_URI entry satisfies. -/
def SrcUri.wfEntry : SrcUriEntry → Bool
  | .Uri url filename restriction =>
    !url.isEmpty && url.all SrcUri.isUriChar &&
      (filename = SrcUri.filenameFromUrl url) &&
      SrcUri.wfMarker restriction url &&
      SrcUri.atomSafe (SrcUri.markerText restriction ++ url)
  | .Renamed url target restriction =>
    !url.isEmpty && url.all SrcUri.isUriChar &&
      !target.isEmpty && target.all SrcUri.isFilenameChar &&
      SrcUri.wfMarker restriction url &&
      SrcUri.atomSafe (SrcUri.markerText restriction ++ url)
  | .UseConditional flag _ entries =>
    !flag.isEmpty && flag.all SrcUri.isFlagChar && SrcUri.wfEntries entries
  | .Group entries => SrcUri.wfEntries entries

/-- `SrcUri.wfEntry` on every entry of a list. -/
def SrcUri.wfEntries : List SrcUriEntry → Bool
  | [] => true
  | e :: es => SrcUri.wfEntry e && SrcUri.wfEntries es

end

/-- The key of a serialized line: the part before the first `=` (the whole
line when it has no `=`). -/
def keyOf (l : Str) : Str :=
  match splitOnceChar '=' l with
  | some p => p.1
  | none => l

/-- The fixed canonical key order of `CacheEntry::serialize`. -/
def canonicalKeys : List Str :=
  [chars "DEFINED_PHASES", chars "DEPEND", chars "DESCRIPTION", chars "EAPI",
   chars "HOMEPAGE", chars "IUSE", chars "KEYWORDS", chars "LICENSE",
   chars "PDEPEND", chars "RDEPEND", chars "REQUIRED_USE", chars "RESTRICT",
   chars "SLOT", chars "SRC_URI", chars "BDEPEND", chars "IDEPEND",
   chars "PROPERTIES", chars "INHERITED", chars "_eclasses_", chars "_md5_"]

/-- Whether `serialize` emits a line for a given key: the four mandatory
keys always, every other key exactly when its field is nonempty/present. -/
def keyPresent (e : CacheEntry) (k : Str) : Bool :=
  if k = chars "DEFINED_PHASES" || k = chars "DESCRIPTION" ||
     k = chars "EAPI" || k = chars "SLOT" then true
  else if k = chars "DEPEND" then !e.metadata.depend.isEmpty
  else if k = chars "HOMEPAGE" then !e.metadata.homepage.isEmpty
  else if k = chars "IUSE" then !e.metadata.iuse.isEmpty
  else if k = chars "KEYWORDS" then !e.metadata.keywords.isEmpty
  else if k = chars "LICENSE" then e.metadata.license.isSome
  else if k = chars "PDEPEND" then !e.metadata.pdepend.isEmpty
  else if k = chars "RDEPEND" then !e.metadata.rdepend.isEmpty
  else if k = chars "REQUIRED_USE" then e.metadata.required_use.isSome
  else if k = chars "RESTRICT" then !e.metadata.restrict.isEmpty
  else if k = chars "SRC_URI" then !e.metadata.src_uri.isEmpty
  else if k = chars "BDEPEND" then !e.metadata.bdepend.isEmpty
  else if k = chars "IDEPEND" then !e.metadata.idepend.isEmpty
  else if k = chars "PROPERTIES" then !e.metadata.properties.isEmpty
  else if k = chars "INHERITED" then !e.metadata.inherited.isEmpty
  else if k = chars "_eclasses_" then !e.eclasses.isEmpty
  else if k = chars "_md5_" then e.md5.isSome
  else false

/-- The serialized `_eclasses_` value does not end in whitespace (so that
trimming the line on re-parse is a no-op); fails exactly for the quirky
records whose last checksum is empty or ends in whitespace. -/
def eclassesValueOk (ecl : List (Str × Str)) : Bool :=
  match (joinSep '\t' (eclassTokens ecl)).getLast? with
  | none => true
  | some c => !rustIsWhitespace c

/-- The record that `CacheEntry::parse` produces for the minimal input
`DESCRIPTION=x\nSLOT=0\n`. -/
def minimalCacheEntry : CacheEntry where
  metadata :=
    { eapi := .Zero
      description := chars "x"
      slot := Slot.new (chars "0")
      homepage := []
      src_uri := []
      license := none
      keywords := []
      iuse := []
      required_use := none
      restrict := []
      properties := []
      depend := []
      rdepend := []
      bdepend := []
      pdepend := []
      idepend := []
      inherited := []
      defined_phases := [] }
  md5 := none
  eclasses := []

/-- The group-collapsing step of `parse_restrict_entry` (`src/restrict.rs`):
a one-child bare paren group is the child, any other child count collapses to
the empty-string token placeholder. -/
def collapseGroup : List RestrictExpr → RestrictExpr
  | [e] => e
  | _ => .Token []

/-- The rendered text of an optional expression field: the render when
present, the empty string when absent. -/
def renderOpt {α : Type} (f : α → Str) : Option α → Str
  | some x => f x
  | none => []

/-- The raw-field state that re-parsing `CacheEntry::serialize` of a record
builds: each present key holds the rendered value, each absent key keeps the
loop default. -/
def renderedRaw (r : CacheEntry) : RawFields where
  eapi := some (Eapi.render r.metadata.eapi)
  description := some r.metadata.description
  slot := some (Slot.render r.metadata.slot)
  homepage := if r.metadata.homepage.isEmpty then []
    else joinSep ' ' r.metadata.homepage
  src_uri := if r.metadata.src_uri.isEmpty then []
    else renderSrcUriList r.metadata.src_uri
  license := renderOpt LicenseExpr.render r.metadata.license
  keywords := if r.metadata.keywords.isEmpty then []
    else joinSep ' ' (r.metadata.keywords.map Keyword.render)
  iuse := if r.metadata.iuse.isEmpty then []
    else joinSep ' ' (r.metadata.iuse.map IUse.render)
  required_use := renderOpt RequiredUseExpr.render r.metadata.required_use
  restrict := if r.metadata.restrict.isEmpty then []
    else renderRestrictList r.metadata.restrict
  properties := if r.metadata.properties.isEmpty then []
    else renderRestrictList r.metadata.properties
  depend := if r.metadata.depend.isEmpty then [] else formatDepEntries r.metadata.depend
  rdepend := if r.metadata.rdepend.isEmpty then []
    else formatDepEntries r.metadata.rdepend
  bdepend := if r.metadata.bdepend.isEmpty then []
    else formatDepEntries r.metadata.bdepend
  pdepend := if r.metadata.pdepend.isEmpty then []
    else formatDepEntries r.metadata.pdepend
  idepend := if r.metadata.idepend.isEmpty then []
    else formatDepEntries r.metadata.idepend
  inherited := if r.metadata.inherited.isEmpty then []
    else joinSep ' ' r.metadata.inherited
  defined_phases := formatPhases r.metadata.defined_phases
  md5 := r.md5
  eclasses_raw := if r.eclasses.isEmpty then []
    else joinSep '\t' (eclassTokens r.eclasses)

/-- A serialized value survives the line split and the trim of the re-parse:
it contains no newline and does not end in (Unicode) whitespace. -/
def lineValOk (v : Str) : Prop :=
  '\n' ∉ v ∧ ∀ c, v.getLast? = some c → rustIsWhitespace c = false

/-! ## General lemmas about the string model -/

theorem splitOnceChar_append (sep : Char) (k v : Str) (hk : sep ∉ k) :
    splitOnceChar sep (k ++ sep :: v) = some (k, v) := by
  induction k with
  | nil => simp [splitOnceChar]
  | cons c rest ih =>
    simp only [List.mem_cons, not_or] at hk
    have h1 : ¬(c = sep) := fun h => hk.1 h.symm
    simp [splitOnceChar, h1, ih hk.2]

theorem splitChar_append (sep : Char) (x y : Str) (hx : sep ∉ x) :
    splitChar sep (x ++ sep :: y) = x :: splitChar sep y := by
  induction x with
  | nil => simp [splitChar]
  | cons c rest ih =>
    simp only [List.mem_cons, not_or] at hx
    have h1 : ¬(c = sep) := fun h => hx.1 h.symm
    have hrec : splitChar sep (rest.append (sep :: y)) = rest :: splitChar sep y := ih hx.2
    simp only [List.cons_append, splitChar, if_neg h1, hrec]

theorem splitChar_no_sep (sep : Char) (x : Str) (hx : sep ∉ x) :
    splitChar sep x = [x] := by
  induction x with
  | nil => simp [splitChar]
  | cons c rest ih =>
    simp only [List.mem_cons, not_or] at hx
    have h1 : ¬(c = sep) := fun h => hx.1 h.symm
    simp [splitChar, h1, ih hx.2]

/-! ## Claim C8 -/

/-- C8: for each of the four expression grammars, parsing the empty string
succeeds and yields the empty top-level result — an empty `All` node for the
LICENSE and REQUIRED_USE grammars, an empty entry list for the
RESTRICT/PROPERTIES and SRC_URI grammars — never an error. -/
theorem c8_empty_input_parses_empty :
    LicenseExpr.parse [] = .ok (.All []) ∧
    RequiredUseExpr.parse [] = .ok (.All []) ∧
    RestrictExpr.parse [] = .ok [] ∧
    SrcUriEntry.parse [] = .ok [] := by
  refine ⟨?_, ?_, ?_, ?_⟩
  · simp [LicenseExpr.parse, License.parseLicenseString, License.parseLicenseEntries,
      License.parseLicenseEntry, ms0, List.dropWhile]
  · simp [RequiredUseExpr.parse, RequiredUse.parseRequiredUseString,
      RequiredUse.parseRequiredUseEntries, RequiredUse.parseRequiredUseEntry, ms0,
      List.dropWhile]
  · simp [RestrictExpr.parse, Restrict.parseRestrictString, Restrict.parseRestrictEntries,
      Restrict.parseRestrictEntry, ms0, List.dropWhile]
  · simp [SrcUriEntry.parse, SrcUri.parseSrcUriString, SrcUri.parseSrcUriEntries,
      SrcUri.parseSrcUriEntry, ms0, List.dropWhile]

/-! ## Claim C9 -/

/-- C9: the `_eclasses_` value is split on tab characters and interpreted two
tokens at a time as (name, checksum) pairs in order: four tokens give two
pairs, three tokens give one pair with the trailing unpaired token silently
dropped, and the empty string gives the empty list. -/
theorem c9_eclass_pairing (a b c d : Str)
    (ha : '\t' ∉ a) (hb : '\t' ∉ b) (hc : '\t' ∉ c) (hd : '\t' ∉ d) :
    parseEclasses (a ++ '\t' :: (b ++ '\t' :: (c ++ '\t' :: d))) = [(a, b), (c, d)] ∧
    parseEclasses (a ++ '\t' :: (b ++ '\t' :: c)) = [(a, b)] ∧
    parseEclasses [] = [] := by
  have h1 : splitChar '\t' (a ++ '\t' :: (b ++ '\t' :: (c ++ '\t' :: d)))
      = a :: b :: c :: [d] := by
    rw [splitChar_append _ _ _ ha, splitChar_append _ _ _ hb,
      splitChar_append _ _ _ hc, splitChar_no_sep _ _ hd]
  have h2 : splitChar '\t' (a ++ '\t' :: (b ++ '\t' :: c)) = a :: b :: [c] := by
    rw [splitChar_append _ _ _ ha, splitChar_append _ _ _ hb, splitChar_no_sep _ _ hc]
  refine ⟨?_, ?_, ?_⟩
  · simp [parseEclasses, h1, chunkPairs]
  · simp [parseEclasses, h2, chunkPairs]
  · simp [parseEclasses]

/-- Witness for C9 at the concrete inputs of the claim:
`"a\t1\tb\t2"`, `"a\t1\tb"` and `""`. -/
theorem c9_eclass_pairing_witness :
    parseEclasses (chars "a\t1\tb\t2") = [(chars "a", chars "1"), (chars "b", chars "2")] ∧
    parseEclasses (chars "a\t1\tb") = [(chars "a", chars "1")] ∧
    parseEclasses [] = [] := by
  have h := c9_eclass_pairing (chars "a") (chars "1") (chars "b") (chars "2")
    (by decide) (by decide) (by decide) (by decide)
  have e1 : chars "a\t1\tb\t2"
      = chars "a" ++ '\t' :: (chars "1" ++ '\t' :: (chars "b" ++ '\t' :: chars "2")) := by
    decide
  have e2 : chars "a\t1\tb"
      = chars "a" ++ '\t' :: (chars "1" ++ '\t' :: chars "b") := by decide
  exact ⟨e1 ▸ h.1, e2 ▸ h.2.1, h.2.2⟩

/-! ## Lemmas about the line loop and assembly -/

theorem Except.bind_ok_inv {ε α β : Type} {m : Except ε α} {k : α → Except ε β} {r : β}
    (h : (m >>= k) = .ok r) : ∃ a, m = .ok a ∧ k a = .ok r := by
  cases m with
  | ok a => exact ⟨a, rfl, h⟩
  | error e => exact absurd h (by simp [Bind.bind, Except.bind])

theorem setKV_eapi (st : RawFields) (k v : Str) :
    (setKV st k v).eapi = if k = chars "EAPI" then some v else st.eapi := by
  unfold setKV
  simp only [apply_ite (RawFields.eapi)]
  simp [ite_self]

theorem setKV_description (st : RawFields) (k v : Str) :
    (setKV st k v).description = if k = chars "DESCRIPTION" then some v else st.description := by
  unfold setKV
  simp only [apply_ite (RawFields.description)]
  by_cases h : k = chars "DESCRIPTION"
  · subst h
    rw [if_neg (by decide), if_pos rfl, if_pos rfl]
  · simp only [if_neg h, ite_self]

theorem setKV_slot (st : RawFields) (k v : Str) :
    (setKV st k v).slot = if k = chars "SLOT" then some v else st.slot := by
  unfold setKV
  simp only [apply_ite (RawFields.slot)]
  by_cases h : k = chars "SLOT"
  · subst h
    rw [if_neg (by decide), if_neg (by decide), if_pos rfl, if_pos rfl]
  · simp only [if_neg h, ite_self]

theorem applyLine_of_none {l : Str} (st : RawFields) (h : lineKV l = none) :
    applyLine st l = st := by
  simp [applyLine, h]

theorem foldl_skips_keyless (ls : List Str) (st : RawFields) :
    ls.foldl applyLine st = (ls.filter (fun l => (lineKV l).isSome)).foldl applyLine st := by
  induction ls generalizing st with
  | nil => rfl
  | cons l ls ih =>
    simp only [List.foldl_cons, List.filter_cons]
    cases h : lineKV l with
    | none => rw [applyLine_of_none st h]; simpa using ih st
    | some kv =>
      simp only [h, Option.isSome_some, if_true, List.foldl_cons]
      exact ih _

theorem foldl_eapi_of_no_key (ls : List Str) (st : RawFields)
    (h : ∀ l ∈ ls, ∀ kv, lineKV l = some kv → kv.1 ≠ chars "EAPI") :
    (ls.foldl applyLine st).eapi = st.eapi := by
  induction ls generalizing st with
  | nil => rfl
  | cons l ls ih =>
    simp only [List.foldl_cons]
    rw [ih _ (fun l2 hl2 => h l2 (by simp [hl2]))]
    unfold applyLine
    cases hkv : lineKV l with
    | none => rfl
    | some kv =>
      simp only [setKV_eapi]
      rw [if_neg (h l (by simp) kv hkv)]

theorem foldl_description_of_no_key (ls : List Str) (st : RawFields)
    (h : ∀ l ∈ ls, ∀ kv, lineKV l = some kv → kv.1 ≠ chars "DESCRIPTION") :
    (ls.foldl applyLine st).description = st.description := by
  induction ls generalizing st with
  | nil => rfl
  | cons l ls ih =>
    simp only [List.foldl_cons]
    rw [ih _ (fun l2 hl2 => h l2 (by simp [hl2]))]
    unfold applyLine
    cases hkv : lineKV l with
    | none => rfl
    | some kv =>
      simp only [setKV_description]
      rw [if_neg (h l (by simp) kv hkv)]

theorem foldl_slot_of_no_key (ls : List Str) (st : RawFields)
    (h : ∀ l ∈ ls, ∀ kv, lineKV l = some kv → kv.1 ≠ chars "SLOT") :
    (ls.foldl applyLine st).slot = st.slot := by
  induction ls generalizing st with
  | nil => rfl
  | cons l ls ih =>
    simp only [List.foldl_cons]
    rw [ih _ (fun l2 hl2 => h l2 (by simp [hl2]))]
    unfold applyLine
    cases hkv : lineKV l with
    | none => rfl
    | some kv =>
      simp only [setKV_slot]
      rw [if_neg (h l (by simp) kv hkv)]

theorem foldl_eapi_valid (ls : List Str) (st : RawFields)
    (h : ∀ l ∈ ls, ∀ kv, lineKV l = some kv → kv.1 = chars "EAPI" →
      (Eapi.fromStr kv.2).isSome)
    (h0 : ∀ s, st.eapi = some s → (Eapi.fromStr s).isSome) :
    ∀ s, (ls.foldl applyLine st).eapi = some s → (Eapi.fromStr s).isSome := by
  induction ls generalizing st with
  | nil => exact h0
  | cons l ls ih =>
    simp only [List.foldl_cons]
    refine ih _ (fun l2 hl2 => h l2 (by simp [hl2])) ?_
    intro s hs
    unfold applyLine at hs
    cases hkv : lineKV l with
    | none => rw [hkv] at hs; exact h0 s hs
    | some kv =>
      rw [hkv] at hs
      rw [setKV_eapi] at hs
      by_cases hk : kv.1 = chars "EAPI"
      · rw [if_pos hk] at hs
        cases hs
        exact h l (by simp) kv hkv hk
      · rw [if_neg hk] at hs
        exact h0 s hs

theorem foldl_description_mono (ls : List Str) (st : RawFields)
    (h0 : st.description.isSome) : (ls.foldl applyLine st).description.isSome := by
  induction ls generalizing st with
  | nil => exact h0
  | cons l ls ih =>
    simp only [List.foldl_cons]
    refine ih _ ?_
    unfold applyLine
    cases hkv : lineKV l with
    | none => exact h0
    | some kv =>
      rw [setKV_description]
      split
      · simp
      · exact h0

theorem foldl_description_of_key (ls : List Str) (st : RawFields)
    (h : ∃ l ∈ ls, ∃ kv, lineKV l = some kv ∧ kv.1 = chars "DESCRIPTION") :
    (ls.foldl applyLine st).description.isSome := by
  induction ls generalizing st with
  | nil => simp at h
  | cons l ls ih =>
    simp only [List.foldl_cons]
    rcases h with ⟨l2, hl2, kv, hkv, hk⟩
    rcases List.mem_cons.mp hl2 with rfl | hmem
    · apply foldl_description_mono
      unfold applyLine
      rw [hkv, setKV_description, if_pos hk]
      simp
    · exact ih _ ⟨l2, hmem, kv, hkv, hk⟩

theorem foldl_slot_pred (P : Str → Prop) (ls : List Str) (st : RawFields)
    (h : ∀ l ∈ ls, ∀ kv, lineKV l = some kv → kv.1 = chars "SLOT" → P kv.2)
    (h0 : ∀ v, st.slot = some v → P v) :
    ∀ v, (ls.foldl applyLine st).slot = some v → P v := by
  induction ls generalizing st with
  | nil => exact h0
  | cons l ls ih =>
    simp only [List.foldl_cons]
    refine ih _ (fun l2 hl2 => h l2 (by simp [hl2])) ?_
    intro v hv
    unfold applyLine at hv
    cases hkv : lineKV l with
    | none => rw [hkv] at hv; exact h0 v hv
    | some kv =>
      rw [hkv] at hv
      rw [setKV_slot] at hv
      by_cases hk : kv.1 = chars "SLOT"
      · rw [if_pos hk] at hv
        cases hv
        exact h l (by simp) kv hkv hk
      · rw [if_neg hk] at hv
        exact h0 v hv

theorem foldl_slot_mono (ls : List Str) (st : RawFields)
    (h0 : st.slot.isSome) : (ls.foldl applyLine st).slot.isSome := by
  induction ls generalizing st with
  | nil => exact h0
  | cons l ls ih =>
    simp only [List.foldl_cons]
    refine ih _ ?_
    unfold applyLine
    cases hkv : lineKV l with
    | none => exact h0
    | some kv =>
      rw [setKV_slot]
      split
      · simp
      · exact h0

theorem foldl_slot_of_key (ls : List Str) (st : RawFields)
    (h : ∃ l ∈ ls, ∃ kv, lineKV l = some kv ∧ kv.1 = chars "SLOT") :
    (ls.foldl applyLine st).slot.isSome := by
  induction ls generalizing st with
  | nil => simp at h
  | cons l ls ih =>
    simp only [List.foldl_cons]
    rcases h with ⟨l2, hl2, kv, hkv, hk⟩
    rcases List.mem_cons.mp hl2 with rfl | hmem
    · apply foldl_slot_mono
      unfold applyLine
      rw [hkv, setKV_slot, if_pos hk]
      simp
    · exact ih _ ⟨l2, hmem, kv, hkv, hk⟩

theorem splitOnceChar_reconstruct (sep : Char) :
    ∀ (s a b : Str), splitOnceChar sep s = some (a, b) → s = a ++ sep :: b := by
  intro s
  induction s with
  | nil => intro a b h; simp [splitOnceChar] at h
  | cons c rest ih =>
    intro a b h
    by_cases hc : c = sep
    · subst hc
      simp [splitOnceChar] at h
      obtain ⟨ha, hb⟩ := h
      subst ha
      subst hb
      rfl
    · simp only [splitOnceChar, if_neg hc] at h
      cases hrec : splitOnceChar sep rest with
      | none => rw [hrec] at h; simp at h
      | some p =>
        rw [hrec] at h
        simp at h
        obtain ⟨a2, b2⟩ := p
        have := ih a2 b2 hrec
        simp at h
        rw [← h.1, ← h.2, this]
        rfl

theorem parseSlot_ok (v : Str) (sl : Slot) (h : parseSlot v = .ok sl) :
    Slot.render sl = v ∧ v ≠ [] := by
  unfold parseSlot at h
  by_cases hv : v.isEmpty
  · rw [if_pos hv] at h; simp at h
  · rw [if_neg hv] at h
    have hvne : v ≠ [] := by simpa [List.isEmpty_iff] using hv
    cases hsp : splitOnceChar '/' v with
    | none => rw [hsp] at h; simp at h; rw [← h]; exact ⟨rfl, hvne⟩
    | some p =>
      rw [hsp] at h
      simp at h
      obtain ⟨a, b⟩ := p
      have hrec := splitOnceChar_reconstruct '/' v a b hsp
      rw [← h]
      exact ⟨by simp [Slot.render, Slot.withSubslot, hrec], hvne⟩

theorem eapi_ok_of_valid (st : RawFields)
    (hv : ∀ s, st.eapi = some s → (Eapi.fromStr s).isSome) :
    st.eapi = none ∨ ∃ s e, st.eapi = some s ∧ Eapi.fromStr s = some e := by
  cases h : st.eapi with
  | none => exact Or.inl rfl
  | some s =>
    rcases Option.isSome_iff_exists.mp (hv s h) with ⟨e, he⟩
    exact Or.inr ⟨s, e, rfl, he⟩

theorem assemble_missing_description (st : RawFields)
    (hd : st.description = none)
    (he : st.eapi = none ∨ ∃ s e, st.eapi = some s ∧ Eapi.fromStr s = some e) :
    assemble st = .error (.MissingField (chars "DESCRIPTION")) := by
  rcases he with he | ⟨s, e, he, hfs⟩
  · simp [assemble, eapiField, descriptionField, he, hd, Bind.bind, Except.bind,
      Pure.pure, Except.pure]
  · simp [assemble, eapiField, descriptionField, he, hd, hfs, Bind.bind, Except.bind,
      Pure.pure, Except.pure]

theorem assemble_missing_slot (st : RawFields)
    (hd : st.description.isSome)
    (he : st.eapi = none ∨ ∃ s e, st.eapi = some s ∧ Eapi.fromStr s = some e)
    (hs : st.slot = none) :
    assemble st = .error (.MissingField (chars "SLOT")) := by
  rcases Option.isSome_iff_exists.mp hd with ⟨d, hdd⟩
  rcases he with he | ⟨s, e, he, hfs⟩
  · simp [assemble, eapiField, descriptionField, slotField, he, hdd, hs, Bind.bind,
      Except.bind, Pure.pure, Except.pure]
  · simp [assemble, eapiField, descriptionField, slotField, he, hdd, hs, hfs, Bind.bind,
      Except.bind, Pure.pure, Except.pure]

theorem assemble_empty_slot (st : RawFields)
    (hd : st.description.isSome)
    (he : st.eapi = none ∨ ∃ s e, st.eapi = some s ∧ Eapi.fromStr s = some e)
    (hs : st.slot = some []) :
    assemble st = .error (.MissingField (chars "SLOT")) := by
  rcases Option.isSome_iff_exists.mp hd with ⟨d, hdd⟩
  rcases he with he | ⟨s, e, he, hfs⟩
  · simp [assemble, eapiField, descriptionField, slotField, he, hdd, hs, parseSlot,
      Bind.bind, Except.bind, Pure.pure, Except.pure]
  · simp [assemble, eapiField, descriptionField, slotField, he, hdd, hs, hfs, parseSlot,
      Bind.bind, Except.bind, Pure.pure, Except.pure]

theorem assemble_ok_proj (st : RawFields) (r : CacheEntry) (h : assemble st = .ok r) :
    (st.eapi = none → r.metadata.eapi = .Zero) ∧ Slot.render r.metadata.slot ≠ [] := by
  unfold assemble at h
  obtain ⟨eapi_val, h1, h⟩ := Except.bind_ok_inv h
  obtain ⟨description_val, h2, h⟩ := Except.bind_ok_inv h
  obtain ⟨slot_val, h3, h⟩ := Except.bind_ok_inv h
  obtain ⟨homepage_val, h3b, h⟩ := Except.bind_ok_inv h
  obtain ⟨src_uri_val, h4, h⟩ := Except.bind_ok_inv h
  obtain ⟨license_val, h5, h⟩ := Except.bind_ok_inv h
  obtain ⟨keywords_val, h6, h⟩ := Except.bind_ok_inv h
  obtain ⟨iuse_val, h7, h⟩ := Except.bind_ok_inv h
  obtain ⟨required_use_val, h8, h⟩ := Except.bind_ok_inv h
  obtain ⟨restrict_val, h9, h⟩ := Except.bind_ok_inv h
  obtain ⟨properties_val, h10, h⟩ := Except.bind_ok_inv h
  obtain ⟨depend_val, h11, h⟩ := Except.bind_ok_inv h
  obtain ⟨rdepend_val, h12, h⟩ := Except.bind_ok_inv h
  obtain ⟨bdepend_val, h13, h⟩ := Except.bind_ok_inv h
  obtain ⟨pdepend_val, h14, h⟩ := Except.bind_ok_inv h
  obtain ⟨idepend_val, h15, h⟩ := Except.bind_ok_inv h
  obtain ⟨inherited_val, h15b, h⟩ := Except.bind_ok_inv h
  obtain ⟨phases_val, h16, h⟩ := Except.bind_ok_inv h
  obtain ⟨eclasses_val, h16b, h⟩ := Except.bind_ok_inv h
  simp only [Pure.pure, Except.pure, Except.ok.injEq] at h
  subst h
  constructor
  · intro hz
    rw [hz] at h1
    simp [eapiField, Pure.pure, Except.pure] at h1
    simp [← h1]
  · cases hsl : st.slot with
    | none => rw [hsl] at h3; simp [slotField] at h3
    | some v =>
      rw [hsl] at h3
      simp only [slotField] at h3
      have hps := parseSlot_ok v slot_val h3
      have hproj : Slot.render slot_val ≠ [] := by rw [hps.1]; exact hps.2
      simpa using hproj

theorem setKV_desc_full (st : RawFields) (v : Str) :
    setKV st (chars "DESCRIPTION") v = { st with description := some v } := by
  unfold setKV
  rw [if_neg (by decide), if_pos rfl]

theorem setKV_slot_full (st : RawFields) (v : Str) :
    setKV st (chars "SLOT") v = { st with slot := some v } := by
  unfold setKV
  rw [if_neg (by decide), if_neg (by decide), if_pos rfl]

theorem foldl_only_desc_slot (ls : List Str) (st : RawFields)
    (h : ∀ l ∈ ls, ∀ kv, lineKV l = some kv →
      kv.1 = chars "DESCRIPTION" ∨ kv.1 = chars "SLOT") :
    ∀ o1 o2, st = { description := o1, slot := o2 } →
      ∃ p1 p2, ls.foldl applyLine st = { description := p1, slot := p2 } := by
  induction ls generalizing st with
  | nil => exact fun o1 o2 hst => ⟨o1, o2, hst⟩
  | cons l ls ih =>
    intro o1 o2 hst
    simp only [List.foldl_cons]
    cases hkv : lineKV l with
    | none =>
      exact ih _ (fun l2 hl2 => h l2 (by simp [hl2])) o1 o2
        (by rw [applyLine_of_none st hkv, hst])
    | some kv =>
      obtain ⟨k, v⟩ := kv
      have happ : applyLine st l = setKV st k v := by
        unfold applyLine; rw [hkv]
      rcases h l (by simp) (k, v) hkv with hk | hk
      · simp only at hk
        subst hk
        refine ih _ (fun l2 hl2 => h l2 (by simp [hl2])) (some v) o2 ?_
        rw [happ, setKV_desc_full, hst]
      · simp only at hk
        subst hk
        refine ih _ (fun l2 hl2 => h l2 (by simp [hl2])) o1 (some v) ?_
        rw [happ, setKV_slot_full, hst]

theorem assemble_min_ok (d v : Str) (hv : v ≠ []) :
    ∃ r, assemble { description := some d, slot := some v } = .ok r := by
  have hve : v.isEmpty = false := by
    cases v with
    | nil => exact absurd rfl hv
    | cons c rest => rfl
  cases hsp : splitOnceChar '/' v with
  | none =>
    refine ⟨⟨⟨.Zero, d, Slot.new v, [], [], none, [], [], none, [], [], [], [], [], [],
      [], [], []⟩, none, []⟩, ?_⟩
    simp [assemble, eapiField, descriptionField, slotField, parseSlot, hve, hsp,
      optionalField, optionalExprField, parseDepField, parseEclasses, Phase.parseLine,
      trimWs, trimStart, trimEnd, Bind.bind, Except.bind, Pure.pure, Except.pure,
      Slot.new]
  | some p =>
    obtain ⟨a, b⟩ := p
    refine ⟨⟨⟨.Zero, d, Slot.withSubslot a b, [], [], none, [], [], none, [], [], [],
      [], [], [], [], [], []⟩, none, []⟩, ?_⟩
    simp [assemble, eapiField, descriptionField, slotField, parseSlot, hve, hsp,
      optionalField, optionalExprField, parseDepField, parseEclasses, Phase.parseLine,
      trimWs, trimStart, trimEnd, Bind.bind, Except.bind, Pure.pure, Except.pure,
      Slot.withSubslot]

/-! ## Claim C3 -/

/-- C3 counterexample: the input `DESCRIPTION=x\nSLOT=0\nbogus\n` contains a
trimmed non-empty line with no `=`, yet `CacheEntry::parse` succeeds instead
of failing with the invalid-cache-record error. -/
theorem c3_counterexample :
    (chars "bogus") ∈ linesOf (chars "DESCRIPTION=x\nSLOT=0\nbogus\n") ∧
    trimWs (chars "bogus") ≠ [] ∧
    splitOnceChar '=' (trimWs (chars "bogus")) = none ∧
    (CacheEntry.parse (chars "DESCRIPTION=x\nSLOT=0\nbogus\n")).map (fun _ => ())
      = .ok () := by
  exact ⟨by decide, by decide, by decide, by decide⟩

/-- C3 (amended): a trimmed non-empty line with no `=` is silently ignored
by `CacheEntry::parse` — it leaves the accumulated raw fields unchanged, and
the whole parse equals the parse of the input with all key-less lines
filtered out. -/
theorem c3_amended_keyless_lines_ignored :
    (∀ (st : RawFields) (l : Str), trimWs l ≠ [] → splitOnceChar '=' (trimWs l) = none →
      applyLine st l = st) ∧
    ∀ input : Str,
      CacheEntry.parse input
        = assemble (((linesOf input).filter (fun l => (lineKV l).isSome)).foldl
            applyLine {}) := by
  constructor
  · intro st l h1 h2
    apply applyLine_of_none
    unfold lineKV
    rw [if_neg (by simpa [List.isEmpty_iff] using h1)]
    exact h2
  · intro input
    unfold CacheEntry.parse
    rw [foldl_skips_keyless]

/-- Witness for the amended C3 at the line `bogus` and the counterexample
input. -/
theorem c3_amended_witness :
    applyLine {} (chars "bogus") = {} ∧
    CacheEntry.parse (chars "DESCRIPTION=x\nSLOT=0\nbogus\n")
      = assemble (((linesOf (chars "DESCRIPTION=x\nSLOT=0\nbogus\n")).filter
          (fun l => (lineKV l).isSome)).foldl applyLine {}) :=
  ⟨c3_amended_keyless_lines_ignored.1 {} (chars "bogus") (by decide) (by decide),
   c3_amended_keyless_lines_ignored.2 _⟩

/-! ## Claim C5 -/

/-- C5: a record with no DESCRIPTION line fails with the missing-field error
carrying `DESCRIPTION` (provided any EAPI line carries a valid value, which
is checked first); a record with no SLOT line but with a DESCRIPTION line
fails with the missing-field error carrying `SLOT`; and a record whose lines
carry only the keys DESCRIPTION and SLOT (with a nonempty SLOT value)
parses successfully. -/
theorem c5_mandatory_fields (input : Str) :
    ((∀ l ∈ linesOf input, ∀ kv, lineKV l = some kv → kv.1 ≠ chars "DESCRIPTION") →
     (∀ l ∈ linesOf input, ∀ kv, lineKV l = some kv → kv.1 = chars "EAPI" →
        (Eapi.fromStr kv.2).isSome) →
     CacheEntry.parse input = .error (.MissingField (chars "DESCRIPTION"))) ∧
    ((∀ l ∈ linesOf input, ∀ kv, lineKV l = some kv → kv.1 ≠ chars "SLOT") →
     (∀ l ∈ linesOf input, ∀ kv, lineKV l = some kv → kv.1 = chars "EAPI" →
        (Eapi.fromStr kv.2).isSome) →
     (∃ l ∈ linesOf input, ∃ kv, lineKV l = some kv ∧ kv.1 = chars "DESCRIPTION") →
     CacheEntry.parse input = .error (.MissingField (chars "SLOT"))) ∧
    ((∀ l ∈ linesOf input, ∀ kv, lineKV l = some kv →
        kv.1 = chars "DESCRIPTION" ∨ kv.1 = chars "SLOT") →
     (∃ l ∈ linesOf input, ∃ kv, lineKV l = some kv ∧ kv.1 = chars "DESCRIPTION") →
     (∃ l ∈ linesOf input, ∃ kv, lineKV l = some kv ∧ kv.1 = chars "SLOT") →
     (∀ l ∈ linesOf input, ∀ kv, lineKV l = some kv → kv.1 = chars "SLOT" → kv.2 ≠ []) →
     ∃ r, CacheEntry.parse input = .ok r) := by
  refine ⟨?_, ?_, ?_⟩
  · intro h1 h2
    unfold CacheEntry.parse
    have hdesc : ((linesOf input).foldl applyLine {}).description = none := by
      rw [foldl_description_of_no_key _ _ h1]
    have hval := foldl_eapi_valid (linesOf input) {} h2
      (fun s hs => by
        rw [show (({} : RawFields)).eapi = none from rfl] at hs
        exact absurd hs (by simp))
    exact assemble_missing_description _ hdesc (eapi_ok_of_valid _ hval)
  · intro h1 h2 h3
    unfold CacheEntry.parse
    have hslot : ((linesOf input).foldl applyLine {}).slot = none := by
      rw [foldl_slot_of_no_key _ _ h1]
    have hval := foldl_eapi_valid (linesOf input) {} h2
      (fun s hs => by
        rw [show (({} : RawFields)).eapi = none from rfl] at hs
        exact absurd hs (by simp))
    exact assemble_missing_slot _ (foldl_description_of_key _ _ h3)
      (eapi_ok_of_valid _ hval) hslot
  · intro hkeys hd hs hv
    unfold CacheEntry.parse
    obtain ⟨p1, p2, hshape⟩ := foldl_only_desc_slot (linesOf input) {} hkeys none none rfl
    have hdS := foldl_description_of_key (linesOf input) {} hd
    have hsS := foldl_slot_of_key (linesOf input) {} hs
    have hsv := foldl_slot_pred (· ≠ []) (linesOf input) {} hv
      (fun v2 hv2 => by
        rw [show (({} : RawFields)).slot = none from rfl] at hv2
        exact absurd hv2 (by simp))
    rw [hshape] at hdS hsS hsv ⊢
    simp only at hdS hsS hsv
    obtain ⟨d, hd2⟩ := Option.isSome_iff_exists.mp hdS
    obtain ⟨v, hv2⟩ := Option.isSome_iff_exists.mp hsS
    have hvne : v ≠ [] := hsv v hv2
    rw [hd2, hv2]
    exact assemble_min_ok d v hvne

/-- Witness for C5 at the three concrete records of the crate's tests:
`EAPI=7\nSLOT=0\n`, `EAPI=7\nDESCRIPTION=Test\n` and
`DESCRIPTION=Minimal\nSLOT=0\n`. -/
theorem c5_mandatory_fields_witness :
    CacheEntry.parse (chars "EAPI=7\nSLOT=0\n")
      = .error (.MissingField (chars "DESCRIPTION")) ∧
    CacheEntry.parse (chars "EAPI=7\nDESCRIPTION=Test\n")
      = .error (.MissingField (chars "SLOT")) ∧
    ∃ r, CacheEntry.parse (chars "DESCRIPTION=Minimal\nSLOT=0\n") = .ok r :=
  ⟨(c5_mandatory_fields _).1 (by decide) (by decide),
   (c5_mandatory_fields _).2.1 (by decide) (by decide) (by decide),
   (c5_mandatory_fields _).2.2 (by decide) (by decide) (by decide) (by decide)⟩

/-! ## Claim C6 -/

/-- C6: a record with no EAPI line parses (when it parses at all) with the
EAPI field set to EAPI 0, and `has_bdepend` is false for that version. -/
theorem c6_eapi_default (input : Str) (r : CacheEntry)
    (hnoeapi : ∀ l ∈ linesOf input, ∀ kv, lineKV l = some kv → kv.1 ≠ chars "EAPI")
    (hok : CacheEntry.parse input = .ok r) :
    r.metadata.eapi = Eapi.Zero ∧ r.metadata.eapi.hasBdepend = false := by
  unfold CacheEntry.parse at hok
  have hz : ((linesOf input).foldl applyLine {}).eapi = none := by
    rw [foldl_eapi_of_no_key _ _ hnoeapi]
  have h := (assemble_ok_proj _ _ hok).1 hz
  exact ⟨h, by rw [h]; decide⟩

/-- Witness for C6 at the minimal record `DESCRIPTION=x\nSLOT=0\n`. -/
theorem c6_eapi_default_witness :
    minimalCacheEntry.metadata.eapi = Eapi.Zero ∧
    minimalCacheEntry.metadata.eapi.hasBdepend = false :=
  c6_eapi_default (chars "DESCRIPTION=x\nSLOT=0\n") minimalCacheEntry
    (by decide) (by rfl)

/-! ## Claim C10 -/

/-- C10: a record whose SLOT lines are present but all carry an empty value
is rejected with the same missing-field error carrying `SLOT` as a record
with no SLOT line at all (given a DESCRIPTION line and valid EAPI lines,
which are checked first); and a successfully parsed record never holds an
empty slot value (its rendered SLOT value is nonempty). -/
theorem c10_empty_slot_rejected (input : Str) :
    ((∃ l ∈ linesOf input, ∃ kv, lineKV l = some kv ∧ kv.1 = chars "SLOT") →
     (∀ l ∈ linesOf input, ∀ kv, lineKV l = some kv → kv.1 = chars "SLOT" → kv.2 = []) →
     (∀ l ∈ linesOf input, ∀ kv, lineKV l = some kv → kv.1 = chars "EAPI" →
        (Eapi.fromStr kv.2).isSome) →
     (∃ l ∈ linesOf input, ∃ kv, lineKV l = some kv ∧ kv.1 = chars "DESCRIPTION") →
     CacheEntry.parse input = .error (.MissingField (chars "SLOT"))) ∧
    (∀ r, CacheEntry.parse input = .ok r → Slot.render r.metadata.slot ≠ []) := by
  constructor
  · intro hs hempty hval hd
    unfold CacheEntry.parse
    have hsS := foldl_slot_of_key (linesOf input) {} hs
    have hsv := foldl_slot_pred (· = []) (linesOf input) {} hempty
      (fun v2 hv2 => by
        rw [show (({} : RawFields)).slot = none from rfl] at hv2
        exact absurd hv2 (by simp))
    obtain ⟨v, hvv⟩ := Option.isSome_iff_exists.mp hsS
    have hve : v = [] := hsv v hvv
    subst hve
    have hvalid := foldl_eapi_valid (linesOf input) {} hval
      (fun s hs2 => by
        rw [show (({} : RawFields)).eapi = none from rfl] at hs2
        exact absurd hs2 (by simp))
    exact assemble_empty_slot _ (foldl_description_of_key _ _ hd)
      (eapi_ok_of_valid _ hvalid) hvv
  · intro r hok
    unfold CacheEntry.parse at hok
    exact (assemble_ok_proj _ _ hok).2

/-- Witness for C10 at the concrete records `DESCRIPTION=T\nSLOT=\n` (line
present, empty value) and `DESCRIPTION=x\nSLOT=0\n`. -/
theorem c10_empty_slot_rejected_witness :
    CacheEntry.parse (chars "DESCRIPTION=T\nSLOT=\n")
      = .error (.MissingField (chars "SLOT")) ∧
    Slot.render minimalCacheEntry.metadata.slot ≠ [] :=
  ⟨(c10_empty_slot_rejected _).1 (by decide) (by decide) (by decide) (by decide),
   (c10_empty_slot_rejected (chars "DESCRIPTION=x\nSLOT=0\n")).2 minimalCacheEntry
     (by rfl)⟩

theorem keyOf_key_line (k v : Str) (hk : '=' ∉ k) : keyOf (k ++ '=' :: v) = k := by
  unfold keyOf
  rw [splitOnceChar_append _ _ _ hk]

theorem ite_cons_eq_append {α : Type} (c : Prop) [Decidable c] (a : α) (X : List α) :
    (if c then a :: X else X) = (if c then [a] else []) ++ X := by
  split <;> simp

theorem ite_bool_swap {α : Type} (b : Bool) (x y : α) :
    (if b = false then x else y) = if b = true then y else x := by
  cases b <;> simp

theorem keyOf_line_DEFINEDPHASES (v : Str) : keyOf (chars "DEFINED_PHASES=" ++ v) = chars "DEFINED_PHASES" :=
  keyOf_key_line (chars "DEFINED_PHASES") v (by decide)

theorem keyOf_line_DEPEND (v : Str) : keyOf (chars "DEPEND=" ++ v) = chars "DEPEND" :=
  keyOf_key_line (chars "DEPEND") v (by decide)

theorem keyOf_line_DESCRIPTION (v : Str) : keyOf (chars "DESCRIPTION=" ++ v) = chars "DESCRIPTION" :=
  keyOf_key_line (chars "DESCRIPTION") v (by decide)

theorem keyOf_line_EAPI (v : Str) : keyOf (chars "EAPI=" ++ v) = chars "EAPI" :=
  keyOf_key_line (chars "EAPI") v (by decide)

theorem keyOf_line_HOMEPAGE (v : Str) : keyOf (chars "HOMEPAGE=" ++ v) = chars "HOMEPAGE" :=
  keyOf_key_line (chars "HOMEPAGE") v (by decide)

theorem keyOf_line_IUSE (v : Str) : keyOf (chars "IUSE=" ++ v) = chars "IUSE" :=
  keyOf_key_line (chars "IUSE") v (by decide)

theorem keyOf_line_KEYWORDS (v : Str) : keyOf (chars "KEYWORDS=" ++ v) = chars "KEYWORDS" :=
  keyOf_key_line (chars "KEYWORDS") v (by decide)

theorem keyOf_line_LICENSE (v : Str) : keyOf (chars "LICENSE=" ++ v) = chars "LICENSE" :=
  keyOf_key_line (chars "LICENSE") v (by decide)

theorem keyOf_line_PDEPEND (v : Str) : keyOf (chars "PDEPEND=" ++ v) = chars "PDEPEND" :=
  keyOf_key_line (chars "PDEPEND") v (by decide)

theorem keyOf_line_RDEPEND (v : Str) : keyOf (chars "RDEPEND=" ++ v) = chars "RDEPEND" :=
  keyOf_key_line (chars "RDEPEND") v (by decide)

theorem keyOf_line_REQUIREDUSE (v : Str) : keyOf (chars "REQUIRED_USE=" ++ v) = chars "REQUIRED_USE" :=
  keyOf_key_line (chars "REQUIRED_USE") v (by decide)

theorem keyOf_line_RESTRICT (v : Str) : keyOf (chars "RESTRICT=" ++ v) = chars "RESTRICT" :=
  keyOf_key_line (chars "RESTRICT") v (by decide)

theorem keyOf_line_SLOT (v : Str) : keyOf (chars "SLOT=" ++ v) = chars "SLOT" :=
  keyOf_key_line (chars "SLOT") v (by decide)

theorem keyOf_line_SRCURI (v : Str) : keyOf (chars "SRC_URI=" ++ v) = chars "SRC_URI" :=
  keyOf_key_line (chars "SRC_URI") v (by decide)

theorem keyOf_line_BDEPEND (v : Str) : keyOf (chars "BDEPEND=" ++ v) = chars "BDEPEND" :=
  keyOf_key_line (chars "BDEPEND") v (by decide)

theorem keyOf_line_IDEPEND (v : Str) : keyOf (chars "IDEPEND=" ++ v) = chars "IDEPEND" :=
  keyOf_key_line (chars "IDEPEND") v (by decide)

theorem keyOf_line_PROPERTIES (v : Str) : keyOf (chars "PROPERTIES=" ++ v) = chars "PROPERTIES" :=
  keyOf_key_line (chars "PROPERTIES") v (by decide)

theorem keyOf_line_INHERITED (v : Str) : keyOf (chars "INHERITED=" ++ v) = chars "INHERITED" :=
  keyOf_key_line (chars "INHERITED") v (by decide)

theorem keyOf_line_eclasses (v : Str) : keyOf (chars "_eclasses_=" ++ v) = chars "_eclasses_" :=
  keyOf_key_line (chars "_eclasses_") v (by decide)

theorem keyOf_line_md5 (v : Str) : keyOf (chars "_md5_=" ++ v) = chars "_md5_" :=
  keyOf_key_line (chars "_md5_") v (by decide)

theorem keyPresent_DEFINEDPHASES (e : CacheEntry) :
    keyPresent e (chars "DEFINED_PHASES") = true := by
  unfold keyPresent
  rw [if_pos (by decide)]

theorem keyPresent_DEPEND (e : CacheEntry) :
    keyPresent e (chars "DEPEND") = !e.metadata.depend.isEmpty := by
  unfold keyPresent
  rw [if_neg (by decide)]
  rw [if_pos (by decide)]

theorem keyPresent_DESCRIPTION (e : CacheEntry) :
    keyPresent e (chars "DESCRIPTION") = true := by
  unfold keyPresent
  rw [if_pos (by decide)]

theorem keyPresent_EAPI (e : CacheEntry) :
    keyPresent e (chars "EAPI") = true := by
  unfold keyPresent
  rw [if_pos (by decide)]

theorem keyPresent_HOMEPAGE (e : CacheEntry) :
    keyPresent e (chars "HOMEPAGE") = !e.metadata.homepage.isEmpty := by
  unfold keyPresent
  rw [if_neg (by decide)]
  rw [if_neg (by decide)]
  rw [if_pos (by decide)]

theorem keyPresent_IUSE (e : CacheEntry) :
    keyPresent e (chars "IUSE") = !e.metadata.iuse.isEmpty := by
  unfold keyPresent
  rw [if_neg (by decide)]
  rw [if_neg (by decide)]
  rw [if_neg (by decide)]
  rw [if_pos (by decide)]

theorem keyPresent_KEYWORDS (e : CacheEntry) :
    keyPresent e (chars "KEYWORDS") = !e.metadata.keywords.isEmpty := by
  unfold keyPresent
  rw [if_neg (by decide)]
  rw [if_neg (by decide)]
  rw [if_neg (by decide)]
  rw [if_neg (by decide)]
  rw [if_pos (by decide)]

theorem keyPresent_LICENSE (e : CacheEntry) :
    keyPresent e (chars "LICENSE") = e.metadata.license.isSome := by
  unfold keyPresent
  rw [if_neg (by decide)]
  rw [if_neg (by decide)]
  rw [if_neg (by decide)]
  rw [if_neg (by decide)]
  rw [if_neg (by decide)]
  rw [if_pos (by decide)]

theorem keyPresent_PDEPEND (e : CacheEntry) :
    keyPresent e (chars "PDEPEND") = !e.metadata.pdepend.isEmpty := by
  unfold keyPresent
  rw [if_neg (by decide)]
  rw [if_neg (by decide)]
  rw [if_neg (by decide)]
  rw [if_neg (by decide)]
  rw [if_neg (by decide)]
  rw [if_neg (by decide)]
  rw [if_pos (by decide)]

theorem keyPresent_RDEPEND (e : CacheEntry) :
    keyPresent e (chars "RDEPEND") = !e.metadata.rdepend.isEmpty := by
  unfold keyPresent
  rw [if_neg (by decide)]
  rw [if_neg (by decide)]
  rw [if_neg (by decide)]
  rw [if_neg (by decide)]
  rw [if_neg (by decide)]
  rw [if_neg (by decide)]
  rw [if_neg (by decide)]
  rw [if_pos (by decide)]

theorem keyPresent_REQUIREDUSE (e : CacheEntry) :
    keyPresent e (chars "REQUIRED_USE") = e.metadata.required_use.isSome := by
  unfold keyPresent
  rw [if_neg (by decide)]
  rw [if_neg (by decide)]
  rw [if_neg (by decide)]
  rw [if_neg (by decide)]
  rw [if_neg (by decide)]
  rw [if_neg (by decide)]
  rw [if_neg (by decide)]
  rw [if_neg (by decide)]
  rw [if_pos (by decide)]

theorem keyPresent_RESTRICT (e : CacheEntry) :
    keyPresent e (chars "RESTRICT") = !e.metadata.restrict.isEmpty := by
  unfold keyPresent
  rw [if_neg (by decide)]
  rw [if_neg (by decide)]
  rw [if_neg (by decide)]
  rw [if_neg (by decide)]
  rw [if_neg (by decide)]
  rw [if_neg (by decide)]
  rw [if_neg (by decide)]
  rw [if_neg (by decide)]
  rw [if_neg (by decide)]
  rw [if_pos (by decide)]

theorem keyPresent_SLOT (e : CacheEntry) :
    keyPresent e (chars "SLOT") = true := by
  unfold keyPresent
  rw [if_pos (by decide)]

theorem keyPresent_SRCURI (e : CacheEntry) :
    keyPresent e (chars "SRC_URI") = !e.metadata.src_uri.isEmpty := by
  unfold keyPresent
  rw [if_neg (by decide)]
  rw [if_neg (by decide)]
  rw [if_neg (by decide)]
  rw [if_neg (by decide)]
  rw [if_neg (by decide)]
  rw [if_neg (by decide)]
  rw [if_neg (by decide)]
  rw [if_neg (by decide)]
  rw [if_neg (by decide)]
  rw [if_neg (by decide)]
  rw [if_pos (by decide)]

theorem keyPresent_BDEPEND (e : CacheEntry) :
    keyPresent e (chars "BDEPEND") = !e.metadata.bdepend.isEmpty := by
  unfold keyPresent
  rw [if_neg (by decide)]
  rw [if_neg (by decide)]
  rw [if_neg (by decide)]
  rw [if_neg (by decide)]
  rw [if_neg (by decide)]
  rw [if_neg (by decide)]
  rw [if_neg (by decide)]
  rw [if_neg (by decide)]
  rw [if_neg (by decide)]
  rw [if_neg (by decide)]
  rw [if_neg (by decide)]
  rw [if_pos (by decide)]

theorem keyPresent_IDEPEND (e : CacheEntry) :
    keyPresent e (chars "IDEPEND") = !e.metadata.idepend.isEmpty := by
  unfold keyPresent
  rw [if_neg (by decide)]
  rw [if_neg (by decide)]
  rw [if_neg (by decide)]
  rw [if_neg (by decide)]
  rw [if_neg (by decide)]
  rw [if_neg (by decide)]
  rw [if_neg (by decide)]
  rw [if_neg (by decide)]
  rw [if_neg (by decide)]
  rw [if_neg (by decide)]
  rw [if_neg (by decide)]
  rw [if_neg (by decide)]
  rw [if_pos (by decide)]

theorem keyPresent_PROPERTIES (e : CacheEntry) :
    keyPresent e (chars "PROPERTIES") = !e.metadata.properties.isEmpty := by
  unfold keyPresent
  rw [if_neg (by decide)]
  rw [if_neg (by decide)]
  rw [if_neg (by decide)]
  rw [if_neg (by decide)]
  rw [if_neg (by decide)]
  rw [if_neg (by decide)]
  rw [if_neg (by decide)]
  rw [if_neg (by decide)]
  rw [if_neg (by decide)]
  rw [if_neg (by decide)]
  rw [if_neg (by decide)]
  rw [if_neg (by decide)]
  rw [if_neg (by decide)]
  rw [if_pos (by decide)]

theorem keyPresent_INHERITED (e : CacheEntry) :
    keyPresent e (chars "INHERITED") = !e.metadata.inherited.isEmpty := by
  unfold keyPresent
  rw [if_neg (by decide)]
  rw [if_neg (by decide)]
  rw [if_neg (by decide)]
  rw [if_neg (by decide)]
  rw [if_neg (by decide)]
  rw [if_neg (by decide)]
  rw [if_neg (by decide)]
  rw [if_neg (by decide)]
  rw [if_neg (by decide)]
  rw [if_neg (by decide)]
  rw [if_neg (by decide)]
  rw [if_neg (by decide)]
  rw [if_neg (by decide)]
  rw [if_neg (by decide)]
  rw [if_pos (by decide)]

theorem keyPresent_eclasses (e : CacheEntry) :
    keyPresent e (chars "_eclasses_") = !e.eclasses.isEmpty := by
  unfold keyPresent
  rw [if_neg (by decide)]
  rw [if_neg (by decide)]
  rw [if_neg (by decide)]
  rw [if_neg (by decide)]
  rw [if_neg (by decide)]
  rw [if_neg (by decide)]
  rw [if_neg (by decide)]
  rw [if_neg (by decide)]
  rw [if_neg (by decide)]
  rw [if_neg (by decide)]
  rw [if_neg (by decide)]
  rw [if_neg (by decide)]
  rw [if_neg (by decide)]
  rw [if_neg (by decide)]
  rw [if_neg (by decide)]
  rw [if_pos (by decide)]

theorem keyPresent_md5 (e : CacheEntry) :
    keyPresent e (chars "_md5_") = e.md5.isSome := by
  unfold keyPresent
  rw [if_neg (by decide)]
  rw [if_neg (by decide)]
  rw [if_neg (by decide)]
  rw [if_neg (by decide)]
  rw [if_neg (by decide)]
  rw [if_neg (by decide)]
  rw [if_neg (by decide)]
  rw [if_neg (by decide)]
  rw [if_neg (by decide)]
  rw [if_neg (by decide)]
  rw [if_neg (by decide)]
  rw [if_neg (by decide)]
  rw [if_neg (by decide)]
  rw [if_neg (by decide)]
  rw [if_neg (by decide)]
  rw [if_neg (by decide)]
  rw [if_pos (by decide)]

theorem keyOf_nil : keyOf [] = [] := rfl

theorem filter_cons_append {α : Type} (p : α → Bool) (a : α) (l : List α) :
    List.filter p (a :: l) = (if p a = true then [a] else []) ++ List.filter p l := by
  rw [List.filter_cons]
  split <;> simp

theorem ite_not_swap {α : Type} (b : Bool) (x y : α) :
    (if (!b) = true then x else y) = if b = true then y else x := by
  cases b <;> simp

theorem getLast?_append_last {α : Type} (l1 l2 : List α) (a : α)
    (h : l2.getLast? = some a) : (l1 ++ l2).getLast? = some a := by
  rw [List.getLast?_append, h]
  rfl

theorem getLast?_cons_some {α : Type} (x a : α) (X : List α)
    (h : X.getLast? = some a) : (x :: X).getLast? = some a := by
  cases X with
  | nil => simp at h
  | cons y Y => rw [List.getLast?_cons_cons]; exact h

theorem joinSep_cons_cons (c : Char) (a b : Str) (t : List Str) :
    joinSep c (a :: b :: t) = a ++ c :: joinSep c (b :: t) := by
  simp [joinSep, List.intercalate, List.intersperse]

theorem joinSep_getLast_nl (c : Char) :
    ∀ (xs : List Str) (a : Str), xs.getLast? = some [] →
      (joinSep c (a :: xs)).getLast? = some c := by
  intro xs
  induction xs with
  | nil => intro a h; simp at h
  | cons b t ih =>
    intro a h
    cases t with
    | nil =>
      simp at h
      subst h
      rw [joinSep_cons_cons]
      exact getLast?_append_last _ _ _ (by simp [joinSep, List.intercalate, List.intersperse])
    | cons b2 t2 =>
      rw [List.getLast?_cons_cons] at h
      rw [joinSep_cons_cons]
      exact getLast?_append_last _ _ _ (getLast?_cons_some _ _ _ (ih b h))

/-! ## Claim C7 -/

/-- C7: `serialize` emits lines whose keys follow the fixed canonical order
(`canonicalKeys`), keeping exactly the keys that are mandatory or whose
field is nonempty/present (`keyPresent`); the pushed lines end with one
empty line, and the joined output ends with `\n`. -/
theorem c7_serialize_shape (e : CacheEntry) :
    (CacheEntry.serializeLines e).map keyOf
      = canonicalKeys.filter (keyPresent e) ++ [[]] ∧
    (CacheEntry.serializeLines e).getLast? = some [] ∧
    CacheEntry.serialize e = joinSep '\n' (CacheEntry.serializeLines e) ∧
    (CacheEntry.serialize e).getLast? = some '\n' := by
  have h2 : (CacheEntry.serializeLines e).getLast? = some [] := by
    unfold CacheEntry.serializeLines
    repeat' apply getLast?_append_last
    rfl
  have h4 : (CacheEntry.serialize e).getLast? = some '\n' := by
    show (joinSep '\n' (CacheEntry.serializeLines e)).getLast? = some '\n'
    unfold CacheEntry.serializeLines
    simp only [List.append_assoc, List.singleton_append]
    apply joinSep_getLast_nl
    repeat' apply getLast?_append_last
    rfl
  refine ⟨?_, h2, rfl, h4⟩
  have hR : canonicalKeys.filter (keyPresent e)
      = [chars "DEFINED_PHASES"] ++
        (if e.metadata.depend.isEmpty then [] else [chars "DEPEND"]) ++
        [chars "DESCRIPTION"] ++ [chars "EAPI"] ++
        (if e.metadata.homepage.isEmpty then [] else [chars "HOMEPAGE"]) ++
        (if e.metadata.iuse.isEmpty then [] else [chars "IUSE"]) ++
        (if e.metadata.keywords.isEmpty then [] else [chars "KEYWORDS"]) ++
        (if e.metadata.license.isSome then [chars "LICENSE"] else []) ++
        (if e.metadata.pdepend.isEmpty then [] else [chars "PDEPEND"]) ++
        (if e.metadata.rdepend.isEmpty then [] else [chars "RDEPEND"]) ++
        (if e.metadata.required_use.isSome then [chars "REQUIRED_USE"] else []) ++
        (if e.metadata.restrict.isEmpty then [] else [chars "RESTRICT"]) ++
        [chars "SLOT"] ++
        (if e.metadata.src_uri.isEmpty then [] else [chars "SRC_URI"]) ++
        (if e.metadata.bdepend.isEmpty then [] else [chars "BDEPEND"]) ++
        (if e.metadata.idepend.isEmpty then [] else [chars "IDEPEND"]) ++
        (if e.metadata.properties.isEmpty then [] else [chars "PROPERTIES"]) ++
        (if e.metadata.inherited.isEmpty then [] else [chars "INHERITED"]) ++
        (if e.eclasses.isEmpty then [] else [chars "_eclasses_"]) ++
        (if e.md5.isSome then [chars "_md5_"] else []) := by
    simp only [canonicalKeys, filter_cons_append, List.filter_nil,
      keyPresent_DEFINEDPHASES, keyPresent_DEPEND, keyPresent_DESCRIPTION,
      keyPresent_EAPI, keyPresent_HOMEPAGE, keyPresent_IUSE, keyPresent_KEYWORDS,
      keyPresent_LICENSE, keyPresent_PDEPEND, keyPresent_RDEPEND, keyPresent_REQUIREDUSE,
      keyPresent_RESTRICT, keyPresent_SLOT, keyPresent_SRCURI, keyPresent_BDEPEND,
      keyPresent_IDEPEND, keyPresent_PROPERTIES, keyPresent_INHERITED,
      keyPresent_eclasses, keyPresent_md5, ite_not_swap, List.append_assoc,
      List.append_nil, List.nil_append, if_pos]
  rw [hR]
  simp only [CacheEntry.serializeLines, List.map_append, List.map_cons, List.map_nil,
    apply_ite (List.map keyOf), keyOf_nil, keyOf_line_DEFINEDPHASES, keyOf_line_DEPEND,
    keyOf_line_DESCRIPTION, keyOf_line_EAPI, keyOf_line_HOMEPAGE, keyOf_line_IUSE,
    keyOf_line_KEYWORDS, keyOf_line_LICENSE, keyOf_line_PDEPEND, keyOf_line_RDEPEND,
    keyOf_line_REQUIREDUSE, keyOf_line_RESTRICT, keyOf_line_SLOT, keyOf_line_SRCURI,
    keyOf_line_BDEPEND, keyOf_line_IDEPEND, keyOf_line_PROPERTIES, keyOf_line_INHERITED,
    keyOf_line_eclasses, keyOf_line_md5, List.append_assoc]
  rcases e.metadata.license with _ | lic <;>
    rcases e.metadata.required_use with _ | ru <;>
      rcases e.md5 with _ | md5 <;>
        simp [keyOf_line_LICENSE, keyOf_line_REQUIREDUSE, keyOf_line_md5]

/-! ## Token and whitespace lemmas for the grammar proofs -/

theorem takeWhile_append_stop (p : Char → Bool) (tok rest : Str)
    (htok : ∀ c ∈ tok, p c = true)
    (hstop : ∀ c, rest.head? = some c → p c = false) :
    (tok ++ rest).takeWhile p = tok := by
  induction tok with
  | nil =>
    cases rest with
    | nil => rfl
    | cons c r => simp [List.takeWhile_cons, hstop c rfl]
  | cons c t ih =>
    simp only [List.cons_append, List.takeWhile_cons, htok c (by simp), if_pos]
    rw [ih (fun c2 hc2 => htok c2 (by simp [hc2]))]

theorem takeWhile1_append (p : Char → Bool) (tok rest : Str) (hne : tok ≠ [])
    (htok : ∀ c ∈ tok, p c = true)
    (hstop : ∀ c, rest.head? = some c → p c = false) :
    takeWhile1 p (tok ++ rest) = .ok tok rest := by
  unfold takeWhile1
  rw [takeWhile_append_stop p tok rest htok hstop]
  rw [if_neg (by simpa [List.isEmpty_iff] using hne)]
  rw [List.drop_left]

theorem takeWhile1_stop (p : Char → Bool) (s : Str)
    (hstop : ∀ c, s.head? = some c → p c = false) :
    takeWhile1 p s = .fail := by
  have h := takeWhile_append_stop p [] s (by simp) hstop
  simp only [List.nil_append] at h
  unfold takeWhile1
  rw [h]
  rfl

theorem ms0_not_space (s : Str)
    (h : ∀ c, s.head? = some c → isMultispace c = false) : ms0 s = s := by
  cases s with
  | nil => rfl
  | cons c r => simp [ms0, List.dropWhile_cons, h c rfl]

theorem ms0_cons (c : Char) (s : Str) (h : isMultispace c = true) :
    ms0 (c :: s) = ms0 s := by
  simp [ms0, List.dropWhile_cons, h]

theorem ms0_nil : ms0 [] = [] := rfl

/-! ## Additional takeWhile and ms0 lemmas -/

theorem all_takeWhile (p : Char → Bool) (l : Str) : (l.takeWhile p).all p = true := by
  induction l with
  | nil => rfl
  | cons c t ih =>
    by_cases h : p c
    · simp [List.takeWhile_cons, h, ih]
    · simp [List.takeWhile_cons, h]

theorem ms0_eq_or_lt (s : Str) : ms0 s = s ∨ (ms0 s).length < s.length := by
  cases s with
  | nil => exact Or.inl rfl
  | cons c t =>
    by_cases h : isMultispace c
    · right
      rw [ms0_cons c t h]
      have := length_ms0_le t
      simp
      omega
    · left
      exact ms0_not_space _ (fun d hd => by simp at hd; rw [← hd]; simpa using h)

/-! ## Soundness of the RESTRICT/PROPERTIES grammar -/

theorem restrict_sound :
    ∀ (n : Nat) (s : Str), s.length = n →
      ((∀ e rest, Restrict.parseUseConditional s = .ok e rest →
          Restrict.wfEntry e = true) ∧
       (∀ e rest, Restrict.parseRestrictEntry s = .ok e rest →
          Restrict.wfEntry e = true) ∧
       (∀ es rest, Restrict.parseRestrictEntries s = .ok es rest →
          Restrict.wfEntries es = true ∧ rest.length ≤ s.length)) := by
  intro n
  induction n using Nat.strong_induction_on with
  | _ n IH =>
  intro s hs
  subst hs
  have ihEntries : ∀ t : Str, t.length < s.length →
      ∀ es rest, Restrict.parseRestrictEntries t = .ok es rest →
        Restrict.wfEntries es = true ∧ rest.length ≤ t.length :=
    fun t ht => (IH t.length ht t rfl).2.2
  have ihEntry : ∀ t : Str, t.length < s.length →
      ∀ e rest, Restrict.parseRestrictEntry t = .ok e rest →
        Restrict.wfEntry e = true :=
    fun t ht => (IH t.length ht t rfl).2.1
  have hUC : ∀ e rest, Restrict.parseUseConditional s = .ok e rest →
      Restrict.wfEntry e = true := by
    intro e rest h
    unfold Restrict.parseUseConditional at h
    simp only [] at h
    split at h
    · rename_i hneg
      simp only [hneg, reduceIte] at h
      split at h
      · simp at h
      · rename_i hflag
        split at h
        · rename_i s2 hq
          simp only [hneg, reduceIte] at hq
          split at h
          · rename_i s3 hp
            split at h
            · rename_i xE entries rest1 hent
              split at h
              · rename_i xM rest2 hms
                cases h
                have hlen : s3.length < s.length := by
                  have h1 := congrArg List.length hq
                  have h2 := congrArg List.length hp
                  have h3 := length_ms0_le s2
                  simp [List.length_drop] at h1 h2
                  have h5 : (List.tail s).length ≤ s.length := by
                    cases s <;> simp
                  omega
                have hwf := (ihEntries s3 hlen entries rest1 hent).1
                simp only [Restrict.wfEntry, Bool.and_eq_true]
                exact ⟨⟨by simpa using hflag, all_takeWhile _ _⟩, hwf⟩
              · simp at h
            · simp at h
          · simp at h
        · simp at h
    · rename_i hneg
      simp only [hneg, reduceIte] at h
      split at h
      · simp at h
      · rename_i hflag
        split at h
        · rename_i s2 hq
          simp only [hneg, reduceIte] at hq
          split at h
          · rename_i s3 hp
            split at h
            · rename_i xE entries rest1 hent
              split at h
              · rename_i xM rest2 hms
                cases h
                have hlen : s3.length < s.length := by
                  have h1 := congrArg List.length hq
                  have h2 := congrArg List.length hp
                  have h3 := length_ms0_le s2
                  simp [List.length_drop] at h1 h2
                  omega
                have hwf := (ihEntries s3 hlen entries rest1 hent).1
                simp only [Restrict.wfEntry, Bool.and_eq_true]
                exact ⟨⟨by simpa using hflag, all_takeWhile _ _⟩, hwf⟩
              · simp at h
            · simp at h
          · simp at h
        · simp at h
  have hTok : ∀ e rest, Restrict.parseToken s = .ok e rest →
      Restrict.wfEntry e = true := by
    intro e rest h
    unfold Restrict.parseToken at h
    split at h
    · rename_i t rest1 htw
      unfold takeWhile1 at htw
      simp only [] at htw
      split at htw
      · simp at htw
      · injection htw with h1 h2
        injection h with h3 h4
        subst h3
        simp only [Restrict.wfEntry]
        rw [← h1]
        exact all_takeWhile _ _
    · simp at h
    · simp at h
  have hEntry : ∀ e rest, Restrict.parseRestrictEntry s = .ok e rest →
      Restrict.wfEntry e = true := by
    intro e rest h
    unfold Restrict.parseRestrictEntry at h
    split at h
    · simp at h
    · rename_i c t
      split at h
      · split at h
        · rename_i entries rest1 hent
          split at h
          · rename_i rest2 hms
            cases h
            have hwf := (ihEntries t (by simp) entries rest1 hent).1
            rcases entries with _ | ⟨e1, _ | ⟨e2, r⟩⟩
            · rfl
            · simpa [Restrict.wfEntries] using hwf
            · rfl
          · simp at h
        · simp at h
      · split at h
        · rename_i e1 r1 huc
          cases h
          exact hUC _ _ huc
        · simp at h
        · exact hTok _ _ h
  have hEntries : ∀ es rest, Restrict.parseRestrictEntries s = .ok es rest →
      Restrict.wfEntries es = true ∧ rest.length ≤ s.length := by
    intro es rest h
    unfold Restrict.parseRestrictEntries at h
    split at h
    · rename_i e1 rest1 hent1
      split at h
      · rename_i hlt
        split at h
        · rename_i es2 rest2 hrec
          cases h
          have hrec2 := ihEntries rest1 hlt _ _ hrec
          have hwf1 : Restrict.wfEntry e1 = true := by
            rcases ms0_eq_or_lt s with heq | hlt2
            · rw [heq] at hent1
              exact hEntry _ _ hent1
            · exact ihEntry (ms0 s) hlt2 _ _ hent1
          refine ⟨?_, ?_⟩
          · simp [Restrict.wfEntries, hwf1, hrec2.1]
          · have := hrec2.2
            omega
        · simp at h
        · simp at h
      · simp at h
    · cases h
      exact ⟨rfl, Nat.le_refl _⟩
    · simp at h
  exact ⟨hUC, hEntry, hEntries⟩


/-! ## Render/parse lemmas for the RESTRICT/PROPERTIES grammar -/

theorem head_drop_takeWhile (p : Char → Bool) (l : Str) :
    ∀ c, ((l.drop (l.takeWhile p).length).head? = some c) → p c = false := by
  induction l with
  | nil => intro c h; simp at h
  | cons a t ih =>
    intro c h
    by_cases hp : p a
    · simp only [List.takeWhile_cons, hp, if_pos, List.length_cons, List.drop_succ_cons] at h
      exact ih c h
    · simp only [List.takeWhile_cons, hp] at h
      simp at h
      rw [← h]
      simpa using hp

theorem flagChar_imp_tokenChar (c : Char)
    (h : Restrict.isFlagChar c = true) : Restrict.isTokenChar c = true := by
  simp [Restrict.isFlagChar] at h
  simp [Restrict.isTokenChar]
  tauto

theorem isMultispace_elim (c : Char) (h : isMultispace c = true) :
    c = ' ' ∨ c = '\t' ∨ c = '\r' ∨ c = '\n' := by
  simp [isMultispace] at h
  tauto

theorem length_takeWhile_lt_of_not_all (p : Char → Bool) (l : Str)
    (h : ¬(l.all p = true)) : (l.takeWhile p).length < l.length := by
  induction l with
  | nil => simp at h
  | cons a t ih =>
    by_cases hp : p a
    · simp only [List.all_cons, hp, Bool.true_and] at h
      simp only [List.takeWhile_cons, hp, if_pos, List.length_cons]
      exact Nat.succ_lt_succ (ih h)
    · simp only [List.takeWhile_cons, hp]
      simp

theorem mem_of_head_drop (l : Str) (k : Nat) (c : Char)
    (h : (l.drop k).head? = some c) : c ∈ l := by
  have h2 : c ∈ l.drop k := by
    cases hd : l.drop k with
    | nil => rw [hd] at h; simp at h
    | cons a t => rw [hd] at h; simp at h; simp [h]
  exact List.drop_subset k l h2

theorem ms0_append_ms (pad x : Str) (h : pad.all isMultispace = true) :
    ms0 (pad ++ x) = ms0 x := by
  induction pad with
  | nil => rfl
  | cons a t ih =>
    simp only [List.all_cons, Bool.and_eq_true] at h
    rw [List.cons_append, ms0_cons _ _ h.1, ih h.2]

theorem takeWhile_append_all (p : Char → Bool) (l₁ l₂ : Str)
    (h : l₁.all p = true) :
    (l₁ ++ l₂).takeWhile p = l₁ ++ l₂.takeWhile p := by
  induction l₁ with
  | nil => rfl
  | cons a t ih =>
    simp only [List.all_cons, Bool.and_eq_true] at h
    simp [List.takeWhile_cons, h.1, ih h.2]

theorem takeWhile_append_not_all (p : Char → Bool) (l₁ l₂ : Str)
    (h : ¬(l₁.all p = true)) :
    (l₁ ++ l₂).takeWhile p = l₁.takeWhile p := by
  induction l₁ with
  | nil => simp at h
  | cons a t ih =>
    by_cases hp : p a
    · simp only [List.all_cons, hp, Bool.true_and] at h
      simp [List.takeWhile_cons, hp, ih h]
    · simp [List.takeWhile_cons, hp]

theorem parseUseConditional_fail_on_token (t rest : Str) (ht : t ≠ [])
    (htc : t.all Restrict.isTokenChar = true)
    (hrest : ∀ c, rest.head? = some c → Restrict.isTokenChar c = false ∧ c ≠ '?') :
    Restrict.parseUseConditional (t ++ rest) = .fail := by
  have hhead : ∃ a, (t ++ rest).head? = some a ∧ Restrict.isTokenChar a = true := by
    cases t with
    | nil => exact absurd rfl ht
    | cons a t' =>
      refine ⟨a, rfl, ?_⟩
      simp [List.all_cons, Bool.and_eq_true] at htc
      exact htc.1
  obtain ⟨a, hha, hta⟩ := hhead
  have hneg : (decide ((t ++ rest).head? = some '!')) = false := by
    rw [decide_eq_false_iff_not]
    intro hcon
    rw [hha] at hcon
    cases hcon
    exact absurd hta (by decide)
  have hq' : ∀ c, ((t ++ rest).drop
      ((t ++ rest).takeWhile Restrict.isFlagChar).length).head? = some c → c ≠ '?' := by
    intro c hc
    by_cases hall : t.all Restrict.isFlagChar = true
    · rw [takeWhile_append_all _ _ _ hall] at hc
      have hr0 : rest.takeWhile Restrict.isFlagChar = [] := by
        cases rest with
        | nil => rfl
        | cons r rr =>
          have := hrest r rfl
          have hrf : Restrict.isFlagChar r = false := by
            by_contra hcon
            simp only [Bool.not_eq_false] at hcon
            rw [flagChar_imp_tokenChar r hcon] at this
            exact absurd this.1 (by simp)
          simp [List.takeWhile_cons, hrf]
      rw [hr0, List.append_nil, List.drop_left] at hc
      exact (hrest c hc).2
    · rw [takeWhile_append_not_all _ _ _ hall] at hc
      have hlt := length_takeWhile_lt_of_not_all _ _ hall
      rw [List.drop_append_of_le_length (Nat.le_of_lt hlt)] at hc
      have hne : t.drop (t.takeWhile Restrict.isFlagChar).length ≠ [] := by
        intro hcon
        have := congrArg List.length hcon
        simp [List.length_drop] at this
        omega
      have hcm : c ∈ t := by
        cases hd : t.drop (t.takeWhile Restrict.isFlagChar).length with
        | nil => exact absurd hd hne
        | cons b bb =>
          rw [hd] at hc
          simp at hc
          rw [← hc]
          exact mem_of_head_drop t _ b (by rw [hd]; rfl)
      have htc2 : Restrict.isTokenChar c = true := by
        rw [List.all_eq_true] at htc
        exact htc c hcm
      intro hcon
      rw [hcon] at htc2
      exact absurd htc2 (by decide)
  unfold Restrict.parseUseConditional
  simp only []
  simp only [hneg]
  split
  · rename_i hcon
    exact absurd hcon (by decide)
  · split
    · rfl
    · split
      · rename_i s2 hq
        simp only [hneg, Bool.false_eq_true, if_false] at hq
        have hcon := hq' '?' (by rw [hq]; rfl)
        exact absurd rfl hcon
      · rfl

theorem parseToken_append (t rest : Str) (ht : t ≠ [])
    (htc : t.all Restrict.isTokenChar = true)
    (hrest : ∀ c, rest.head? = some c → Restrict.isTokenChar c = false) :
    Restrict.parseToken (t ++ rest) = .ok (.Token t) rest := by
  unfold Restrict.parseToken
  rw [takeWhile1_append Restrict.isTokenChar t rest ht
    (by rw [List.all_eq_true] at htc; exact htc) hrest]

theorem parseRestrictEntry_token (t rest : Str) (ht : t ≠ [])
    (htc : t.all Restrict.isTokenChar = true)
    (hrest : ∀ c, rest.head? = some c → Restrict.isTokenChar c = false ∧ c ≠ '?') :
    Restrict.parseRestrictEntry (t ++ rest) = .ok (.Token t) rest := by
  obtain ⟨a, t', rfl⟩ : ∃ a t', t = a :: t' := by
    cases t with
    | nil => exact absurd rfl ht
    | cons a t' => exact ⟨a, t', rfl⟩
  have ha : Restrict.isTokenChar a = true := by
    simp [List.all_cons, Bool.and_eq_true] at htc
    exact htc.1
  have hane : ¬(a = '(') := by
    intro hcon
    rw [hcon] at ha
    exact absurd ha (by decide)
  rw [List.cons_append]
  unfold Restrict.parseRestrictEntry
  rw [if_neg hane]
  rw [← List.cons_append]
  rw [parseUseConditional_fail_on_token _ rest ht htc hrest]
  exact parseToken_append _ rest ht htc (fun c hc => (hrest c hc).1)

theorem parseUseConditional_fail_flagless (s : Str)
    (h : ∀ c, s.head? = some c → Restrict.isFlagChar c = false ∧ c ≠ '!') :
    Restrict.parseUseConditional s = .fail := by
  have hneg : (decide (s.head? = some '!')) = false := by
    rw [decide_eq_false_iff_not]
    intro hcon
    exact absurd rfl (h '!' hcon).2
  have hflag : s.takeWhile Restrict.isFlagChar = [] := by
    cases s with
    | nil => rfl
    | cons c r => simp [List.takeWhile_cons, (h c rfl).1]
  unfold Restrict.parseUseConditional
  simp only []
  simp only [hneg]
  split
  · rename_i hcon
    exact absurd hcon (by decide)
  · rw [if_pos (by rw [hflag]; rfl)]

theorem parseRestrictEntry_fail_stop (s : Str)
    (h : s = [] ∨ s.head? = some ')') :
    Restrict.parseRestrictEntry s = .fail := by
  rcases h with rfl | h
  · unfold Restrict.parseRestrictEntry
    rfl
  · obtain ⟨r, rfl⟩ : ∃ r, s = ')' :: r := by
      cases s with
      | nil => simp at h
      | cons a r =>
        simp at h
        exact ⟨r, by rw [h]⟩
    unfold Restrict.parseRestrictEntry
    rw [if_neg (by decide)]
    rw [parseUseConditional_fail_flagless _ (by
      intro c hc
      simp at hc
      rw [← hc]
      exact ⟨by decide, by decide⟩)]
    unfold Restrict.parseToken
    rw [takeWhile1_stop _ _ (by
      intro c hc
      simp at hc
      rw [← hc]
      decide)]

theorem tokenChar_not_ms (c : Char) (h : Restrict.isTokenChar c = true) :
    isMultispace c = false := by
  by_contra hcon
  simp only [Bool.not_eq_false] at hcon
  rcases isMultispace_elim c hcon with rfl | rfl | rfl | rfl <;> exact absurd h (by decide)

theorem stopper_of_ms0_stop (rest : Str)
    (h : (ms0 rest).head? = some ')' ∨ ms0 rest = []) :
    ∀ c, rest.head? = some c → Restrict.isTokenChar c = false ∧ c ≠ '?' := by
  intro c hc
  obtain ⟨r, rfl⟩ : ∃ r, rest = c :: r := by
    cases rest with
    | nil => simp at hc
    | cons a r =>
      simp at hc
      exact ⟨r, by rw [hc]⟩
  by_cases hm : isMultispace c = true
  · rcases isMultispace_elim c hm with rfl | rfl | rfl | rfl <;> exact ⟨by decide, by decide⟩
  · rw [ms0_not_space _ (by intro d hd; simp at hd; rw [← hd]; simpa using hm)] at h
    rcases h with h | h
    · simp at h
      rw [h]
      exact ⟨by decide, by decide⟩
    · simp at h

theorem parseRestrictEntry_of_uc (s : Str) (e : RestrictExpr) (rest : Str)
    (hhead : ∀ c, s.head? = some c → ¬(c = '('))
    (h : Restrict.parseUseConditional s = .ok e rest) :
    Restrict.parseRestrictEntry s = .ok e rest := by
  cases s with
  | nil =>
    rw [parseUseConditional_fail_flagless [] (by intro c hc; simp at hc)] at h
    simp at h
  | cons a r =>
    unfold Restrict.parseRestrictEntry
    rw [if_neg (hhead a rfl)]
    rw [h]

theorem parseUseConditional_render (neg : Bool) (flag mid rest : Str)
    (entries : List RestrictExpr) (rst1 : Str)
    (hflag_ne : flag ≠ []) (hflag : flag.all Restrict.isFlagChar = true)
    (hent : Restrict.parseRestrictEntries (' ' :: (mid ++ (' ' :: ')' :: rest))) =
      .ok entries rst1)
    (hms : ms0 rst1 = ')' :: rest) :
    Restrict.parseUseConditional
      ((if neg then ['!'] else []) ++ flag ++ chars "? ( " ++ mid ++ chars " )" ++ rest) =
      .ok (.UseConditional flag neg entries) rest := by
  have hflagmem : ∀ c ∈ flag, Restrict.isFlagChar c = true := by
    rw [List.all_eq_true] at hflag
    exact hflag
  have hq : chars "? ( " = '?' :: ' ' :: '(' :: ' ' :: [] := rfl
  have hcl : chars " )" = ' ' :: ')' :: [] := rfl
  have hstop : ∀ (X : Str) c, ('?' :: X).head? = some c → Restrict.isFlagChar c = false := by
    intro X c hc
    simp at hc
    rw [← hc]
    decide
  have hspc : ∀ c : Char, (' ' :: mid ++ (' ' :: ')' :: rest)).head? = some c →
      True := fun _ _ => trivial
  cases neg with
  | true =>
    have hd : ∀ X : Str, decide (('!' :: X).head? = some '!') = true := by
      intro X
      simp
    simp only [if_pos, hq, hcl, List.append_assoc, List.cons_append, List.nil_append,
      List.singleton_append]
    unfold Restrict.parseUseConditional
    simp only []
    simp only [hd, eq_self_iff_true, if_true, List.tail_cons]
    split
    · rename_i hflagE
      obtain ⟨a, fl, rfl⟩ : ∃ a fl, flag = a :: fl := by
        cases flag with
        | nil => exact absurd rfl hflag_ne
        | cons a fl => exact ⟨a, fl, rfl⟩
      simp [List.takeWhile_cons, hflagmem a (by simp)] at hflagE
    split
    · rename_i s2 hq2
      simp only [hd, eq_self_iff_true, if_true] at hq2
      rw [takeWhile_append_stop Restrict.isFlagChar flag _ hflagmem (hstop _),
          List.drop_left] at hq2
      rw [takeWhile_append_stop Restrict.isFlagChar flag _ hflagmem (hstop _)]
      injection hq2 with h1 h2
      subst h2
      split
      · rename_i s3 hp2
        rw [ms0_cons ' ' _ (by decide),
            ms0_not_space _ (by intro c hc; simp at hc; rw [← hc]; decide)] at hp2
        injection hp2 with h3 h4
        subst h4
        split
        · rename_i e2 r2 hent2
          rw [hent] at hent2
          injection hent2 with h5 h6
          subst h5
          subst h6
          rw [hms]
          rfl
        · rename_i hent2
          rw [hent] at hent2
          simp at hent2
      · rename_i hp2
        rw [ms0_cons ' ' _ (by decide),
            ms0_not_space _ (by intro c hc; simp at hc; rw [← hc]; decide)] at hp2
        exact absurd rfl (hp2 _)
    · rename_i hq2
      have hcon := hq2 (' ' :: '(' :: ' ' :: (mid ++ ' ' :: ')' :: rest))
      simp only [hd, eq_self_iff_true, if_true] at hcon
      rw [takeWhile_append_stop Restrict.isFlagChar flag _ hflagmem (hstop _),
          List.drop_left] at hcon
      exact absurd rfl hcon
  | false =>
    have hd : decide ((flag ++ '?' :: ' ' :: '(' :: ' ' :: (mid ++ ' ' :: ')' :: rest)).head? =
        some '!') = false := by
      rw [decide_eq_false_iff_not]
      intro hcon
      obtain ⟨a, fl, rfl⟩ : ∃ a fl, flag = a :: fl := by
        cases flag with
        | nil => exact absurd rfl hflag_ne
        | cons a fl => exact ⟨a, fl, rfl⟩
      simp at hcon
      have := hflagmem '!' (by rw [hcon]; simp)
      exact absurd this (by decide)
    simp only [hq, hcl, List.append_assoc, List.cons_append, List.nil_append,
      Bool.false_eq_true, if_false]
    unfold Restrict.parseUseConditional
    simp only []
    simp only [hd, Bool.false_eq_true, if_false]
    split
    · rename_i hflagE
      obtain ⟨a, fl, rfl⟩ : ∃ a fl, flag = a :: fl := by
        cases flag with
        | nil => exact absurd rfl hflag_ne
        | cons a fl => exact ⟨a, fl, rfl⟩
      simp [List.takeWhile_cons, hflagmem a (by simp)] at hflagE
    split
    · rename_i s2 hq2
      simp only [hd, Bool.false_eq_true, if_false] at hq2
      rw [takeWhile_append_stop Restrict.isFlagChar flag _ hflagmem (hstop _),
          List.drop_left] at hq2
      rw [takeWhile_append_stop Restrict.isFlagChar flag _ hflagmem (hstop _)]
      injection hq2 with h1 h2
      subst h2
      split
      · rename_i s3 hp2
        rw [ms0_cons ' ' _ (by decide),
            ms0_not_space _ (by intro c hc; simp at hc; rw [← hc]; decide)] at hp2
        injection hp2 with h3 h4
        subst h4
        split
        · rename_i e2 r2 hent2
          rw [hent] at hent2
          injection hent2 with h5 h6
          subst h5
          subst h6
          rw [hms]
          rfl
        · rename_i hent2
          rw [hent] at hent2
          simp at hent2
      · rename_i hp2
        rw [ms0_cons ' ' _ (by decide),
            ms0_not_space _ (by intro c hc; simp at hc; rw [← hc]; decide)] at hp2
        exact absurd rfl (hp2 _)
    · rename_i hq2
      have hcon := hq2 (' ' :: '(' :: ' ' :: (mid ++ ' ' :: ')' :: rest))
      simp only [hd, Bool.false_eq_true, if_false] at hcon
      rw [takeWhile_append_stop Restrict.isFlagChar flag _ hflagmem (hstop _),
          List.drop_left] at hcon
      exact absurd rfl hcon

theorem head_append_ne (l1 l2 : Str) (h : l1 ≠ []) : (l1 ++ l2).head? = l1.head? := by
  cases l1 with
  | nil => exact absurd rfl h
  | cons a t => rfl

theorem restrict_rp :
    ∀ (n : Nat),
      (∀ e : RestrictExpr, sizeOf e ≤ n → Restrict.wfEntry e = true →
        RestrictExpr.noEmptyTok e = true →
        RestrictExpr.render e ≠ [] ∧
        (∀ c, (RestrictExpr.render e).head? = some c → isMultispace c = false) ∧
        (∀ rest, (∀ c, rest.head? = some c → Restrict.isTokenChar c = false ∧ c ≠ '?') →
          Restrict.parseRestrictEntry (RestrictExpr.render e ++ rest) = .ok e rest)) ∧
      (∀ es : List RestrictExpr, sizeOf es ≤ n → Restrict.wfEntries es = true →
        noEmptyTokList es = true →
        ∀ pad rest, pad.all isMultispace = true →
          ((ms0 rest).head? = some ')' ∨ ms0 rest = []) →
          Restrict.parseRestrictEntries (pad ++ renderRestrictList es ++ rest) =
            .ok es (if es.isEmpty then pad ++ rest else rest)) := by
  intro n
  induction n using Nat.strong_induction_on with
  | _ n IH =>
  constructor
  · intro e hsz hwf hne
    match e with
    | .Token t =>
      have htne : t ≠ [] := by
        simp only [RestrictExpr.noEmptyTok, Bool.not_eq_true'] at hne
        simpa [List.isEmpty_iff] using hne
      have htc : t.all Restrict.isTokenChar = true := hwf
      refine ⟨htne, ?_, ?_⟩
      · intro c hc
        have hcm : c ∈ t := by
          cases t with
          | nil => exact absurd rfl htne
          | cons a t' =>
            simp only [RestrictExpr.render] at hc
            simp at hc
            simp [hc]
        rw [List.all_eq_true] at htc
        exact tokenChar_not_ms c (htc c hcm)
      · intro rest hrest
        exact parseRestrictEntry_token t rest htne htc hrest
    | .UseConditional flag neg entries =>
      simp only [Restrict.wfEntry, Bool.and_eq_true] at hwf
      obtain ⟨⟨hfne, hfc⟩, hwfes⟩ := hwf
      have hflag_ne : flag ≠ [] := by simpa [List.isEmpty_iff] using hfne
      have hne2 : noEmptyTokList entries = true := hne
      have hszes : sizeOf entries < n := by
        have : sizeOf entries < sizeOf (RestrictExpr.UseConditional flag neg entries) := by
          simp
        omega
      have ihEnt := (IH (sizeOf entries) hszes).2 entries (Nat.le_refl _) hwfes hne2
      refine ⟨?_, ?_, ?_⟩
      · intro hcon
        have hlen := congrArg List.length hcon
        simp [RestrictExpr.render, chars] at hlen
      · intro c hc
        cases neg with
        | true =>
          simp only [RestrictExpr.render, if_pos] at hc
          simp at hc
          rw [← hc]
          decide
        | false =>
          obtain ⟨a, fl, rfl⟩ : ∃ a fl, flag = a :: fl := by
            cases flag with
            | nil => exact absurd rfl hflag_ne
            | cons a fl => exact ⟨a, fl, rfl⟩
          simp only [RestrictExpr.render, Bool.false_eq_true, if_false, List.nil_append,
            List.cons_append, List.head?_cons] at hc
          have hca : a = c := by simpa using hc
          rw [List.all_eq_true] at hfc
          have := hfc a (by simp)
          rw [hca] at this
          exact tokenChar_not_ms c (flagChar_imp_tokenChar c this)
      · intro rest hrest
        have hstop2 : (ms0 (' ' :: ')' :: rest)).head? = some ')' ∨
            ms0 (' ' :: ')' :: rest) = [] := by
          left
          rw [ms0_cons ' ' _ (by decide),
              ms0_not_space _ (by intro c hc; simp at hc; rw [← hc]; decide)]
          rfl
        have hent0 := ihEnt [' '] (' ' :: ')' :: rest) (by decide) hstop2
        rw [show ([' '] ++ renderRestrictList entries ++ (' ' :: ')' :: rest)) =
            ' ' :: (renderRestrictList entries ++ (' ' :: ')' :: rest)) by
          simp] at hent0
        have hms : ms0 (if entries.isEmpty then [' '] ++ (' ' :: ')' :: rest)
            else ' ' :: ')' :: rest) = ')' :: rest := by
          by_cases hemp : entries.isEmpty
          · rw [if_pos hemp]
            rw [show [' '] ++ (' ' :: ')' :: rest) = ' ' :: ' ' :: ')' :: rest by simp]
            rw [ms0_cons ' ' _ (by decide), ms0_cons ' ' _ (by decide),
                ms0_not_space _ (by intro c hc; simp at hc; rw [← hc]; decide)]
          · rw [if_neg hemp]
            rw [ms0_cons ' ' _ (by decide),
                ms0_not_space _ (by intro c hc; simp at hc; rw [← hc]; decide)]
        have huc := parseUseConditional_render neg flag (renderRestrictList entries) rest
          entries _ hflag_ne hfc hent0 hms
        have hgoal : RestrictExpr.render (.UseConditional flag neg entries) ++ rest =
            (if neg then ['!'] else []) ++ flag ++ chars "? ( " ++
              renderRestrictList entries ++ chars " )" ++ rest := by
          simp [RestrictExpr.render]
        rw [hgoal]
        apply parseRestrictEntry_of_uc _ _ _ ?_ huc
        intro c hc hcon
        subst hcon
        cases neg with
        | true =>
          simp at hc
        | false =>
          obtain ⟨a, fl, rfl⟩ : ∃ a fl, flag = a :: fl := by
            cases flag with
            | nil => exact absurd rfl hflag_ne
            | cons a fl => exact ⟨a, fl, rfl⟩
          simp only [Bool.false_eq_true, if_false, List.nil_append,
            List.cons_append, List.head?_cons] at hc
          have hca : a = '(' := by simpa using hc
          rw [List.all_eq_true] at hfc
          have := hfc a (by simp)
          rw [hca] at this
          exact absurd this (by decide)
  · intro es hsz hwf hne pad rest hpad hstop
    match es with
    | [] =>
      unfold Restrict.parseRestrictEntries
      rw [show pad ++ renderRestrictList [] ++ rest = pad ++ rest by simp [renderRestrictList]]
      rw [ms0_append_ms pad rest hpad]
      rw [parseRestrictEntry_fail_stop (ms0 rest) (Or.symm hstop)]
      simp
    | e :: es' =>
      simp only [Restrict.wfEntries, Bool.and_eq_true] at hwf
      obtain ⟨hwfe, hwfes'⟩ := hwf
      simp only [noEmptyTokList, Bool.and_eq_true] at hne
      obtain ⟨hnee, hnees'⟩ := hne
      have hsze : sizeOf e < n := by
        have : sizeOf e < sizeOf (e :: es') := by
          simp only [List.cons.sizeOf_spec]
          omega
        omega
      obtain ⟨hrne, hrhead, hrparse⟩ := (IH (sizeOf e) hsze).1 e (Nat.le_refl _) hwfe hnee
      have hszes' : sizeOf es' < n := by
        have : sizeOf es' < sizeOf (e :: es') := by
          simp only [List.cons.sizeOf_spec]
          omega
        omega
      have ihES := (IH (sizeOf es') hszes').2 es' (Nat.le_refl _) hwfes' hnees'
      have hrlen : 0 < (RestrictExpr.render e).length := List.length_pos.mpr hrne
      cases es' with
      | nil =>
        unfold Restrict.parseRestrictEntries
        rw [show pad ++ renderRestrictList [e] ++ rest = pad ++ (e.render ++ rest) by
          simp [renderRestrictList]]
        rw [ms0_append_ms pad _ hpad]
        rw [ms0_not_space _ (fun c hc => by
          rw [head_append_ne _ _ hrne] at hc
          exact hrhead c hc)]
        rw [hrparse rest (stopper_of_ms0_stop rest hstop)]
        simp only []
        rw [dif_pos (by simp [List.length_append]; omega)]
        have hrec := ihES [] rest (by decide) hstop
        simp only [renderRestrictList, List.nil_append, List.isEmpty_nil, if_pos] at hrec
        rw [hrec]
        simp
      | cons e2 es'' =>
        unfold Restrict.parseRestrictEntries
        rw [show pad ++ renderRestrictList (e :: e2 :: es'') ++ rest =
            pad ++ (e.render ++ (' ' :: (renderRestrictList (e2 :: es'') ++ rest))) by
          simp [renderRestrictList]]
        rw [ms0_append_ms pad _ hpad]
        rw [ms0_not_space _ (fun c hc => by
          rw [head_append_ne _ _ hrne] at hc
          exact hrhead c hc)]
        rw [hrparse _ (by
          intro c hc
          simp at hc
          rw [← hc]
          exact ⟨by decide, by decide⟩)]
        simp only []
        rw [dif_pos (by simp [List.length_append]; omega)]
        have hrec := ihES [' '] rest (by decide) hstop
        rw [show [' '] ++ renderRestrictList (e2 :: es'') ++ rest =
            ' ' :: (renderRestrictList (e2 :: es'') ++ rest) by simp] at hrec
        rw [if_neg (by simp)] at hrec
        rw [hrec]
        simp

theorem restrict_parse_wf (s : Str) (es : List RestrictExpr)
    (h : RestrictExpr.parse s = .ok es) : Restrict.wfEntries es = true := by
  unfold RestrictExpr.parse at h
  split at h
  · rename_i es2 hps
    injection h with h2
    subst h2
    unfold Restrict.parseRestrictString at hps
    split at hps
    · rename_i es3 rest3 hent
      injection hps with h5 h6
      subst h5
      exact ((restrict_sound s.length s rfl).2.2 _ rest3 hent).1
    · simp at hps
    · simp at hps
  · simp at h
  · simp at h

theorem restrict_render_parse (es : List RestrictExpr)
    (hwf : Restrict.wfEntries es = true) (hne : noEmptyTokList es = true) :
    RestrictExpr.parse (renderRestrictList es) = .ok es := by
  have h := (restrict_rp (sizeOf es)).2 es (Nat.le_refl _) hwf hne [] []
    (by decide) (by right; rfl)
  simp only [List.nil_append, List.append_nil, ite_self] at h
  unfold RestrictExpr.parse Restrict.parseRestrictString
  rw [h]
  rfl

theorem parseRestrictEntries_nil_input :
    Restrict.parseRestrictEntries ([] : Str) = .ok [] [] := by
  unfold Restrict.parseRestrictEntries
  rw [show ms0 [] = [] from rfl]
  rw [parseRestrictEntry_fail_stop [] (Or.inl rfl)]

theorem restrict_bare_group (es : List RestrictExpr)
    (hwf : Restrict.wfEntries es = true) (hne : noEmptyTokList es = true) :
    RestrictExpr.parse (chars "( " ++ renderRestrictList es ++ chars " )") =
      .ok [collapseGroup es] := by
  have hin := (restrict_rp (sizeOf es)).2 es (Nat.le_refl _) hwf hne [' ']
    (' ' :: ')' :: []) (by decide)
    (by left; rw [ms0_cons ' ' _ (by decide)]; rfl)
  rw [show [' '] ++ renderRestrictList es ++ (' ' :: ')' :: []) =
      ' ' :: (renderRestrictList es ++ (' ' :: ')' :: [])) by simp] at hin
  have hms : ms0 (if es.isEmpty then [' '] ++ (' ' :: ')' :: []) else ' ' :: ')' :: []) =
      ')' :: [] := by
    by_cases hemp : es.isEmpty
    · rw [if_pos hemp]
      rfl
    · rw [if_neg hemp]
      rfl
  have hentry : Restrict.parseRestrictEntry
      ('(' :: (' ' :: (renderRestrictList es ++ (' ' :: ')' :: [])))) =
      .ok (collapseGroup es) [] := by
    unfold Restrict.parseRestrictEntry
    rw [if_pos rfl]
    rw [hin]
    simp only []
    rw [hms]
    match es with
    | [] => rfl
    | [e] => rfl
    | e1 :: e2 :: r => rfl
  have htop : Restrict.parseRestrictEntries
      ('(' :: (' ' :: (renderRestrictList es ++ (' ' :: ')' :: [])))) =
      .ok [collapseGroup es] [] := by
    unfold Restrict.parseRestrictEntries
    rw [ms0_not_space _ (by intro c hc; simp at hc; rw [← hc]; decide)]
    rw [hentry]
    simp only []
    rw [dif_pos (by simp)]
    rw [parseRestrictEntries_nil_input]
  rw [show chars "( " ++ renderRestrictList es ++ chars " )" =
      '(' :: (' ' :: (renderRestrictList es ++ (' ' :: ')' :: []))) by simp [chars]]
  unfold RestrictExpr.parse Restrict.parseRestrictString
  rw [htop]
  rfl


/-! ## The LICENSE grammar: soundness and render/parse -/


theorem license_wfEntries_append (a b : List LicenseExpr) :
    License.wfEntries (a ++ b) = (License.wfEntries a && License.wfEntries b) := by
  induction a with
  | nil => simp [License.wfEntries]
  | cons e t ih => simp [License.wfEntries, ih, Bool.and_assoc]

theorem license_name_sound (s : Str) (e : LicenseExpr) (rest : Str)
    (h : License.parseLicenseName s = .ok e rest) : License.wfEntry e = true := by
  unfold License.parseLicenseName at h
  split at h
  · rename_i name rest1 htw
    unfold takeWhile1 at htw
    simp only [] at htw
    split at htw
    · simp at htw
    · rename_i hemp
      injection htw with h1 h2
      split at h
      · simp at h
      · rename_i hverify
        injection h with h3 h4
        subst h3
        simp only [License.wfEntry, Bool.and_eq_true]
        refine ⟨⟨?_, ?_⟩, ?_⟩
        · rw [← h1]
          simpa using hemp
        · rw [← h1]
          exact all_takeWhile _ _
        · simpa using hverify
  · simp at h
  · simp at h

theorem license_sound :
    ∀ (n : Nat) (s : Str), s.length = n →
      ((∀ e rest, License.parseAnyOf s = .ok e rest → License.wfEntry e = true) ∧
       (∀ e rest, License.parseUseConditional s = .ok e rest →
          License.wfEntry e = true) ∧
       (∀ es rest, License.parseParenGroup s = .ok es rest →
          License.wfEntries es = true) ∧
       (∀ es rest, License.parseLicenseEntry s = .ok es rest →
          License.wfEntries es = true) ∧
       (∀ es rest, License.parseLicenseEntries s = .ok es rest →
          License.wfEntries es = true ∧ rest.length ≤ s.length)) := by
  intro n
  induction n using Nat.strong_induction_on with
  | _ n IH =>
  intro s hs
  subst hs
  have ihEntries : ∀ t : Str, t.length < s.length →
      ∀ es rest, License.parseLicenseEntries t = .ok es rest →
        License.wfEntries es = true ∧ rest.length ≤ t.length :=
    fun t ht => (IH t.length ht t rfl).2.2.2.2
  have ihEntry : ∀ t : Str, t.length < s.length →
      ∀ es rest, License.parseLicenseEntry t = .ok es rest →
        License.wfEntries es = true :=
    fun t ht => (IH t.length ht t rfl).2.2.2.1
  have hAnyOf : ∀ e rest, License.parseAnyOf s = .ok e rest →
      License.wfEntry e = true := by
    intro e rest h
    unfold License.parseAnyOf at h
    split at h
    · rename_i s1
      split at h
      · rename_i s2 hp
        split at h
        · rename_i xE entries rest1 hent
          split at h
          · rename_i xM rest2 hms
            cases h
            have hlen : s2.length < ('|' :: '|' :: s1).length := by
              have h2 := congrArg List.length hp
              have h3 := length_ms0_le s1
              simp at h2
              simp
              omega
            have hwf := (ihEntries s2 hlen entries rest1 hent).1
            simpa [License.wfEntry] using hwf
          · simp at h
        · simp at h
      · simp at h
    · simp at h
  have hUC : ∀ e rest, License.parseUseConditional s = .ok e rest →
      License.wfEntry e = true := by
    intro e rest h
    unfold License.parseUseConditional at h
    simp only [] at h
    split at h
    · rename_i hneg
      simp only [hneg, reduceIte] at h
      split at h
      · simp at h
      · rename_i hflag
        split at h
        · rename_i s2 hq
          simp only [hneg, reduceIte] at hq
          split at h
          · rename_i s3 hp
            split at h
            · rename_i xE entries rest1 hent
              split at h
              · rename_i xM rest2 hms
                cases h
                have hlen : s3.length < s.length := by
                  have h1 := congrArg List.length hq
                  have h2 := congrArg List.length hp
                  have h3 := length_ms0_le s2
                  simp [List.length_drop] at h1 h2
                  have h5 : (List.tail s).length ≤ s.length := by
                    cases s <;> simp
                  omega
                have hwf := (ihEntries s3 hlen entries rest1 hent).1
                simp only [License.wfEntry, Bool.and_eq_true]
                exact ⟨⟨by simpa using hflag, all_takeWhile _ _⟩, hwf⟩
              · simp at h
            · simp at h
          · simp at h
        · simp at h
    · rename_i hneg
      simp only [hneg, reduceIte] at h
      split at h
      · simp at h
      · rename_i hflag
        split at h
        · rename_i s2 hq
          simp only [hneg, reduceIte] at hq
          split at h
          · rename_i s3 hp
            split at h
            · rename_i xE entries rest1 hent
              split at h
              · rename_i xM rest2 hms
                cases h
                have hlen : s3.length < s.length := by
                  have h1 := congrArg List.length hq
                  have h2 := congrArg List.length hp
                  have h3 := length_ms0_le s2
                  simp [List.length_drop] at h1 h2
                  omega
                have hwf := (ihEntries s3 hlen entries rest1 hent).1
                simp only [License.wfEntry, Bool.and_eq_true]
                exact ⟨⟨by simpa using hflag, all_takeWhile _ _⟩, hwf⟩
              · simp at h
            · simp at h
          · simp at h
        · simp at h
  have hPG : ∀ es rest, License.parseParenGroup s = .ok es rest →
      License.wfEntries es = true := by
    intro es rest h
    unfold License.parseParenGroup at h
    split at h
    · rename_i s1
      split at h
      · rename_i entries rest1 hent
        split at h
        · rename_i rest2 hms
          cases h
          exact (ihEntries s1 (by simp) es rest1 hent).1
        · simp at h
      · simp at h
      · simp at h
    · simp at h
  have hEntry : ∀ es rest, License.parseLicenseEntry s = .ok es rest →
      License.wfEntries es = true := by
    intro es rest h
    unfold License.parseLicenseEntry at h
    split at h
    · simp at h
    · rename_i c t
      split at h
      · split at h
        · rename_i e1 r1 hao
          cases h
          simp only [License.wfEntries, Bool.and_eq_true]
          exact ⟨hAnyOf _ _ hao, trivial⟩
        · simp at h
        · simp at h
      · split at h
        · exact hPG _ _ h
        · split at h
          · rename_i e1 r1 huc
            cases h
            simp only [License.wfEntries, Bool.and_eq_true]
            exact ⟨hUC _ _ huc, trivial⟩
          · simp at h
          · split at h
            · rename_i e1 r1 hname
              cases h
              simp only [License.wfEntries, Bool.and_eq_true]
              exact ⟨license_name_sound _ _ _ hname, trivial⟩
            · simp at h
            · simp at h
  have hEntries : ∀ es rest, License.parseLicenseEntries s = .ok es rest →
      License.wfEntries es = true ∧ rest.length ≤ s.length := by
    intro es rest h
    unfold License.parseLicenseEntries at h
    split at h
    · rename_i b1 rest1 hent1
      split at h
      · rename_i hlt
        split at h
        · rename_i es2 rest2 hrec
          cases h
          have hrec2 := ihEntries rest1 hlt _ _ hrec
          have hwf1 : License.wfEntries b1 = true := by
            rcases ms0_eq_or_lt s with heq | hlt2
            · rw [heq] at hent1
              exact hEntry _ _ hent1
            · exact ihEntry (ms0 s) hlt2 _ _ hent1
          refine ⟨?_, ?_⟩
          · rw [license_wfEntries_append]
            simp [hwf1, hrec2.1]
          · have := hrec2.2
            omega
        · simp at h
        · simp at h
      · simp at h
    · cases h
      exact ⟨rfl, Nat.le_refl _⟩
    · simp at h
  exact ⟨hAnyOf, hUC, hPG, hEntry, hEntries⟩

theorem license_uc_fail_on_name (t rest : Str) (ht : t ≠ [])
    (htc : t.all License.isLicenseChar = true)
    (hrest : ∀ c, rest.head? = some c → License.isLicenseChar c = false ∧
      License.isFlagChar c = false ∧ c ≠ '?') :
    License.parseUseConditional (t ++ rest) = .fail := by
  have hhead : ∃ a, (t ++ rest).head? = some a ∧ License.isLicenseChar a = true := by
    cases t with
    | nil => exact absurd rfl ht
    | cons a t' =>
      refine ⟨a, rfl, ?_⟩
      simp [List.all_cons, Bool.and_eq_true] at htc
      exact htc.1
  obtain ⟨a, hha, hta⟩ := hhead
  have hneg : (decide ((t ++ rest).head? = some '!')) = false := by
    rw [decide_eq_false_iff_not]
    intro hcon
    rw [hha] at hcon
    cases hcon
    exact absurd hta (by decide)
  have hq' : ∀ c, ((t ++ rest).drop
      ((t ++ rest).takeWhile License.isFlagChar).length).head? = some c → c ≠ '?' := by
    intro c hc
    by_cases hall : t.all License.isFlagChar = true
    · rw [takeWhile_append_all _ _ _ hall] at hc
      have hr0 : rest.takeWhile License.isFlagChar = [] := by
        cases rest with
        | nil => rfl
        | cons r rr => simp [List.takeWhile_cons, (hrest r rfl).2.1]
      rw [hr0, List.append_nil, List.drop_left] at hc
      exact (hrest c hc).2.2
    · rw [takeWhile_append_not_all _ _ _ hall] at hc
      have hlt := length_takeWhile_lt_of_not_all _ _ hall
      rw [List.drop_append_of_le_length (Nat.le_of_lt hlt)] at hc
      have hne : t.drop (t.takeWhile License.isFlagChar).length ≠ [] := by
        intro hcon
        have := congrArg List.length hcon
        simp [List.length_drop] at this
        omega
      have hcm : c ∈ t := by
        cases hd : t.drop (t.takeWhile License.isFlagChar).length with
        | nil => exact absurd hd hne
        | cons b bb =>
          rw [hd] at hc
          simp at hc
          rw [← hc]
          exact mem_of_head_drop t _ b (by rw [hd]; rfl)
      have htc2 : License.isLicenseChar c = true := by
        rw [List.all_eq_true] at htc
        exact htc c hcm
      intro hcon
      rw [hcon] at htc2
      exact absurd htc2 (by decide)
  unfold License.parseUseConditional
  simp only []
  simp only [hneg]
  split
  · rename_i hcon
    exact absurd hcon (by decide)
  · split
    · rfl
    · split
      · rename_i s2 hq
        simp only [hneg, Bool.false_eq_true, if_false] at hq
        have hcon := hq' '?' (by rw [hq]; rfl)
        exact absurd rfl hcon
      · rfl

theorem license_uc_fail_flagless (s : Str)
    (h : ∀ c, s.head? = some c → License.isFlagChar c = false ∧ c ≠ '!') :
    License.parseUseConditional s = .fail := by
  have hneg : (decide (s.head? = some '!')) = false := by
    rw [decide_eq_false_iff_not]
    intro hcon
    exact absurd rfl (h '!' hcon).2
  have hflag : s.takeWhile License.isFlagChar = [] := by
    cases s with
    | nil => rfl
    | cons c r => simp [List.takeWhile_cons, (h c rfl).1]
  unfold License.parseUseConditional
  simp only []
  simp only [hneg]
  split
  · rename_i hcon
    exact absurd hcon (by decide)
  · rw [if_pos (by rw [hflag]; rfl)]

theorem license_entry_fail_stop (s : Str)
    (h : s = [] ∨ s.head? = some ')') :
    License.parseLicenseEntry s = .fail := by
  rcases h with rfl | h
  · unfold License.parseLicenseEntry
    rfl
  · obtain ⟨r, rfl⟩ : ∃ r, s = ')' :: r := by
      cases s with
      | nil => simp at h
      | cons a r =>
        simp at h
        exact ⟨r, by rw [h]⟩
    unfold License.parseLicenseEntry
    rw [if_neg (by decide), if_neg (by decide)]
    rw [license_uc_fail_flagless _ (by
      intro c hc
      simp at hc
      rw [← hc]
      exact ⟨by decide, by decide⟩)]
    unfold License.parseLicenseName
    rw [takeWhile1_stop _ _ (by
      intro c hc
      simp at hc
      rw [← hc]
      decide)]

theorem license_name_append (t rest : Str) (ht : t ≠ [])
    (htc : t.all License.isLicenseChar = true)
    (hhd : (t.head? = some '-' || t.head? = some '.' || t.head? = some '+') = false)
    (hrest : ∀ c, rest.head? = some c → License.isLicenseChar c = false) :
    License.parseLicenseName (t ++ rest) = .ok (.License t) rest := by
  unfold License.parseLicenseName
  rw [takeWhile1_append License.isLicenseChar t rest ht
    (by rw [List.all_eq_true] at htc; exact htc) hrest]
  show (if (decide (t.head? = some '-') || decide (t.head? = some '.') ||
      decide (t.head? = some '+')) = true then PRes.fail
    else PRes.ok (LicenseExpr.License t) rest) = PRes.ok (LicenseExpr.License t) rest
  rw [hhd]
  rfl

theorem license_uc_render (neg : Bool) (flag mid rest : Str)
    (entries : List LicenseExpr) (rst1 : Str)
    (hflag_ne : flag ≠ []) (hflag : flag.all License.isFlagChar = true)
    (hent : License.parseLicenseEntries (' ' :: (mid ++ (' ' :: ')' :: rest))) =
      .ok entries rst1)
    (hms : ms0 rst1 = ')' :: rest) :
    License.parseUseConditional
      ((if neg then ['!'] else []) ++ flag ++ chars "? ( " ++ mid ++ chars " )" ++ rest) =
      .ok (.UseConditional flag neg entries) rest := by
  have hflagmem : ∀ c ∈ flag, License.isFlagChar c = true := by
    rw [List.all_eq_true] at hflag
    exact hflag
  have hq : chars "? ( " = '?' :: ' ' :: '(' :: ' ' :: [] := rfl
  have hcl : chars " )" = ' ' :: ')' :: [] := rfl
  have hstop : ∀ (X : Str) c, ('?' :: X).head? = some c → License.isFlagChar c = false := by
    intro X c hc
    simp at hc
    rw [← hc]
    decide
  cases neg with
  | true =>
    have hd : ∀ X : Str, decide (('!' :: X).head? = some '!') = true := by
      intro X
      simp
    simp only [if_pos, hq, hcl, List.append_assoc, List.cons_append, List.nil_append,
      List.singleton_append]
    unfold License.parseUseConditional
    simp only []
    simp only [hd, eq_self_iff_true, if_true, List.tail_cons]
    split
    · rename_i hflagE
      obtain ⟨a, fl, rfl⟩ : ∃ a fl, flag = a :: fl := by
        cases flag with
        | nil => exact absurd rfl hflag_ne
        | cons a fl => exact ⟨a, fl, rfl⟩
      simp [List.takeWhile_cons, hflagmem a (by simp)] at hflagE
    split
    · rename_i s2 hq2
      simp only [hd, eq_self_iff_true, if_true] at hq2
      rw [takeWhile_append_stop License.isFlagChar flag _ hflagmem (hstop _),
          List.drop_left] at hq2
      rw [takeWhile_append_stop License.isFlagChar flag _ hflagmem (hstop _)]
      injection hq2 with h1 h2
      subst h2
      split
      · rename_i s3 hp2
        rw [ms0_cons ' ' _ (by decide),
            ms0_not_space _ (by intro c hc; simp at hc; rw [← hc]; decide)] at hp2
        injection hp2 with h3 h4
        subst h4
        split
        · rename_i e2 r2 hent2
          rw [hent] at hent2
          injection hent2 with h5 h6
          subst h5
          subst h6
          rw [hms]
          rfl
        · rename_i hent2
          rw [hent] at hent2
          simp at hent2
      · rename_i hp2
        rw [ms0_cons ' ' _ (by decide),
            ms0_not_space _ (by intro c hc; simp at hc; rw [← hc]; decide)] at hp2
        exact absurd rfl (hp2 _)
    · rename_i hq2
      have hcon := hq2 (' ' :: '(' :: ' ' :: (mid ++ ' ' :: ')' :: rest))
      simp only [hd, eq_self_iff_true, if_true] at hcon
      rw [takeWhile_append_stop License.isFlagChar flag _ hflagmem (hstop _),
          List.drop_left] at hcon
      exact absurd rfl hcon
  | false =>
    have hd : decide ((flag ++ '?' :: ' ' :: '(' :: ' ' :: (mid ++ ' ' :: ')' :: rest)).head? =
        some '!') = false := by
      rw [decide_eq_false_iff_not]
      intro hcon
      obtain ⟨a, fl, rfl⟩ : ∃ a fl, flag = a :: fl := by
        cases flag with
        | nil => exact absurd rfl hflag_ne
        | cons a fl => exact ⟨a, fl, rfl⟩
      simp at hcon
      have := hflagmem '!' (by rw [hcon]; simp)
      exact absurd this (by decide)
    simp only [hq, hcl, List.append_assoc, List.cons_append, List.nil_append,
      Bool.false_eq_true, if_false]
    unfold License.parseUseConditional
    simp only []
    simp only [hd, Bool.false_eq_true, if_false]
    split
    · rename_i hflagE
      obtain ⟨a, fl, rfl⟩ : ∃ a fl, flag = a :: fl := by
        cases flag with
        | nil => exact absurd rfl hflag_ne
        | cons a fl => exact ⟨a, fl, rfl⟩
      simp [List.takeWhile_cons, hflagmem a (by simp)] at hflagE
    split
    · rename_i s2 hq2
      simp only [hd, Bool.false_eq_true, if_false] at hq2
      rw [takeWhile_append_stop License.isFlagChar flag _ hflagmem (hstop _),
          List.drop_left] at hq2
      rw [takeWhile_append_stop License.isFlagChar flag _ hflagmem (hstop _)]
      injection hq2 with h1 h2
      subst h2
      split
      · rename_i s3 hp2
        rw [ms0_cons ' ' _ (by decide),
            ms0_not_space _ (by intro c hc; simp at hc; rw [← hc]; decide)] at hp2
        injection hp2 with h3 h4
        subst h4
        split
        · rename_i e2 r2 hent2
          rw [hent] at hent2
          injection hent2 with h5 h6
          subst h5
          subst h6
          rw [hms]
          rfl
        · rename_i hent2
          rw [hent] at hent2
          simp at hent2
      · rename_i hp2
        rw [ms0_cons ' ' _ (by decide),
            ms0_not_space _ (by intro c hc; simp at hc; rw [← hc]; decide)] at hp2
        exact absurd rfl (hp2 _)
    · rename_i hq2
      have hcon := hq2 (' ' :: '(' :: ' ' :: (mid ++ ' ' :: ')' :: rest))
      simp only [hd, Bool.false_eq_true, if_false] at hcon
      rw [takeWhile_append_stop License.isFlagChar flag _ hflagmem (hstop _),
          List.drop_left] at hcon
      exact absurd rfl hcon

theorem license_anyof_render (mid rest : Str)
    (entries : List LicenseExpr) (rst1 : Str)
    (hent : License.parseLicenseEntries (' ' :: (mid ++ (' ' :: ')' :: rest))) =
      .ok entries rst1)
    (hms : ms0 rst1 = ')' :: rest) :
    License.parseAnyOf (chars "|| ( " ++ mid ++ chars " )" ++ rest) =
      .ok (.AnyOf entries) rest := by
  rw [show chars "|| ( " ++ mid ++ chars " )" ++ rest =
      '|' :: '|' :: (' ' :: '(' :: ' ' :: (mid ++ (' ' :: ')' :: rest))) by
    simp [chars]]
  unfold License.parseAnyOf
  split
  · rename_i s1 heq
    injection heq with h1 heq
    injection heq with h2 heq
    subst heq
    split
    · rename_i s2 hp2
      rw [ms0_cons ' ' _ (by decide),
          ms0_not_space _ (by intro c hc; simp at hc; rw [← hc]; decide)] at hp2
      injection hp2 with h3 h4
      subst h4
      split
      · rename_i e2 r2 hent2
        rw [hent] at hent2
        injection hent2 with h5 h6
        subst h5
        subst h6
        rw [hms]
        rfl
      · rename_i hent2
        rw [hent] at hent2
        simp at hent2
    · rename_i hp2
      rw [ms0_cons ' ' _ (by decide),
          ms0_not_space _ (by intro c hc; simp at hc; rw [← hc]; decide)] at hp2
      exact absurd rfl (hp2 _)
  · rename_i hno
    exact absurd rfl (hno _)

theorem license_entry_of_uc (s : Str) (e : LicenseExpr) (rest : Str)
    (hhead : ∀ c, s.head? = some c → ¬(c = '|') ∧ ¬(c = '('))
    (h : License.parseUseConditional s = .ok e rest) :
    License.parseLicenseEntry s = .ok [e] rest := by
  cases s with
  | nil =>
    rw [license_uc_fail_flagless [] (by intro c hc; simp at hc)] at h
    simp at h
  | cons a r =>
    unfold License.parseLicenseEntry
    rw [if_neg (hhead a rfl).1, if_neg (hhead a rfl).2]
    rw [h]

theorem license_entry_of_anyof (s : Str) (e : LicenseExpr) (rest : Str)
    (h : License.parseAnyOf ('|' :: s) = .ok e rest) :
    License.parseLicenseEntry ('|' :: s) = .ok [e] rest := by
  unfold License.parseLicenseEntry
  rw [if_pos rfl]
  rw [h]

theorem license_entry_name (t rest : Str) (ht : t ≠ [])
    (htc : t.all License.isLicenseChar = true)
    (hhd : (t.head? = some '-' || t.head? = some '.' || t.head? = some '+') = false)
    (hrest : ∀ c, rest.head? = some c → License.isLicenseChar c = false ∧
      License.isFlagChar c = false ∧ c ≠ '?') :
    License.parseLicenseEntry (t ++ rest) = .ok [.License t] rest := by
  obtain ⟨a, t', rfl⟩ : ∃ a t', t = a :: t' := by
    cases t with
    | nil => exact absurd rfl ht
    | cons a t' => exact ⟨a, t', rfl⟩
  have ha : License.isLicenseChar a = true := by
    simp [List.all_cons, Bool.and_eq_true] at htc
    exact htc.1
  rw [List.cons_append]
  unfold License.parseLicenseEntry
  rw [if_neg (by intro hcon; rw [hcon] at ha; exact absurd ha (by decide))]
  rw [if_neg (by intro hcon; rw [hcon] at ha; exact absurd ha (by decide))]
  rw [← List.cons_append]
  rw [license_uc_fail_on_name _ rest ht htc hrest]
  rw [license_name_append _ rest ht htc hhd (fun c hc => (hrest c hc).1)]

theorem licChar_not_ms (c : Char) (h : License.isLicenseChar c = true) :
    isMultispace c = false := by
  by_contra hcon
  simp only [Bool.not_eq_false] at hcon
  rcases isMultispace_elim c hcon with rfl | rfl | rfl | rfl <;> exact absurd h (by decide)

theorem license_stop_of_ms0 (rest : Str)
    (h : (ms0 rest).head? = some ')' ∨ ms0 rest = []) :
    ∀ c, rest.head? = some c → License.isLicenseChar c = false ∧
      License.isFlagChar c = false ∧ c ≠ '?' := by
  intro c hc
  obtain ⟨r, rfl⟩ : ∃ r, rest = c :: r := by
    cases rest with
    | nil => simp at hc
    | cons a r =>
      simp at hc
      exact ⟨r, by rw [hc]⟩
  by_cases hm : isMultispace c = true
  · rcases isMultispace_elim c hm with rfl | rfl | rfl | rfl <;>
      exact ⟨by decide, by decide, by decide⟩
  · rw [ms0_not_space _ (by intro d hd; simp at hd; rw [← hd]; simpa using hm)] at h
    rcases h with h | h
    · simp at h
      rw [h]
      exact ⟨by decide, by decide, by decide⟩
    · simp at h

theorem license_rp :
    ∀ (n : Nat),
      (∀ e : LicenseExpr, sizeOf e ≤ n → License.wfEntry e = true →
        LicenseExpr.render e ≠ [] ∧
        (∀ c, (LicenseExpr.render e).head? = some c → isMultispace c = false) ∧
        (∀ rest, (∀ c, rest.head? = some c → License.isLicenseChar c = false ∧
            License.isFlagChar c = false ∧ c ≠ '?') →
          License.parseLicenseEntry (LicenseExpr.render e ++ rest) = .ok [e] rest)) ∧
      (∀ es : List LicenseExpr, sizeOf es ≤ n → License.wfEntries es = true →
        ∀ pad rest, pad.all isMultispace = true →
          ((ms0 rest).head? = some ')' ∨ ms0 rest = []) →
          License.parseLicenseEntries (pad ++ renderLicenseList es ++ rest) =
            .ok es (if es.isEmpty then pad ++ rest else rest)) := by
  intro n
  induction n using Nat.strong_induction_on with
  | _ n IH =>
  constructor
  · intro e hsz hwf
    match e with
    | .License name =>
      simp only [License.wfEntry, Bool.and_eq_true] at hwf
      obtain ⟨⟨hne, hcs⟩, hhd⟩ := hwf
      have hname_ne : name ≠ [] := by simpa [List.isEmpty_iff] using hne
      refine ⟨hname_ne, ?_, ?_⟩
      · intro c hc
        have hcm : c ∈ name := by
          cases name with
          | nil => exact absurd rfl hname_ne
          | cons a t' =>
            simp only [LicenseExpr.render] at hc
            simp at hc
            simp [hc]
        rw [List.all_eq_true] at hcs
        exact licChar_not_ms c (hcs c hcm)
      · intro rest hrest
        exact license_entry_name name rest hname_ne hcs (by simpa using hhd) hrest
    | .AnyOf entries =>
      have hwfes : License.wfEntries entries = true := hwf
      have hszes : sizeOf entries < n := by
        have : sizeOf entries < sizeOf (LicenseExpr.AnyOf entries) := by
          simp
        omega
      have ihEnt := (IH (sizeOf entries) hszes).2 entries (Nat.le_refl _) hwfes
      refine ⟨by simp [LicenseExpr.render, chars], ?_, ?_⟩
      · intro c hc
        simp only [LicenseExpr.render] at hc
        rw [show chars "|| ( " ++ renderLicenseList entries ++ chars " )" =
            '|' :: ('|' :: (' ' :: '(' :: ' ' :: (renderLicenseList entries ++
              (' ' :: ')' :: [])))) by simp [chars]] at hc
        simp at hc
        rw [← hc]
        decide
      · intro rest hrest
        have hstop2 : (ms0 (' ' :: ')' :: rest)).head? = some ')' ∨
            ms0 (' ' :: ')' :: rest) = [] := by
          left
          rw [ms0_cons ' ' _ (by decide),
              ms0_not_space _ (by intro c hc; simp at hc; rw [← hc]; decide)]
          rfl
        have hent0 := ihEnt [' '] (' ' :: ')' :: rest) (by decide) hstop2
        rw [show ([' '] ++ renderLicenseList entries ++ (' ' :: ')' :: rest)) =
            ' ' :: (renderLicenseList entries ++ (' ' :: ')' :: rest)) by
          simp] at hent0
        have hms : ms0 (if entries.isEmpty then [' '] ++ (' ' :: ')' :: rest)
            else ' ' :: ')' :: rest) = ')' :: rest := by
          by_cases hemp : entries.isEmpty
          · rw [if_pos hemp]
            rw [show [' '] ++ (' ' :: ')' :: rest) = ' ' :: ' ' :: ')' :: rest by simp]
            rw [ms0_cons ' ' _ (by decide), ms0_cons ' ' _ (by decide),
                ms0_not_space _ (by intro c hc; simp at hc; rw [← hc]; decide)]
          · rw [if_neg hemp]
            rw [ms0_cons ' ' _ (by decide),
                ms0_not_space _ (by intro c hc; simp at hc; rw [← hc]; decide)]
        have hao := license_anyof_render (renderLicenseList entries) rest entries _
          hent0 hms
        have hgoal : LicenseExpr.render (.AnyOf entries) ++ rest =
            '|' :: ('|' :: ' ' :: '(' :: ' ' :: (renderLicenseList entries ++
              (' ' :: ')' :: rest))) := by
          simp [LicenseExpr.render, chars]
        rw [hgoal]
        apply license_entry_of_anyof
        rw [show chars "|| ( " ++ renderLicenseList entries ++ chars " )" ++ rest =
          '|' :: ('|' :: ' ' :: '(' :: ' ' :: (renderLicenseList entries ++
              (' ' :: ')' :: rest))) by simp [chars]] at hao
        exact hao
    | .UseConditional flag neg entries =>
      simp only [License.wfEntry, Bool.and_eq_true] at hwf
      obtain ⟨⟨hfne, hfc⟩, hwfes⟩ := hwf
      have hflag_ne : flag ≠ [] := by simpa [List.isEmpty_iff] using hfne
      have hszes : sizeOf entries < n := by
        have : sizeOf entries < sizeOf (LicenseExpr.UseConditional flag neg entries) := by
          simp
        omega
      have ihEnt := (IH (sizeOf entries) hszes).2 entries (Nat.le_refl _) hwfes
      refine ⟨?_, ?_, ?_⟩
      · intro hcon
        have hlen := congrArg List.length hcon
        simp [LicenseExpr.render, chars] at hlen
      · intro c hc
        cases neg with
        | true =>
          simp only [LicenseExpr.render, if_pos] at hc
          simp at hc
          rw [← hc]
          decide
        | false =>
          obtain ⟨a, fl, rfl⟩ : ∃ a fl, flag = a :: fl := by
            cases flag with
            | nil => exact absurd rfl hflag_ne
            | cons a fl => exact ⟨a, fl, rfl⟩
          simp only [LicenseExpr.render, Bool.false_eq_true, if_false, List.nil_append,
            List.cons_append, List.head?_cons] at hc
          have hca : a = c := by simpa using hc
          rw [List.all_eq_true] at hfc
          have := hfc a (by simp)
          rw [hca] at this
          by_contra hcon
          simp only [Bool.not_eq_false] at hcon
          rcases isMultispace_elim c hcon with rfl | rfl | rfl | rfl <;>
            exact absurd this (by decide)
      · intro rest hrest
        have hstop2 : (ms0 (' ' :: ')' :: rest)).head? = some ')' ∨
            ms0 (' ' :: ')' :: rest) = [] := by
          left
          rw [ms0_cons ' ' _ (by decide),
              ms0_not_space _ (by intro c hc; simp at hc; rw [← hc]; decide)]
          rfl
        have hent0 := ihEnt [' '] (' ' :: ')' :: rest) (by decide) hstop2
        rw [show ([' '] ++ renderLicenseList entries ++ (' ' :: ')' :: rest)) =
            ' ' :: (renderLicenseList entries ++ (' ' :: ')' :: rest)) by
          simp] at hent0
        have hms : ms0 (if entries.isEmpty then [' '] ++ (' ' :: ')' :: rest)
            else ' ' :: ')' :: rest) = ')' :: rest := by
          by_cases hemp : entries.isEmpty
          · rw [if_pos hemp]
            rw [show [' '] ++ (' ' :: ')' :: rest) = ' ' :: ' ' :: ')' :: rest by simp]
            rw [ms0_cons ' ' _ (by decide), ms0_cons ' ' _ (by decide),
                ms0_not_space _ (by intro c hc; simp at hc; rw [← hc]; decide)]
          · rw [if_neg hemp]
            rw [ms0_cons ' ' _ (by decide),
                ms0_not_space _ (by intro c hc; simp at hc; rw [← hc]; decide)]
        have huc := license_uc_render neg flag (renderLicenseList entries) rest
          entries _ hflag_ne hfc hent0 hms
        have hgoal : LicenseExpr.render (.UseConditional flag neg entries) ++ rest =
            (if neg then ['!'] else []) ++ flag ++ chars "? ( " ++
              renderLicenseList entries ++ chars " )" ++ rest := by
          simp [LicenseExpr.render]
        rw [hgoal]
        apply license_entry_of_uc _ _ _ ?_ huc
        intro c hc
        cases neg with
        | true =>
          simp at hc
          rw [← hc]
          exact ⟨by decide, by decide⟩
        | false =>
          obtain ⟨a, fl, rfl⟩ : ∃ a fl, flag = a :: fl := by
            cases flag with
            | nil => exact absurd rfl hflag_ne
            | cons a fl => exact ⟨a, fl, rfl⟩
          simp only [Bool.false_eq_true, if_false, List.nil_append,
            List.cons_append, List.head?_cons] at hc
          have hca : a = c := by simpa using hc
          rw [List.all_eq_true] at hfc
          have := hfc a (by simp)
          rw [hca] at this
          constructor
          · intro hcon
            rw [hcon] at this
            exact absurd this (by decide)
          · intro hcon
            rw [hcon] at this
            exact absurd this (by decide)
    | .All entries =>
      simp [License.wfEntry] at hwf
  · intro es hsz hwf pad rest hpad hstop
    match es with
    | [] =>
      unfold License.parseLicenseEntries
      rw [show pad ++ renderLicenseList [] ++ rest = pad ++ rest by
        simp [renderLicenseList]]
      rw [ms0_append_ms pad rest hpad]
      rw [license_entry_fail_stop (ms0 rest) (Or.symm hstop)]
      simp
    | e :: es' =>
      simp only [License.wfEntries, Bool.and_eq_true] at hwf
      obtain ⟨hwfe, hwfes'⟩ := hwf
      have hsze : sizeOf e < n := by
        have : sizeOf e < sizeOf (e :: es') := by
          simp only [List.cons.sizeOf_spec]
          omega
        omega
      obtain ⟨hrne, hrhead, hrparse⟩ := (IH (sizeOf e) hsze).1 e (Nat.le_refl _) hwfe
      have hszes' : sizeOf es' < n := by
        have : sizeOf es' < sizeOf (e :: es') := by
          simp only [List.cons.sizeOf_spec]
          omega
        omega
      have ihES := (IH (sizeOf es') hszes').2 es' (Nat.le_refl _) hwfes'
      have hrlen : 0 < (LicenseExpr.render e).length := List.length_pos.mpr hrne
      cases es' with
      | nil =>
        unfold License.parseLicenseEntries
        rw [show pad ++ renderLicenseList [e] ++ rest = pad ++ (e.render ++ rest) by
          simp [renderLicenseList]]
        rw [ms0_append_ms pad _ hpad]
        rw [ms0_not_space _ (fun c hc => by
          rw [head_append_ne _ _ hrne] at hc
          exact hrhead c hc)]
        rw [hrparse rest (license_stop_of_ms0 rest hstop)]
        simp only []
        rw [dif_pos (by simp [List.length_append]; omega)]
        have hrec := ihES [] rest (by decide) hstop
        simp only [renderLicenseList, List.nil_append, List.isEmpty_nil, if_pos] at hrec
        rw [hrec]
        simp
      | cons e2 es'' =>
        unfold License.parseLicenseEntries
        rw [show pad ++ renderLicenseList (e :: e2 :: es'') ++ rest =
            pad ++ (e.render ++ (' ' :: (renderLicenseList (e2 :: es'') ++ rest))) by
          simp [renderLicenseList]]
        rw [ms0_append_ms pad _ hpad]
        rw [ms0_not_space _ (fun c hc => by
          rw [head_append_ne _ _ hrne] at hc
          exact hrhead c hc)]
        rw [hrparse _ (by
          intro c hc
          simp at hc
          rw [← hc]
          exact ⟨by decide, by decide, by decide⟩)]
        simp only []
        rw [dif_pos (by simp [List.length_append]; omega)]
        have hrec := ihES [' '] rest (by decide) hstop
        rw [show [' '] ++ renderLicenseList (e2 :: es'') ++ rest =
            ' ' :: (renderLicenseList (e2 :: es'') ++ rest) by simp] at hrec
        rw [if_neg (by simp)] at hrec
        rw [hrec]
        simp

theorem license_parse_single (e : LicenseExpr) (hwf : License.wfEntry e = true) :
    LicenseExpr.parse (LicenseExpr.render e) = .ok e := by
  have h := (license_rp (sizeOf [e])).2 [e] (Nat.le_refl _)
    (by simp [License.wfEntries, hwf]) [] [] (by decide) (by right; rfl)
  simp only [List.nil_append, List.append_nil, List.isEmpty_cons, Bool.false_eq_true,
    if_false] at h
  rw [show renderLicenseList [e] = LicenseExpr.render e from rfl] at h
  unfold LicenseExpr.parse License.parseLicenseString
  rw [h]
  rfl

theorem license_render_parse_tree (t : LicenseExpr)
    (hwf : License.wfTree t = true) :
    LicenseExpr.parse (LicenseExpr.render t) = .ok t := by
  match t with
  | .License name => exact license_parse_single _ hwf
  | .AnyOf es => exact license_parse_single _ hwf
  | .UseConditional flag neg es => exact license_parse_single _ hwf
  | .All es =>
    simp only [License.wfTree, Bool.and_eq_true] at hwf
    obtain ⟨hwfes, hlen⟩ := hwf
    have h := (license_rp (sizeOf es)).2 es (Nat.le_refl _) hwfes [] []
      (by decide) (by right; rfl)
    simp only [List.nil_append, List.append_nil, ite_self] at h
    rw [show LicenseExpr.render (.All es) = renderLicenseList es from rfl]
    unfold LicenseExpr.parse License.parseLicenseString
    rw [h]
    match es, hlen with
    | [], _ => rfl
    | [e], hlen => simp at hlen
    | e1 :: e2 :: r, _ => rfl

theorem license_parse_wfTree (s : Str) (t : LicenseExpr)
    (h : LicenseExpr.parse s = .ok t) : License.wfTree t = true := by
  unfold LicenseExpr.parse at h
  split at h
  · rename_i entries hps
    injection h with h2
    subst h2
    unfold License.parseLicenseString at hps
    split at hps
    · rename_i es3 rest3 hent
      injection hps with h5 h6
      subst h5
      have hwf := ((license_sound s.length s rfl).2.2.2.2 _ rest3 hent).1
      match es3, hwf with
      | [], _ => rfl
      | [e], hwf =>
        simp only [License.wfEntries, Bool.and_eq_true] at hwf
        have hwfe := hwf.1
        match e, hwfe with
        | .License name, hwfe => exact hwfe
        | .AnyOf es2, hwfe => exact hwfe
        | .UseConditional f n es2, hwfe => exact hwfe
        | .All es2, hwfe => simp [License.wfEntry] at hwfe
      | e1 :: e2 :: r, hwf =>
        simp only [License.wfTree, Bool.and_eq_true]
        exact ⟨hwf, by simp⟩
    · simp at hps
    · simp at hps
  · simp at h
  · simp at h


/-! ## The REQUIRED_USE grammar: soundness and render/parse -/


theorem ru_wfEntries_append (a b : List RequiredUseExpr) :
    RequiredUse.wfEntries (a ++ b) =
      (RequiredUse.wfEntries a && RequiredUse.wfEntries b) := by
  induction a with
  | nil => simp [RequiredUse.wfEntries]
  | cons e t ih => simp [RequiredUse.wfEntries, ih, Bool.and_assoc]

theorem takeWhile1_ok_inv (p : Char → Bool) (s name rest : Str)
    (h : takeWhile1 p s = .ok name rest) :
    name = s.takeWhile p ∧ name ≠ [] := by
  unfold takeWhile1 at h
  simp only [] at h
  split at h
  · simp at h
  · rename_i hemp
    injection h with h1 h2
    refine ⟨h1.symm, ?_⟩
    rw [← h1]
    simpa [List.isEmpty_iff] using hemp

theorem ru_flag_sound (s : Str) (e : RequiredUseExpr) (rest : Str)
    (h : RequiredUse.parseFlag s = .ok e rest) : RequiredUse.wfEntry e = true := by
  unfold RequiredUse.parseFlag at h
  simp only [] at h
  split at h
  · rename_i name rest1 htw
    injection h with h3 h4
    subst h3
    obtain ⟨hname, hne⟩ := takeWhile1_ok_inv _ _ _ _ htw
    simp only [RequiredUse.wfEntry, Bool.and_eq_true]
    constructor
    · simpa [List.isEmpty_iff] using hne
    · rw [hname]
      exact all_takeWhile _ _
  · simp at h
  · simp at h

theorem ru_sound :
    ∀ (n : Nat) (s : Str), s.length = n →
      ((∀ e rest, RequiredUse.parseAnyOf s = .ok e rest →
          RequiredUse.wfEntry e = true) ∧
       (∀ e rest, RequiredUse.parseExactlyOne s = .ok e rest →
          RequiredUse.wfEntry e = true) ∧
       (∀ e rest, RequiredUse.parseAtMostOne s = .ok e rest →
          RequiredUse.wfEntry e = true) ∧
       (∀ e rest, RequiredUse.parseUseConditional s = .ok e rest →
          RequiredUse.wfEntry e = true) ∧
       (∀ es rest, RequiredUse.parseParenGroup s = .ok es rest →
          RequiredUse.wfEntries es = true) ∧
       (∀ es rest, RequiredUse.parseRequiredUseEntry s = .ok es rest →
          RequiredUse.wfEntries es = true) ∧
       (∀ es rest, RequiredUse.parseRequiredUseEntries s = .ok es rest →
          RequiredUse.wfEntries es = true ∧ rest.length ≤ s.length)) := by
  intro n
  induction n using Nat.strong_induction_on with
  | _ n IH =>
  intro s hs
  subst hs
  have ihEntries : ∀ t : Str, t.length < s.length →
      ∀ es rest, RequiredUse.parseRequiredUseEntries t = .ok es rest →
        RequiredUse.wfEntries es = true ∧ rest.length ≤ t.length :=
    fun t ht => (IH t.length ht t rfl).2.2.2.2.2.2
  have ihEntry : ∀ t : Str, t.length < s.length →
      ∀ es rest, RequiredUse.parseRequiredUseEntry t = .ok es rest →
        RequiredUse.wfEntries es = true :=
    fun t ht => (IH t.length ht t rfl).2.2.2.2.2.1
  have hAnyOf : ∀ e rest, RequiredUse.parseAnyOf s = .ok e rest →
      RequiredUse.wfEntry e = true := by
    intro e rest h
    unfold RequiredUse.parseAnyOf at h
    split at h
    · rename_i s1
      split at h
      · rename_i s2 hp
        split at h
        · rename_i xE entries rest1 hent
          split at h
          · rename_i xM rest2 hms
            cases h
            have hlen : s2.length < ('|' :: '|' :: s1).length := by
              have h2 := congrArg List.length hp
              have h3 := length_ms0_le s1
              simp at h2
              simp
              omega
            have hwf := (ihEntries s2 hlen entries rest1 hent).1
            simpa [RequiredUse.wfEntry] using hwf
          · simp at h
        · simp at h
      · simp at h
    · simp at h
  have hExactly : ∀ e rest, RequiredUse.parseExactlyOne s = .ok e rest →
      RequiredUse.wfEntry e = true := by
    intro e rest h
    unfold RequiredUse.parseExactlyOne at h
    split at h
    · rename_i s1
      split at h
      · rename_i s2 hp
        split at h
        · rename_i xE entries rest1 hent
          split at h
          · rename_i xM rest2 hms
            cases h
            have hlen : s2.length < ('^' :: '^' :: s1).length := by
              have h2 := congrArg List.length hp
              have h3 := length_ms0_le s1
              simp at h2
              simp
              omega
            have hwf := (ihEntries s2 hlen entries rest1 hent).1
            simpa [RequiredUse.wfEntry] using hwf
          · simp at h
        · simp at h
      · simp at h
    · simp at h
  have hAtMost : ∀ e rest, RequiredUse.parseAtMostOne s = .ok e rest →
      RequiredUse.wfEntry e = true := by
    intro e rest h
    unfold RequiredUse.parseAtMostOne at h
    split at h
    · rename_i s1
      split at h
      · rename_i s2 hp
        split at h
        · rename_i xE entries rest1 hent
          split at h
          · rename_i xM rest2 hms
            cases h
            have hlen : s2.length < ('?' :: '?' :: s1).length := by
              have h2 := congrArg List.length hp
              have h3 := length_ms0_le s1
              simp at h2
              simp
              omega
            have hwf := (ihEntries s2 hlen entries rest1 hent).1
            simpa [RequiredUse.wfEntry] using hwf
          · simp at h
        · simp at h
      · simp at h
    · simp at h
  have hUC : ∀ e rest, RequiredUse.parseUseConditional s = .ok e rest →
      RequiredUse.wfEntry e = true := by
    intro e rest h
    unfold RequiredUse.parseUseConditional at h
    simp only [] at h
    split at h
    · rename_i hneg
      simp only [hneg, reduceIte] at h
      split at h
      · simp at h
      · rename_i hflag
        split at h
        · rename_i s2 hq
          simp only [hneg, reduceIte] at hq
          split at h
          · rename_i s3 hp
            split at h
            · rename_i xE entries rest1 hent
              split at h
              · rename_i xM rest2 hms
                cases h
                have hlen : s3.length < s.length := by
                  have h1 := congrArg List.length hq
                  have h2 := congrArg List.length hp
                  have h3 := length_ms0_le s2
                  simp [List.length_drop] at h1 h2
                  have h5 : (List.tail s).length ≤ s.length := by
                    cases s <;> simp
                  omega
                have hwf := (ihEntries s3 hlen entries rest1 hent).1
                simp only [RequiredUse.wfEntry, Bool.and_eq_true]
                exact ⟨⟨by simpa using hflag, all_takeWhile _ _⟩, hwf⟩
              · simp at h
            · simp at h
          · simp at h
        · simp at h
    · rename_i hneg
      simp only [hneg, reduceIte] at h
      split at h
      · simp at h
      · rename_i hflag
        split at h
        · rename_i s2 hq
          simp only [hneg, reduceIte] at hq
          split at h
          · rename_i s3 hp
            split at h
            · rename_i xE entries rest1 hent
              split at h
              · rename_i xM rest2 hms
                cases h
                have hlen : s3.length < s.length := by
                  have h1 := congrArg List.length hq
                  have h2 := congrArg List.length hp
                  have h3 := length_ms0_le s2
                  simp [List.length_drop] at h1 h2
                  omega
                have hwf := (ihEntries s3 hlen entries rest1 hent).1
                simp only [RequiredUse.wfEntry, Bool.and_eq_true]
                exact ⟨⟨by simpa using hflag, all_takeWhile _ _⟩, hwf⟩
              · simp at h
            · simp at h
          · simp at h
        · simp at h
  have hPG : ∀ es rest, RequiredUse.parseParenGroup s = .ok es rest →
      RequiredUse.wfEntries es = true := by
    intro es rest h
    unfold RequiredUse.parseParenGroup at h
    split at h
    · rename_i s1
      split at h
      · rename_i entries rest1 hent
        split at h
        · rename_i rest2 hms
          cases h
          exact (ihEntries s1 (by simp) es rest1 hent).1
        · simp at h
      · simp at h
      · simp at h
    · simp at h
  have hEntry : ∀ es rest, RequiredUse.parseRequiredUseEntry s = .ok es rest →
      RequiredUse.wfEntries es = true := by
    intro es rest h
    unfold RequiredUse.parseRequiredUseEntry at h
    split at h
    · simp at h
    · rename_i c t
      split at h
      · split at h
        · rename_i e1 r1 hao
          cases h
          simp only [RequiredUse.wfEntries, Bool.and_eq_true]
          exact ⟨hAnyOf _ _ hao, trivial⟩
        · simp at h
        · simp at h
      · split at h
        · split at h
          · rename_i e1 r1 hxo
            cases h
            simp only [RequiredUse.wfEntries, Bool.and_eq_true]
            exact ⟨hExactly _ _ hxo, trivial⟩
          · simp at h
          · simp at h
        · split at h
          · exact hPG _ _ h
          · split at h
            · split at h
              · rename_i e1 r1 hamo
                cases h
                simp only [RequiredUse.wfEntries, Bool.and_eq_true]
                exact ⟨hAtMost _ _ hamo, trivial⟩
              · simp at h
              · simp at h
            · split at h
              · rename_i e1 r1 huc
                cases h
                simp only [RequiredUse.wfEntries, Bool.and_eq_true]
                exact ⟨hUC _ _ huc, trivial⟩
              · simp at h
              · split at h
                · rename_i e1 r1 hfl
                  cases h
                  simp only [RequiredUse.wfEntries, Bool.and_eq_true]
                  exact ⟨ru_flag_sound _ _ _ hfl, trivial⟩
                · simp at h
                · simp at h
  have hEntries : ∀ es rest, RequiredUse.parseRequiredUseEntries s = .ok es rest →
      RequiredUse.wfEntries es = true ∧ rest.length ≤ s.length := by
    intro es rest h
    unfold RequiredUse.parseRequiredUseEntries at h
    split at h
    · rename_i b1 rest1 hent1
      split at h
      · rename_i hlt
        split at h
        · rename_i es2 rest2 hrec
          cases h
          have hrec2 := ihEntries rest1 hlt _ _ hrec
          have hwf1 : RequiredUse.wfEntries b1 = true := by
            rcases ms0_eq_or_lt s with heq | hlt2
            · rw [heq] at hent1
              exact hEntry _ _ hent1
            · exact ihEntry (ms0 s) hlt2 _ _ hent1
          refine ⟨?_, ?_⟩
          · rw [ru_wfEntries_append]
            simp [hwf1, hrec2.1]
          · have := hrec2.2
            omega
        · simp at h
        · simp at h
      · simp at h
    · cases h
      exact ⟨rfl, Nat.le_refl _⟩
    · simp at h
  exact ⟨hAnyOf, hExactly, hAtMost, hUC, hPG, hEntry, hEntries⟩

theorem ru_uc_fail_on_flag (neg : Bool) (t rest : Str) (ht : t ≠ [])
    (htc : t.all RequiredUse.isFlagChar = true)
    (hrest : ∀ c, rest.head? = some c → RequiredUse.isFlagChar c = false ∧ c ≠ '?') :
    RequiredUse.parseUseConditional ((if neg then ['!'] else []) ++ t ++ rest) = .fail := by
  have htmem : ∀ c ∈ t, RequiredUse.isFlagChar c = true := by
    rw [List.all_eq_true] at htc
    exact htc
  have hstop : ∀ c, rest.head? = some c → RequiredUse.isFlagChar c = false :=
    fun c hc => (hrest c hc).1
  cases neg with
  | true =>
    have hd : ∀ X : Str, decide (('!' :: X).head? = some '!') = true := by
      intro X
      simp
    simp only [if_pos, List.singleton_append, List.cons_append, List.append_assoc,
      List.nil_append]
    unfold RequiredUse.parseUseConditional
    simp only []
    simp only [hd, eq_self_iff_true, if_true, List.tail_cons, List.nil_append]
    split
    · rfl
    · split
      · rename_i s2 hq2
        simp only [hd, eq_self_iff_true, if_true] at hq2
        rw [takeWhile_append_stop RequiredUse.isFlagChar t _ htmem hstop,
            List.drop_left] at hq2
        have := hrest '?' (by rw [hq2]; rfl)
        exact absurd rfl this.2
      · rfl
  | false =>
    obtain ⟨a, t', rfl⟩ : ∃ a t', t = a :: t' := by
      cases t with
      | nil => exact absurd rfl ht
      | cons a t' => exact ⟨a, t', rfl⟩
    have ha : RequiredUse.isFlagChar a = true := htmem a (by simp)
    have hd : decide (((a :: t') ++ rest).head? = some '!') = false := by
      rw [decide_eq_false_iff_not]
      intro hcon
      simp at hcon
      rw [hcon] at ha
      exact absurd ha (by decide)
    simp only [Bool.false_eq_true, if_false, List.nil_append]
    unfold RequiredUse.parseUseConditional
    simp only []
    simp only [hd, Bool.false_eq_true, if_false]
    split
    · rfl
    · split
      · rename_i s2 hq2
        simp only [hd, Bool.false_eq_true, if_false] at hq2
        rw [takeWhile_append_stop RequiredUse.isFlagChar (a :: t') _ htmem hstop,
            List.drop_left] at hq2
        have := hrest '?' (by rw [hq2]; rfl)
        exact absurd rfl this.2
      · rfl

theorem ru_flag_append (neg : Bool) (t rest : Str) (ht : t ≠ [])
    (htc : t.all RequiredUse.isFlagChar = true)
    (hrest : ∀ c, rest.head? = some c → RequiredUse.isFlagChar c = false) :
    RequiredUse.parseFlag ((if neg then ['!'] else []) ++ t ++ rest) =
      .ok (.Flag t neg) rest := by
  have htmem : ∀ c ∈ t, RequiredUse.isFlagChar c = true := by
    rw [List.all_eq_true] at htc
    exact htc
  cases neg with
  | true =>
    have hd : ∀ X : Str, decide (('!' :: X).head? = some '!') = true := by
      intro X
      simp
    simp only [if_pos, List.singleton_append, List.cons_append, List.append_assoc,
      List.nil_append]
    unfold RequiredUse.parseFlag
    simp only []
    simp only [hd, eq_self_iff_true, if_true, List.tail_cons, List.nil_append]
    rw [takeWhile1_append RequiredUse.isFlagChar t rest ht htmem hrest]
  | false =>
    obtain ⟨a, t', rfl⟩ : ∃ a t', t = a :: t' := by
      cases t with
      | nil => exact absurd rfl ht
      | cons a t' => exact ⟨a, t', rfl⟩
    have ha : RequiredUse.isFlagChar a = true := htmem a (by simp)
    have hd : decide (((a :: t') ++ rest).head? = some '!') = false := by
      rw [decide_eq_false_iff_not]
      intro hcon
      simp at hcon
      rw [hcon] at ha
      exact absurd ha (by decide)
    simp only [Bool.false_eq_true, if_false, List.nil_append]
    unfold RequiredUse.parseFlag
    simp only []
    simp only [hd, Bool.false_eq_true, if_false]
    rw [takeWhile1_append RequiredUse.isFlagChar (a :: t') rest ht htmem hrest]

theorem ru_uc_fail_flagless (s : Str)
    (h : ∀ c, s.head? = some c → RequiredUse.isFlagChar c = false ∧ c ≠ '!') :
    RequiredUse.parseUseConditional s = .fail := by
  have hneg : (decide (s.head? = some '!')) = false := by
    rw [decide_eq_false_iff_not]
    intro hcon
    exact absurd rfl (h '!' hcon).2
  have hflag : s.takeWhile RequiredUse.isFlagChar = [] := by
    cases s with
    | nil => rfl
    | cons c r => simp [List.takeWhile_cons, (h c rfl).1]
  unfold RequiredUse.parseUseConditional
  simp only []
  simp only [hneg]
  split
  · rename_i hcon
    exact absurd hcon (by decide)
  · rw [if_pos (by rw [hflag]; rfl)]

theorem ru_entry_fail_stop (s : Str)
    (h : s = [] ∨ s.head? = some ')') :
    RequiredUse.parseRequiredUseEntry s = .fail := by
  rcases h with rfl | h
  · unfold RequiredUse.parseRequiredUseEntry
    rfl
  · obtain ⟨r, rfl⟩ : ∃ r, s = ')' :: r := by
      cases s with
      | nil => simp at h
      | cons a r =>
        simp at h
        exact ⟨r, by rw [h]⟩
    unfold RequiredUse.parseRequiredUseEntry
    rw [if_neg (by decide), if_neg (by decide), if_neg (by decide), if_neg (by decide)]
    rw [ru_uc_fail_flagless _ (by
      intro c hc
      simp at hc
      rw [← hc]
      exact ⟨by decide, by decide⟩)]
    unfold RequiredUse.parseFlag
    simp only []
    rw [if_neg (by simp)]
    rw [takeWhile1_stop _ _ (by
      intro c hc
      simp at hc
      rw [← hc]
      decide)]


theorem ru_uc_render (neg : Bool) (flag mid rest : Str)
    (entries : List RequiredUseExpr) (rst1 : Str)
    (hflag_ne : flag ≠ []) (hflag : flag.all RequiredUse.isFlagChar = true)
    (hent : RequiredUse.parseRequiredUseEntries (' ' :: (mid ++ (' ' :: ')' :: rest))) =
      .ok entries rst1)
    (hms : ms0 rst1 = ')' :: rest) :
    RequiredUse.parseUseConditional
      ((if neg then ['!'] else []) ++ flag ++ chars "? ( " ++ mid ++ chars " )" ++ rest) =
      .ok (.UseConditional flag neg entries) rest := by
  have hflagmem : ∀ c ∈ flag, RequiredUse.isFlagChar c = true := by
    rw [List.all_eq_true] at hflag
    exact hflag
  have hq : chars "? ( " = '?' :: ' ' :: '(' :: ' ' :: [] := rfl
  have hcl : chars " )" = ' ' :: ')' :: [] := rfl
  have hstop : ∀ (X : Str) c, ('?' :: X).head? = some c →
      RequiredUse.isFlagChar c = false := by
    intro X c hc
    simp at hc
    rw [← hc]
    decide
  cases neg with
  | true =>
    have hd : ∀ X : Str, decide (('!' :: X).head? = some '!') = true := by
      intro X
      simp
    simp only [if_pos, hq, hcl, List.append_assoc, List.cons_append, List.nil_append,
      List.singleton_append]
    unfold RequiredUse.parseUseConditional
    simp only []
    simp only [hd, eq_self_iff_true, if_true, List.tail_cons]
    split
    · rename_i hflagE
      obtain ⟨a, fl, rfl⟩ : ∃ a fl, flag = a :: fl := by
        cases flag with
        | nil => exact absurd rfl hflag_ne
        | cons a fl => exact ⟨a, fl, rfl⟩
      simp [List.takeWhile_cons, hflagmem a (by simp)] at hflagE
    split
    · rename_i s2 hq2
      simp only [hd, eq_self_iff_true, if_true] at hq2
      rw [takeWhile_append_stop RequiredUse.isFlagChar flag _ hflagmem (hstop _),
          List.drop_left] at hq2
      rw [takeWhile_append_stop RequiredUse.isFlagChar flag _ hflagmem (hstop _)]
      injection hq2 with h1 h2
      subst h2
      split
      · rename_i s3 hp2
        rw [ms0_cons ' ' _ (by decide),
            ms0_not_space _ (by intro c hc; simp at hc; rw [← hc]; decide)] at hp2
        injection hp2 with h3 h4
        subst h4
        split
        · rename_i e2 r2 hent2
          rw [hent] at hent2
          injection hent2 with h5 h6
          subst h5
          subst h6
          rw [hms]
          rfl
        · rename_i hent2
          rw [hent] at hent2
          simp at hent2
      · rename_i hp2
        rw [ms0_cons ' ' _ (by decide),
            ms0_not_space _ (by intro c hc; simp at hc; rw [← hc]; decide)] at hp2
        exact absurd rfl (hp2 _)
    · rename_i hq2
      have hcon := hq2 (' ' :: '(' :: ' ' :: (mid ++ ' ' :: ')' :: rest))
      simp only [hd, eq_self_iff_true, if_true] at hcon
      rw [takeWhile_append_stop RequiredUse.isFlagChar flag _ hflagmem (hstop _),
          List.drop_left] at hcon
      exact absurd rfl hcon
  | false =>
    have hd : decide ((flag ++ '?' :: ' ' :: '(' :: ' ' :: (mid ++ ' ' :: ')' :: rest)).head? =
        some '!') = false := by
      rw [decide_eq_false_iff_not]
      intro hcon
      obtain ⟨a, fl, rfl⟩ : ∃ a fl, flag = a :: fl := by
        cases flag with
        | nil => exact absurd rfl hflag_ne
        | cons a fl => exact ⟨a, fl, rfl⟩
      simp at hcon
      have := hflagmem '!' (by rw [hcon]; simp)
      exact absurd this (by decide)
    simp only [hq, hcl, List.append_assoc, List.cons_append, List.nil_append,
      Bool.false_eq_true, if_false]
    unfold RequiredUse.parseUseConditional
    simp only []
    simp only [hd, Bool.false_eq_true, if_false]
    split
    · rename_i hflagE
      obtain ⟨a, fl, rfl⟩ : ∃ a fl, flag = a :: fl := by
        cases flag with
        | nil => exact absurd rfl hflag_ne
        | cons a fl => exact ⟨a, fl, rfl⟩
      simp [List.takeWhile_cons, hflagmem a (by simp)] at hflagE
    split
    · rename_i s2 hq2
      simp only [hd, Bool.false_eq_true, if_false] at hq2
      rw [takeWhile_append_stop RequiredUse.isFlagChar flag _ hflagmem (hstop _),
          List.drop_left] at hq2
      rw [takeWhile_append_stop RequiredUse.isFlagChar flag _ hflagmem (hstop _)]
      injection hq2 with h1 h2
      subst h2
      split
      · rename_i s3 hp2
        rw [ms0_cons ' ' _ (by decide),
            ms0_not_space _ (by intro c hc; simp at hc; rw [← hc]; decide)] at hp2
        injection hp2 with h3 h4
        subst h4
        split
        · rename_i e2 r2 hent2
          rw [hent] at hent2
          injection hent2 with h5 h6
          subst h5
          subst h6
          rw [hms]
          rfl
        · rename_i hent2
          rw [hent] at hent2
          simp at hent2
      · rename_i hp2
        rw [ms0_cons ' ' _ (by decide),
            ms0_not_space _ (by intro c hc; simp at hc; rw [← hc]; decide)] at hp2
        exact absurd rfl (hp2 _)
    · rename_i hq2
      have hcon := hq2 (' ' :: '(' :: ' ' :: (mid ++ ' ' :: ')' :: rest))
      simp only [hd, Bool.false_eq_true, if_false] at hcon
      rw [takeWhile_append_stop RequiredUse.isFlagChar flag _ hflagmem (hstop _),
          List.drop_left] at hcon
      exact absurd rfl hcon

theorem ru_anyof_render (mid rest : Str)
    (entries : List RequiredUseExpr) (rst1 : Str)
    (hent : RequiredUse.parseRequiredUseEntries (' ' :: (mid ++ (' ' :: ')' :: rest))) =
      .ok entries rst1)
    (hms : ms0 rst1 = ')' :: rest) :
    RequiredUse.parseAnyOf (chars "|| ( " ++ mid ++ chars " )" ++ rest) =
      .ok (.AnyOf entries) rest := by
  rw [show chars "|| ( " ++ mid ++ chars " )" ++ rest =
      '|' :: '|' :: (' ' :: '(' :: ' ' :: (mid ++ (' ' :: ')' :: rest))) by
    simp [chars]]
  unfold RequiredUse.parseAnyOf
  split
  · rename_i s1 heq
    injection heq with h1 heq
    injection heq with h2 heq
    subst heq
    split
    · rename_i s2 hp2
      rw [ms0_cons ' ' _ (by decide),
          ms0_not_space _ (by intro c hc; simp at hc; rw [← hc]; decide)] at hp2
      injection hp2 with h3 h4
      subst h4
      split
      · rename_i e2 r2 hent2
        rw [hent] at hent2
        injection hent2 with h5 h6
        subst h5
        subst h6
        rw [hms]
        rfl
      · rename_i hent2
        rw [hent] at hent2
        simp at hent2
    · rename_i hp2
      rw [ms0_cons ' ' _ (by decide),
          ms0_not_space _ (by intro c hc; simp at hc; rw [← hc]; decide)] at hp2
      exact absurd rfl (hp2 _)
  · rename_i hno
    exact absurd rfl (hno _)

theorem ru_exactly_render (mid rest : Str)
    (entries : List RequiredUseExpr) (rst1 : Str)
    (hent : RequiredUse.parseRequiredUseEntries (' ' :: (mid ++ (' ' :: ')' :: rest))) =
      .ok entries rst1)
    (hms : ms0 rst1 = ')' :: rest) :
    RequiredUse.parseExactlyOne (chars "^^ ( " ++ mid ++ chars " )" ++ rest) =
      .ok (.ExactlyOne entries) rest := by
  rw [show chars "^^ ( " ++ mid ++ chars " )" ++ rest =
      '^' :: '^' :: (' ' :: '(' :: ' ' :: (mid ++ (' ' :: ')' :: rest))) by
    simp [chars]]
  unfold RequiredUse.parseExactlyOne
  split
  · rename_i s1 heq
    injection heq with h1 heq
    injection heq with h2 heq
    subst heq
    split
    · rename_i s2 hp2
      rw [ms0_cons ' ' _ (by decide),
          ms0_not_space _ (by intro c hc; simp at hc; rw [← hc]; decide)] at hp2
      injection hp2 with h3 h4
      subst h4
      split
      · rename_i e2 r2 hent2
        rw [hent] at hent2
        injection hent2 with h5 h6
        subst h5
        subst h6
        rw [hms]
        rfl
      · rename_i hent2
        rw [hent] at hent2
        simp at hent2
    · rename_i hp2
      rw [ms0_cons ' ' _ (by decide),
          ms0_not_space _ (by intro c hc; simp at hc; rw [← hc]; decide)] at hp2
      exact absurd rfl (hp2 _)
  · rename_i hno
    exact absurd rfl (hno _)

theorem ru_atmost_render (mid rest : Str)
    (entries : List RequiredUseExpr) (rst1 : Str)
    (hent : RequiredUse.parseRequiredUseEntries (' ' :: (mid ++ (' ' :: ')' :: rest))) =
      .ok entries rst1)
    (hms : ms0 rst1 = ')' :: rest) :
    RequiredUse.parseAtMostOne (chars "?? ( " ++ mid ++ chars " )" ++ rest) =
      .ok (.AtMostOne entries) rest := by
  rw [show chars "?? ( " ++ mid ++ chars " )" ++ rest =
      '?' :: '?' :: (' ' :: '(' :: ' ' :: (mid ++ (' ' :: ')' :: rest))) by
    simp [chars]]
  unfold RequiredUse.parseAtMostOne
  split
  · rename_i s1 heq
    injection heq with h1 heq
    injection heq with h2 heq
    subst heq
    split
    · rename_i s2 hp2
      rw [ms0_cons ' ' _ (by decide),
          ms0_not_space _ (by intro c hc; simp at hc; rw [← hc]; decide)] at hp2
      injection hp2 with h3 h4
      subst h4
      split
      · rename_i e2 r2 hent2
        rw [hent] at hent2
        injection hent2 with h5 h6
        subst h5
        subst h6
        rw [hms]
        rfl
      · rename_i hent2
        rw [hent] at hent2
        simp at hent2
    · rename_i hp2
      rw [ms0_cons ' ' _ (by decide),
          ms0_not_space _ (by intro c hc; simp at hc; rw [← hc]; decide)] at hp2
      exact absurd rfl (hp2 _)
  · rename_i hno
    exact absurd rfl (hno _)


theorem ru_entry_of_anyof (s : Str) (e : RequiredUseExpr) (rest : Str)
    (h : RequiredUse.parseAnyOf ('|' :: s) = .ok e rest) :
    RequiredUse.parseRequiredUseEntry ('|' :: s) = .ok [e] rest := by
  unfold RequiredUse.parseRequiredUseEntry
  rw [if_pos rfl]
  rw [h]

theorem ru_entry_of_exactly (s : Str) (e : RequiredUseExpr) (rest : Str)
    (h : RequiredUse.parseExactlyOne ('^' :: s) = .ok e rest) :
    RequiredUse.parseRequiredUseEntry ('^' :: s) = .ok [e] rest := by
  unfold RequiredUse.parseRequiredUseEntry
  rw [if_neg (by decide), if_pos rfl]
  rw [h]

theorem ru_entry_of_atmost (s : Str) (e : RequiredUseExpr) (rest : Str)
    (h : RequiredUse.parseAtMostOne ('?' :: s) = .ok e rest) :
    RequiredUse.parseRequiredUseEntry ('?' :: s) = .ok [e] rest := by
  unfold RequiredUse.parseRequiredUseEntry
  rw [if_neg (by decide), if_neg (by decide), if_neg (by decide), if_pos rfl]
  rw [h]

theorem ru_entry_of_uc (s : Str) (e : RequiredUseExpr) (rest : Str)
    (hhead : ∀ c, s.head? = some c →
      ¬(c = '|') ∧ ¬(c = '^') ∧ ¬(c = '(') ∧ ¬(c = '?'))
    (h : RequiredUse.parseUseConditional s = .ok e rest) :
    RequiredUse.parseRequiredUseEntry s = .ok [e] rest := by
  cases s with
  | nil =>
    rw [ru_uc_fail_flagless [] (by intro c hc; simp at hc)] at h
    simp at h
  | cons a r =>
    unfold RequiredUse.parseRequiredUseEntry
    rw [if_neg (hhead a rfl).1, if_neg (hhead a rfl).2.1, if_neg (hhead a rfl).2.2.1,
        if_neg (hhead a rfl).2.2.2]
    rw [h]

theorem ru_entry_flag (neg : Bool) (t rest : Str) (ht : t ≠ [])
    (htc : t.all RequiredUse.isFlagChar = true)
    (hrest : ∀ c, rest.head? = some c → RequiredUse.isFlagChar c = false ∧ c ≠ '?') :
    RequiredUse.parseRequiredUseEntry ((if neg then ['!'] else []) ++ t ++ rest) =
      .ok [.Flag t neg] rest := by
  have hfl := ru_flag_append neg t rest ht htc (fun c hc => (hrest c hc).1)
  have hucf := ru_uc_fail_on_flag neg t rest ht htc hrest
  obtain ⟨a, t', rfl⟩ : ∃ a t', t = a :: t' := by
    cases t with
    | nil => exact absurd rfl ht
    | cons a t' => exact ⟨a, t', rfl⟩
  have ha : RequiredUse.isFlagChar a = true := by
    simp [List.all_cons, Bool.and_eq_true] at htc
    exact htc.1
  cases neg with
  | true =>
    rw [show (if true then ['!'] else []) ++ (a :: t') ++ rest =
        '!' :: ((a :: t') ++ rest) by simp] at hfl hucf ⊢
    unfold RequiredUse.parseRequiredUseEntry
    rw [if_neg (by decide), if_neg (by decide), if_neg (by decide), if_neg (by decide)]
    rw [hucf, hfl]
  | false =>
    rw [show (if false then ['!'] else []) ++ (a :: t') ++ rest =
        a :: (t' ++ rest) by simp] at hfl hucf ⊢
    unfold RequiredUse.parseRequiredUseEntry
    have hne : ∀ x : Char, RequiredUse.isFlagChar x = false → ¬(a = x) := by
      intro x hx hcon
      rw [hcon] at ha
      rw [ha] at hx
      simp at hx
    rw [if_neg (hne '|' (by decide)), if_neg (hne '^' (by decide)),
        if_neg (hne '(' (by decide)), if_neg (hne '?' (by decide))]
    rw [hucf, hfl]


theorem ruFlagChar_not_ms (c : Char) (h : RequiredUse.isFlagChar c = true) :
    isMultispace c = false := by
  by_contra hcon
  simp only [Bool.not_eq_false] at hcon
  rcases isMultispace_elim c hcon with rfl | rfl | rfl | rfl <;> exact absurd h (by decide)

theorem ru_stop_of_ms0 (rest : Str)
    (h : (ms0 rest).head? = some ')' ∨ ms0 rest = []) :
    ∀ c, rest.head? = some c → RequiredUse.isFlagChar c = false ∧ c ≠ '?' := by
  intro c hc
  obtain ⟨r, rfl⟩ : ∃ r, rest = c :: r := by
    cases rest with
    | nil => simp at hc
    | cons a r =>
      simp at hc
      exact ⟨r, by rw [hc]⟩
  by_cases hm : isMultispace c = true
  · rcases isMultispace_elim c hm with rfl | rfl | rfl | rfl <;>
      exact ⟨by decide, by decide⟩
  · rw [ms0_not_space _ (by intro d hd; simp at hd; rw [← hd]; simpa using hm)] at h
    rcases h with h | h
    · simp at h
      rw [h]
      exact ⟨by decide, by decide⟩
    · simp at h

theorem ru_rp :
    ∀ (n : Nat),
      (∀ e : RequiredUseExpr, sizeOf e ≤ n → RequiredUse.wfEntry e = true →
        RequiredUseExpr.render e ≠ [] ∧
        (∀ c, (RequiredUseExpr.render e).head? = some c → isMultispace c = false) ∧
        (∀ rest, (∀ c, rest.head? = some c → RequiredUse.isFlagChar c = false ∧
            c ≠ '?') →
          RequiredUse.parseRequiredUseEntry (RequiredUseExpr.render e ++ rest) =
            .ok [e] rest)) ∧
      (∀ es : List RequiredUseExpr, sizeOf es ≤ n → RequiredUse.wfEntries es = true →
        ∀ pad rest, pad.all isMultispace = true →
          ((ms0 rest).head? = some ')' ∨ ms0 rest = []) →
          RequiredUse.parseRequiredUseEntries (pad ++ renderRequiredUseList es ++ rest) =
            .ok es (if es.isEmpty then pad ++ rest else rest)) := by
  intro n
  induction n using Nat.strong_induction_on with
  | _ n IH =>
  constructor
  · intro e hsz hwf
    match e with
    | .Flag name neg =>
      simp only [RequiredUse.wfEntry, Bool.and_eq_true] at hwf
      obtain ⟨hne, hcs⟩ := hwf
      have hname_ne : name ≠ [] := by simpa [List.isEmpty_iff] using hne
      refine ⟨?_, ?_, ?_⟩
      · intro hcon
        have hlen := congrArg List.length hcon
        have hnl : 0 < name.length := List.length_pos.mpr hname_ne
        cases neg <;> simp [RequiredUseExpr.render] at hlen <;>
          exact absurd hlen hname_ne
      · intro c hc
        cases neg with
        | true =>
          simp only [RequiredUseExpr.render, if_pos, List.singleton_append,
            List.cons_append, List.head?_cons] at hc
          have : '!' = c := by simpa using hc
          rw [← this]
          decide
        | false =>
          obtain ⟨a, fl, rfl⟩ : ∃ a fl, name = a :: fl := by
            cases name with
            | nil => exact absurd rfl hname_ne
            | cons a fl => exact ⟨a, fl, rfl⟩
          simp only [RequiredUseExpr.render, Bool.false_eq_true, if_false,
            List.nil_append, List.head?_cons] at hc
          have hca : a = c := by simpa using hc
          rw [List.all_eq_true] at hcs
          have := hcs a (by simp)
          rw [hca] at this
          exact ruFlagChar_not_ms c this
      · intro rest hrest
        have := ru_entry_flag neg name rest hname_ne hcs hrest
        rw [show (if neg then ['!'] else []) ++ name ++ rest =
            RequiredUseExpr.render (.Flag name neg) ++ rest by
          simp [RequiredUseExpr.render]] at this
        exact this
    | .AnyOf entries =>
      have hwfes : RequiredUse.wfEntries entries = true := hwf
      have hszes : sizeOf entries < n := by
        have : sizeOf entries < sizeOf (RequiredUseExpr.AnyOf entries) := by
          simp
        omega
      have ihEnt := (IH (sizeOf entries) hszes).2 entries (Nat.le_refl _) hwfes
      refine ⟨by simp [RequiredUseExpr.render, chars], ?_, ?_⟩
      · intro c hc
        simp only [RequiredUseExpr.render] at hc
        rw [show chars "|| ( " ++ renderRequiredUseList entries ++ chars " )" =
            '|' :: ('|' :: (' ' :: '(' :: ' ' :: (renderRequiredUseList entries ++
              (' ' :: ')' :: [])))) by simp [chars]] at hc
        simp at hc
        rw [← hc]
        decide
      · intro rest hrest
        have hstop2 : (ms0 (' ' :: ')' :: rest)).head? = some ')' ∨
            ms0 (' ' :: ')' :: rest) = [] := by
          left
          rw [ms0_cons ' ' _ (by decide),
              ms0_not_space _ (by intro c hc; simp at hc; rw [← hc]; decide)]
          rfl
        have hent0 := ihEnt [' '] (' ' :: ')' :: rest) (by decide) hstop2
        rw [show ([' '] ++ renderRequiredUseList entries ++ (' ' :: ')' :: rest)) =
            ' ' :: (renderRequiredUseList entries ++ (' ' :: ')' :: rest)) by
          simp] at hent0
        have hms : ms0 (if entries.isEmpty then [' '] ++ (' ' :: ')' :: rest)
            else ' ' :: ')' :: rest) = ')' :: rest := by
          by_cases hemp : entries.isEmpty
          · rw [if_pos hemp]
            rw [show [' '] ++ (' ' :: ')' :: rest) = ' ' :: ' ' :: ')' :: rest by simp]
            rw [ms0_cons ' ' _ (by decide), ms0_cons ' ' _ (by decide),
                ms0_not_space _ (by intro c hc; simp at hc; rw [← hc]; decide)]
          · rw [if_neg hemp]
            rw [ms0_cons ' ' _ (by decide),
                ms0_not_space _ (by intro c hc; simp at hc; rw [← hc]; decide)]
        have hao := ru_anyof_render (renderRequiredUseList entries) rest entries _
          hent0 hms
        have hgoal : RequiredUseExpr.render (.AnyOf entries) ++ rest =
            '|' :: ('|' :: ' ' :: '(' :: ' ' :: (renderRequiredUseList entries ++
              (' ' :: ')' :: rest))) := by
          simp [RequiredUseExpr.render, chars]
        rw [hgoal]
        apply ru_entry_of_anyof
        rw [show chars "|| ( " ++ renderRequiredUseList entries ++ chars " )" ++ rest =
          '|' :: ('|' :: ' ' :: '(' :: ' ' :: (renderRequiredUseList entries ++
              (' ' :: ')' :: rest))) by simp [chars]] at hao
        exact hao
    | .ExactlyOne entries =>
      have hwfes : RequiredUse.wfEntries entries = true := hwf
      have hszes : sizeOf entries < n := by
        have : sizeOf entries < sizeOf (RequiredUseExpr.ExactlyOne entries) := by
          simp
        omega
      have ihEnt := (IH (sizeOf entries) hszes).2 entries (Nat.le_refl _) hwfes
      refine ⟨by simp [RequiredUseExpr.render, chars], ?_, ?_⟩
      · intro c hc
        simp only [RequiredUseExpr.render] at hc
        rw [show chars "^^ ( " ++ renderRequiredUseList entries ++ chars " )" =
            '^' :: ('^' :: (' ' :: '(' :: ' ' :: (renderRequiredUseList entries ++
              (' ' :: ')' :: [])))) by simp [chars]] at hc
        simp at hc
        rw [← hc]
        decide
      · intro rest hrest
        have hstop2 : (ms0 (' ' :: ')' :: rest)).head? = some ')' ∨
            ms0 (' ' :: ')' :: rest) = [] := by
          left
          rw [ms0_cons ' ' _ (by decide),
              ms0_not_space _ (by intro c hc; simp at hc; rw [← hc]; decide)]
          rfl
        have hent0 := ihEnt [' '] (' ' :: ')' :: rest) (by decide) hstop2
        rw [show ([' '] ++ renderRequiredUseList entries ++ (' ' :: ')' :: rest)) =
            ' ' :: (renderRequiredUseList entries ++ (' ' :: ')' :: rest)) by
          simp] at hent0
        have hms : ms0 (if entries.isEmpty then [' '] ++ (' ' :: ')' :: rest)
            else ' ' :: ')' :: rest) = ')' :: rest := by
          by_cases hemp : entries.isEmpty
          · rw [if_pos hemp]
            rw [show [' '] ++ (' ' :: ')' :: rest) = ' ' :: ' ' :: ')' :: rest by simp]
            rw [ms0_cons ' ' _ (by decide), ms0_cons ' ' _ (by decide),
                ms0_not_space _ (by intro c hc; simp at hc; rw [← hc]; decide)]
          · rw [if_neg hemp]
            rw [ms0_cons ' ' _ (by decide),
                ms0_not_space _ (by intro c hc; simp at hc; rw [← hc]; decide)]
        have hao := ru_exactly_render (renderRequiredUseList entries) rest entries _
          hent0 hms
        have hgoal : RequiredUseExpr.render (.ExactlyOne entries) ++ rest =
            '^' :: ('^' :: ' ' :: '(' :: ' ' :: (renderRequiredUseList entries ++
              (' ' :: ')' :: rest))) := by
          simp [RequiredUseExpr.render, chars]
        rw [hgoal]
        apply ru_entry_of_exactly
        rw [show chars "^^ ( " ++ renderRequiredUseList entries ++ chars " )" ++ rest =
          '^' :: ('^' :: ' ' :: '(' :: ' ' :: (renderRequiredUseList entries ++
              (' ' :: ')' :: rest))) by simp [chars]] at hao
        exact hao
    | .AtMostOne entries =>
      have hwfes : RequiredUse.wfEntries entries = true := hwf
      have hszes : sizeOf entries < n := by
        have : sizeOf entries < sizeOf (RequiredUseExpr.AtMostOne entries) := by
          simp
        omega
      have ihEnt := (IH (sizeOf entries) hszes).2 entries (Nat.le_refl _) hwfes
      refine ⟨by simp [RequiredUseExpr.render, chars], ?_, ?_⟩
      · intro c hc
        simp only [RequiredUseExpr.render] at hc
        rw [show chars "?? ( " ++ renderRequiredUseList entries ++ chars " )" =
            '?' :: ('?' :: (' ' :: '(' :: ' ' :: (renderRequiredUseList entries ++
              (' ' :: ')' :: [])))) by simp [chars]] at hc
        simp at hc
        rw [← hc]
        decide
      · intro rest hrest
        have hstop2 : (ms0 (' ' :: ')' :: rest)).head? = some ')' ∨
            ms0 (' ' :: ')' :: rest) = [] := by
          left
          rw [ms0_cons ' ' _ (by decide),
              ms0_not_space _ (by intro c hc; simp at hc; rw [← hc]; decide)]
          rfl
        have hent0 := ihEnt [' '] (' ' :: ')' :: rest) (by decide) hstop2
        rw [show ([' '] ++ renderRequiredUseList entries ++ (' ' :: ')' :: rest)) =
            ' ' :: (renderRequiredUseList entries ++ (' ' :: ')' :: rest)) by
          simp] at hent0
        have hms : ms0 (if entries.isEmpty then [' '] ++ (' ' :: ')' :: rest)
            else ' ' :: ')' :: rest) = ')' :: rest := by
          by_cases hemp : entries.isEmpty
          · rw [if_pos hemp]
            rw [show [' '] ++ (' ' :: ')' :: rest) = ' ' :: ' ' :: ')' :: rest by simp]
            rw [ms0_cons ' ' _ (by decide), ms0_cons ' ' _ (by decide),
                ms0_not_space _ (by intro c hc; simp at hc; rw [← hc]; decide)]
          · rw [if_neg hemp]
            rw [ms0_cons ' ' _ (by decide),
                ms0_not_space _ (by intro c hc; simp at hc; rw [← hc]; decide)]
        have hao := ru_atmost_render (renderRequiredUseList entries) rest entries _
          hent0 hms
        have hgoal : RequiredUseExpr.render (.AtMostOne entries) ++ rest =
            '?' :: ('?' :: ' ' :: '(' :: ' ' :: (renderRequiredUseList entries ++
              (' ' :: ')' :: rest))) := by
          simp [RequiredUseExpr.render, chars]
        rw [hgoal]
        apply ru_entry_of_atmost
        rw [show chars "?? ( " ++ renderRequiredUseList entries ++ chars " )" ++ rest =
          '?' :: ('?' :: ' ' :: '(' :: ' ' :: (renderRequiredUseList entries ++
              (' ' :: ')' :: rest))) by simp [chars]] at hao
        exact hao

    | .UseConditional flag neg entries =>
      simp only [RequiredUse.wfEntry, Bool.and_eq_true] at hwf
      obtain ⟨⟨hfne, hfc⟩, hwfes⟩ := hwf
      have hflag_ne : flag ≠ [] := by simpa [List.isEmpty_iff] using hfne
      have hszes : sizeOf entries < n := by
        have : sizeOf entries <
            sizeOf (RequiredUseExpr.UseConditional flag neg entries) := by
          simp
        omega
      have ihEnt := (IH (sizeOf entries) hszes).2 entries (Nat.le_refl _) hwfes
      refine ⟨?_, ?_, ?_⟩
      · intro hcon
        have hlen := congrArg List.length hcon
        simp [RequiredUseExpr.render, chars] at hlen
      · intro c hc
        cases neg with
        | true =>
          simp only [RequiredUseExpr.render, if_pos] at hc
          simp at hc
          rw [← hc]
          decide
        | false =>
          obtain ⟨a, fl, rfl⟩ : ∃ a fl, flag = a :: fl := by
            cases flag with
            | nil => exact absurd rfl hflag_ne
            | cons a fl => exact ⟨a, fl, rfl⟩
          simp only [RequiredUseExpr.render, Bool.false_eq_true, if_false,
            List.nil_append, List.cons_append, List.head?_cons] at hc
          have hca : a = c := by simpa using hc
          rw [List.all_eq_true] at hfc
          have := hfc a (by simp)
          rw [hca] at this
          exact ruFlagChar_not_ms c this
      · intro rest hrest
        have hstop2 : (ms0 (' ' :: ')' :: rest)).head? = some ')' ∨
            ms0 (' ' :: ')' :: rest) = [] := by
          left
          rw [ms0_cons ' ' _ (by decide),
              ms0_not_space _ (by intro c hc; simp at hc; rw [← hc]; decide)]
          rfl
        have hent0 := ihEnt [' '] (' ' :: ')' :: rest) (by decide) hstop2
        rw [show ([' '] ++ renderRequiredUseList entries ++ (' ' :: ')' :: rest)) =
            ' ' :: (renderRequiredUseList entries ++ (' ' :: ')' :: rest)) by
          simp] at hent0
        have hms : ms0 (if entries.isEmpty then [' '] ++ (' ' :: ')' :: rest)
            else ' ' :: ')' :: rest) = ')' :: rest := by
          by_cases hemp : entries.isEmpty
          · rw [if_pos hemp]
            rw [show [' '] ++ (' ' :: ')' :: rest) = ' ' :: ' ' :: ')' :: rest by simp]
            rw [ms0_cons ' ' _ (by decide), ms0_cons ' ' _ (by decide),
                ms0_not_space _ (by intro c hc; simp at hc; rw [← hc]; decide)]
          · rw [if_neg hemp]
            rw [ms0_cons ' ' _ (by decide),
                ms0_not_space _ (by intro c hc; simp at hc; rw [← hc]; decide)]
        have huc := ru_uc_render neg flag (renderRequiredUseList entries) rest
          entries _ hflag_ne hfc hent0 hms
        have hgoal : RequiredUseExpr.render (.UseConditional flag neg entries) ++ rest =
            (if neg then ['!'] else []) ++ flag ++ chars "? ( " ++
              renderRequiredUseList entries ++ chars " )" ++ rest := by
          simp [RequiredUseExpr.render]
        rw [hgoal]
        apply ru_entry_of_uc _ _ _ ?_ huc
        intro c hc
        cases neg with
        | true =>
          simp at hc
          rw [← hc]
          exact ⟨by decide, by decide, by decide, by decide⟩
        | false =>
          obtain ⟨a, fl, rfl⟩ : ∃ a fl, flag = a :: fl := by
            cases flag with
            | nil => exact absurd rfl hflag_ne
            | cons a fl => exact ⟨a, fl, rfl⟩
          simp only [Bool.false_eq_true, if_false, List.nil_append,
            List.cons_append, List.head?_cons] at hc
          have hca : a = c := by simpa using hc
          rw [List.all_eq_true] at hfc
          have haf := hfc a (by simp)
          rw [hca] at haf
          refine ⟨?_, ?_, ?_, ?_⟩ <;>
            (intro hcon; rw [hcon] at haf; exact absurd haf (by decide))
    | .All entries =>
      simp [RequiredUse.wfEntry] at hwf
  · intro es hsz hwf pad rest hpad hstop
    match es with
    | [] =>
      unfold RequiredUse.parseRequiredUseEntries
      rw [show pad ++ renderRequiredUseList [] ++ rest = pad ++ rest by
        simp [renderRequiredUseList]]
      rw [ms0_append_ms pad rest hpad]
      rw [ru_entry_fail_stop (ms0 rest) (Or.symm hstop)]
      simp
    | e :: es2 =>
      simp only [RequiredUse.wfEntries, Bool.and_eq_true] at hwf
      obtain ⟨hwfe, hwfes2⟩ := hwf
      have hsze : sizeOf e < n := by
        have : sizeOf e < sizeOf (e :: es2) := by
          simp only [List.cons.sizeOf_spec]
          omega
        omega
      obtain ⟨hrne, hrhead, hrparse⟩ := (IH (sizeOf e) hsze).1 e (Nat.le_refl _) hwfe
      have hszes2 : sizeOf es2 < n := by
        have : sizeOf es2 < sizeOf (e :: es2) := by
          simp only [List.cons.sizeOf_spec]
          omega
        omega
      have ihES := (IH (sizeOf es2) hszes2).2 es2 (Nat.le_refl _) hwfes2
      have hrlen : 0 < (RequiredUseExpr.render e).length := List.length_pos.mpr hrne
      cases es2 with
      | nil =>
        unfold RequiredUse.parseRequiredUseEntries
        rw [show pad ++ renderRequiredUseList [e] ++ rest = pad ++ (e.render ++ rest) by
          simp [renderRequiredUseList]]
        rw [ms0_append_ms pad _ hpad]
        rw [ms0_not_space _ (fun c hc => by
          rw [head_append_ne _ _ hrne] at hc
          exact hrhead c hc)]
        rw [hrparse rest (ru_stop_of_ms0 rest hstop)]
        simp only []
        rw [dif_pos (by simp [List.length_append]; omega)]
        have hrec := ihES [] rest (by decide) hstop
        simp only [renderRequiredUseList, List.nil_append, List.isEmpty_nil,
          if_pos] at hrec
        rw [hrec]
        simp
      | cons e2 es3 =>
        unfold RequiredUse.parseRequiredUseEntries
        rw [show pad ++ renderRequiredUseList (e :: e2 :: es3) ++ rest =
            pad ++ (e.render ++ (' ' :: (renderRequiredUseList (e2 :: es3) ++ rest))) by
          simp [renderRequiredUseList]]
        rw [ms0_append_ms pad _ hpad]
        rw [ms0_not_space _ (fun c hc => by
          rw [head_append_ne _ _ hrne] at hc
          exact hrhead c hc)]
        rw [hrparse _ (by
          intro c hc
          simp at hc
          rw [← hc]
          exact ⟨by decide, by decide⟩)]
        simp only []
        rw [dif_pos (by simp [List.length_append]; omega)]
        have hrec := ihES [' '] rest (by decide) hstop
        rw [show [' '] ++ renderRequiredUseList (e2 :: es3) ++ rest =
            ' ' :: (renderRequiredUseList (e2 :: es3) ++ rest) by simp] at hrec
        rw [if_neg (by simp)] at hrec
        rw [hrec]
        simp

theorem ru_parse_single (e : RequiredUseExpr) (hwf : RequiredUse.wfEntry e = true) :
    RequiredUseExpr.parse (RequiredUseExpr.render e) = .ok e := by
  have h := (ru_rp (sizeOf [e])).2 [e] (Nat.le_refl _)
    (by simp [RequiredUse.wfEntries, hwf]) [] [] (by decide) (by right; rfl)
  simp only [List.nil_append, List.append_nil, List.isEmpty_cons, Bool.false_eq_true,
    if_false] at h
  rw [show renderRequiredUseList [e] = RequiredUseExpr.render e from rfl] at h
  unfold RequiredUseExpr.parse RequiredUse.parseRequiredUseString
  rw [h]
  rfl

theorem ru_render_parse_tree (t : RequiredUseExpr)
    (hwf : RequiredUse.wfTree t = true) :
    RequiredUseExpr.parse (RequiredUseExpr.render t) = .ok t := by
  match t with
  | .Flag name neg => exact ru_parse_single _ hwf
  | .AnyOf es => exact ru_parse_single _ hwf
  | .ExactlyOne es => exact ru_parse_single _ hwf
  | .AtMostOne es => exact ru_parse_single _ hwf
  | .UseConditional flag neg es => exact ru_parse_single _ hwf
  | .All es =>
    simp only [RequiredUse.wfTree, Bool.and_eq_true] at hwf
    obtain ⟨hwfes, hlen⟩ := hwf
    have h := (ru_rp (sizeOf es)).2 es (Nat.le_refl _) hwfes [] []
      (by decide) (by right; rfl)
    simp only [List.nil_append, List.append_nil, ite_self] at h
    rw [show RequiredUseExpr.render (.All es) = renderRequiredUseList es from rfl]
    unfold RequiredUseExpr.parse RequiredUse.parseRequiredUseString
    rw [h]
    match es, hlen with
    | [], _ => rfl
    | [e], hlen => simp at hlen
    | e1 :: e2 :: r, _ => rfl

theorem ru_parse_wfTree (s : Str) (t : RequiredUseExpr)
    (h : RequiredUseExpr.parse s = .ok t) : RequiredUse.wfTree t = true := by
  unfold RequiredUseExpr.parse at h
  split at h
  · rename_i entries hps
    injection h with h2
    subst h2
    unfold RequiredUse.parseRequiredUseString at hps
    split at hps
    · rename_i es3 rest3 hent
      injection hps with h5 h6
      subst h5
      have hwf := ((ru_sound s.length s rfl).2.2.2.2.2.2 _ rest3 hent).1
      match es3, hwf with
      | [], _ => rfl
      | [e], hwf =>
        simp only [RequiredUse.wfEntries, Bool.and_eq_true] at hwf
        have hwfe := hwf.1
        match e, hwfe with
        | .Flag name neg, hwfe => exact hwfe
        | .AnyOf es2, hwfe => exact hwfe
        | .ExactlyOne es2, hwfe => exact hwfe
        | .AtMostOne es2, hwfe => exact hwfe
        | .UseConditional f n es2, hwfe => exact hwfe
        | .All es2, hwfe => simp [RequiredUse.wfEntry] at hwfe
      | e1 :: e2 :: r, hwf =>
        simp only [RequiredUse.wfTree, Bool.and_eq_true]
        exact ⟨hwf, by simp⟩
    · simp at hps
    · simp at hps
  · simp at h
  · simp at h


/-! ## The SRC_URI grammar: soundness and render/parse -/


theorem su_flagChar_uri (c : Char) (h : SrcUri.isFlagChar c = true) :
    SrcUri.isUriChar c = true := by
  simp [SrcUri.isFlagChar] at h
  simp [SrcUri.isUriChar]
  tauto

theorem su_filenameChar_uri (c : Char) (h : SrcUri.isFilenameChar c = true) :
    SrcUri.isUriChar c = true := by
  simp [SrcUri.isFilenameChar] at h
  simp [SrcUri.isUriChar]
  tauto

theorem su_not_uri (c : Char) (h : SrcUri.isUriChar c = false) :
    SrcUri.isFlagChar c = false ∧ SrcUri.isFilenameChar c = false ∧ c ≠ '?' := by
  refine ⟨?_, ?_, ?_⟩
  · by_contra hcon
    simp only [Bool.not_eq_false] at hcon
    rw [su_flagChar_uri c hcon] at h
    simp at h
  · by_contra hcon
    simp only [Bool.not_eq_false] at hcon
    rw [su_filenameChar_uri c hcon] at h
    simp at h
  · intro hcon
    rw [hcon] at h
    exact absurd h (by decide)

theorem su_uriChar_not_ms (c : Char) (h : SrcUri.isUriChar c = true) :
    isMultispace c = false := by
  by_contra hcon
  simp only [Bool.not_eq_false] at hcon
  rcases isMultispace_elim c hcon with rfl | rfl | rfl | rfl <;> exact absurd h (by decide)

theorem su_uc_fail_inv (s : Str) (hhne : s.head? ≠ some '!')
    (hfail : SrcUri.parseUseConditional s = .fail) :
    (s.takeWhile SrcUri.isFlagChar).isEmpty = true ∨
      (s.drop (s.takeWhile SrcUri.isFlagChar).length).head? ≠ some '?' := by
  have hneg : (decide (s.head? = some '!')) = false := by
    rw [decide_eq_false_iff_not]
    exact hhne
  unfold SrcUri.parseUseConditional at hfail
  simp only [] at hfail
  simp only [hneg, Bool.false_eq_true, if_false] at hfail
  split at hfail
  · left
    assumption
  · right
    rename_i hflag
    split at hfail
    · rename_i s2 hq
      split at hfail
      · split at hfail
        · split at hfail
          · simp at hfail
          · simp at hfail
        · simp at hfail
      · simp at hfail
    · rename_i hq
      simp only [hneg, Bool.false_eq_true, if_false] at hq
      intro hcon
      cases hd : s.drop (s.takeWhile SrcUri.isFlagChar).length with
      | nil =>
        rw [hd] at hcon
        simp at hcon
      | cons a r =>
        rw [hd] at hcon
        simp at hcon
        exact hq r (by rw [hd, hcon])

theorem takeWhile_eq_self_of_all (p : Char → Bool) (l : Str)
    (h : l.all p = true) : l.takeWhile p = l := by
  induction l with
  | nil => rfl
  | cons a t ih =>
    simp only [List.all_cons, Bool.and_eq_true] at h
    simp [List.takeWhile_cons, h.1, ih h.2]

theorem su_atomSafe_of_fail (atom tail : Str)
    (hfa : ((atom ++ tail).takeWhile SrcUri.isFlagChar).isEmpty = true ∨
      ((atom ++ tail).drop ((atom ++ tail).takeWhile SrcUri.isFlagChar).length).head? ≠
        some '?') :
    SrcUri.atomSafe atom = true := by
  by_cases hall : atom.all SrcUri.isFlagChar = true
  · unfold SrcUri.atomSafe
    simp only []
    rw [takeWhile_eq_self_of_all _ _ hall]
    rw [List.drop_length]
    simp
  · unfold SrcUri.atomSafe
    simp only []
    rw [takeWhile_append_not_all _ _ _ hall] at hfa
    have hlt := length_takeWhile_lt_of_not_all _ _ hall
    rcases hfa with hfa | hfa
    · simp [hfa]
    · simp only [Bool.or_eq_true, decide_eq_true_eq]
      right
      rw [List.drop_append_of_le_length (Nat.le_of_lt hlt)] at hfa
      have hne : atom.drop (atom.takeWhile SrcUri.isFlagChar).length ≠ [] := by
        intro hcon
        have := congrArg List.length hcon
        simp [List.length_drop] at this
        omega
      cases hd : atom.drop (atom.takeWhile SrcUri.isFlagChar).length with
      | nil => exact absurd hd hne
      | cons a r =>
        rw [hd] at hfa
        simpa using hfa

theorem prefix_append_drop (p s : Str) (h : p.isPrefixOf s = true) :
    p ++ s.drop p.length = s := by
  obtain ⟨t, ht⟩ := List.isPrefixOf_iff_prefix.mp h
  conv_rhs => rw [← ht]
  rw [← ht, List.drop_left]

theorem append_drop_takeWhile (p : Char → Bool) (l : Str) :
    l.takeWhile p ++ l.drop (l.takeWhile p).length = l := by
  induction l with
  | nil => rfl
  | cons a t ih =>
    by_cases hp : p a
    · simp [List.takeWhile_cons, hp]
      simpa using ih
    · simp [List.takeWhile_cons, hp]

theorem su_not_prefix_of_takeWhile (l pre : Str)
    (h : pre.isPrefixOf l = false) :
    pre.isPrefixOf (l.takeWhile SrcUri.isUriChar) = false := by
  by_contra hcon
  simp only [Bool.not_eq_false] at hcon
  have h1 := List.isPrefixOf_iff_prefix.mp hcon
  have h2 := List.takeWhile_prefix (l := l) SrcUri.isUriChar
  have := List.isPrefixOf_iff_prefix.mpr (h1.trans h2)
  rw [this] at h
  simp at h

theorem takeWhile1_ok_inv2 (p : Char → Bool) (s name rest : Str)
    (h : takeWhile1 p s = .ok name rest) :
    name ++ rest = s ∧ name = s.takeWhile p ∧ name ≠ [] ∧
      name.all p = true ∧ rest = s.drop name.length := by
  unfold takeWhile1 at h
  simp only [] at h
  split at h
  · simp at h
  · rename_i hemp
    injection h with h1 h2
    refine ⟨?_, h1.symm, ?_, ?_, ?_⟩
    · rw [← h1, ← h2]
      exact append_drop_takeWhile p s
    · rw [← h1]
      simpa [List.isEmpty_iff] using hemp
    · rw [← h1]
      exact all_takeWhile p s
    · rw [← h2, ← h1]

theorem su_wf_uri (url : Str) (mk : Option Str)
    (h1 : url ≠ []) (h2 : url.all SrcUri.isUriChar = true)
    (h3 : SrcUri.wfMarker mk url = true)
    (h4 : SrcUri.atomSafe (SrcUri.markerText mk ++ url) = true) :
    SrcUri.wfEntry (.Uri url (SrcUri.filenameFromUrl url) mk) = true := by
  simp [SrcUri.wfEntry, h2, h3, h4, List.isEmpty_iff, h1]

theorem su_wf_renamed (url target : Str) (mk : Option Str)
    (h1 : url ≠ []) (h2 : url.all SrcUri.isUriChar = true)
    (h5 : target ≠ []) (h6 : target.all SrcUri.isFilenameChar = true)
    (h3 : SrcUri.wfMarker mk url = true)
    (h4 : SrcUri.atomSafe (SrcUri.markerText mk ++ url) = true) :
    SrcUri.wfEntry (.Renamed url target mk) = true := by
  simp [SrcUri.wfEntry, h2, h3, h4, h6, List.isEmpty_iff, h1, h5]

theorem su_uriEntry_sound (s : Str) (e : SrcUriEntry) (rest : Str)
    (hfail : SrcUri.parseUseConditional s = .fail)
    (h : SrcUri.parseUriEntry s = .ok e rest) :
    SrcUri.wfEntry e = true := by
  unfold SrcUri.parseUriEntry at h
  simp only [] at h
  unfold SrcUri.parseRestrictionMarker at h
  split at h
  · rename_i url rest1 htw
    by_cases hpf1 : (chars "fetch+").isPrefixOf s = true
    · rw [if_pos hpf1] at htw h
      dsimp only [] at htw h
      have hs := prefix_append_drop (chars "fetch+") s hpf1
      rw [show (chars "fetch+").length = 6 from rfl] at hs
      have hhne : s.head? ≠ some '!' := by
        rw [← hs]
        simp [chars]
      obtain ⟨hdec, hurl, hune, hall, hrst⟩ := takeWhile1_ok_inv2 _ _ _ _ htw
      have hatom : (chars "fetch+" ++ url) ++ rest1 = s := by
        rw [List.append_assoc, hdec, hs]
      have hsafe : SrcUri.atomSafe (chars "fetch+" ++ url) = true := by
        apply su_atomSafe_of_fail _ rest1
        rw [hatom]
        exact su_uc_fail_inv s hhne hfail
      have hmk : SrcUri.markerText (some (chars "fetch")) ++ url =
          chars "fetch+" ++ url := by
        simp [SrcUri.markerText, chars]
      split at h
      · split at h
        · rename_i target rest3 htw2
          obtain ⟨_, _, htne, htall, _⟩ := takeWhile1_ok_inv2 _ _ _ _ htw2
          cases h
          apply su_wf_renamed _ _ _ hune hall htne htall
            (by simp [SrcUri.wfMarker, chars])
          rw [hmk]
          exact hsafe
        · cases h
          apply su_wf_uri _ _ hune hall (by simp [SrcUri.wfMarker, chars])
          rw [hmk]
          exact hsafe
      · cases h
        apply su_wf_uri _ _ hune hall (by simp [SrcUri.wfMarker, chars])
        rw [hmk]
        exact hsafe
    · rw [if_neg hpf1] at htw h
      by_cases hpf2 : (chars "mirror+").isPrefixOf s = true
      · rw [if_pos hpf2] at htw h
        dsimp only [] at htw h
        have hs := prefix_append_drop (chars "mirror+") s hpf2
        rw [show (chars "mirror+").length = 7 from rfl] at hs
        have hhne : s.head? ≠ some '!' := by
          rw [← hs]
          simp [chars]
        obtain ⟨hdec, hurl, hune, hall, hrst⟩ := takeWhile1_ok_inv2 _ _ _ _ htw
        have hatom : (chars "mirror+" ++ url) ++ rest1 = s := by
          rw [List.append_assoc, hdec, hs]
        have hsafe : SrcUri.atomSafe (chars "mirror+" ++ url) = true := by
          apply su_atomSafe_of_fail _ rest1
          rw [hatom]
          exact su_uc_fail_inv s hhne hfail
        have hmk : SrcUri.markerText (some (chars "mirror")) ++ url =
            chars "mirror+" ++ url := by
          simp [SrcUri.markerText, chars]
        split at h
        · split at h
          · rename_i target rest3 htw2
            obtain ⟨_, _, htne, htall, _⟩ := takeWhile1_ok_inv2 _ _ _ _ htw2
            cases h
            apply su_wf_renamed _ _ _ hune hall htne htall
              (by simp [SrcUri.wfMarker, chars])
            rw [hmk]
            exact hsafe
          · cases h
            apply su_wf_uri _ _ hune hall (by simp [SrcUri.wfMarker, chars])
            rw [hmk]
            exact hsafe
        · cases h
          apply su_wf_uri _ _ hune hall (by simp [SrcUri.wfMarker, chars])
          rw [hmk]
          exact hsafe
      · rw [if_neg hpf2] at htw h
        dsimp only [] at htw h
        obtain ⟨hdec, hurl, hune, hall, hrst⟩ := takeWhile1_ok_inv2 _ _ _ _ htw
        have hhne : s.head? ≠ some '!' := by
          intro hcon
          obtain ⟨r, hr⟩ : ∃ r, s = '!' :: r := by
            cases s with
            | nil => simp at hcon
            | cons a r =>
              simp at hcon
              exact ⟨r, by rw [hcon]⟩
          have hx : url.head? = some '!' ∨ url = [] := by
            rw [hurl, hr]
            by_cases hfc : SrcUri.isUriChar '!'
            · left
              simp [List.takeWhile_cons, hfc]
            · right
              simp [List.takeWhile_cons, hfc]
          rcases hx with hx | hx
          · have hmem : '!' ∈ url := by
              cases url with
              | nil => simp at hx
              | cons b bb =>
                simp at hx
                simp [hx]
            rw [List.all_eq_true] at hall
            exact absurd (hall '!' hmem) (by decide)
          · exact absurd hx hune
        have hmk0 : SrcUri.markerText none ++ url = url := by
          simp [SrcUri.markerText]
        have hsafe : SrcUri.atomSafe url = true := by
          apply su_atomSafe_of_fail _ rest1
          rw [hdec]
          exact su_uc_fail_inv s hhne hfail
        have hwfm : SrcUri.wfMarker none url = true := by
          simp only [SrcUri.wfMarker, Bool.and_eq_true, Bool.not_eq_true']
          constructor
          · rw [hurl]
            exact su_not_prefix_of_takeWhile s _ (eq_false_of_ne_true hpf1)
          · rw [hurl]
            exact su_not_prefix_of_takeWhile s _ (eq_false_of_ne_true hpf2)
        split at h
        · split at h
          · rename_i target rest3 htw2
            obtain ⟨_, _, htne, htall, _⟩ := takeWhile1_ok_inv2 _ _ _ _ htw2
            cases h
            apply su_wf_renamed _ _ _ hune hall htne htall hwfm
            rw [hmk0]
            exact hsafe
          · cases h
            apply su_wf_uri _ _ hune hall hwfm
            rw [hmk0]
            exact hsafe
        · cases h
          apply su_wf_uri _ _ hune hall hwfm
          rw [hmk0]
          exact hsafe
  · simp at h
  · simp at h

theorem su_sound :
    ∀ (n : Nat) (s : Str), s.length = n →
      ((∀ e rest, SrcUri.parseUseConditional s = .ok e rest →
          SrcUri.wfEntry e = true) ∧
       (∀ e rest, SrcUri.parseGroup s = .ok e rest → SrcUri.wfEntry e = true) ∧
       (∀ e rest, SrcUri.parseSrcUriEntry s = .ok e rest → SrcUri.wfEntry e = true) ∧
       (∀ es rest, SrcUri.parseSrcUriEntries s = .ok es rest →
          SrcUri.wfEntries es = true ∧ rest.length ≤ s.length)) := by
  intro n
  induction n using Nat.strong_induction_on with
  | _ n IH =>
  intro s hs
  subst hs
  have ihEntries : ∀ t : Str, t.length < s.length →
      ∀ es rest, SrcUri.parseSrcUriEntries t = .ok es rest →
        SrcUri.wfEntries es = true ∧ rest.length ≤ t.length :=
    fun t ht => (IH t.length ht t rfl).2.2.2
  have ihEntry : ∀ t : Str, t.length < s.length →
      ∀ e rest, SrcUri.parseSrcUriEntry t = .ok e rest → SrcUri.wfEntry e = true :=
    fun t ht => (IH t.length ht t rfl).2.2.1
  have hUC : ∀ e rest, SrcUri.parseUseConditional s = .ok e rest →
      SrcUri.wfEntry e = true := by
    intro e rest h
    unfold SrcUri.parseUseConditional at h
    simp only [] at h
    split at h
    · rename_i hneg
      simp only [hneg, reduceIte] at h
      split at h
      · simp at h
      · rename_i hflag
        split at h
        · rename_i s2 hq
          simp only [hneg, reduceIte] at hq
          split at h
          · rename_i s3 hp
            split at h
            · rename_i xE entries rest1 hent
              split at h
              · rename_i xM rest2 hms
                cases h
                have hlen : s3.length < s.length := by
                  have h1 := congrArg List.length hq
                  have h2 := congrArg List.length hp
                  have h3 := length_ms0_le s2
                  simp [List.length_drop] at h1 h2
                  have h5 : (List.tail s).length ≤ s.length := by
                    cases s <;> simp
                  omega
                have hwf := (ihEntries s3 hlen entries rest1 hent).1
                simp only [SrcUri.wfEntry, Bool.and_eq_true]
                exact ⟨⟨by simpa using hflag, all_takeWhile _ _⟩, hwf⟩
              · simp at h
            · simp at h
          · simp at h
        · simp at h
    · rename_i hneg
      simp only [hneg, reduceIte] at h
      split at h
      · simp at h
      · rename_i hflag
        split at h
        · rename_i s2 hq
          simp only [hneg, reduceIte] at hq
          split at h
          · rename_i s3 hp
            split at h
            · rename_i xE entries rest1 hent
              split at h
              · rename_i xM rest2 hms
                cases h
                have hlen : s3.length < s.length := by
                  have h1 := congrArg List.length hq
                  have h2 := congrArg List.length hp
                  have h3 := length_ms0_le s2
                  simp [List.length_drop] at h1 h2
                  omega
                have hwf := (ihEntries s3 hlen entries rest1 hent).1
                simp only [SrcUri.wfEntry, Bool.and_eq_true]
                exact ⟨⟨by simpa using hflag, all_takeWhile _ _⟩, hwf⟩
              · simp at h
            · simp at h
          · simp at h
        · simp at h
  have hG : ∀ e rest, SrcUri.parseGroup s = .ok e rest →
      SrcUri.wfEntry e = true := by
    intro e rest h
    unfold SrcUri.parseGroup at h
    split at h
    · rename_i s1
      split at h
      · rename_i entries rest1 hent
        split at h
        · rename_i rest2 hms
          cases h
          have hwf := (ihEntries s1 (by simp) entries rest1 hent).1
          simpa [SrcUri.wfEntry] using hwf
        · simp at h
      · simp at h
      · simp at h
    · simp at h
  have hEntry : ∀ e rest, SrcUri.parseSrcUriEntry s = .ok e rest →
      SrcUri.wfEntry e = true := by
    intro e rest h
    unfold SrcUri.parseSrcUriEntry at h
    split at h
    · simp at h
    · rename_i c t
      split at h
      · exact hG _ _ h
      · split at h
        · rename_i e1 r1 huc
          cases h
          exact hUC _ _ huc
        · simp at h
        · rename_i hfail
          exact su_uriEntry_sound _ _ _ hfail h
  have hEntries : ∀ es rest, SrcUri.parseSrcUriEntries s = .ok es rest →
      SrcUri.wfEntries es = true ∧ rest.length ≤ s.length := by
    intro es rest h
    unfold SrcUri.parseSrcUriEntries at h
    split at h
    · rename_i e1 rest1 hent1
      split at h
      · rename_i hlt
        split at h
        · rename_i es2 rest2 hrec
          cases h
          have hrec2 := ihEntries rest1 hlt _ _ hrec
          have hwf1 : SrcUri.wfEntry e1 = true := by
            rcases ms0_eq_or_lt s with heq | hlt2
            · rw [heq] at hent1
              exact hEntry _ _ hent1
            · exact ihEntry (ms0 s) hlt2 _ _ hent1
          refine ⟨?_, ?_⟩
          · simp [SrcUri.wfEntries, hwf1, hrec2.1]
          · have := hrec2.2
            omega
        · simp at h
        · simp at h
      · simp at h
    · cases h
      exact ⟨rfl, Nat.le_refl _⟩
    · simp at h
  exact ⟨hUC, hG, hEntry, hEntries⟩


theorem isPrefixOf_append_self (p X : Str) : p.isPrefixOf (p ++ X) = true :=
  List.isPrefixOf_iff_prefix.mpr ⟨X, rfl⟩

theorem su_isPrefixOf_append_false (p l rest : Str) (hp : p.isPrefixOf l = false)
    (hpc : p.all SrcUri.isUriChar = true)
    (hrest : ∀ c, rest.head? = some c → SrcUri.isUriChar c = false) :
    p.isPrefixOf (l ++ rest) = false := by
  by_contra hcon
  simp only [Bool.not_eq_false] at hcon
  have hconP := List.isPrefixOf_iff_prefix.mp hcon
  rcases le_or_lt p.length l.length with hlen | hlen
  · have : p <+: l :=
      List.prefix_of_prefix_length_le hconP (l.prefix_append rest) hlen
    rw [List.isPrefixOf_iff_prefix.mpr this] at hp
    simp at hp
  · have hlp : l <+: p :=
      List.prefix_of_prefix_length_le (l.prefix_append rest) hconP (Nat.le_of_lt hlen)
    obtain ⟨ex, hex⟩ := hlp
    have hexne : ex ≠ [] := by
      intro hcon2
      rw [hcon2, List.append_nil] at hex
      rw [hex] at hlen
      omega
    obtain ⟨t, ht⟩ := hconP
    rw [← hex, List.append_assoc] at ht
    have hrest2 : ex ++ t = rest := by
      have := List.append_cancel_left ht
      exact this
    obtain ⟨a, ex', rfl⟩ : ∃ a ex', ex = a :: ex' := by
      cases ex with
      | nil => exact absurd rfl hexne
      | cons a ex' => exact ⟨a, ex', rfl⟩
    have hha : rest.head? = some a := by
      rw [← hrest2]
      rfl
    have hmem : a ∈ p := by
      rw [← hex]
      simp
    rw [List.all_eq_true] at hpc
    have := hpc a hmem
    rw [hrest a hha] at this
    simp at this

theorem su_marker_render (mk : Option Str) (url rest : Str)
    (hune : url ≠ []) (hall : url.all SrcUri.isUriChar = true)
    (hwfm : SrcUri.wfMarker mk url = true)
    (hrest : ∀ c, rest.head? = some c → SrcUri.isUriChar c = false) :
    SrcUri.parseRestrictionMarker (SrcUri.markerText mk ++ url ++ rest) =
      (mk, url ++ rest) := by
  match mk with
  | some p =>
    simp only [SrcUri.wfMarker, Bool.or_eq_true, decide_eq_true_eq] at hwfm
    rcases hwfm with rfl | rfl
    · rw [show SrcUri.markerText (some (chars "fetch")) ++ url ++ rest =
          chars "fetch+" ++ (url ++ rest) by simp [SrcUri.markerText, chars]]
      unfold SrcUri.parseRestrictionMarker
      rw [if_pos (isPrefixOf_append_self _ _)]
      rw [show ∀ X : Str, (chars "fetch+" ++ X).drop 6 = X by intro X; rfl]
    · rw [show SrcUri.markerText (some (chars "mirror")) ++ url ++ rest =
          chars "mirror+" ++ (url ++ rest) by simp [SrcUri.markerText, chars]]
      unfold SrcUri.parseRestrictionMarker
      rw [if_neg (by
        rw [show chars "mirror+" ++ (url ++ rest) =
          'm' :: (chars "irror+" ++ (url ++ rest)) by simp [chars]]
        intro hcon
        exact absurd hcon (by simp [chars, List.isPrefixOf]))]
      rw [if_pos (isPrefixOf_append_self _ _)]
      rw [show ∀ X : Str, (chars "mirror+" ++ X).drop 7 = X by intro X; rfl]
  | none =>
    simp only [SrcUri.wfMarker, Bool.and_eq_true, Bool.not_eq_true'] at hwfm
    rw [show SrcUri.markerText none ++ url ++ rest = url ++ rest by
      simp [SrcUri.markerText]]
    unfold SrcUri.parseRestrictionMarker
    rw [if_neg (by
      rw [su_isPrefixOf_append_false _ _ _ hwfm.1 (by decide) hrest]
      simp)]
    rw [if_neg (by
      rw [su_isPrefixOf_append_false _ _ _ hwfm.2 (by decide) hrest]
      simp)]

theorem su_uc_fail_of_atomSafe (atom tail : Str) (hne : atom ≠ [])
    (hhd : ∀ c, atom.head? = some c → c ≠ '!')
    (hsafe : SrcUri.atomSafe atom = true)
    (htail : ∀ c, tail.head? = some c → SrcUri.isFlagChar c = false ∧ c ≠ '?') :
    SrcUri.parseUseConditional (atom ++ tail) = .fail := by
  have hneg : (decide ((atom ++ tail).head? = some '!')) = false := by
    rw [decide_eq_false_iff_not]
    intro hcon
    rw [head_append_ne _ _ hne] at hcon
    exact absurd rfl (hhd '!' hcon)
  have hq' : ¬((atom ++ tail).takeWhile SrcUri.isFlagChar).isEmpty = true →
      ∀ c, ((atom ++ tail).drop
      ((atom ++ tail).takeWhile SrcUri.isFlagChar).length).head? = some c → c ≠ '?' := by
    intro hfne c hc
    by_cases hall : atom.all SrcUri.isFlagChar = true
    · rw [takeWhile_append_all _ _ _ hall] at hc
      have hr0 : tail.takeWhile SrcUri.isFlagChar = [] := by
        cases tail with
        | nil => rfl
        | cons r rr => simp [List.takeWhile_cons, (htail r rfl).1]
      rw [hr0, List.append_nil, List.drop_left] at hc
      exact (htail c hc).2
    · rw [takeWhile_append_not_all _ _ _ hall] at hc
      have hlt := length_takeWhile_lt_of_not_all _ _ hall
      rw [List.drop_append_of_le_length (Nat.le_of_lt hlt)] at hc
      have hne2 : atom.drop (atom.takeWhile SrcUri.isFlagChar).length ≠ [] := by
        intro hcon
        have := congrArg List.length hcon
        simp [List.length_drop] at this
        omega
      rw [head_append_ne _ _ hne2] at hc
      unfold SrcUri.atomSafe at hsafe
      simp only [Bool.or_eq_true, decide_eq_true_eq] at hsafe
      rcases hsafe with hs1 | hs1
      · rw [takeWhile_append_not_all _ _ _ hall] at hfne
        exact absurd hs1 hfne
      · intro hcon
        rw [hcon] at hc
        exact absurd hc hs1
  unfold SrcUri.parseUseConditional
  simp only []
  simp only [hneg]
  split
  · rename_i hcon
    exact absurd hcon (by decide)
  · split
    · rfl
    · rename_i hflag
      split
      · rename_i s2 hq
        simp only [hneg, Bool.false_eq_true, if_false] at hq
        have hcon := hq' hflag '?' (by rw [hq]; rfl)
        exact absurd rfl hcon
      · rfl

theorem su_uriEntry_render_uri (url : Str) (mk : Option Str) (rest : Str)
    (hune : url ≠ []) (hall : url.all SrcUri.isUriChar = true)
    (hwfm : SrcUri.wfMarker mk url = true)
    (hrest : ∀ c, rest.head? = some c → SrcUri.isUriChar c = false)
    (harrow : ∀ r2, ms0 rest ≠ '-' :: '>' :: r2) :
    SrcUri.parseUriEntry (SrcUri.markerText mk ++ url ++ rest) =
      .ok (.Uri url (SrcUri.filenameFromUrl url) mk) rest := by
  have hpr := su_marker_render mk url rest hune hall hwfm hrest
  unfold SrcUri.parseUriEntry
  simp only []
  rw [hpr]
  rw [show (mk, url ++ rest).2 = url ++ rest from rfl,
      show (mk, url ++ rest).1 = mk from rfl]
  rw [takeWhile1_append SrcUri.isUriChar url rest hune
    (by rw [List.all_eq_true] at hall; exact hall) hrest]
  split
  · rename_i url2 rest2 heq
    injection heq with h1 h2
    subst h1
    subst h2
    split
    · rename_i rest3 hms
      exact absurd hms (harrow rest3)
    · rfl
  · rename_i heq
    simp at heq
  · rename_i heq
    simp at heq

theorem su_uriEntry_render_renamed (url target : Str) (mk : Option Str) (rest : Str)
    (hune : url ≠ []) (hall : url.all SrcUri.isUriChar = true)
    (htne : target ≠ []) (htall : target.all SrcUri.isFilenameChar = true)
    (hwfm : SrcUri.wfMarker mk url = true)
    (hrest : ∀ c, rest.head? = some c → SrcUri.isUriChar c = false) :
    SrcUri.parseUriEntry (SrcUri.markerText mk ++ url ++ chars " -> " ++ target ++ rest) =
      .ok (.Renamed url target mk) rest := by
  have harr : chars " -> " ++ target ++ rest =
      ' ' :: '-' :: '>' :: ' ' :: (target ++ rest) := by
    simp [chars]
  have hrs : ∀ c, (chars " -> " ++ target ++ rest).head? = some c →
      SrcUri.isUriChar c = false := by
    intro c hc
    rw [harr] at hc
    simp at hc
    rw [← hc]
    decide
  have hpr := su_marker_render mk url (chars " -> " ++ target ++ rest) hune hall hwfm hrs
  unfold SrcUri.parseUriEntry
  simp only []
  rw [show SrcUri.markerText mk ++ url ++ chars " -> " ++ target ++ rest =
      SrcUri.markerText mk ++ url ++ (chars " -> " ++ target ++ rest) by
    simp [List.append_assoc]]
  rw [hpr]
  rw [show (mk, url ++ (chars " -> " ++ target ++ rest)).2 =
      url ++ (chars " -> " ++ target ++ rest) from rfl,
      show (mk, url ++ (chars " -> " ++ target ++ rest)).1 = mk from rfl]
  rw [takeWhile1_append SrcUri.isUriChar url _ hune
    (by rw [List.all_eq_true] at hall; exact hall) hrs]
  split
  · rename_i url2 rest2 heq
    injection heq with h1 h2
    subst h1
    subst h2
    rw [harr]
    rw [ms0_cons ' ' _ (by decide)]
    rw [ms0_not_space _ (by intro c hc; simp at hc; rw [← hc]; decide)]
    split
    · rename_i rest3 hms
      injection hms with h1 hms
      injection hms with h2 hms
      subst hms
      rw [ms0_cons ' ' _ (by decide)]
      rw [ms0_not_space _ (by
        intro c hc
        rw [head_append_ne _ _ htne] at hc
        have hcm : c ∈ target := by
          cases target with
          | nil => exact absurd rfl htne
          | cons b bb =>
            simp at hc
            simp [hc]
        rw [List.all_eq_true] at htall
        have hf := htall c hcm
        by_contra hcon
        simp only [Bool.not_eq_false] at hcon
        rcases isMultispace_elim c hcon with rfl | rfl | rfl | rfl <;>
          exact absurd hf (by decide))]
      rw [takeWhile1_append SrcUri.isFilenameChar target rest htne
        (by rw [List.all_eq_true] at htall; exact htall)
        (fun c hc => (su_not_uri c (hrest c hc)).2.1)]
    · rename_i hms
      exact absurd rfl (hms (' ' :: (target ++ rest)))
  · rename_i heq
    simp at heq
  · rename_i heq
    simp at heq

theorem su_uc_render (neg : Bool) (flag mid rest : Str)
    (entries : List SrcUriEntry) (rst1 : Str)
    (hflag_ne : flag ≠ []) (hflag : flag.all SrcUri.isFlagChar = true)
    (hent : SrcUri.parseSrcUriEntries (' ' :: (mid ++ (' ' :: ')' :: rest))) =
      .ok entries rst1)
    (hms : ms0 rst1 = ')' :: rest) :
    SrcUri.parseUseConditional
      ((if neg then ['!'] else []) ++ flag ++ chars "? ( " ++ mid ++ chars " )" ++ rest) =
      .ok (.UseConditional flag neg entries) rest := by
  have hflagmem : ∀ c ∈ flag, SrcUri.isFlagChar c = true := by
    rw [List.all_eq_true] at hflag
    exact hflag
  have hq : chars "? ( " = '?' :: ' ' :: '(' :: ' ' :: [] := rfl
  have hcl : chars " )" = ' ' :: ')' :: [] := rfl
  have hstop : ∀ (X : Str) c, ('?' :: X).head? = some c →
      SrcUri.isFlagChar c = false := by
    intro X c hc
    simp at hc
    rw [← hc]
    decide
  cases neg with
  | true =>
    have hd : ∀ X : Str, decide (('!' :: X).head? = some '!') = true := by
      intro X
      simp
    simp only [if_pos, hq, hcl, List.append_assoc, List.cons_append, List.nil_append,
      List.singleton_append]
    unfold SrcUri.parseUseConditional
    simp only []
    simp only [hd, eq_self_iff_true, if_true, List.tail_cons]
    split
    · rename_i hflagE
      obtain ⟨a, fl, rfl⟩ : ∃ a fl, flag = a :: fl := by
        cases flag with
        | nil => exact absurd rfl hflag_ne
        | cons a fl => exact ⟨a, fl, rfl⟩
      simp [List.takeWhile_cons, hflagmem a (by simp)] at hflagE
    split
    · rename_i s2 hq2
      simp only [hd, eq_self_iff_true, if_true] at hq2
      rw [takeWhile_append_stop SrcUri.isFlagChar flag _ hflagmem (hstop _),
          List.drop_left] at hq2
      rw [takeWhile_append_stop SrcUri.isFlagChar flag _ hflagmem (hstop _)]
      injection hq2 with h1 h2
      subst h2
      split
      · rename_i s3 hp2
        rw [ms0_cons ' ' _ (by decide),
            ms0_not_space _ (by intro c hc; simp at hc; rw [← hc]; decide)] at hp2
        injection hp2 with h3 h4
        subst h4
        split
        · rename_i e2 r2 hent2
          rw [hent] at hent2
          injection hent2 with h5 h6
          subst h5
          subst h6
          rw [hms]
          rfl
        · rename_i hent2
          rw [hent] at hent2
          simp at hent2
      · rename_i hp2
        rw [ms0_cons ' ' _ (by decide),
            ms0_not_space _ (by intro c hc; simp at hc; rw [← hc]; decide)] at hp2
        exact absurd rfl (hp2 _)
    · rename_i hq2
      have hcon := hq2 (' ' :: '(' :: ' ' :: (mid ++ ' ' :: ')' :: rest))
      simp only [hd, eq_self_iff_true, if_true] at hcon
      rw [takeWhile_append_stop SrcUri.isFlagChar flag _ hflagmem (hstop _),
          List.drop_left] at hcon
      exact absurd rfl hcon
  | false =>
    have hd : decide ((flag ++ '?' :: ' ' :: '(' :: ' ' :: (mid ++ ' ' :: ')' :: rest)).head? =
        some '!') = false := by
      rw [decide_eq_false_iff_not]
      intro hcon
      obtain ⟨a, fl, rfl⟩ : ∃ a fl, flag = a :: fl := by
        cases flag with
        | nil => exact absurd rfl hflag_ne
        | cons a fl => exact ⟨a, fl, rfl⟩
      simp at hcon
      have := hflagmem '!' (by rw [hcon]; simp)
      exact absurd this (by decide)
    simp only [hq, hcl, List.append_assoc, List.cons_append, List.nil_append,
      Bool.false_eq_true, if_false]
    unfold SrcUri.parseUseConditional
    simp only []
    simp only [hd, Bool.false_eq_true, if_false]
    split
    · rename_i hflagE
      obtain ⟨a, fl, rfl⟩ : ∃ a fl, flag = a :: fl := by
        cases flag with
        | nil => exact absurd rfl hflag_ne
        | cons a fl => exact ⟨a, fl, rfl⟩
      simp [List.takeWhile_cons, hflagmem a (by simp)] at hflagE
    split
    · rename_i s2 hq2
      simp only [hd, Bool.false_eq_true, if_false] at hq2
      rw [takeWhile_append_stop SrcUri.isFlagChar flag _ hflagmem (hstop _),
          List.drop_left] at hq2
      rw [takeWhile_append_stop SrcUri.isFlagChar flag _ hflagmem (hstop _)]
      injection hq2 with h1 h2
      subst h2
      split
      · rename_i s3 hp2
        rw [ms0_cons ' ' _ (by decide),
            ms0_not_space _ (by intro c hc; simp at hc; rw [← hc]; decide)] at hp2
        injection hp2 with h3 h4
        subst h4
        split
        · rename_i e2 r2 hent2
          rw [hent] at hent2
          injection hent2 with h5 h6
          subst h5
          subst h6
          rw [hms]
          rfl
        · rename_i hent2
          rw [hent] at hent2
          simp at hent2
      · rename_i hp2
        rw [ms0_cons ' ' _ (by decide),
            ms0_not_space _ (by intro c hc; simp at hc; rw [← hc]; decide)] at hp2
        exact absurd rfl (hp2 _)
    · rename_i hq2
      have hcon := hq2 (' ' :: '(' :: ' ' :: (mid ++ ' ' :: ')' :: rest))
      simp only [hd, Bool.false_eq_true, if_false] at hcon
      rw [takeWhile_append_stop SrcUri.isFlagChar flag _ hflagmem (hstop _),
          List.drop_left] at hcon
      exact absurd rfl hcon


theorem su_group_render (mid rest : Str)
    (entries : List SrcUriEntry) (rst1 : Str)
    (hent : SrcUri.parseSrcUriEntries (' ' :: (mid ++ (' ' :: ')' :: rest))) =
      .ok entries rst1)
    (hms : ms0 rst1 = ')' :: rest) :
    SrcUri.parseGroup (chars "( " ++ mid ++ chars " )" ++ rest) =
      .ok (.Group entries) rest := by
  rw [show chars "( " ++ mid ++ chars " )" ++ rest =
      '(' :: (' ' :: (mid ++ (' ' :: ')' :: rest))) by
    simp [chars]]
  unfold SrcUri.parseGroup
  split
  · rename_i s1 heq
    injection heq with h1 heq
    subst heq
    split
    · rename_i e2 r2 hent2
      rw [hent] at hent2
      injection hent2 with h5 h6
      subst h5
      subst h6
      rw [hms]
      rfl
    · rename_i hent2
      rw [hent] at hent2
      simp at hent2
    · rename_i hent2
      rw [hent] at hent2
      simp at hent2
  · rename_i hno
    exact absurd rfl (hno _)

theorem su_entry_of_group (s : Str) (e : SrcUriEntry) (rest : Str)
    (h : SrcUri.parseGroup ('(' :: s) = .ok e rest) :
    SrcUri.parseSrcUriEntry ('(' :: s) = .ok e rest := by
  unfold SrcUri.parseSrcUriEntry
  rw [if_pos rfl]
  exact h

theorem su_entry_of_uc (s : Str) (e : SrcUriEntry) (rest : Str)
    (hhead : ∀ c, s.head? = some c → ¬(c = '('))
    (h : SrcUri.parseUseConditional s = .ok e rest) :
    SrcUri.parseSrcUriEntry s = .ok e rest := by
  cases s with
  | nil =>
    unfold SrcUri.parseUseConditional at h
    simp at h
  | cons a r =>
    unfold SrcUri.parseSrcUriEntry
    rw [if_neg (hhead a rfl)]
    rw [h]

theorem su_uc_fail_flagless (s : Str)
    (h : ∀ c, s.head? = some c → SrcUri.isFlagChar c = false ∧ c ≠ '!') :
    SrcUri.parseUseConditional s = .fail := by
  have hneg : (decide (s.head? = some '!')) = false := by
    rw [decide_eq_false_iff_not]
    intro hcon
    exact absurd rfl (h '!' hcon).2
  have hflag : s.takeWhile SrcUri.isFlagChar = [] := by
    cases s with
    | nil => rfl
    | cons c r => simp [List.takeWhile_cons, (h c rfl).1]
  unfold SrcUri.parseUseConditional
  simp only []
  simp only [hneg]
  split
  · rename_i hcon
    exact absurd hcon (by decide)
  · rw [if_pos (by rw [hflag]; rfl)]

theorem su_entry_fail_stop (s : Str)
    (h : s = [] ∨ s.head? = some ')') :
    SrcUri.parseSrcUriEntry s = .fail := by
  rcases h with rfl | h
  · unfold SrcUri.parseSrcUriEntry
    rfl
  · obtain ⟨r, rfl⟩ : ∃ r, s = ')' :: r := by
      cases s with
      | nil => simp at h
      | cons a r =>
        simp at h
        exact ⟨r, by rw [h]⟩
    unfold SrcUri.parseSrcUriEntry
    rw [if_neg (by decide)]
    rw [su_uc_fail_flagless _ (by
      intro c hc
      simp at hc
      rw [← hc]
      exact ⟨by decide, by decide⟩)]
    unfold SrcUri.parseUriEntry
    simp only []
    unfold SrcUri.parseRestrictionMarker
    rw [if_neg (by simp [chars, List.isPrefixOf])]
    rw [if_neg (by simp [chars, List.isPrefixOf])]
    rw [show ((none : Option Str), ')' :: r).2 = ')' :: r from rfl]
    rw [takeWhile1_stop _ _ (by
      intro c hc
      simp at hc
      rw [← hc]
      decide)]

theorem su_entry_of_uriEntry (s : Str) (e : SrcUriEntry) (rest : Str)
    (hhead : ∀ c, s.head? = some c → ¬(c = '('))
    (hfail : SrcUri.parseUseConditional s = .fail)
    (h : SrcUri.parseUriEntry s = .ok e rest) :
    SrcUri.parseSrcUriEntry s = .ok e rest := by
  cases s with
  | nil =>
    unfold SrcUri.parseUriEntry at h
    simp only [] at h
    unfold SrcUri.parseRestrictionMarker at h
    rw [if_neg (by decide)] at h
    rw [if_neg (by decide)] at h
    rw [show ((none : Option Str), ([] : Str)).2 = [] from rfl] at h
    rw [takeWhile1_stop _ _ (by intro c hc; simp at hc)] at h
    simp at h
  | cons a r =>
    unfold SrcUri.parseSrcUriEntry
    rw [if_neg (hhead a rfl)]
    rw [hfail]
    exact h


theorem su_stop_of_ms0 (rest : Str)
    (h : (ms0 rest).head? = some ')' ∨ ms0 rest = []) :
    ∀ c, rest.head? = some c → SrcUri.isUriChar c = false ∧ c ≠ '>' := by
  intro c hc
  obtain ⟨r, rfl⟩ : ∃ r, rest = c :: r := by
    cases rest with
    | nil => simp at hc
    | cons a r =>
      simp at hc
      exact ⟨r, by rw [hc]⟩
  by_cases hm : isMultispace c = true
  · rcases isMultispace_elim c hm with rfl | rfl | rfl | rfl <;>
      exact ⟨by decide, by decide⟩
  · rw [ms0_not_space _ (by intro d hd; simp at hd; rw [← hd]; simpa using hm)] at h
    rcases h with h | h
    · simp at h
      rw [h]
      exact ⟨by decide, by decide⟩
    · simp at h

theorem su_arrow_of_ms0 (rest : Str)
    (h : (ms0 rest).head? = some ')' ∨ ms0 rest = []) :
    ∀ r2, ms0 rest ≠ '-' :: '>' :: r2 := by
  intro r2 hcon
  rcases h with h | h
  · rw [hcon] at h
    simp at h
  · rw [hcon] at h
    simp at h

theorem su_render_uri_eq (url f : Str) (mk : Option Str) :
    SrcUriEntry.render (.Uri url f mk) = SrcUri.markerText mk ++ url := by
  cases mk <;> rfl

theorem su_render_renamed_eq (url target : Str) (mk : Option Str) :
    SrcUriEntry.render (.Renamed url target mk) =
      SrcUri.markerText mk ++ url ++ chars " -> " ++ target := by
  cases mk <;> rfl

theorem su_marker_head_ne (mk : Option Str) (url : Str) (hune : url ≠ [])
    (hall : url.all SrcUri.isUriChar = true)
    (hwfm : SrcUri.wfMarker mk url = true) :
    ∀ c, (SrcUri.markerText mk ++ url).head? = some c →
      SrcUri.isUriChar c = true := by
  intro c hc
  match mk with
  | some p =>
    simp only [SrcUri.wfMarker, Bool.or_eq_true, decide_eq_true_eq] at hwfm
    rcases hwfm with rfl | rfl
    · rw [show SrcUri.markerText (some (chars "fetch")) ++ url =
        'f' :: (chars "etch+" ++ url) by simp [SrcUri.markerText, chars]] at hc
      simp at hc
      rw [← hc]
      decide
    · rw [show SrcUri.markerText (some (chars "mirror")) ++ url =
        'm' :: (chars "irror+" ++ url) by simp [SrcUri.markerText, chars]] at hc
      simp at hc
      rw [← hc]
      decide
  | none =>
    rw [show SrcUri.markerText none ++ url = url by simp [SrcUri.markerText]] at hc
    have hcm : c ∈ url := by
      cases url with
      | nil => exact absurd rfl hune
      | cons b bb =>
        simp at hc
        simp [hc]
    rw [List.all_eq_true] at hall
    exact hall c hcm

theorem su_atom_twosafe (atom : Str) (hne : atom ≠ [])
    (hall : ∀ c ∈ atom, SrcUri.isUriChar c = true)
    (Y : Str) (r2 : Str) (hY : ∀ c, Y.head? = some c → c ≠ '>')
    (hcon : atom ++ Y = '-' :: '>' :: r2) : False := by
  match atom, hcon with
  | [], hcon => exact absurd rfl hne
  | [a], hcon =>
    simp at hcon
    exact absurd rfl (hY '>' (by rw [hcon.2]; rfl))
  | a :: b :: t, hcon =>
    simp at hcon
    have hb := hall b (by simp)
    rw [hcon.2.1] at hb
    exact absurd hb (by decide)


theorem su_markerText_all_uri (mk : Option Str) (url : Str)
    (hall : url.all SrcUri.isUriChar = true)
    (hwfm : SrcUri.wfMarker mk url = true) :
    ∀ c ∈ SrcUri.markerText mk ++ url, SrcUri.isUriChar c = true := by
  intro c hc
  rw [List.mem_append] at hc
  rcases hc with hc | hc
  · match mk with
    | some p =>
      simp only [SrcUri.wfMarker, Bool.or_eq_true, decide_eq_true_eq] at hwfm
      rcases hwfm with rfl | rfl
      · rw [show SrcUri.markerText (some (chars "fetch")) =
          chars "fetch+" by simp [SrcUri.markerText, chars]] at hc
        fin_cases hc <;> decide
      · rw [show SrcUri.markerText (some (chars "mirror")) =
          chars "mirror+" by simp [SrcUri.markerText, chars]] at hc
        fin_cases hc <;> decide
    | none =>
      simp [SrcUri.markerText] at hc
  · rw [List.all_eq_true] at hall
    exact hall c hc

theorem su_rp :
    ∀ (n : Nat),
      (∀ e : SrcUriEntry, sizeOf e ≤ n → SrcUri.wfEntry e = true →
        SrcUriEntry.render e ≠ [] ∧
        (∀ c, (SrcUriEntry.render e).head? = some c → isMultispace c = false) ∧
        (∀ Y r2, (∀ c, Y.head? = some c → c ≠ '>') →
          SrcUriEntry.render e ++ Y ≠ '-' :: '>' :: r2) ∧
        (∀ rest, (∀ c, rest.head? = some c → SrcUri.isUriChar c = false ∧ c ≠ '>') →
          (∀ r2, ms0 rest ≠ '-' :: '>' :: r2) →
          SrcUri.parseSrcUriEntry (SrcUriEntry.render e ++ rest) = .ok e rest)) ∧
      (∀ es : List SrcUriEntry, sizeOf es ≤ n → SrcUri.wfEntries es = true →
        ∀ pad rest, pad.all isMultispace = true →
          ((ms0 rest).head? = some ')' ∨ ms0 rest = []) →
          SrcUri.parseSrcUriEntries (pad ++ renderSrcUriList es ++ rest) =
            .ok es (if es.isEmpty then pad ++ rest else rest)) := by
  intro n
  induction n using Nat.strong_induction_on with
  | _ n IH =>
  constructor
  · intro e hsz hwf
    match e with
    | .Uri url filename mk =>
      simp only [SrcUri.wfEntry, Bool.and_eq_true, decide_eq_true_eq] at hwf
      obtain ⟨⟨⟨⟨hne0, hall⟩, hfn⟩, hwfm⟩, hsafe⟩ := hwf
      have hune : url ≠ [] := by simpa [List.isEmpty_iff] using hne0
      subst hfn
      have hurimem := su_marker_head_ne mk url hune hall hwfm
      have hatomne : SrcUri.markerText mk ++ url ≠ [] := by
        intro hcon
        rw [List.append_eq_nil] at hcon
        exact hune hcon.2
      refine ⟨?_, ?_, ?_, ?_⟩
      · rw [su_render_uri_eq]
        exact hatomne
      · intro c hc
        rw [su_render_uri_eq] at hc
        exact su_uriChar_not_ms c (hurimem c hc)
      · intro Y r2 hY hcon
        rw [su_render_uri_eq] at hcon
        exact su_atom_twosafe _ hatomne (su_markerText_all_uri mk url hall hwfm)
          Y r2 hY hcon
      · intro rest hrest harrow
        have hrest2 : ∀ c, rest.head? = some c → SrcUri.isUriChar c = false :=
          fun c hc => (hrest c hc).1
        have hucfail := su_uc_fail_of_atomSafe (SrcUri.markerText mk ++ url) rest hatomne
          (fun c hc => by
            have h0 := hurimem c hc
            intro hcon
            rw [hcon] at h0
            exact absurd h0 (by decide))
          hsafe
          (fun c hc => by
            have h1 := su_not_uri c (hrest2 c hc)
            exact ⟨h1.1, h1.2.2⟩)
        have huri := su_uriEntry_render_uri url mk rest hune hall hwfm hrest2 harrow
        rw [su_render_uri_eq]
        apply su_entry_of_uriEntry _ _ _ ?_ ?_ ?_
        · intro c hc
          have hc2 : ((SrcUri.markerText mk ++ url) ++ rest).head? = some c := by
            simpa [List.append_assoc] using hc
          rw [head_append_ne _ _ hatomne] at hc2
          have h0 := hurimem c hc2
          intro hcon
          rw [hcon] at h0
          exact absurd h0 (by decide)
        · simpa [List.append_assoc] using hucfail
        · simpa [List.append_assoc] using huri
    | .Renamed url target mk =>
      simp only [SrcUri.wfEntry, Bool.and_eq_true, decide_eq_true_eq] at hwf
      obtain ⟨⟨⟨⟨⟨hne0, hall⟩, htne0⟩, htall⟩, hwfm⟩, hsafe⟩ := hwf
      have hune : url ≠ [] := by simpa [List.isEmpty_iff] using hne0
      have htne : target ≠ [] := by simpa [List.isEmpty_iff] using htne0
      have hurimem := su_marker_head_ne mk url hune hall hwfm
      have hatomne : SrcUri.markerText mk ++ url ≠ [] := by
        intro hcon
        rw [List.append_eq_nil] at hcon
        exact hune hcon.2
      have hrsp : ∀ X : Str, SrcUriEntry.render (.Renamed url target mk) ++ X =
          (SrcUri.markerText mk ++ url) ++ (chars " -> " ++ (target ++ X)) := by
        intro X
        rw [su_render_renamed_eq]
        simp [List.append_assoc]
      refine ⟨?_, ?_, ?_, ?_⟩
      · rw [su_render_renamed_eq]
        intro hcon
        rw [List.append_eq_nil, List.append_eq_nil, List.append_eq_nil] at hcon
        exact hune hcon.1.1.2
      · intro c hc
        rw [show SrcUriEntry.render (.Renamed url target mk) =
            SrcUriEntry.render (.Renamed url target mk) ++ [] by simp] at hc
        rw [hrsp [], head_append_ne _ _ hatomne] at hc
        exact su_uriChar_not_ms c (hurimem c hc)
      · intro Y r2 hY hcon
        rw [hrsp Y] at hcon
        apply su_atom_twosafe _ hatomne (su_markerText_all_uri mk url hall hwfm)
          (chars " -> " ++ (target ++ Y)) r2 ?_ hcon
        intro c hc
        rw [show chars " -> " ++ (target ++ Y) =
          ' ' :: (chars "-> " ++ (target ++ Y)) by simp [chars]] at hc
        simp at hc
        rw [← hc]
        decide
      · intro rest hrest harrow
        have hrest2 : ∀ c, rest.head? = some c → SrcUri.isUriChar c = false :=
          fun c hc => (hrest c hc).1
        have hucfail := su_uc_fail_of_atomSafe (SrcUri.markerText mk ++ url)
          (chars " -> " ++ (target ++ rest)) hatomne
          (fun c hc => by
            have h0 := hurimem c hc
            intro hcon
            rw [hcon] at h0
            exact absurd h0 (by decide))
          hsafe
          (by
            intro c hc
            rw [show chars " -> " ++ (target ++ rest) =
              ' ' :: (chars "-> " ++ (target ++ rest)) by simp [chars]] at hc
            simp at hc
            rw [← hc]
            exact ⟨by decide, by decide⟩)
        have huri := su_uriEntry_render_renamed url target mk rest hune hall htne htall
          hwfm hrest2
        rw [hrsp rest]
        apply su_entry_of_uriEntry _ _ _ ?_ ?_ ?_
        · intro c hc
          rw [head_append_ne _ _ hatomne] at hc
          have h0 := hurimem c hc
          intro hcon
          rw [hcon] at h0
          exact absurd h0 (by decide)
        · exact hucfail
        · rw [show (SrcUri.markerText mk ++ url) ++ (chars " -> " ++ (target ++ rest)) =
            SrcUri.markerText mk ++ url ++ chars " -> " ++ target ++ rest by
            simp [List.append_assoc]]
          exact huri
    | .UseConditional flag neg entries =>
      simp only [SrcUri.wfEntry, Bool.and_eq_true] at hwf
      obtain ⟨⟨hfne, hfc⟩, hwfes⟩ := hwf
      have hflag_ne : flag ≠ [] := by simpa [List.isEmpty_iff] using hfne
      have hszes : sizeOf entries < n := by
        have : sizeOf entries < sizeOf (SrcUriEntry.UseConditional flag neg entries) := by
          simp
        omega
      have ihEnt := (IH (sizeOf entries) hszes).2 entries (Nat.le_refl _) hwfes
      refine ⟨?_, ?_, ?_, ?_⟩
      · intro hcon
        have hlen := congrArg List.length hcon
        simp [SrcUriEntry.render, chars] at hlen
      · intro c hc
        cases neg with
        | true =>
          simp only [SrcUriEntry.render, if_pos] at hc
          simp at hc
          rw [← hc]
          decide
        | false =>
          obtain ⟨a, fl, rfl⟩ : ∃ a fl, flag = a :: fl := by
            cases flag with
            | nil => exact absurd rfl hflag_ne
            | cons a fl => exact ⟨a, fl, rfl⟩
          simp only [SrcUriEntry.render, Bool.false_eq_true, if_false,
            List.nil_append, List.cons_append, List.head?_cons] at hc
          have hca : a = c := by simpa using hc
          rw [List.all_eq_true] at hfc
          have haf := hfc a (by simp)
          rw [hca] at haf
          by_contra hcon
          simp only [Bool.not_eq_false] at hcon
          rcases isMultispace_elim c hcon with rfl | rfl | rfl | rfl <;>
            exact absurd haf (by decide)
      · intro Y r2 hY hcon
        cases neg with
        | true =>
          rw [show SrcUriEntry.render (.UseConditional flag true entries) =
            '!' :: (flag ++ chars "? ( " ++ renderSrcUriList entries ++ chars " )") by
            simp [SrcUriEntry.render]] at hcon
          simp at hcon
        | false =>
          obtain ⟨a, fl, rfl⟩ : ∃ a fl, flag = a :: fl := by
            cases flag with
            | nil => exact absurd rfl hflag_ne
            | cons a fl => exact ⟨a, fl, rfl⟩
          rw [show SrcUriEntry.render (.UseConditional (a :: fl) false entries) =
            a :: (fl ++ (chars "? ( " ++ renderSrcUriList entries ++ chars " )")) by
            simp [SrcUriEntry.render, List.append_assoc]] at hcon
          rw [List.cons_append] at hcon
          injection hcon with h1 h2
          cases fl with
          | nil =>
            simp [chars] at h2
          | cons b fl2 =>
            rw [List.cons_append] at h2
            injection h2 with h3 h4
            rw [List.all_eq_true] at hfc
            have := hfc b (by simp)
            rw [h3] at this
            exact absurd this (by decide)
      · intro rest hrest harrow
        have hstop2 : (ms0 (' ' :: ')' :: rest)).head? = some ')' ∨
            ms0 (' ' :: ')' :: rest) = [] := by
          left
          rw [ms0_cons ' ' _ (by decide),
              ms0_not_space _ (by intro c hc; simp at hc; rw [← hc]; decide)]
          rfl
        have hent0 := ihEnt [' '] (' ' :: ')' :: rest) (by decide) hstop2
        rw [show ([' '] ++ renderSrcUriList entries ++ (' ' :: ')' :: rest)) =
            ' ' :: (renderSrcUriList entries ++ (' ' :: ')' :: rest)) by
          simp] at hent0
        have hms : ms0 (if entries.isEmpty then [' '] ++ (' ' :: ')' :: rest)
            else ' ' :: ')' :: rest) = ')' :: rest := by
          by_cases hemp : entries.isEmpty
          · rw [if_pos hemp]
            rw [show [' '] ++ (' ' :: ')' :: rest) = ' ' :: ' ' :: ')' :: rest by simp]
            rw [ms0_cons ' ' _ (by decide), ms0_cons ' ' _ (by decide),
                ms0_not_space _ (by intro c hc; simp at hc; rw [← hc]; decide)]
          · rw [if_neg hemp]
            rw [ms0_cons ' ' _ (by decide),
                ms0_not_space _ (by intro c hc; simp at hc; rw [← hc]; decide)]
        have huc := su_uc_render neg flag (renderSrcUriList entries) rest
          entries _ hflag_ne hfc hent0 hms
        have hgoal : SrcUriEntry.render (.UseConditional flag neg entries) ++ rest =
            (if neg then ['!'] else []) ++ flag ++ chars "? ( " ++
              renderSrcUriList entries ++ chars " )" ++ rest := by
          simp [SrcUriEntry.render]
        rw [hgoal]
        apply su_entry_of_uc _ _ _ ?_ huc
        intro c hc
        cases neg with
        | true =>
          simp at hc
          rw [← hc]
          decide
        | false =>
          obtain ⟨a, fl, rfl⟩ : ∃ a fl, flag = a :: fl := by
            cases flag with
            | nil => exact absurd rfl hflag_ne
            | cons a fl => exact ⟨a, fl, rfl⟩
          simp only [Bool.false_eq_true, if_false, List.nil_append,
            List.cons_append, List.head?_cons] at hc
          have hca : a = c := by simpa using hc
          rw [List.all_eq_true] at hfc
          have haf := hfc a (by simp)
          rw [hca] at haf
          intro hcon
          rw [hcon] at haf
          exact absurd haf (by decide)
    | .Group entries =>
      have hwfes : SrcUri.wfEntries entries = true := hwf
      have hszes : sizeOf entries < n := by
        have : sizeOf entries < sizeOf (SrcUriEntry.Group entries) := by
          simp
        omega
      have ihEnt := (IH (sizeOf entries) hszes).2 entries (Nat.le_refl _) hwfes
      refine ⟨by simp [SrcUriEntry.render, chars], ?_, ?_, ?_⟩
      · intro c hc
        rw [show SrcUriEntry.render (.Group entries) =
            '(' :: (' ' :: (renderSrcUriList entries ++ (' ' :: ')' :: []))) by
          simp [SrcUriEntry.render, chars]] at hc
        simp at hc
        rw [← hc]
        decide
      · intro Y r2 hY hcon
        rw [show SrcUriEntry.render (.Group entries) =
            '(' :: (' ' :: (renderSrcUriList entries ++ (' ' :: ')' :: []))) by
          simp [SrcUriEntry.render, chars]] at hcon
        simp at hcon
      · intro rest hrest harrow
        have hstop2 : (ms0 (' ' :: ')' :: rest)).head? = some ')' ∨
            ms0 (' ' :: ')' :: rest) = [] := by
          left
          rw [ms0_cons ' ' _ (by decide),
              ms0_not_space _ (by intro c hc; simp at hc; rw [← hc]; decide)]
          rfl
        have hent0 := ihEnt [' '] (' ' :: ')' :: rest) (by decide) hstop2
        rw [show ([' '] ++ renderSrcUriList entries ++ (' ' :: ')' :: rest)) =
            ' ' :: (renderSrcUriList entries ++ (' ' :: ')' :: rest)) by
          simp] at hent0
        have hms : ms0 (if entries.isEmpty then [' '] ++ (' ' :: ')' :: rest)
            else ' ' :: ')' :: rest) = ')' :: rest := by
          by_cases hemp : entries.isEmpty
          · rw [if_pos hemp]
            rw [show [' '] ++ (' ' :: ')' :: rest) = ' ' :: ' ' :: ')' :: rest by simp]
            rw [ms0_cons ' ' _ (by decide), ms0_cons ' ' _ (by decide),
                ms0_not_space _ (by intro c hc; simp at hc; rw [← hc]; decide)]
          · rw [if_neg hemp]
            rw [ms0_cons ' ' _ (by decide),
                ms0_not_space _ (by intro c hc; simp at hc; rw [← hc]; decide)]
        have hgr := su_group_render (renderSrcUriList entries) rest entries _ hent0 hms
        have hgoal : SrcUriEntry.render (.Group entries) ++ rest =
            '(' :: (' ' :: (renderSrcUriList entries ++ (' ' :: ')' :: rest))) := by
          simp [SrcUriEntry.render, chars]
        rw [hgoal]
        apply su_entry_of_group
        rw [show chars "( " ++ renderSrcUriList entries ++ chars " )" ++ rest =
          '(' :: (' ' :: (renderSrcUriList entries ++ (' ' :: ')' :: rest))) by
          simp [chars]] at hgr
        exact hgr
  · intro es hsz hwf pad rest hpad hstop
    match es with
    | [] =>
      unfold SrcUri.parseSrcUriEntries
      rw [show pad ++ renderSrcUriList [] ++ rest = pad ++ rest by
        simp [renderSrcUriList]]
      rw [ms0_append_ms pad rest hpad]
      rw [su_entry_fail_stop (ms0 rest) (Or.symm hstop)]
      simp
    | e :: es2 =>
      simp only [SrcUri.wfEntries, Bool.and_eq_true] at hwf
      obtain ⟨hwfe, hwfes2⟩ := hwf
      have hsze : sizeOf e < n := by
        have : sizeOf e < sizeOf (e :: es2) := by
          simp only [List.cons.sizeOf_spec]
          omega
        omega
      obtain ⟨hrne, hrhead, hrtwo, hrparse⟩ := (IH (sizeOf e) hsze).1 e (Nat.le_refl _) hwfe
      have hszes2 : sizeOf es2 < n := by
        have : sizeOf es2 < sizeOf (e :: es2) := by
          simp only [List.cons.sizeOf_spec]
          omega
        omega
      have ihES := (IH (sizeOf es2) hszes2).2 es2 (Nat.le_refl _) hwfes2
      have hrlen : 0 < (SrcUriEntry.render e).length := List.length_pos.mpr hrne
      cases es2 with
      | nil =>
        unfold SrcUri.parseSrcUriEntries
        rw [show pad ++ renderSrcUriList [e] ++ rest = pad ++ (e.render ++ rest) by
          simp [renderSrcUriList]]
        rw [ms0_append_ms pad _ hpad]
        rw [ms0_not_space _ (fun c hc => by
          rw [head_append_ne _ _ hrne] at hc
          exact hrhead c hc)]
        rw [hrparse rest (su_stop_of_ms0 rest hstop) (su_arrow_of_ms0 rest hstop)]
        simp only []
        rw [dif_pos (by simp [List.length_append]; omega)]
        have hrec := ihES [] rest (by decide) hstop
        simp only [renderSrcUriList, List.nil_append, List.isEmpty_nil,
          if_pos] at hrec
        rw [hrec]
        simp
      | cons e2 es3 =>
        have hsze2 : sizeOf e2 < n := by
          have : sizeOf e2 < sizeOf (e :: e2 :: es3) := by
            simp only [List.cons.sizeOf_spec]
            omega
          omega
        have hwfe2 : SrcUri.wfEntry e2 = true := by
          simp only [SrcUri.wfEntries, Bool.and_eq_true] at hwfes2
          exact hwfes2.1
        obtain ⟨hrne2, hrhead2, hrtwo2, _⟩ := (IH (sizeOf e2) hsze2).1 e2
          (Nat.le_refl _) hwfe2
        unfold SrcUri.parseSrcUriEntries
        rw [show pad ++ renderSrcUriList (e :: e2 :: es3) ++ rest =
            pad ++ (e.render ++ (' ' :: (renderSrcUriList (e2 :: es3) ++ rest))) by
          simp [renderSrcUriList]]
        rw [ms0_append_ms pad _ hpad]
        rw [ms0_not_space _ (fun c hc => by
          rw [head_append_ne _ _ hrne] at hc
          exact hrhead c hc)]
        have hreclist : ∀ X : Str, renderSrcUriList (e2 :: es3) ++ X =
            e2.render ++ ((if es3.isEmpty then [] else
              ' ' :: renderSrcUriList es3) ++ X) := by
          intro X
          cases es3 with
          | nil => simp [renderSrcUriList]
          | cons e3 es4 => simp [renderSrcUriList, List.append_assoc]
        rw [hrparse _ ?hstp ?harr]
        case hstp =>
          intro c hc
          simp at hc
          rw [← hc]
          exact ⟨by decide, by decide⟩
        case harr =>
          intro r2 hcon
          rw [ms0_cons ' ' _ (by decide)] at hcon
          rw [ms0_not_space _ (fun c hc => by
            rw [hreclist rest, head_append_ne _ _ hrne2] at hc
            exact hrhead2 c hc)] at hcon
          rw [hreclist rest] at hcon
          apply hrtwo2 _ r2 ?_ hcon
          intro c hc
          by_cases hemp : es3.isEmpty
          · rw [if_pos hemp, List.nil_append] at hc
            exact (su_stop_of_ms0 rest hstop c hc).2
          · rw [if_neg hemp, List.cons_append] at hc
            simp at hc
            rw [← hc]
            decide
        simp only []
        rw [dif_pos (by simp [List.length_append]; omega)]
        have hrec := ihES [' '] rest (by decide) hstop
        rw [show [' '] ++ renderSrcUriList (e2 :: es3) ++ rest =
            ' ' :: (renderSrcUriList (e2 :: es3) ++ rest) by simp] at hrec
        rw [if_neg (by simp)] at hrec
        rw [hrec]
        simp

theorem su_parse_wf (s : Str) (es : List SrcUriEntry)
    (h : SrcUriEntry.parse s = .ok es) : SrcUri.wfEntries es = true := by
  unfold SrcUriEntry.parse at h
  split at h
  · rename_i es2 hps
    injection h with h2
    subst h2
    unfold SrcUri.parseSrcUriString at hps
    split at hps
    · rename_i es3 rest3 hent
      injection hps with h5 h6
      subst h5
      exact ((su_sound s.length s rfl).2.2.2 _ rest3 hent).1
    · simp at hps
    · simp at hps
  · simp at h
  · simp at h

theorem su_render_parse (es : List SrcUriEntry)
    (hwf : SrcUri.wfEntries es = true) :
    SrcUriEntry.parse (renderSrcUriList es) = .ok es := by
  have h := (su_rp (sizeOf es)).2 es (Nat.le_refl _) hwf [] []
    (by decide) (by right; rfl)
  simp only [List.nil_append, List.append_nil, ite_self] at h
  unfold SrcUriEntry.parse SrcUri.parseSrcUriString
  rw [h]
  rfl


/-! ## Claims C2 and C4 -/

/-- C2 (amended): for every input on which parse succeeds, parsing the
canonical rendering of the parse result yields the parse result again — for
the LICENSE, REQUIRED_USE and SRC_URI grammars unconditionally, and for the
RESTRICT/PROPERTIES grammar provided the parse result contains no
empty-string token placeholder (the `Token ""` a multi-child bare paren
group collapses to, whose rendering is empty and does not read back). -/
theorem c2_render_parse_roundtrip :
    (∀ s t, LicenseExpr.parse s = .ok t →
      LicenseExpr.parse (LicenseExpr.render t) = .ok t) ∧
    (∀ s t, RequiredUseExpr.parse s = .ok t →
      RequiredUseExpr.parse (RequiredUseExpr.render t) = .ok t) ∧
    (∀ s es, SrcUriEntry.parse s = .ok es →
      SrcUriEntry.parse (renderSrcUriList es) = .ok es) ∧
    (∀ s es, RestrictExpr.parse s = .ok es → noEmptyTokList es = true →
      RestrictExpr.parse (renderRestrictList es) = .ok es) := by
  refine ⟨?_, ?_, ?_, ?_⟩
  · intro s t h
    exact license_render_parse_tree t (license_parse_wfTree s t h)
  · intro s t h
    exact ru_render_parse_tree t (ru_parse_wfTree s t h)
  · intro s es h
    exact su_render_parse es (su_parse_wf s es h)
  · intro s es h hne
    exact restrict_render_parse es (restrict_parse_wf s es h) hne

/-- C2 counterexample: the RESTRICT input `( a b )` parses to the
single placeholder `Token ""`, whose rendering re-parses to the empty list,
so `parse (render (parse s)) ≠ parse s` for this input. -/
theorem c2_counterexample :
    RestrictExpr.parse (chars "( a b )") = .ok [RestrictExpr.Token []] ∧
    RestrictExpr.parse (renderRestrictList [RestrictExpr.Token []]) = .ok [] ∧
    RestrictExpr.parse (renderRestrictList [RestrictExpr.Token []]) ≠
      RestrictExpr.parse (chars "( a b )") := by
  have h1 := restrict_bare_group [RestrictExpr.Token ['a'], RestrictExpr.Token ['b']]
    (by decide) (by decide)
  rw [show chars "( " ++
      renderRestrictList [RestrictExpr.Token ['a'], RestrictExpr.Token ['b']] ++
      chars " )" = chars "( a b )" from rfl] at h1
  have h2 : RestrictExpr.parse (renderRestrictList [RestrictExpr.Token []]) = .ok [] := by
    rw [show renderRestrictList [RestrictExpr.Token []] = [] from rfl]
    unfold RestrictExpr.parse Restrict.parseRestrictString
    rw [parseRestrictEntries_nil_input]
    rfl
  refine ⟨h1, h2, ?_⟩
  rw [h1, h2]
  simp

/-- Witness for the amended C2 at one concrete input per grammar:
`spdx` (LICENSE), `flag` (REQUIRED_USE), `u` (SRC_URI), `mirror`
(RESTRICT). -/
theorem c2_witness :
    LicenseExpr.parse (chars "spdx") = .ok (.License (chars "spdx")) ∧
    LicenseExpr.parse (LicenseExpr.render (.License (chars "spdx"))) =
      .ok (.License (chars "spdx")) ∧
    RequiredUseExpr.parse (chars "flag") = .ok (.Flag (chars "flag") false) ∧
    RequiredUseExpr.parse (RequiredUseExpr.render (.Flag (chars "flag") false)) =
      .ok (.Flag (chars "flag") false) ∧
    SrcUriEntry.parse (chars "u") =
      .ok [SrcUriEntry.Uri ['u'] ['u'] none] ∧
    SrcUriEntry.parse (renderSrcUriList [SrcUriEntry.Uri ['u'] ['u'] none]) =
      .ok [SrcUriEntry.Uri ['u'] ['u'] none] ∧
    RestrictExpr.parse (chars "mirror") = .ok [RestrictExpr.Token (chars "mirror")] ∧
    RestrictExpr.parse (renderRestrictList [RestrictExpr.Token (chars "mirror")]) =
      .ok [RestrictExpr.Token (chars "mirror")] := by
  have h1 : LicenseExpr.parse (chars "spdx") = .ok (.License (chars "spdx")) :=
    license_parse_single (.License (chars "spdx")) (by decide)
  have h2 : RequiredUseExpr.parse (chars "flag") = .ok (.Flag (chars "flag") false) :=
    ru_parse_single (.Flag (chars "flag") false) (by decide)
  have h3 : SrcUriEntry.parse (chars "u") = .ok [SrcUriEntry.Uri ['u'] ['u'] none] :=
    su_render_parse [SrcUriEntry.Uri ['u'] ['u'] none] (by decide)
  have h4 : RestrictExpr.parse (chars "mirror") =
      .ok [RestrictExpr.Token (chars "mirror")] :=
    restrict_render_parse [RestrictExpr.Token (chars "mirror")] (by decide) (by decide)
  exact ⟨h1, c2_render_parse_roundtrip.1 _ _ h1,
    h2, c2_render_parse_roundtrip.2.1 _ _ h2,
    h3, c2_render_parse_roundtrip.2.2.1 _ _ h3,
    h4, c2_render_parse_roundtrip.2.2.2 _ _ h4 (by decide)⟩

/-- C4: a bare parenthesized RESTRICT/PROPERTIES group parses to
`collapseGroup` of its children: the child itself for exactly one child,
and the empty-string token placeholder `Token ""` for any other child
count — neither rejected nor flattened. -/
theorem c4_stmt (es : List RestrictExpr)
    (hwf : Restrict.wfEntries es = true) (hne : noEmptyTokList es = true) :
    RestrictExpr.parse (chars "( " ++ renderRestrictList es ++ chars " )") =
      .ok [collapseGroup es] :=
  restrict_bare_group es hwf hne

/-- Witness for C4 at the concrete groups `( bindist )` (one child,
collapses to the child) and `( bindist test )` (two children, collapses to
the placeholder). -/
theorem c4_stmt_witness :
    RestrictExpr.parse (chars "( bindist )") = .ok [RestrictExpr.Token (chars "bindist")] ∧
    RestrictExpr.parse (chars "( bindist test )") = .ok [RestrictExpr.Token []] := by
  have h1 := c4_stmt [RestrictExpr.Token (chars "bindist")] (by decide) (by decide)
  have h2 := c4_stmt [RestrictExpr.Token (chars "bindist"),
    RestrictExpr.Token (chars "test")] (by decide) (by decide)
  rw [show chars "( " ++ renderRestrictList [RestrictExpr.Token (chars "bindist")] ++
      chars " )" = chars "( bindist )" from rfl] at h1
  rw [show chars "( " ++ renderRestrictList [RestrictExpr.Token (chars "bindist"),
      RestrictExpr.Token (chars "test")] ++ chars " )" =
      chars "( bindist test )" from rfl] at h2
  exact ⟨h1, h2⟩

/-! ## Claim C1: the serialize and parse round trip on records -/

/-! ## Character classes versus Unicode whitespace -/

theorem char_toNat_aux (c : Char) : c.val.toBitVec.toNat = c.toNat := rfl

theorem alnum_toNat (c : Char) (h : c.isAlphanum = true) :
    (48 ≤ c.toNat ∧ c.toNat ≤ 57) ∨ (65 ≤ c.toNat ∧ c.toNat ≤ 90) ∨
      (97 ≤ c.toNat ∧ c.toNat ≤ 122) := by
  simp [Char.isAlphanum, Char.isAlpha, Char.isDigit, Char.isUpper, Char.isLower,
    Char.le_def, UInt32.le_def, Fin.le_def, BitVec.le_def, char_toNat_aux] at h
  omega

theorem rustWs_toNat (c : Char) (h : rustIsWhitespace c = true) :
    c.toNat = 32 ∨ c.toNat = 9 ∨ c.toNat = 10 ∨ c.toNat = 11 ∨ c.toNat = 12 ∨
    c.toNat = 13 ∨ c.toNat = 0x85 ∨ c.toNat = 0xA0 ∨ c.toNat = 0x1680 ∨
    (0x2000 ≤ c.toNat ∧ c.toNat ≤ 0x200A) ∨ c.toNat = 0x2028 ∨ c.toNat = 0x2029 ∨
    c.toNat = 0x202F ∨ c.toNat = 0x205F ∨ c.toNat = 0x3000 := by
  simp only [rustIsWhitespace, Bool.or_eq_true, decide_eq_true_eq,
    Bool.and_eq_true] at h
  rcases h with ((((((((((((((h|h)|h)|h)|h)|h)|h)|h)|h)|h)|h)|h)|h)|h)|h) <;>
    first
      | (subst h; simp)
      | omega

theorem alnum_not_ws (c : Char) (h : c.isAlphanum = true) :
    rustIsWhitespace c = false := by
  by_contra hcon
  simp only [Bool.not_eq_false] at hcon
  have h1 := alnum_toNat c h
  have h2 := rustWs_toNat c hcon
  omega

theorem tokenChar_not_ws (c : Char) (h : Restrict.isTokenChar c = true) :
    rustIsWhitespace c = false := by
  simp only [Restrict.isTokenChar, Bool.or_eq_true, decide_eq_true_eq] at h
  rcases h with ((((h|h)|h)|h)|h) <;>
    first
      | exact alnum_not_ws c h
      | (subst h; rfl)

theorem rflagChar_not_ws (c : Char) (h : Restrict.isFlagChar c = true) :
    rustIsWhitespace c = false := by
  simp only [Restrict.isFlagChar, Bool.or_eq_true, decide_eq_true_eq] at h
  rcases h with (((h|h)|h)|h) <;>
    first
      | exact alnum_not_ws c h
      | (subst h; rfl)

theorem licChar_not_ws (c : Char) (h : License.isLicenseChar c = true) :
    rustIsWhitespace c = false := by
  simp only [License.isLicenseChar, Bool.or_eq_true, decide_eq_true_eq] at h
  rcases h with ((((h|h)|h)|h)|h) <;>
    first
      | exact alnum_not_ws c h
      | (subst h; rfl)

theorem lflagChar_not_ws (c : Char) (h : License.isFlagChar c = true) :
    rustIsWhitespace c = false := by
  simp only [License.isFlagChar, Bool.or_eq_true, decide_eq_true_eq] at h
  rcases h with ((((h|h)|h)|h)|h) <;>
    first
      | exact alnum_not_ws c h
      | (subst h; rfl)

theorem ruFlagChar_not_ws (c : Char) (h : RequiredUse.isFlagChar c = true) :
    rustIsWhitespace c = false := by
  simp only [RequiredUse.isFlagChar, Bool.or_eq_true, decide_eq_true_eq] at h
  rcases h with (((h|h)|h)|h) <;>
    first
      | exact alnum_not_ws c h
      | (subst h; rfl)

theorem uriChar_not_ws (c : Char) (h : SrcUri.isUriChar c = true) :
    rustIsWhitespace c = false := by
  simp only [SrcUri.isUriChar, Bool.or_eq_true, decide_eq_true_eq] at h
  rcases h with ((((((((((((((((((h|h)|h)|h)|h)|h)|h)|h)|h)|h)|h)|h)|h)|h)|h)|h)|h)|h)|h) <;>
    first
      | exact alnum_not_ws c h
      | (subst h; rfl)

theorem fnameChar_not_ws (c : Char) (h : SrcUri.isFilenameChar c = true) :
    rustIsWhitespace c = false := by
  simp only [SrcUri.isFilenameChar, Bool.or_eq_true, decide_eq_true_eq] at h
  rcases h with ((((h|h)|h)|h)|h) <;>
    first
      | exact alnum_not_ws c h
      | (subst h; rfl)

theorem suFlagChar_not_ws (c : Char) (h : SrcUri.isFlagChar c = true) :
    rustIsWhitespace c = false := by
  simp only [SrcUri.isFlagChar, Bool.or_eq_true, decide_eq_true_eq] at h
  rcases h with (((h|h)|h)|h) <;>
    first
      | exact alnum_not_ws c h
      | (subst h; rfl)

theorem not_ws_ne_nl (c : Char) (h : rustIsWhitespace c = false) : ¬(c = '\n') := by
  intro hcon
  subst hcon
  exact absurd h (by decide)

/-! ## Trimming no-ops and trimmed-value facts -/

theorem dropWhile_head_not (p : Char → Bool) (l : Str) :
    ∀ c, (l.dropWhile p).head? = some c → p c = false := by
  induction l with
  | nil => intro c h; simp at h
  | cons a t ih =>
    intro c h
    by_cases hp : p a
    · rw [List.dropWhile_cons_of_pos hp] at h
      exact ih c h
    · rw [List.dropWhile_cons_of_neg hp] at h
      simp at h
      rw [← h]
      simpa using hp

theorem dropWhile_not_head (p : Char → Bool) (l : Str)
    (h : ∀ c, l.head? = some c → p c = false) : l.dropWhile p = l := by
  cases l with
  | nil => rfl
  | cons c r => simp [List.dropWhile_cons, h c rfl]

theorem trimStart_not_ws (s : Str)
    (h : ∀ c, s.head? = some c → rustIsWhitespace c = false) : trimStart s = s :=
  dropWhile_not_head _ _ h

theorem trimEnd_not_ws (s : Str)
    (h : ∀ c, s.getLast? = some c → rustIsWhitespace c = false) : trimEnd s = s := by
  unfold trimEnd
  rw [dropWhile_not_head _ _ (by
    intro c hc
    rw [List.head?_reverse] at hc
    exact h c hc)]
  exact List.reverse_reverse s

theorem trimWs_not_ws (s : Str)
    (hh : ∀ c, s.head? = some c → rustIsWhitespace c = false)
    (hl : ∀ c, s.getLast? = some c → rustIsWhitespace c = false) : trimWs s = s := by
  unfold trimWs
  rw [trimStart_not_ws s hh, trimEnd_not_ws s hl]

theorem trimEnd_getLast (s : Str) :
    ∀ c, (trimEnd s).getLast? = some c → rustIsWhitespace c = false := by
  intro c hc
  unfold trimEnd at hc
  rw [← List.head?_reverse, List.reverse_reverse] at hc
  exact dropWhile_head_not _ _ c hc

theorem trimWs_getLast (s : Str) :
    ∀ c, (trimWs s).getLast? = some c → rustIsWhitespace c = false :=
  trimEnd_getLast _

theorem mem_trimStart (c : Char) (s : Str) (h : c ∈ trimStart s) : c ∈ s :=
  (List.dropWhile_sublist _).mem h

theorem mem_trimEnd (c : Char) (s : Str) (h : c ∈ trimEnd s) : c ∈ s := by
  unfold trimEnd at h
  rw [List.mem_reverse] at h
  rw [← List.mem_reverse]
  exact (List.dropWhile_sublist _).mem h

theorem mem_trimWs (c : Char) (s : Str) (h : c ∈ trimWs s) : c ∈ s :=
  mem_trimStart c s (mem_trimEnd c _ h)

/-! ## splitChar, joinSep and linesOf round-trips -/

theorem splitChar_not_mem (sep : Char) : ∀ (s : Str), ∀ t ∈ splitChar sep s, sep ∉ t := by
  intro s
  induction s with
  | nil =>
    intro t ht
    simp [splitChar] at ht
    simp [ht]
  | cons c rest ih =>
    intro t ht
    by_cases hc : c = sep
    · rw [show splitChar sep (c :: rest) = [] :: splitChar sep rest by
        simp [splitChar, hc]] at ht
      rcases List.mem_cons.mp ht with rfl | h2
      · simp
      · exact ih t h2
    · simp only [splitChar, if_neg hc] at ht
      cases hrec : splitChar sep rest with
      | nil =>
        rw [hrec] at ht
        simp at ht
        subst ht
        simp
        exact fun h => hc h.symm
      | cons g gs =>
        rw [hrec] at ht
        rcases List.mem_cons.mp ht with rfl | h2
        · simp only [List.mem_cons, not_or]
          refine ⟨fun h => hc h.symm, ?_⟩
          have := ih g (by rw [hrec]; simp)
          exact this
        · exact ih t (by rw [hrec]; exact List.mem_cons_of_mem _ h2)

theorem mem_dropLast {α : Type} (a : α) (l : List α) (h : a ∈ l.dropLast) : a ∈ l := by
  induction l with
  | nil => simpa using h
  | cons x t ih =>
    cases t with
    | nil => simp at h
    | cons y r =>
      rw [show (x :: y :: r).dropLast = x :: (y :: r).dropLast from rfl] at h
      rcases List.mem_cons.mp h with rfl | h2
      · simp
      · simp [ih h2]

theorem mem_stripCr (c : Char) (l : Str) (h : c ∈ stripCr l) : c ∈ l := by
  unfold stripCr at h
  split at h
  · exact mem_dropLast c l h
  · exact h

theorem mem_of_mem_dropLast_list {α : Type} (a : α) (l : List α)
    (h : a ∈ l.dropLast) : a ∈ l := mem_dropLast a l h

theorem linesOf_no_nl (s : Str) : ∀ l ∈ linesOf s, '\n' ∉ l := by
  intro l hl
  unfold linesOf at hl
  split at hl
  · simp at hl
  · simp only [List.mem_map] at hl
    obtain ⟨l0, hl0, rfl⟩ := hl
    intro hcon
    have hmem : '\n' ∈ l0 := mem_stripCr _ _ hcon
    have hl0' : l0 ∈ splitChar '\n' s := by
      rcases (em ((splitChar '\n' s).getLast? = some [])) with hlast | hlast
      · rw [if_pos hlast] at hl0
        exact mem_dropLast _ _ hl0
      · rw [if_neg hlast] at hl0
        exact hl0
    exact absurd hmem (splitChar_not_mem '\n' s l0 hl0')

theorem stripCr_no_cr (l : Str) (h : l.getLast? ≠ some '\r') : stripCr l = l := by
  unfold stripCr
  rw [if_neg h]

theorem joinSep_single (c : Char) (t : Str) : joinSep c [t] = t := by
  simp [joinSep, List.intercalate]

theorem joinSep_nil (c : Char) : joinSep c [] = [] := rfl

theorem joinSep_ne_nil (c : Char) :
    ∀ ts : List Str, ts ≠ [] → (∀ t ∈ ts, t ≠ []) → joinSep c ts ≠ [] := by
  intro ts
  match ts with
  | [] => intro h; exact absurd rfl h
  | [t] =>
    intro _ h2
    rw [joinSep_single]
    exact h2 t (by simp)
  | t :: t2 :: r =>
    intro _ h2
    rw [joinSep_cons_cons]
    intro hcon
    have := congrArg List.length hcon
    simp at this

theorem splitChar_joinSep (sep : Char) :
    ∀ ts : List Str, ts ≠ [] → (∀ t ∈ ts, sep ∉ t) →
      splitChar sep (joinSep sep ts) = ts := by
  intro ts
  induction ts with
  | nil => intro h; exact absurd rfl h
  | cons t rest ih =>
    intro _ h2
    cases rest with
    | nil =>
      rw [joinSep_single]
      exact splitChar_no_sep sep t (h2 t (by simp))
    | cons t2 r =>
      rw [joinSep_cons_cons]
      rw [splitChar_append sep t _ (h2 t (by simp))]
      rw [ih (by simp) (fun x hx => h2 x (by simp [hx]))]

theorem linesOf_joinSep (LINES : List Str)
    (h1 : ∀ l ∈ LINES, '\n' ∉ l)
    (h2 : ∀ l ∈ LINES, l.getLast? ≠ some '\r') :
    linesOf (joinSep '\n' (LINES ++ [[]])) = LINES := by
  cases LINES with
  | nil => rfl
  | cons l0 rest =>
    have hne : joinSep '\n' ((l0 :: rest) ++ [[]]) ≠ [] := by
      rw [show (l0 :: rest) ++ [[]] = l0 :: (rest ++ [[]]) from rfl]
      cases hr : rest ++ [[]] with
      | nil => simp at hr
      | cons x xs =>
        rw [joinSep_cons_cons]
        intro hcon
        have := congrArg List.length hcon
        simp at this
    have hsplit : splitChar '\n' (joinSep '\n' ((l0 :: rest) ++ [[]]))
        = (l0 :: rest) ++ [[]] := by
      apply splitChar_joinSep
      · simp
      · intro t ht
        rcases List.mem_append.mp ht with h | h
        · exact h1 t h
        · simp at h
          simp [h]
    unfold linesOf
    rw [if_neg hne]
    simp only [hsplit]
    rw [if_pos (by rw [List.getLast?_append_of_ne_nil _ (by simp)]; rfl)]
    rw [List.dropLast_concat]
    have hmap : ∀ L : List Str, (∀ l ∈ L, stripCr l = l) → L.map stripCr = L := by
      intro L hL
      induction L with
      | nil => rfl
      | cons a t ih => simp [hL a (by simp), ih (fun x hx => hL x (by simp [hx]))]
    exact hmap _ (fun l hl => stripCr_no_cr l (h2 l hl))

theorem joinSep_lastOk (sep : Char) (P : Char → Prop) :
    ∀ ts : List Str, (∀ t ∈ ts, t ≠ []) →
      (∀ t ∈ ts, ∀ c, t.getLast? = some c → P c) →
      ∀ c, (joinSep sep ts).getLast? = some c → P c := by
  intro ts
  induction ts with
  | nil => intro _ _ c hc; rw [joinSep_nil] at hc; simp at hc
  | cons t rest ih =>
    intro h1 h2 c hc
    cases rest with
    | nil =>
      rw [joinSep_single] at hc
      exact h2 t (by simp) c hc
    | cons t2 r =>
      rw [joinSep_cons_cons, List.getLast?_append_cons] at hc
      have hne : joinSep sep (t2 :: r) ≠ [] :=
        joinSep_ne_nil sep _ (by simp) (fun x hx => h1 x (by simp [hx]))
      cases hj : joinSep sep (t2 :: r) with
      | nil => exact absurd hj hne
      | cons x xs =>
        rw [hj, List.getLast?_cons_cons] at hc
        apply ih (fun x hx => h1 x (by simp [hx])) (fun x hx => h2 x (by simp [hx])) c
        rw [hj]
        exact hc

theorem joinSep_mem (sep : Char) :
    ∀ ts : List Str, ∀ c, c ∈ joinSep sep ts → c = sep ∨ ∃ t ∈ ts, c ∈ t := by
  intro ts
  induction ts with
  | nil => intro c hc; rw [joinSep_nil] at hc; simp at hc
  | cons t rest ih =>
    intro c hc
    cases rest with
    | nil =>
      rw [joinSep_single] at hc
      right
      exact ⟨t, by simp, hc⟩
    | cons t2 r =>
      rw [joinSep_cons_cons] at hc
      rcases List.mem_append.mp hc with h | h
      · right; exact ⟨t, by simp, h⟩
      · rcases List.mem_cons.mp h with rfl | h2
        · left; rfl
        · rcases ih c h2 with h3 | ⟨t3, ht3, hc3⟩
          · left; exact h3
          · right; exact ⟨t3, by simp [ht3], hc3⟩

theorem head_append_left {α : Type} (l1 l2 : List α) (h : l1 ≠ []) :
    (l1 ++ l2).head? = l1.head? := by
  cases l1 with
  | nil => exact absurd rfl h
  | cons a t => rfl

theorem joinSep_head (sep : Char) (t : Str) (ts : List Str) (h : t ≠ []) :
    (joinSep sep (t :: ts)).head? = t.head? := by
  cases ts with
  | nil => rw [joinSep_single]
  | cons t2 r =>
    rw [joinSep_cons_cons]
    exact head_append_left _ _ h

/-! ## split_whitespace facts -/

theorem splitWsAux_mem :
    ∀ (s acc : Str), acc.all (fun c => !rustIsWhitespace c) = true →
      ∀ t ∈ splitWsAux s acc,
        t ≠ [] ∧ t.all (fun c => !rustIsWhitespace c) = true := by
  intro s
  induction s with
  | nil =>
    intro acc hacc t ht
    unfold splitWsAux at ht
    split at ht
    · simp at ht
    · rename_i hne
      simp at ht
      subst ht
      refine ⟨?_, by simpa using hacc⟩
      simp only [ne_eq, List.reverse_eq_nil_iff]
      simpa [List.isEmpty_iff] using hne
  | cons c rest ih =>
    intro acc hacc t ht
    unfold splitWsAux at ht
    by_cases hw : rustIsWhitespace c
    · rw [if_pos hw] at ht
      by_cases hae : acc.isEmpty
      · rw [if_pos hae] at ht
        exact ih [] (by simp) t ht
      · rw [if_neg hae] at ht
        rcases List.mem_cons.mp ht with rfl | h2
        · refine ⟨?_, by simpa using hacc⟩
          simp only [ne_eq, List.reverse_eq_nil_iff]
          simpa [List.isEmpty_iff] using hae
        · exact ih [] (by simp) t h2
    · rw [if_neg hw] at ht
      refine ih (c :: acc) ?_ t ht
      simp only [List.all_cons, Bool.and_eq_true]
      exact ⟨by simpa using hw, hacc⟩

theorem splitWs_mem (s : Str) :
    ∀ t ∈ splitWs s, t ≠ [] ∧ t.all (fun c => !rustIsWhitespace c) = true :=
  splitWsAux_mem s [] (by simp)

theorem splitWsAux_nil_acc (acc : Str) :
    splitWsAux [] acc = if acc.isEmpty then [] else [acc.reverse] := rfl

theorem splitWsAux_cons_not_ws (c : Char) (rest acc : Str)
    (h : rustIsWhitespace c = false) :
    splitWsAux (c :: rest) acc = splitWsAux rest (c :: acc) := by
  rw [show splitWsAux (c :: rest) acc = if rustIsWhitespace c = true then
      (if acc.isEmpty = true then splitWsAux rest []
       else acc.reverse :: splitWsAux rest [])
    else splitWsAux rest (c :: acc) from rfl]
  rw [h]
  simp

theorem splitWsAux_cons_ws (c : Char) (rest acc : Str)
    (h : rustIsWhitespace c = true) :
    splitWsAux (c :: rest) acc = (if acc.isEmpty = true then splitWsAux rest []
      else acc.reverse :: splitWsAux rest []) := by
  rw [show splitWsAux (c :: rest) acc = if rustIsWhitespace c = true then
      (if acc.isEmpty = true then splitWsAux rest []
       else acc.reverse :: splitWsAux rest [])
    else splitWsAux rest (c :: acc) from rfl]
  rw [h]
  simp

theorem splitWsAux_chunk :
    ∀ (t s acc : Str), t.all (fun c => !rustIsWhitespace c) = true →
      splitWsAux (t ++ s) acc = splitWsAux s (t.reverse ++ acc) := by
  intro t
  induction t with
  | nil => intro s acc _; simp
  | cons c t' ih =>
    intro s acc hall
    simp only [List.all_cons, Bool.and_eq_true] at hall
    rw [List.cons_append]
    rw [splitWsAux_cons_not_ws c (t' ++ s) acc (by simpa using hall.1)]
    rw [ih s (c :: acc) hall.2]
    rw [show t'.reverse ++ c :: acc = (c :: t').reverse ++ acc by simp]

theorem splitWs_joinSep :
    ∀ ts : List Str,
      (∀ t ∈ ts, t ≠ [] ∧ t.all (fun c => !rustIsWhitespace c) = true) →
      splitWs (joinSep ' ' ts) = ts := by
  intro ts
  induction ts with
  | nil => intro _; rfl
  | cons t rest ih =>
    intro h
    cases rest with
    | nil =>
      rw [joinSep_single]
      unfold splitWs
      rw [show t = t ++ ([] : Str) by simp]
      rw [splitWsAux_chunk t [] [] (by
        have := (h t (by simp)).2
        simpa using this)]
      rw [splitWsAux_nil_acc]
      rw [if_neg (by
        simp only [List.append_nil, List.isEmpty_iff, List.reverse_eq_nil_iff]
        simpa using (h t (by simp)).1)]
      simp
    | cons t2 r =>
      rw [joinSep_cons_cons]
      unfold splitWs
      rw [splitWsAux_chunk t _ [] (h t (by simp)).2]
      rw [splitWsAux_cons_ws ' ' _ _ (by decide)]
      rw [if_neg (by
        simp only [List.append_nil, List.isEmpty_iff, List.reverse_eq_nil_iff]
        exact (h t (by simp)).1)]
      simp only [List.append_nil, List.reverse_reverse]
      rw [show splitWsAux (joinSep ' ' (t2 :: r)) [] = splitWs (joinSep ' ' (t2 :: r))
        from rfl]
      rw [ih (fun x hx => h x (by simp [hx]))]

/-! ## The key/value split of a serialized line -/

theorem lineKV_key_line (k v : Str) (hk1 : k ≠ [])
    (hk2 : ∀ c, k.head? = some c → rustIsWhitespace c = false)
    (hk3 : '=' ∉ k)
    (hv2 : ∀ c, v.getLast? = some c → rustIsWhitespace c = false) :
    lineKV (k ++ '=' :: v) = some (k, v) := by
  unfold lineKV
  have htrim : trimWs (k ++ '=' :: v) = k ++ '=' :: v := by
    apply trimWs_not_ws
    · intro c hc
      cases k with
      | nil => exact absurd rfl hk1
      | cons a t =>
        simp at hc
        rw [← hc]
        exact hk2 a rfl
    · intro c hc
      rw [List.getLast?_append_cons] at hc
      cases hvv : v with
      | nil =>
        subst hvv
        simp at hc
        rw [← hc]
        rfl
      | cons x xs =>
        subst hvv
        rw [List.getLast?_cons_cons] at hc
        exact hv2 c hc
  simp only [htrim]
  rw [if_neg (by simp [List.isEmpty_iff])]
  exact splitOnceChar_append '=' k v hk3

/-! ## chunkPairs and eclassTokens -/

theorem chunkPairs_eclassTokens :
    ∀ ecl : List (Str × Str), chunkPairs (eclassTokens ecl) = ecl := by
  intro ecl
  induction ecl with
  | nil => rfl
  | cons p r ih =>
    obtain ⟨a, b⟩ := p
    show chunkPairs (a :: b :: eclassTokens r) = (a, b) :: r
    rw [show chunkPairs (a :: b :: eclassTokens r)
        = (a, b) :: chunkPairs (eclassTokens r) from rfl, ih]

theorem chunkPairs_mem :
    ∀ (l : List Str) (p : Str × Str), p ∈ chunkPairs l → p.1 ∈ l ∧ p.2 ∈ l
  | [], p, h => by simp [chunkPairs] at h
  | [a], p, h => by simp [chunkPairs] at h
  | a :: b :: rest, p, h => by
    rw [show chunkPairs (a :: b :: rest) = (a, b) :: chunkPairs rest from rfl] at h
    rcases List.mem_cons.mp h with rfl | h2
    · exact ⟨by simp, by simp⟩
    · have := chunkPairs_mem rest p h2
      exact ⟨by simp [this.1], by simp [this.2]⟩

theorem eclassTokens_mem :
    ∀ (ecl : List (Str × Str)) (t : Str), t ∈ eclassTokens ecl →
      ∃ p ∈ ecl, t = p.1 ∨ t = p.2 := by
  intro ecl
  induction ecl with
  | nil => intro t ht; simp [eclassTokens] at ht
  | cons p r ih =>
    intro t ht
    rw [show eclassTokens (p :: r) = p.1 :: p.2 :: eclassTokens r from rfl] at ht
    rcases List.mem_cons.mp ht with rfl | ht2
    · exact ⟨p, by simp, Or.inl rfl⟩
    · rcases List.mem_cons.mp ht2 with rfl | ht3
      · exact ⟨p, by simp, Or.inr rfl⟩
      · obtain ⟨q, hq, hor⟩ := ih t ht3
        exact ⟨q, by simp [hq], hor⟩

/-! ## mapM round-trips -/

theorem mapM_render_eq {α : Type} (f : Str → Except Error α) (g : α → Str)
    (hfg : ∀ s a, f s = .ok a → g a = s) :
    ∀ (ts : List Str) (xs : List α), ts.mapM f = .ok xs → xs.map g = ts := by
  intro ts
  induction ts with
  | nil =>
    intro xs h
    simp only [List.mapM_nil, pure, Except.pure, Except.ok.injEq] at h
    simp [← h]
  | cons t ts' ih =>
    intro xs h
    rw [List.mapM_cons] at h
    obtain ⟨a, hfa, h2⟩ := Except.bind_ok_inv h
    obtain ⟨r, hr, h3⟩ := Except.bind_ok_inv h2
    simp only [pure, Except.pure, Except.ok.injEq] at h3
    subst h3
    simp only [List.map_cons, hfg t a hfa, ih r hr]

theorem mapM_map_render {α : Type} (f : Str → Except Error α) (g : α → Str) :
    ∀ xs : List α, (∀ a ∈ xs, f (g a) = .ok a) → (xs.map g).mapM f = .ok xs := by
  intro xs
  induction xs with
  | nil => intro _; rfl
  | cons a r ih =>
    intro h
    rw [List.map_cons, List.mapM_cons, h a (by simp)]
    rw [show (Except.ok a : Except Error α) >>= (fun x =>
        (List.map g r).mapM f >>= fun xs => pure (x :: xs))
        = (List.map g r).mapM f >>= fun xs => pure (a :: xs) from rfl]
    rw [ih (fun x hx => h x (by simp [hx]))]
    rfl

/-! ## all-predicate transfer to head and last -/

theorem all_head (p : Char → Bool) (l : Str) (h : l.all p = true) :
    ∀ c, l.head? = some c → p c = true := by
  intro c hc
  cases l with
  | nil => simp at hc
  | cons a t =>
    simp only [List.head?_cons, Option.some.injEq] at hc
    subst hc
    simp only [List.all_cons, Bool.and_eq_true] at h
    exact h.1

theorem mem_of_getLast (l : Str) (c : Char) (h : l.getLast? = some c) : c ∈ l := by
  induction l with
  | nil => simp at h
  | cons a t ih =>
    cases t with
    | nil =>
      simp at h
      simp [h]
    | cons b r =>
      rw [List.getLast?_cons_cons] at h
      exact List.mem_cons_of_mem _ (ih h)

theorem all_getLast (p : Char → Bool) (l : Str) (h : l.all p = true) :
    ∀ c, l.getLast? = some c → p c = true := by
  intro c hc
  rw [List.all_eq_true] at h
  exact h c (mem_of_getLast l c hc)

/-! ## Value-type round-trips -/

theorem eapi_fromStr_render (e : Eapi) : Eapi.fromStr (Eapi.render e) = some e := by
  cases e <;> rfl

theorem eapi_render_facts (e : Eapi) :
    Eapi.render e ≠ [] ∧ (Eapi.render e).all (fun c => !rustIsWhitespace c) = true := by
  cases e <;> exact ⟨by decide, by decide⟩

theorem keyword_fromStr_render (s : Str) (k : Keyword)
    (h : Keyword.fromStr s = .ok k) : Keyword.render k = s := by
  unfold Keyword.fromStr at h
  by_cases h1 : s.isEmpty
  · rw [if_pos h1] at h
    simp at h
  · rw [if_neg h1] at h
    by_cases h2 : s = chars "-*"
    · rw [if_pos h2] at h
      simp only [Except.ok.injEq] at h
      rw [← h, h2]
      rfl
    · rw [if_neg h2] at h
      split at h
      · rename_i arch
        by_cases h3 : arch.isEmpty
        · rw [if_pos h3] at h
          simp at h
        · rw [if_neg h3] at h
          simp only [Except.ok.injEq] at h
          rw [← h]
          rfl
      · rename_i arch
        by_cases h3 : arch.isEmpty
        · rw [if_pos h3] at h
          simp at h
        · rw [if_neg h3] at h
          simp only [Except.ok.injEq] at h
          rw [← h]
          rfl
      · simp only [Except.ok.injEq] at h
        rw [← h]
        rfl

theorem iuse_fromStr_render (s : Str) (i : IUse)
    (h : IUse.fromStr s = .ok i) : IUse.render i = s := by
  unfold IUse.fromStr at h
  by_cases h1 : s.isEmpty
  · rw [if_pos h1] at h
    simp at h
  · rw [if_neg h1] at h
    split at h
    · rename_i name
      by_cases h3 : name.isEmpty
      · rw [if_pos h3] at h
        simp at h
      · rw [if_neg h3] at h
        simp only [Except.ok.injEq] at h
        rw [← h]
        rfl
    · rename_i name
      by_cases h3 : name.isEmpty
      · rw [if_pos h3] at h
        simp at h
      · rw [if_neg h3] at h
        simp only [Except.ok.injEq] at h
        rw [← h]
        rfl
    · simp only [Except.ok.injEq] at h
      rw [← h]
      rfl

theorem phase_fromStr_render (p : Phase) : Phase.fromStr (Phase.render p) = .ok p := by
  cases p <;> rfl

theorem phase_render_facts (p : Phase) :
    Phase.render p ≠ [] ∧ (Phase.render p).all (fun c => !rustIsWhitespace c) = true := by
  cases p <;> exact ⟨by decide, by decide⟩

theorem phase_render_head (p : Phase) : (Phase.render p).head? ≠ some '-' := by
  cases p <;> decide

theorem phase_parseLine_format (ps : List Phase) :
    Phase.parseLine (formatPhases ps) = .ok ps := by
  cases ps with
  | nil => decide
  | cons p ps' =>
    have htok : ∀ t ∈ (p :: ps').map Phase.render,
        t ≠ [] ∧ t.all (fun c => !rustIsWhitespace c) = true := by
      intro t ht
      simp only [List.mem_map] at ht
      obtain ⟨q, _, rfl⟩ := ht
      exact phase_render_facts q
    unfold formatPhases
    rw [if_neg (by simp)]
    have htrim : trimWs (joinSep ' ' ((p :: ps').map Phase.render))
        = joinSep ' ' ((p :: ps').map Phase.render) := by
      apply trimWs_not_ws
      · intro c hc
        rw [List.map_cons, joinSep_head ' ' _ _ (phase_render_facts p).1] at hc
        have := all_head _ _ (phase_render_facts p).2 c hc
        simpa using this
      · intro c hc
        refine joinSep_lastOk ' ' (fun d => rustIsWhitespace d = false) _
          (fun t ht => (htok t ht).1) (fun t ht d hd => ?_) c hc
        have := all_getLast _ _ (htok t ht).2 d hd
        simpa using this
    have hne : joinSep ' ' ((p :: ps').map Phase.render) ≠ [] :=
      joinSep_ne_nil ' ' _ (by simp) (fun t ht => (htok t ht).1)
    have hnd : joinSep ' ' ((p :: ps').map Phase.render) ≠ chars "-" := by
      intro hcon
      have hh : (joinSep ' ' ((p :: ps').map Phase.render)).head? = some '-' := by
        rw [hcon]
        rfl
      rw [List.map_cons, joinSep_head ' ' _ _ (phase_render_facts p).1] at hh
      exact absurd hh (phase_render_head p)
    unfold Phase.parseLine
    simp only [htrim]
    rw [if_neg (by
      simp only [Bool.or_eq_true, decide_eq_true_eq, List.isEmpty_iff]
      push_neg
      exact ⟨hne, hnd⟩)]
    rw [splitWs_joinSep _ htok]
    exact mapM_map_render Phase.fromStr Phase.render _
      (fun a _ => phase_fromStr_render a)

/-! ## Serialized grammar renders stay on one line and end in non-whitespace -/

theorem all_mono (p q : Char → Bool) (l : Str)
    (hpq : ∀ c, p c = true → q c = true) (h : l.all p = true) : l.all q = true := by
  rw [List.all_eq_true] at h ⊢
  exact fun c hc => hpq c (h c hc)

theorem no_nl_of_all_lineChar (l : Str)
    (h : l.all (fun c => !rustIsWhitespace c || c = ' ') = true) : '\n' ∉ l := by
  intro hcon
  rw [List.all_eq_true] at h
  have := h '\n' hcon
  simp at this
  exact absurd this (by decide)

theorem restrict_render_lineOk :
    ∀ (n : Nat),
      (∀ e : RestrictExpr, sizeOf e ≤ n → Restrict.wfEntry e = true →
        RestrictExpr.noEmptyTok e = true →
        RestrictExpr.render e ≠ [] ∧
        (RestrictExpr.render e).all (fun c => !rustIsWhitespace c || c = ' ') = true ∧
        (∀ c, (RestrictExpr.render e).getLast? = some c →
          rustIsWhitespace c = false)) ∧
      (∀ es : List RestrictExpr, sizeOf es ≤ n → Restrict.wfEntries es = true →
        noEmptyTokList es = true →
        (renderRestrictList es).all (fun c => !rustIsWhitespace c || c = ' ') = true ∧
        (es ≠ [] → renderRestrictList es ≠ [] ∧
          (∀ c, (renderRestrictList es).getLast? = some c →
            rustIsWhitespace c = false))) := by
  intro n
  induction n using Nat.strong_induction_on with
  | _ n IH =>
  constructor
  · intro e hsz hwf hne
    match e with
    | .Token t =>
      have htne : t ≠ [] := by
        simp only [RestrictExpr.noEmptyTok, Bool.not_eq_true'] at hne
        simpa [List.isEmpty_iff] using hne
      have htc : t.all Restrict.isTokenChar = true := hwf
      refine ⟨htne, ?_, ?_⟩
      · exact all_mono _ _ _ (fun c hc => by simp [tokenChar_not_ws c hc]) htc
      · intro c hc
        exact tokenChar_not_ws c (all_getLast _ _ htc c hc)
    | .UseConditional flag neg entries =>
      simp only [Restrict.wfEntry, Bool.and_eq_true] at hwf
      obtain ⟨⟨hfne, hfc⟩, hwfes⟩ := hwf
      have hnees : noEmptyTokList entries = true := hne
      have hszes : sizeOf entries < n := by
        have : sizeOf entries < sizeOf (RestrictExpr.UseConditional flag neg entries) := by
          simp
        omega
      have ihL := ((IH (sizeOf entries) hszes).2 entries (Nat.le_refl _) hwfes hnees).1
      have hrend : RestrictExpr.render (.UseConditional flag neg entries) =
          ((if neg then ['!'] else []) ++ flag ++ chars "? ( " ++
            renderRestrictList entries) ++ chars " )" := by
        simp [RestrictExpr.render, List.append_assoc]
      refine ⟨?_, ?_, ?_⟩
      · rw [hrend]
        intro hcon
        have := congrArg List.length hcon
        simp [chars] at this
      · rw [hrend]
        simp only [List.all_append, Bool.and_eq_true]
        refine ⟨⟨⟨⟨?_, ?_⟩, by decide⟩, ihL⟩, by decide⟩
        · cases neg <;> decide
        · exact all_mono _ _ _ (fun c hc => by simp [rflagChar_not_ws c hc]) hfc
      · intro c hc
        rw [hrend] at hc
        rw [show chars " )" = [' ', ')'] from rfl] at hc
        rw [getLast?_append_last _ _ ')' (by rfl)] at hc
        simp only [Option.some.injEq] at hc
        subst hc
        rfl
  · intro es hsz hwf hne
    match es with
    | [] =>
      refine ⟨by decide, fun hcon => absurd rfl hcon⟩
    | [e] =>
      simp only [Restrict.wfEntries, Bool.and_eq_true] at hwf
      simp only [noEmptyTokList, Bool.and_eq_true] at hne
      have hsze : sizeOf e < n := by
        have : sizeOf e < sizeOf [e] := by
          simp only [List.cons.sizeOf_spec, List.nil.sizeOf_spec]
          omega
        omega
      have ihE := (IH (sizeOf e) hsze).1 e (Nat.le_refl _) hwf.1 hne.1
      rw [show renderRestrictList [e] = RestrictExpr.render e from rfl]
      exact ⟨ihE.2.1, fun _ => ⟨ihE.1, ihE.2.2⟩⟩
    | e :: e2 :: r =>
      simp only [Restrict.wfEntries, Bool.and_eq_true] at hwf
      simp only [noEmptyTokList, Bool.and_eq_true] at hne
      have hsze : sizeOf e < n := by
        have : sizeOf e < sizeOf (e :: e2 :: r) := by
          simp only [List.cons.sizeOf_spec]
          omega
        omega
      have hszr : sizeOf (e2 :: r) < n := by
        have : sizeOf (e2 :: r) < sizeOf (e :: e2 :: r) := by
          simp only [List.cons.sizeOf_spec]
          omega
        omega
      have ihE := (IH (sizeOf e) hsze).1 e (Nat.le_refl _) hwf.1 hne.1
      have ihR := (IH (sizeOf (e2 :: r)) hszr).2 (e2 :: r) (Nat.le_refl _)
        (by simp only [Restrict.wfEntries, Bool.and_eq_true]; exact hwf.2)
        (by simp only [noEmptyTokList, Bool.and_eq_true]; exact hne.2)
      have hrend : renderRestrictList (e :: e2 :: r) =
          RestrictExpr.render e ++ ' ' :: renderRestrictList (e2 :: r) := rfl
      have hrne := (ihR.2 (by simp)).1
      refine ⟨?_, fun _ => ⟨?_, ?_⟩⟩
      · rw [hrend]
        simp only [List.all_append, List.all_cons, Bool.and_eq_true]
        exact ⟨ihE.2.1, by decide, ihR.1⟩
      · rw [hrend]
        intro hcon
        have := congrArg List.length hcon
        simp at this
      · intro c hc
        rw [hrend, List.getLast?_append_cons] at hc
        cases hj : renderRestrictList (e2 :: r) with
        | nil => exact absurd hj hrne
        | cons x xs =>
          rw [hj, List.getLast?_cons_cons] at hc
          refine (ihR.2 (by simp)).2 c ?_
          rw [hj]
          exact hc

theorem license_render_lineOk :
    ∀ (n : Nat),
      (∀ e : LicenseExpr, sizeOf e ≤ n → License.wfEntry e = true →
        LicenseExpr.render e ≠ [] ∧
        (LicenseExpr.render e).all (fun c => !rustIsWhitespace c || c = ' ') = true ∧
        (∀ c, (LicenseExpr.render e).getLast? = some c →
          rustIsWhitespace c = false)) ∧
      (∀ es : List LicenseExpr, sizeOf es ≤ n → License.wfEntries es = true →
        (renderLicenseList es).all (fun c => !rustIsWhitespace c || c = ' ') = true ∧
        (es ≠ [] → renderLicenseList es ≠ [] ∧
          (∀ c, (renderLicenseList es).getLast? = some c →
            rustIsWhitespace c = false))) := by
  intro n
  induction n using Nat.strong_induction_on with
  | _ n IH =>
  constructor
  · intro e hsz hwf
    match e with
    | .License name =>
      simp only [License.wfEntry, Bool.and_eq_true] at hwf
      obtain ⟨⟨hne, hall⟩, _⟩ := hwf
      have hne2 : name ≠ [] := by simpa [List.isEmpty_iff] using hne
      refine ⟨hne2, ?_, ?_⟩
      · exact all_mono _ _ _ (fun c hc => by simp [licChar_not_ws c hc]) hall
      · intro c hc
        exact licChar_not_ws c (all_getLast _ _ hall c hc)
    | .AnyOf entries =>
      have hwfes : License.wfEntries entries = true := hwf
      have hszes : sizeOf entries < n := by
        have : sizeOf entries < sizeOf (LicenseExpr.AnyOf entries) := by
          simp
        omega
      have ihL := ((IH (sizeOf entries) hszes).2 entries (Nat.le_refl _) hwfes).1
      have hrend : LicenseExpr.render (.AnyOf entries) =
          (chars "|| ( " ++ renderLicenseList entries) ++ chars " )" := by
        simp [LicenseExpr.render, List.append_assoc]
      refine ⟨?_, ?_, ?_⟩
      · rw [hrend]
        intro hcon
        have := congrArg List.length hcon
        simp [chars] at this
      · rw [hrend]
        simp only [List.all_append, Bool.and_eq_true]
        exact ⟨⟨by decide, ihL⟩, by decide⟩
      · intro c hc
        rw [hrend] at hc
        rw [show chars " )" = [' ', ')'] from rfl] at hc
        rw [getLast?_append_last _ _ ')' (by rfl)] at hc
        simp only [Option.some.injEq] at hc
        subst hc
        rfl
    | .UseConditional flag neg entries =>
      simp only [License.wfEntry, Bool.and_eq_true] at hwf
      obtain ⟨⟨hfne, hfc⟩, hwfes⟩ := hwf
      have hszes : sizeOf entries < n := by
        have : sizeOf entries <
            sizeOf (LicenseExpr.UseConditional flag neg entries) := by
          simp
        omega
      have ihL := ((IH (sizeOf entries) hszes).2 entries (Nat.le_refl _) hwfes).1
      have hrend : LicenseExpr.render (.UseConditional flag neg entries) =
          ((if neg then ['!'] else []) ++ flag ++ chars "? ( " ++
            renderLicenseList entries) ++ chars " )" := by
        simp [LicenseExpr.render, List.append_assoc]
      refine ⟨?_, ?_, ?_⟩
      · rw [hrend]
        intro hcon
        have := congrArg List.length hcon
        simp [chars] at this
      · rw [hrend]
        simp only [List.all_append, Bool.and_eq_true]
        refine ⟨⟨⟨⟨?_, ?_⟩, by decide⟩, ihL⟩, by decide⟩
        · cases neg <;> decide
        · exact all_mono _ _ _ (fun c hc => by simp [lflagChar_not_ws c hc]) hfc
      · intro c hc
        rw [hrend] at hc
        rw [show chars " )" = [' ', ')'] from rfl] at hc
        rw [getLast?_append_last _ _ ')' (by rfl)] at hc
        simp only [Option.some.injEq] at hc
        subst hc
        rfl
    | .All entries =>
      simp [License.wfEntry] at hwf
  · intro es hsz hwf
    match es with
    | [] =>
      refine ⟨by decide, fun hcon => absurd rfl hcon⟩
    | [e] =>
      simp only [License.wfEntries, Bool.and_eq_true] at hwf
      have hsze : sizeOf e < n := by
        have : sizeOf e < sizeOf [e] := by
          simp only [List.cons.sizeOf_spec, List.nil.sizeOf_spec]
          omega
        omega
      have ihE := (IH (sizeOf e) hsze).1 e (Nat.le_refl _) hwf.1
      rw [show renderLicenseList [e] = LicenseExpr.render e from rfl]
      exact ⟨ihE.2.1, fun _ => ⟨ihE.1, ihE.2.2⟩⟩
    | e :: e2 :: r =>
      simp only [License.wfEntries, Bool.and_eq_true] at hwf
      have hsze : sizeOf e < n := by
        have : sizeOf e < sizeOf (e :: e2 :: r) := by
          simp only [List.cons.sizeOf_spec]
          omega
        omega
      have hszr : sizeOf (e2 :: r) < n := by
        have : sizeOf (e2 :: r) < sizeOf (e :: e2 :: r) := by
          simp only [List.cons.sizeOf_spec]
          omega
        omega
      have ihE := (IH (sizeOf e) hsze).1 e (Nat.le_refl _) hwf.1
      have ihR := (IH (sizeOf (e2 :: r)) hszr).2 (e2 :: r) (Nat.le_refl _)
        (by simp only [License.wfEntries, Bool.and_eq_true]; exact hwf.2)
      have hrend : renderLicenseList (e :: e2 :: r) =
          LicenseExpr.render e ++ ' ' :: renderLicenseList (e2 :: r) := rfl
      have hrne := (ihR.2 (by simp)).1
      refine ⟨?_, fun _ => ⟨?_, ?_⟩⟩
      · rw [hrend]
        simp only [List.all_append, List.all_cons, Bool.and_eq_true]
        exact ⟨ihE.2.1, by decide, ihR.1⟩
      · rw [hrend]
        intro hcon
        have := congrArg List.length hcon
        simp at this
      · intro c hc
        rw [hrend, List.getLast?_append_cons] at hc
        cases hj : renderLicenseList (e2 :: r) with
        | nil => exact absurd hj hrne
        | cons x xs =>
          rw [hj, List.getLast?_cons_cons] at hc
          refine (ihR.2 (by simp)).2 c ?_
          rw [hj]
          exact hc

theorem license_tree_lineOk (t : LicenseExpr) (hwf : License.wfTree t = true)
    (hne : t ≠ .All []) :
    LicenseExpr.render t ≠ [] ∧
    (LicenseExpr.render t).all (fun c => !rustIsWhitespace c || c = ' ') = true ∧
    (∀ c, (LicenseExpr.render t).getLast? = some c → rustIsWhitespace c = false) := by
  cases t with
  | All es =>
    simp only [License.wfTree, Bool.and_eq_true] at hwf
    have hesne : es ≠ [] := by
      intro hcon
      subst hcon
      exact hne rfl
    have h := (license_render_lineOk (sizeOf es)).2 es (Nat.le_refl _) hwf.1
    rw [show LicenseExpr.render (.All es) = renderLicenseList es from rfl]
    exact ⟨(h.2 hesne).1, h.1, (h.2 hesne).2⟩
  | License name =>
    exact (license_render_lineOk (sizeOf (LicenseExpr.License name))).1 _
      (Nat.le_refl _) hwf
  | AnyOf entries =>
    exact (license_render_lineOk (sizeOf (LicenseExpr.AnyOf entries))).1 _
      (Nat.le_refl _) hwf
  | UseConditional flag neg entries =>
    exact (license_render_lineOk
      (sizeOf (LicenseExpr.UseConditional flag neg entries))).1 _
      (Nat.le_refl _) hwf

theorem ru_render_lineOk :
    ∀ (n : Nat),
      (∀ e : RequiredUseExpr, sizeOf e ≤ n → RequiredUse.wfEntry e = true →
        RequiredUseExpr.render e ≠ [] ∧
        (RequiredUseExpr.render e).all (fun c => !rustIsWhitespace c || c = ' ') = true ∧
        (∀ c, (RequiredUseExpr.render e).getLast? = some c →
          rustIsWhitespace c = false)) ∧
      (∀ es : List RequiredUseExpr, sizeOf es ≤ n → RequiredUse.wfEntries es = true →
        (renderRequiredUseList es).all (fun c => !rustIsWhitespace c || c = ' ') = true ∧
        (es ≠ [] → renderRequiredUseList es ≠ [] ∧
          (∀ c, (renderRequiredUseList es).getLast? = some c →
            rustIsWhitespace c = false))) := by
  intro n
  induction n using Nat.strong_induction_on with
  | _ n IH =>
  constructor
  · intro e hsz hwf
    match e with
    | .Flag name neg =>
      simp only [RequiredUse.wfEntry, Bool.and_eq_true] at hwf
      obtain ⟨hne, hall⟩ := hwf
      have hne2 : name ≠ [] := by simpa [List.isEmpty_iff] using hne
      have hrend : RequiredUseExpr.render (.Flag name neg) =
          (if neg then ['!'] else []) ++ name := rfl
      refine ⟨?_, ?_, ?_⟩
      · rw [hrend]
        intro hcon
        exact hne2 (List.append_eq_nil.mp hcon).2
      · rw [hrend]
        simp only [List.all_append, Bool.and_eq_true]
        refine ⟨?_, ?_⟩
        · cases neg <;> decide
        · exact all_mono _ _ _ (fun c hc => by simp [ruFlagChar_not_ws c hc]) hall
      · intro c hc
        rw [hrend, List.getLast?_append_of_ne_nil _ hne2] at hc
        exact ruFlagChar_not_ws c (all_getLast _ _ hall c hc)
    | .AnyOf entries =>
      have hwfes : RequiredUse.wfEntries entries = true := hwf
      have hszes : sizeOf entries < n := by
        have : sizeOf entries < sizeOf (RequiredUseExpr.AnyOf entries) := by
          simp
        omega
      have ihL := ((IH (sizeOf entries) hszes).2 entries (Nat.le_refl _) hwfes).1
      have hrend : RequiredUseExpr.render (.AnyOf entries) =
          (chars "|| ( " ++ renderRequiredUseList entries) ++ chars " )" := by
        simp [RequiredUseExpr.render, List.append_assoc]
      refine ⟨?_, ?_, ?_⟩
      · rw [hrend]
        intro hcon
        have := congrArg List.length hcon
        simp [chars] at this
      · rw [hrend]
        simp only [List.all_append, Bool.and_eq_true]
        exact ⟨⟨by decide, ihL⟩, by decide⟩
      · intro c hc
        rw [hrend] at hc
        rw [show chars " )" = [' ', ')'] from rfl] at hc
        rw [getLast?_append_last _ _ ')' (by rfl)] at hc
        simp only [Option.some.injEq] at hc
        subst hc
        rfl
    | .ExactlyOne entries =>
      have hwfes : RequiredUse.wfEntries entries = true := hwf
      have hszes : sizeOf entries < n := by
        have : sizeOf entries < sizeOf (RequiredUseExpr.ExactlyOne entries) := by
          simp
        omega
      have ihL := ((IH (sizeOf entries) hszes).2 entries (Nat.le_refl _) hwfes).1
      have hrend : RequiredUseExpr.render (.ExactlyOne entries) =
          (chars "^^ ( " ++ renderRequiredUseList entries) ++ chars " )" := by
        simp [RequiredUseExpr.render, List.append_assoc]
      refine ⟨?_, ?_, ?_⟩
      · rw [hrend]
        intro hcon
        have := congrArg List.length hcon
        simp [chars] at this
      · rw [hrend]
        simp only [List.all_append, Bool.and_eq_true]
        exact ⟨⟨by decide, ihL⟩, by decide⟩
      · intro c hc
        rw [hrend] at hc
        rw [show chars " )" = [' ', ')'] from rfl] at hc
        rw [getLast?_append_last _ _ ')' (by rfl)] at hc
        simp only [Option.some.injEq] at hc
        subst hc
        rfl
    | .AtMostOne entries =>
      have hwfes : RequiredUse.wfEntries entries = true := hwf
      have hszes : sizeOf entries < n := by
        have : sizeOf entries < sizeOf (RequiredUseExpr.AtMostOne entries) := by
          simp
        omega
      have ihL := ((IH (sizeOf entries) hszes).2 entries (Nat.le_refl _) hwfes).1
      have hrend : RequiredUseExpr.render (.AtMostOne entries) =
          (chars "?? ( " ++ renderRequiredUseList entries) ++ chars " )" := by
        simp [RequiredUseExpr.render, List.append_assoc]
      refine ⟨?_, ?_, ?_⟩
      · rw [hrend]
        intro hcon
        have := congrArg List.length hcon
        simp [chars] at this
      · rw [hrend]
        simp only [List.all_append, Bool.and_eq_true]
        exact ⟨⟨by decide, ihL⟩, by decide⟩
      · intro c hc
        rw [hrend] at hc
        rw [show chars " )" = [' ', ')'] from rfl] at hc
        rw [getLast?_append_last _ _ ')' (by rfl)] at hc
        simp only [Option.some.injEq] at hc
        subst hc
        rfl
    | .UseConditional flag neg entries =>
      simp only [RequiredUse.wfEntry, Bool.and_eq_true] at hwf
      obtain ⟨⟨hfne, hfc⟩, hwfes⟩ := hwf
      have hszes : sizeOf entries < n := by
        have : sizeOf entries <
            sizeOf (RequiredUseExpr.UseConditional flag neg entries) := by
          simp
        omega
      have ihL := ((IH (sizeOf entries) hszes).2 entries (Nat.le_refl _) hwfes).1
      have hrend : RequiredUseExpr.render (.UseConditional flag neg entries) =
          ((if neg then ['!'] else []) ++ flag ++ chars "? ( " ++
            renderRequiredUseList entries) ++ chars " )" := by
        simp [RequiredUseExpr.render, List.append_assoc]
      refine ⟨?_, ?_, ?_⟩
      · rw [hrend]
        intro hcon
        have := congrArg List.length hcon
        simp [chars] at this
      · rw [hrend]
        simp only [List.all_append, Bool.and_eq_true]
        refine ⟨⟨⟨⟨?_, ?_⟩, by decide⟩, ihL⟩, by decide⟩
        · cases neg <;> decide
        · exact all_mono _ _ _ (fun c hc => by simp [ruFlagChar_not_ws c hc]) hfc
      · intro c hc
        rw [hrend] at hc
        rw [show chars " )" = [' ', ')'] from rfl] at hc
        rw [getLast?_append_last _ _ ')' (by rfl)] at hc
        simp only [Option.some.injEq] at hc
        subst hc
        rfl
    | .All entries =>
      simp [RequiredUse.wfEntry] at hwf
  · intro es hsz hwf
    match es with
    | [] =>
      refine ⟨by decide, fun hcon => absurd rfl hcon⟩
    | [e] =>
      simp only [RequiredUse.wfEntries, Bool.and_eq_true] at hwf
      have hsze : sizeOf e < n := by
        have : sizeOf e < sizeOf [e] := by
          simp only [List.cons.sizeOf_spec, List.nil.sizeOf_spec]
          omega
        omega
      have ihE := (IH (sizeOf e) hsze).1 e (Nat.le_refl _) hwf.1
      rw [show renderRequiredUseList [e] = RequiredUseExpr.render e from rfl]
      exact ⟨ihE.2.1, fun _ => ⟨ihE.1, ihE.2.2⟩⟩
    | e :: e2 :: r =>
      simp only [RequiredUse.wfEntries, Bool.and_eq_true] at hwf
      have hsze : sizeOf e < n := by
        have : sizeOf e < sizeOf (e :: e2 :: r) := by
          simp only [List.cons.sizeOf_spec]
          omega
        omega
      have hszr : sizeOf (e2 :: r) < n := by
        have : sizeOf (e2 :: r) < sizeOf (e :: e2 :: r) := by
          simp only [List.cons.sizeOf_spec]
          omega
        omega
      have ihE := (IH (sizeOf e) hsze).1 e (Nat.le_refl _) hwf.1
      have ihR := (IH (sizeOf (e2 :: r)) hszr).2 (e2 :: r) (Nat.le_refl _)
        (by simp only [RequiredUse.wfEntries, Bool.and_eq_true]; exact hwf.2)
      have hrend : renderRequiredUseList (e :: e2 :: r) =
          RequiredUseExpr.render e ++ ' ' :: renderRequiredUseList (e2 :: r) := rfl
      have hrne := (ihR.2 (by simp)).1
      refine ⟨?_, fun _ => ⟨?_, ?_⟩⟩
      · rw [hrend]
        simp only [List.all_append, List.all_cons, Bool.and_eq_true]
        exact ⟨ihE.2.1, by decide, ihR.1⟩
      · rw [hrend]
        intro hcon
        have := congrArg List.length hcon
        simp at this
      · intro c hc
        rw [hrend, List.getLast?_append_cons] at hc
        cases hj : renderRequiredUseList (e2 :: r) with
        | nil => exact absurd hj hrne
        | cons x xs =>
          rw [hj, List.getLast?_cons_cons] at hc
          refine (ihR.2 (by simp)).2 c ?_
          rw [hj]
          exact hc

theorem ru_tree_lineOk (t : RequiredUseExpr) (hwf : RequiredUse.wfTree t = true)
    (hne : t ≠ .All []) :
    RequiredUseExpr.render t ≠ [] ∧
    (RequiredUseExpr.render t).all (fun c => !rustIsWhitespace c || c = ' ') = true ∧
    (∀ c, (RequiredUseExpr.render t).getLast? = some c →
      rustIsWhitespace c = false) := by
  cases t with
  | All es =>
    simp only [RequiredUse.wfTree, Bool.and_eq_true] at hwf
    have hesne : es ≠ [] := by
      intro hcon
      subst hcon
      exact hne rfl
    have h := (ru_render_lineOk (sizeOf es)).2 es (Nat.le_refl _) hwf.1
    rw [show RequiredUseExpr.render (.All es) = renderRequiredUseList es from rfl]
    exact ⟨(h.2 hesne).1, h.1, (h.2 hesne).2⟩
  | Flag name neg =>
    exact (ru_render_lineOk (sizeOf (RequiredUseExpr.Flag name neg))).1 _
      (Nat.le_refl _) hwf
  | AnyOf entries =>
    exact (ru_render_lineOk (sizeOf (RequiredUseExpr.AnyOf entries))).1 _
      (Nat.le_refl _) hwf
  | ExactlyOne entries =>
    exact (ru_render_lineOk (sizeOf (RequiredUseExpr.ExactlyOne entries))).1 _
      (Nat.le_refl _) hwf
  | AtMostOne entries =>
    exact (ru_render_lineOk (sizeOf (RequiredUseExpr.AtMostOne entries))).1 _
      (Nat.le_refl _) hwf
  | UseConditional flag neg entries =>
    exact (ru_render_lineOk
      (sizeOf (RequiredUseExpr.UseConditional flag neg entries))).1 _
      (Nat.le_refl _) hwf

theorem all_of_forall_mem (p : Char → Bool) (l : Str)
    (h : ∀ c ∈ l, p c = true) : l.all p = true := by
  rw [List.all_eq_true]
  exact h

theorem su_render_lineOk :
    ∀ (n : Nat),
      (∀ e : SrcUriEntry, sizeOf e ≤ n → SrcUri.wfEntry e = true →
        SrcUriEntry.render e ≠ [] ∧
        (SrcUriEntry.render e).all (fun c => !rustIsWhitespace c || c = ' ') = true ∧
        (∀ c, (SrcUriEntry.render e).getLast? = some c →
          rustIsWhitespace c = false)) ∧
      (∀ es : List SrcUriEntry, sizeOf es ≤ n → SrcUri.wfEntries es = true →
        (renderSrcUriList es).all (fun c => !rustIsWhitespace c || c = ' ') = true ∧
        (es ≠ [] → renderSrcUriList es ≠ [] ∧
          (∀ c, (renderSrcUriList es).getLast? = some c →
            rustIsWhitespace c = false))) := by
  intro n
  induction n using Nat.strong_induction_on with
  | _ n IH =>
  constructor
  · intro e hsz hwf
    match e with
    | .Uri url fname mk =>
      simp only [SrcUri.wfEntry, Bool.and_eq_true] at hwf
      obtain ⟨⟨⟨⟨hne, hall⟩, _⟩, hmk⟩, _⟩ := hwf
      have hne2 : url ≠ [] := by simpa [List.isEmpty_iff] using hne
      have halluri := su_markerText_all_uri mk url hall hmk
      rw [su_render_uri_eq]
      refine ⟨?_, ?_, ?_⟩
      · intro hcon
        exact hne2 (List.append_eq_nil.mp hcon).2
      · exact all_of_forall_mem _ _
          (fun c hc => by simp [uriChar_not_ws c (halluri c hc)])
      · intro c hc
        rw [List.getLast?_append_of_ne_nil _ hne2] at hc
        exact uriChar_not_ws c (all_getLast _ _ hall c hc)
    | .Renamed url target mk =>
      simp only [SrcUri.wfEntry, Bool.and_eq_true] at hwf
      obtain ⟨⟨⟨⟨⟨hne, hall⟩, htne⟩, htall⟩, hmk⟩, _⟩ := hwf
      have hne2 : url ≠ [] := by simpa [List.isEmpty_iff] using hne
      have htne2 : target ≠ [] := by simpa [List.isEmpty_iff] using htne
      have halluri := su_markerText_all_uri mk url hall hmk
      rw [su_render_renamed_eq]
      rw [show SrcUri.markerText mk ++ url ++ chars " -> " ++ target
          = (SrcUri.markerText mk ++ url) ++ chars " -> " ++ target by
        simp [List.append_assoc]]
      refine ⟨?_, ?_, ?_⟩
      · intro hcon
        exact htne2 (List.append_eq_nil.mp hcon).2
      · simp only [List.all_append, Bool.and_eq_true]
        refine ⟨⟨⟨?_, ?_⟩, by decide⟩, ?_⟩
        · exact all_of_forall_mem _ _
            (fun c hc => by
              simp [uriChar_not_ws c (halluri c (List.mem_append_left _ hc))])
        · exact all_of_forall_mem _ _
            (fun c hc => by
              simp [uriChar_not_ws c (halluri c (List.mem_append_right _ hc))])
        · exact all_mono _ _ _ (fun c hc => by simp [fnameChar_not_ws c hc]) htall
      · intro c hc
        rw [List.getLast?_append_of_ne_nil _ htne2] at hc
        exact fnameChar_not_ws c (all_getLast _ _ htall c hc)
    | .UseConditional flag neg entries =>
      simp only [SrcUri.wfEntry, Bool.and_eq_true] at hwf
      obtain ⟨⟨hfne, hfc⟩, hwfes⟩ := hwf
      have hszes : sizeOf entries < n := by
        have : sizeOf entries <
            sizeOf (SrcUriEntry.UseConditional flag neg entries) := by
          simp
        omega
      have ihL := ((IH (sizeOf entries) hszes).2 entries (Nat.le_refl _) hwfes).1
      have hrend : SrcUriEntry.render (.UseConditional flag neg entries) =
          ((if neg then ['!'] else []) ++ flag ++ chars "? ( " ++
            renderSrcUriList entries) ++ chars " )" := by
        simp [SrcUriEntry.render, List.append_assoc]
      refine ⟨?_, ?_, ?_⟩
      · rw [hrend]
        intro hcon
        have := congrArg List.length hcon
        simp [chars] at this
      · rw [hrend]
        simp only [List.all_append, Bool.and_eq_true]
        refine ⟨⟨⟨⟨?_, ?_⟩, by decide⟩, ihL⟩, by decide⟩
        · cases neg <;> decide
        · exact all_mono _ _ _ (fun c hc => by simp [suFlagChar_not_ws c hc]) hfc
      · intro c hc
        rw [hrend] at hc
        rw [show chars " )" = [' ', ')'] from rfl] at hc
        rw [getLast?_append_last _ _ ')' (by rfl)] at hc
        simp only [Option.some.injEq] at hc
        subst hc
        rfl
    | .Group entries =>
      have hwfes : SrcUri.wfEntries entries = true := hwf
      have hszes : sizeOf entries < n := by
        have : sizeOf entries < sizeOf (SrcUriEntry.Group entries) := by
          simp
        omega
      have ihL := ((IH (sizeOf entries) hszes).2 entries (Nat.le_refl _) hwfes).1
      have hrend : SrcUriEntry.render (.Group entries) =
          (chars "( " ++ renderSrcUriList entries) ++ chars " )" := by
        simp [SrcUriEntry.render, List.append_assoc]
      refine ⟨?_, ?_, ?_⟩
      · rw [hrend]
        intro hcon
        have := congrArg List.length hcon
        simp [chars] at this
      · rw [hrend]
        simp only [List.all_append, Bool.and_eq_true]
        exact ⟨⟨by decide, ihL⟩, by decide⟩
      · intro c hc
        rw [hrend] at hc
        rw [show chars " )" = [' ', ')'] from rfl] at hc
        rw [getLast?_append_last _ _ ')' (by rfl)] at hc
        simp only [Option.some.injEq] at hc
        subst hc
        rfl
  · intro es hsz hwf
    match es with
    | [] =>
      refine ⟨by decide, fun hcon => absurd rfl hcon⟩
    | [e] =>
      simp only [SrcUri.wfEntries, Bool.and_eq_true] at hwf
      have hsze : sizeOf e < n := by
        have : sizeOf e < sizeOf [e] := by
          simp only [List.cons.sizeOf_spec, List.nil.sizeOf_spec]
          omega
        omega
      have ihE := (IH (sizeOf e) hsze).1 e (Nat.le_refl _) hwf.1
      rw [show renderSrcUriList [e] = SrcUriEntry.render e from rfl]
      exact ⟨ihE.2.1, fun _ => ⟨ihE.1, ihE.2.2⟩⟩
    | e :: e2 :: r =>
      simp only [SrcUri.wfEntries, Bool.and_eq_true] at hwf
      have hsze : sizeOf e < n := by
        have : sizeOf e < sizeOf (e :: e2 :: r) := by
          simp only [List.cons.sizeOf_spec]
          omega
        omega
      have hszr : sizeOf (e2 :: r) < n := by
        have : sizeOf (e2 :: r) < sizeOf (e :: e2 :: r) := by
          simp only [List.cons.sizeOf_spec]
          omega
        omega
      have ihE := (IH (sizeOf e) hsze).1 e (Nat.le_refl _) hwf.1
      have ihR := (IH (sizeOf (e2 :: r)) hszr).2 (e2 :: r) (Nat.le_refl _)
        (by simp only [SrcUri.wfEntries, Bool.and_eq_true]; exact hwf.2)
      have hrend : renderSrcUriList (e :: e2 :: r) =
          SrcUriEntry.render e ++ ' ' :: renderSrcUriList (e2 :: r) := rfl
      have hrne := (ihR.2 (by simp)).1
      refine ⟨?_, fun _ => ⟨?_, ?_⟩⟩
      · rw [hrend]
        simp only [List.all_append, List.all_cons, Bool.and_eq_true]
        exact ⟨ihE.2.1, by decide, ihR.1⟩
      · rw [hrend]
        intro hcon
        have := congrArg List.length hcon
        simp at this
      · intro c hc
        rw [hrend, List.getLast?_append_cons] at hc
        cases hj : renderSrcUriList (e2 :: r) with
        | nil => exact absurd hj hrne
        | cons x xs =>
          rw [hj, List.getLast?_cons_cons] at hc
          refine (ihR.2 (by simp)).2 c ?_
          rw [hj]
          exact hc

/-! ## Full inversion of the assembly stage -/

theorem except_ok_bind {α β : Type} (a : α) (k : α → Except Error β) :
    (Except.ok a >>= k) = k a := rfl

theorem assemble_ok_inv (st : RawFields) (r : CacheEntry) (h : assemble st = .ok r) :
    eapiField st.eapi = .ok r.metadata.eapi ∧
    descriptionField st.description = .ok r.metadata.description ∧
    slotField st.slot = .ok r.metadata.slot ∧
    (if st.homepage.isEmpty then [] else splitWs st.homepage) = r.metadata.homepage ∧
    optionalField SrcUriEntry.parse st.src_uri = .ok r.metadata.src_uri ∧
    optionalExprField LicenseExpr.parse st.license = .ok r.metadata.license ∧
    optionalField Keyword.parseLine st.keywords = .ok r.metadata.keywords ∧
    optionalField IUse.parseLine st.iuse = .ok r.metadata.iuse ∧
    optionalExprField RequiredUseExpr.parse st.required_use
      = .ok r.metadata.required_use ∧
    optionalField RestrictExpr.parse st.restrict = .ok r.metadata.restrict ∧
    optionalField RestrictExpr.parse st.properties = .ok r.metadata.properties ∧
    parseDepField st.depend = .ok r.metadata.depend ∧
    parseDepField st.rdepend = .ok r.metadata.rdepend ∧
    parseDepField st.bdepend = .ok r.metadata.bdepend ∧
    parseDepField st.pdepend = .ok r.metadata.pdepend ∧
    parseDepField st.idepend = .ok r.metadata.idepend ∧
    (if st.inherited.isEmpty then [] else splitWs st.inherited)
      = r.metadata.inherited ∧
    Phase.parseLine st.defined_phases = .ok r.metadata.defined_phases ∧
    st.md5 = r.md5 ∧
    parseEclasses st.eclasses_raw = r.eclasses := by
  unfold assemble at h
  obtain ⟨eapi_val, h1, h⟩ := Except.bind_ok_inv h
  obtain ⟨description_val, h2, h⟩ := Except.bind_ok_inv h
  obtain ⟨slot_val, h3, h⟩ := Except.bind_ok_inv h
  obtain ⟨homepage_val, h3b, h⟩ := Except.bind_ok_inv h
  obtain ⟨src_uri_val, h4, h⟩ := Except.bind_ok_inv h
  obtain ⟨license_val, h5, h⟩ := Except.bind_ok_inv h
  obtain ⟨keywords_val, h6, h⟩ := Except.bind_ok_inv h
  obtain ⟨iuse_val, h7, h⟩ := Except.bind_ok_inv h
  obtain ⟨required_use_val, h8, h⟩ := Except.bind_ok_inv h
  obtain ⟨restrict_val, h9, h⟩ := Except.bind_ok_inv h
  obtain ⟨properties_val, h10, h⟩ := Except.bind_ok_inv h
  obtain ⟨depend_val, h11, h⟩ := Except.bind_ok_inv h
  obtain ⟨rdepend_val, h12, h⟩ := Except.bind_ok_inv h
  obtain ⟨bdepend_val, h13, h⟩ := Except.bind_ok_inv h
  obtain ⟨pdepend_val, h14, h⟩ := Except.bind_ok_inv h
  obtain ⟨idepend_val, h15, h⟩ := Except.bind_ok_inv h
  obtain ⟨inherited_val, h15b, h⟩ := Except.bind_ok_inv h
  obtain ⟨phases_val, h16, h⟩ := Except.bind_ok_inv h
  obtain ⟨eclasses_val, h16b, h⟩ := Except.bind_ok_inv h
  simp only [Pure.pure, Except.pure, Except.ok.injEq] at h
  subst h
  simp only [Pure.pure, Except.pure, Except.ok.injEq] at h3b h15b h16b
  exact ⟨h1, h2, h3, h3b, h4, h5, h6, h7, h8, h9, h10, h11, h12, h13, h14, h15,
    h15b, h16, rfl, h16b⟩

/-! ## The raw fields rebuilt from a record by the serialized lines -/


/-! ## Per-field reconstruction lemmas for the assembly of `renderedRaw` -/

theorem eapiField_render (e : Eapi) :
    eapiField (some (Eapi.render e)) = .ok e := by
  cases e <;> rfl

theorem descriptionField_some (d : Str) : descriptionField (some d) = .ok d := rfl

theorem slotField_render (o : Option Str) (sl : Slot)
    (h : slotField o = .ok sl) : slotField (some (Slot.render sl)) = .ok sl := by
  cases o with
  | none => simp [slotField] at h
  | some v =>
    have hps := parseSlot_ok v sl h
    show parseSlot (Slot.render sl) = .ok sl
    rw [hps.1]
    exact h

theorem wsList_roundtrip (v : Str) (xs : List Str)
    (h : (if v.isEmpty then [] else splitWs v) = xs) :
    (if (if xs.isEmpty then [] else joinSep ' ' xs).isEmpty then []
     else splitWs (if xs.isEmpty then [] else joinSep ' ' xs)) = xs := by
  cases hxs : xs with
  | nil => simp
  | cons x xs' =>
    subst hxs
    have hts : ∀ t ∈ x :: xs',
        t ≠ [] ∧ t.all (fun c => !rustIsWhitespace c) = true := by
      by_cases hv : v.isEmpty
      · rw [if_pos hv] at h
        exact absurd h (by simp)
      · rw [if_neg hv] at h
        rw [← h]
        exact splitWs_mem v
    have hjoin_ne := joinSep_ne_nil ' ' _ (by simp) (fun t ht => (hts t ht).1)
    rw [if_neg (show ¬((x :: xs').isEmpty = true) by simp)]
    rw [if_neg (show ¬((joinSep ' ' (x :: xs')).isEmpty = true) by
      simp only [List.isEmpty_iff]; exact hjoin_ne)]
    exact splitWs_joinSep _ hts

theorem optField_srcuri_roundtrip (v : Str) (es : List SrcUriEntry)
    (h : optionalField SrcUriEntry.parse v = .ok es) :
    optionalField SrcUriEntry.parse
      (if es.isEmpty then [] else renderSrcUriList es) = .ok es := by
  cases hes : es with
  | nil => rfl
  | cons e es' =>
    subst hes
    unfold optionalField at h
    split at h
    · simp [pure, Except.pure] at h
    · have hwf := su_parse_wf v _ h
      have hrne := ((su_render_lineOk (sizeOf (e :: es'))).2 _ (Nat.le_refl _)
        hwf).2 (by simp)
      rw [if_neg (by simp)]
      unfold optionalField
      rw [if_neg (by simp only [List.isEmpty_iff]; exact hrne.1)]
      exact su_render_parse _ hwf

theorem optField_restrict_roundtrip (v : Str) (es : List RestrictExpr)
    (h : optionalField RestrictExpr.parse v = .ok es)
    (hnet : noEmptyTokList es = true) :
    optionalField RestrictExpr.parse
      (if es.isEmpty then [] else renderRestrictList es) = .ok es := by
  cases hes : es with
  | nil => rfl
  | cons e es' =>
    subst hes
    unfold optionalField at h
    split at h
    · simp [pure, Except.pure] at h
    · have hwf := restrict_parse_wf v _ h
      have hrne := ((restrict_render_lineOk (sizeOf (e :: es'))).2 _ (Nat.le_refl _)
        hwf hnet).2 (by simp)
      rw [if_neg (by simp)]
      unfold optionalField
      rw [if_neg (by simp only [List.isEmpty_iff]; exact hrne.1)]
      exact restrict_render_parse _ hwf hnet

theorem optExpr_license_roundtrip (v : Str) (o : Option LicenseExpr)
    (h : optionalExprField LicenseExpr.parse v = .ok o)
    (hne : o ≠ some (.All [])) :
    optionalExprField LicenseExpr.parse (renderOpt LicenseExpr.render o)
      = .ok o := by
  unfold optionalExprField at h
  split at h
  · simp only [pure, Except.pure, Except.ok.injEq] at h
    subst h
    rfl
  · obtain ⟨lic, hp, h2⟩ := Except.bind_ok_inv h
    simp only [pure, Except.pure, Except.ok.injEq] at h2
    subst h2
    have hwf := license_parse_wfTree v lic hp
    have hlicne : lic ≠ .All [] := by
      intro hcon
      exact hne (by rw [hcon])
    have hfacts := license_tree_lineOk lic hwf hlicne
    show optionalExprField LicenseExpr.parse lic.render = .ok (some lic)
    unfold optionalExprField
    rw [if_neg (by simp only [List.isEmpty_iff]; exact hfacts.1)]
    rw [license_render_parse_tree lic hwf]
    rfl

theorem optExpr_ru_roundtrip (v : Str) (o : Option RequiredUseExpr)
    (h : optionalExprField RequiredUseExpr.parse v = .ok o)
    (hne : o ≠ some (.All [])) :
    optionalExprField RequiredUseExpr.parse (renderOpt RequiredUseExpr.render o)
      = .ok o := by
  unfold optionalExprField at h
  split at h
  · simp only [pure, Except.pure, Except.ok.injEq] at h
    subst h
    rfl
  · obtain ⟨ru, hp, h2⟩ := Except.bind_ok_inv h
    simp only [pure, Except.pure, Except.ok.injEq] at h2
    subst h2
    have hwf := ru_parse_wfTree v ru hp
    have hrune : ru ≠ .All [] := by
      intro hcon
      exact hne (by rw [hcon])
    have hfacts := ru_tree_lineOk ru hwf hrune
    show optionalExprField RequiredUseExpr.parse ru.render = .ok (some ru)
    unfold optionalExprField
    rw [if_neg (by simp only [List.isEmpty_iff]; exact hfacts.1)]
    rw [ru_render_parse_tree ru hwf]
    rfl

theorem optField_keywords_roundtrip (v : Str) (ks : List Keyword)
    (h : optionalField Keyword.parseLine v = .ok ks) :
    optionalField Keyword.parseLine
      (if ks.isEmpty then [] else joinSep ' ' (ks.map Keyword.render)) = .ok ks := by
  cases hks : ks with
  | nil => rfl
  | cons k ks' =>
    subst hks
    unfold optionalField at h
    split at h
    · simp [pure, Except.pure] at h
    · unfold Keyword.parseLine at h
      have hmap := mapM_render_eq Keyword.fromStr Keyword.render
        keyword_fromStr_render _ _ h
      have hts : ∀ t ∈ (k :: ks').map Keyword.render,
          t ≠ [] ∧ t.all (fun c => !rustIsWhitespace c) = true := by
        rw [hmap]
        exact splitWs_mem v
      have hjoin_ne := joinSep_ne_nil ' ' _ (by simp) (fun t ht => (hts t ht).1)
      rw [if_neg (by simp)]
      unfold optionalField
      rw [if_neg (by simp only [List.isEmpty_iff]; exact hjoin_ne)]
      unfold Keyword.parseLine
      rw [splitWs_joinSep _ hts, hmap]
      exact h

theorem optField_iuse_roundtrip (v : Str) (is : List IUse)
    (h : optionalField IUse.parseLine v = .ok is) :
    optionalField IUse.parseLine
      (if is.isEmpty then [] else joinSep ' ' (is.map IUse.render)) = .ok is := by
  cases his : is with
  | nil => rfl
  | cons i is' =>
    subst his
    unfold optionalField at h
    split at h
    · simp [pure, Except.pure] at h
    · unfold IUse.parseLine at h
      have hmap := mapM_render_eq IUse.fromStr IUse.render
        iuse_fromStr_render _ _ h
      have hts : ∀ t ∈ (i :: is').map IUse.render,
          t ≠ [] ∧ t.all (fun c => !rustIsWhitespace c) = true := by
        rw [hmap]
        exact splitWs_mem v
      have hjoin_ne := joinSep_ne_nil ' ' _ (by simp) (fun t ht => (hts t ht).1)
      rw [if_neg (by simp)]
      unfold optionalField
      rw [if_neg (by simp only [List.isEmpty_iff]; exact hjoin_ne)]
      unfold IUse.parseLine
      rw [splitWs_joinSep _ hts, hmap]
      exact h

theorem depField_roundtrip (v : Str) (es : List DepEntry)
    (h : parseDepField v = .ok es) :
    parseDepField (if es.isEmpty then [] else formatDepEntries es) = .ok es := by
  cases hes : es with
  | nil => rfl
  | cons e es' =>
    subst hes
    unfold parseDepField at h
    split at h
    · simp at h
    · simp only [Except.ok.injEq] at h
      have hts : ∀ t ∈ (e :: es').map DepEntry.render,
          t ≠ [] ∧ t.all (fun c => !rustIsWhitespace c) = true := by
        have hrm : (e :: es').map DepEntry.render = splitWs v := by
          rw [← h]
          rw [List.map_map]
          exact List.map_id _
        rw [hrm]
        exact splitWs_mem v
      have hjoin_ne := joinSep_ne_nil ' ' _ (by simp) (fun t ht => (hts t ht).1)
      rw [if_neg (by simp)]
      unfold formatDepEntries parseDepField
      rw [if_neg (by simp only [List.isEmpty_iff]; exact hjoin_ne)]
      rw [splitWs_joinSep _ hts]
      simp only [Except.ok.injEq]
      rw [List.map_map]
      rw [show (e :: es').map (DepEntry.mk ∘ DepEntry.render) = (e :: es').map id by rfl]
      exact List.map_id _

theorem eclasses_roundtrip (v : Str) (ecl : List (Str × Str))
    (h : parseEclasses v = ecl) :
    parseEclasses (if ecl.isEmpty then [] else joinSep '\t' (eclassTokens ecl))
      = ecl := by
  cases hecl : ecl with
  | nil => rfl
  | cons p r =>
    subst hecl
    have htabfree : ∀ t ∈ eclassTokens (p :: r), '\t' ∉ t := by
      intro t ht
      obtain ⟨q, hq, hor⟩ := eclassTokens_mem _ t ht
      unfold parseEclasses at h
      split at h
      · rw [← h] at hq
        simp at hq
      · rw [← h] at hq
        have hmem := chunkPairs_mem _ q hq
        rcases hor with rfl | rfl
        · exact splitChar_not_mem '\t' v _ hmem.1
        · exact splitChar_not_mem '\t' v _ hmem.2
    have hjoin_ne : joinSep '\t' (eclassTokens (p :: r)) ≠ [] := by
      rw [show eclassTokens (p :: r) = p.1 :: p.2 :: eclassTokens r from rfl]
      rw [joinSep_cons_cons]
      intro hcon
      have := congrArg List.length hcon
      simp at this
    rw [if_neg (by simp)]
    unfold parseEclasses
    rw [if_neg (by simp only [List.isEmpty_iff]; exact hjoin_ne)]
    rw [splitChar_joinSep '\t' _ (by
      rw [show eclassTokens (p :: r) = p.1 :: p.2 :: eclassTokens r from rfl]
      simp) htabfree]
    exact chunkPairs_eclassTokens _

theorem assemble_renderedRaw (st : RawFields) (r : CacheEntry)
    (h : assemble st = .ok r)
    (hres : noEmptyTokList r.metadata.restrict = true)
    (hprop : noEmptyTokList r.metadata.properties = true)
    (hlic : r.metadata.license ≠ some (.All []))
    (hru : r.metadata.required_use ≠ some (.All [])) :
    assemble (renderedRaw r) = .ok r := by
  obtain ⟨he, hd, hs, hhp, hsu, hl, hk, hi, hr8, hrs, hpr, hdep, hrdep, hbdep,
    hpdep, hidep, hinh, hph, hmd, hecl⟩ := assemble_ok_inv st r h
  have f1 := eapiField_render r.metadata.eapi
  have f2 := descriptionField_some r.metadata.description
  have f3 := slotField_render st.slot r.metadata.slot hs
  have f4 := wsList_roundtrip st.homepage r.metadata.homepage hhp
  have f5 := optField_srcuri_roundtrip st.src_uri r.metadata.src_uri hsu
  have f6 := optExpr_license_roundtrip st.license r.metadata.license hl hlic
  have f7 := optField_keywords_roundtrip st.keywords r.metadata.keywords hk
  have f8 := optField_iuse_roundtrip st.iuse r.metadata.iuse hi
  have f9 := optExpr_ru_roundtrip st.required_use r.metadata.required_use hr8 hru
  have f10 := optField_restrict_roundtrip st.restrict r.metadata.restrict hrs hres
  have f11 := optField_restrict_roundtrip st.properties r.metadata.properties
    hpr hprop
  have f12 := depField_roundtrip st.depend r.metadata.depend hdep
  have f13 := depField_roundtrip st.rdepend r.metadata.rdepend hrdep
  have f14 := depField_roundtrip st.bdepend r.metadata.bdepend hbdep
  have f15 := depField_roundtrip st.pdepend r.metadata.pdepend hpdep
  have f16 := depField_roundtrip st.idepend r.metadata.idepend hidep
  have f17 := wsList_roundtrip st.inherited r.metadata.inherited hinh
  have f18 := phase_parseLine_format r.metadata.defined_phases
  have f19 := eclasses_roundtrip st.eclasses_raw r.eclasses hecl
  unfold assemble renderedRaw
  simp only []
  simp only [f1, f2, f3, f4, f5, f6, f7, f8, f9, f10, f11, f12, f13, f14, f15,
    f16, f17, f18, f19, Bind.bind, Except.bind, Pure.pure, Except.pure]

/-! ## One-line value sanity: no newline, no trailing whitespace -/


theorem lineValOk_nil : lineValOk [] := ⟨by simp, by intro c hc; simp at hc⟩

theorem lineValOk_of_all_nonws (v : Str)
    (h : v.all (fun c => !rustIsWhitespace c) = true) : lineValOk v := by
  constructor
  · intro hcon
    rw [List.all_eq_true] at h
    have := h '\n' hcon
    simp at this
    exact absurd this (by decide)
  · intro c hc
    have := all_getLast _ _ h c hc
    simpa using this

theorem lineValOk_of_lineChar (v : Str)
    (h1 : v.all (fun c => !rustIsWhitespace c || c = ' ') = true)
    (h2 : ∀ c, v.getLast? = some c → rustIsWhitespace c = false) : lineValOk v :=
  ⟨no_nl_of_all_lineChar v h1, h2⟩

theorem lineValOk_join (sep : Char) (hsep : ¬(sep = '\n')) (ts : List Str)
    (hne : ∀ t ∈ ts, t ≠ [])
    (hnl : ∀ t ∈ ts, '\n' ∉ t)
    (hlast : ∀ t ∈ ts, ∀ c, t.getLast? = some c → rustIsWhitespace c = false) :
    lineValOk (joinSep sep ts) := by
  constructor
  · intro hcon
    rcases joinSep_mem sep ts '\n' hcon with h | ⟨t, ht, hc⟩
    · exact hsep h.symm
    · exact hnl t ht hc
  · exact joinSep_lastOk sep _ ts hne hlast

theorem lineValOk_join_nonws (ts : List Str)
    (h : ∀ t ∈ ts, t ≠ [] ∧ t.all (fun c => !rustIsWhitespace c) = true) :
    lineValOk (joinSep ' ' ts) := by
  refine lineValOk_join ' ' (by decide) ts (fun t ht => (h t ht).1) ?_ ?_
  · intro t ht
    exact (lineValOk_of_all_nonws t (h t ht).2).1
  · intro t ht
    exact (lineValOk_of_all_nonws t (h t ht).2).2

/-! ## Values stored by the line loop are single-line and end-trimmed -/

theorem lineKV_value_good (l k v : Str) (hnl : '\n' ∉ l)
    (h : lineKV l = some (k, v)) : lineValOk v := by
  unfold lineKV at h
  simp only [] at h
  split at h
  · simp at h
  · have hrec := splitOnceChar_reconstruct '=' (trimWs l) k v h
    constructor
    · intro hcon
      have : '\n' ∈ trimWs l := by
        rw [hrec]
        simp [hcon]
      exact hnl (mem_trimWs _ _ this)
    · intro c hc
      refine trimWs_getLast l c ?_
      rw [hrec]
      cases hv : v with
      | nil => rw [hv] at hc; simp at hc
      | cons x xs =>
        rw [hv] at hc
        rw [List.getLast?_append_cons, List.getLast?_cons_cons]
        exact hc

theorem setKV_md5 (st : RawFields) (k v : Str) :
    (setKV st k v).md5 = if k = chars "_md5_" then some v else st.md5 := by
  unfold setKV
  simp only [apply_ite (RawFields.md5)]
  by_cases h : k = chars "_md5_"
  · subst h
    rw [if_neg (by decide), if_neg (by decide), if_neg (by decide), if_neg (by decide), if_neg (by decide), if_neg (by decide), if_neg (by decide), if_neg (by decide), if_neg (by decide), if_neg (by decide), if_neg (by decide), if_neg (by decide), if_neg (by decide), if_neg (by decide), if_neg (by decide), if_neg (by decide), if_neg (by decide), if_neg (by decide)]
    all_goals simp
  · simp only [if_neg h, ite_self]

theorem setKV_eclasses_raw (st : RawFields) (k v : Str) :
    (setKV st k v).eclasses_raw = if k = chars "_eclasses_" then v else st.eclasses_raw := by
  unfold setKV
  simp only [apply_ite (RawFields.eclasses_raw)]
  by_cases h : k = chars "_eclasses_"
  · subst h
    rw [if_neg (by decide), if_neg (by decide), if_neg (by decide), if_neg (by decide), if_neg (by decide), if_neg (by decide), if_neg (by decide), if_neg (by decide), if_neg (by decide), if_neg (by decide), if_neg (by decide), if_neg (by decide), if_neg (by decide), if_neg (by decide), if_neg (by decide), if_neg (by decide), if_neg (by decide), if_neg (by decide), if_neg (by decide)]
  · simp only [if_neg h, ite_self]

theorem setKV_full_eapi (st : RawFields) (v : Str) :
    setKV st (chars "EAPI") v = { st with eapi := some v } := by
  unfold setKV
  rw [if_pos rfl]

theorem setKV_full_description (st : RawFields) (v : Str) :
    setKV st (chars "DESCRIPTION") v = { st with description := some v } := by
  unfold setKV
  rw [if_neg (by decide), if_pos rfl]

theorem setKV_full_slot (st : RawFields) (v : Str) :
    setKV st (chars "SLOT") v = { st with slot := some v } := by
  unfold setKV
  rw [if_neg (by decide), if_neg (by decide), if_pos rfl]

theorem setKV_full_homepage (st : RawFields) (v : Str) :
    setKV st (chars "HOMEPAGE") v = { st with homepage := v } := by
  unfold setKV
  rw [if_neg (by decide), if_neg (by decide), if_neg (by decide), if_pos rfl]

theorem setKV_full_src_uri (st : RawFields) (v : Str) :
    setKV st (chars "SRC_URI") v = { st with src_uri := v } := by
  unfold setKV
  rw [if_neg (by decide), if_neg (by decide), if_neg (by decide), if_neg (by decide), if_pos rfl]

theorem setKV_full_license (st : RawFields) (v : Str) :
    setKV st (chars "LICENSE") v = { st with license := v } := by
  unfold setKV
  rw [if_neg (by decide), if_neg (by decide), if_neg (by decide), if_neg (by decide), if_neg (by decide), if_pos rfl]

theorem setKV_full_keywords (st : RawFields) (v : Str) :
    setKV st (chars "KEYWORDS") v = { st with keywords := v } := by
  unfold setKV
  rw [if_neg (by decide), if_neg (by decide), if_neg (by decide), if_neg (by decide), if_neg (by decide), if_neg (by decide), if_pos rfl]

theorem setKV_full_iuse (st : RawFields) (v : Str) :
    setKV st (chars "IUSE") v = { st with iuse := v } := by
  unfold setKV
  rw [if_neg (by decide), if_neg (by decide), if_neg (by decide), if_neg (by decide), if_neg (by decide), if_neg (by decide), if_neg (by decide), if_pos rfl]

theorem setKV_full_required_use (st : RawFields) (v : Str) :
    setKV st (chars "REQUIRED_USE") v = { st with required_use := v } := by
  unfold setKV
  rw [if_neg (by decide), if_neg (by decide), if_neg (by decide), if_neg (by decide), if_neg (by decide), if_neg (by decide), if_neg (by decide), if_neg (by decide), if_pos rfl]

theorem setKV_full_restrict (st : RawFields) (v : Str) :
    setKV st (chars "RESTRICT") v = { st with restrict := v } := by
  unfold setKV
  rw [if_neg (by decide), if_neg (by decide), if_neg (by decide), if_neg (by decide), if_neg (by decide), if_neg (by decide), if_neg (by decide), if_neg (by decide), if_neg (by decide), if_pos rfl]

theorem setKV_full_properties (st : RawFields) (v : Str) :
    setKV st (chars "PROPERTIES") v = { st with properties := v } := by
  unfold setKV
  rw [if_neg (by decide), if_neg (by decide), if_neg (by decide), if_neg (by decide), if_neg (by decide), if_neg (by decide), if_neg (by decide), if_neg (by decide), if_neg (by decide), if_neg (by decide), if_pos rfl]

theorem setKV_full_depend (st : RawFields) (v : Str) :
    setKV st (chars "DEPEND") v = { st with depend := v } := by
  unfold setKV
  rw [if_neg (by decide), if_neg (by decide), if_neg (by decide), if_neg (by decide), if_neg (by decide), if_neg (by decide), if_neg (by decide), if_neg (by decide), if_neg (by decide), if_neg (by decide), if_neg (by decide), if_pos rfl]

theorem setKV_full_rdepend (st : RawFields) (v : Str) :
    setKV st (chars "RDEPEND") v = { st with rdepend := v } := by
  unfold setKV
  rw [if_neg (by decide), if_neg (by decide), if_neg (by decide), if_neg (by decide), if_neg (by decide), if_neg (by decide), if_neg (by decide), if_neg (by decide), if_neg (by decide), if_neg (by decide), if_neg (by decide), if_neg (by decide), if_pos rfl]

theorem setKV_full_bdepend (st : RawFields) (v : Str) :
    setKV st (chars "BDEPEND") v = { st with bdepend := v } := by
  unfold setKV
  rw [if_neg (by decide), if_neg (by decide), if_neg (by decide), if_neg (by decide), if_neg (by decide), if_neg (by decide), if_neg (by decide), if_neg (by decide), if_neg (by decide), if_neg (by decide), if_neg (by decide), if_neg (by decide), if_neg (by decide), if_pos rfl]

theorem setKV_full_pdepend (st : RawFields) (v : Str) :
    setKV st (chars "PDEPEND") v = { st with pdepend := v } := by
  unfold setKV
  rw [if_neg (by decide), if_neg (by decide), if_neg (by decide), if_neg (by decide), if_neg (by decide), if_neg (by decide), if_neg (by decide), if_neg (by decide), if_neg (by decide), if_neg (by decide), if_neg (by decide), if_neg (by decide), if_neg (by decide), if_neg (by decide), if_pos rfl]

theorem setKV_full_idepend (st : RawFields) (v : Str) :
    setKV st (chars "IDEPEND") v = { st with idepend := v } := by
  unfold setKV
  rw [if_neg (by decide), if_neg (by decide), if_neg (by decide), if_neg (by decide), if_neg (by decide), if_neg (by decide), if_neg (by decide), if_neg (by decide), if_neg (by decide), if_neg (by decide), if_neg (by decide), if_neg (by decide), if_neg (by decide), if_neg (by decide), if_neg (by decide), if_pos rfl]

theorem setKV_full_inherited (st : RawFields) (v : Str) :
    setKV st (chars "INHERITED") v = { st with inherited := v } := by
  unfold setKV
  rw [if_neg (by decide), if_neg (by decide), if_neg (by decide), if_neg (by decide), if_neg (by decide), if_neg (by decide), if_neg (by decide), if_neg (by decide), if_neg (by decide), if_neg (by decide), if_neg (by decide), if_neg (by decide), if_neg (by decide), if_neg (by decide), if_neg (by decide), if_neg (by decide), if_pos rfl]

theorem setKV_full_defined_phases (st : RawFields) (v : Str) :
    setKV st (chars "DEFINED_PHASES") v = { st with defined_phases := v } := by
  unfold setKV
  rw [if_neg (by decide), if_neg (by decide), if_neg (by decide), if_neg (by decide), if_neg (by decide), if_neg (by decide), if_neg (by decide), if_neg (by decide), if_neg (by decide), if_neg (by decide), if_neg (by decide), if_neg (by decide), if_neg (by decide), if_neg (by decide), if_neg (by decide), if_neg (by decide), if_neg (by decide), if_pos rfl]

theorem setKV_full_md5 (st : RawFields) (v : Str) :
    setKV st (chars "_md5_") v = { st with md5 := some v } := by
  unfold setKV
  rw [if_neg (by decide), if_neg (by decide), if_neg (by decide), if_neg (by decide), if_neg (by decide), if_neg (by decide), if_neg (by decide), if_neg (by decide), if_neg (by decide), if_neg (by decide), if_neg (by decide), if_neg (by decide), if_neg (by decide), if_neg (by decide), if_neg (by decide), if_neg (by decide), if_neg (by decide), if_neg (by decide), if_pos rfl]

theorem setKV_full_eclasses_raw (st : RawFields) (v : Str) :
    setKV st (chars "_eclasses_") v = { st with eclasses_raw := v } := by
  unfold setKV
  rw [if_neg (by decide), if_neg (by decide), if_neg (by decide), if_neg (by decide), if_neg (by decide), if_neg (by decide), if_neg (by decide), if_neg (by decide), if_neg (by decide), if_neg (by decide), if_neg (by decide), if_neg (by decide), if_neg (by decide), if_neg (by decide), if_neg (by decide), if_neg (by decide), if_neg (by decide), if_neg (by decide), if_neg (by decide), if_pos rfl]

/-! ## The good-values invariant of the line loop -/

theorem applyLine_values_good (st : RawFields) (l : Str) (hnl : '\n' ∉ l)
    (h1 : ∀ v, st.description = some v → lineValOk v)
    (h2 : ∀ v, st.slot = some v → lineValOk v)
    (h3 : ∀ v, st.md5 = some v → lineValOk v)
    (h4 : lineValOk st.eclasses_raw) :
    (∀ v, (applyLine st l).description = some v → lineValOk v) ∧
    (∀ v, (applyLine st l).slot = some v → lineValOk v) ∧
    (∀ v, (applyLine st l).md5 = some v → lineValOk v) ∧
    lineValOk (applyLine st l).eclasses_raw := by
  unfold applyLine
  cases hkv : lineKV l with
  | none => exact ⟨h1, h2, h3, h4⟩
  | some kv =>
    obtain ⟨k, v⟩ := kv
    have hgood := lineKV_value_good l k v hnl hkv
    refine ⟨?_, ?_, ?_, ?_⟩
    · intro v2 hv2
      rw [setKV_description] at hv2
      split at hv2
      · cases hv2
        exact hgood
      · exact h1 v2 hv2
    · intro v2 hv2
      rw [setKV_slot] at hv2
      split at hv2
      · cases hv2
        exact hgood
      · exact h2 v2 hv2
    · intro v2 hv2
      rw [setKV_md5] at hv2
      split at hv2
      · cases hv2
        exact hgood
      · exact h3 v2 hv2
    · rw [setKV_eclasses_raw]
      split
      · exact hgood
      · exact h4

theorem foldl_values_good (ls : List Str) (st : RawFields)
    (hls : ∀ l ∈ ls, '\n' ∉ l)
    (h1 : ∀ v, st.description = some v → lineValOk v)
    (h2 : ∀ v, st.slot = some v → lineValOk v)
    (h3 : ∀ v, st.md5 = some v → lineValOk v)
    (h4 : lineValOk st.eclasses_raw) :
    (∀ v, (ls.foldl applyLine st).description = some v → lineValOk v) ∧
    (∀ v, (ls.foldl applyLine st).slot = some v → lineValOk v) ∧
    (∀ v, (ls.foldl applyLine st).md5 = some v → lineValOk v) ∧
    lineValOk (ls.foldl applyLine st).eclasses_raw := by
  induction ls generalizing st with
  | nil => exact ⟨h1, h2, h3, h4⟩
  | cons l ls ih =>
    simp only [List.foldl_cons]
    have hstep := applyLine_values_good st l (hls l (by simp)) h1 h2 h3 h4
    exact ih _ (fun l2 hl2 => hls l2 (by simp [hl2])) hstep.1 hstep.2.1
      hstep.2.2.1 hstep.2.2.2

/-! ## Folding the serialized lines back into raw fields -/

theorem applyLine_key (st : RawFields) (k v : Str) (hk1 : k ≠ [])
    (hk2 : ∀ c, k.head? = some c → rustIsWhitespace c = false)
    (hk3 : '=' ∉ k) (hv : lineValOk v) :
    applyLine st (k ++ '=' :: v) = setKV st k v := by
  unfold applyLine
  rw [lineKV_key_line k v hk1 hk2 hk3 hv.2]

theorem line_good (k v : Str) (hknl : '\n' ∉ k) (hv : lineValOk v) :
    '\n' ∉ (k ++ '=' :: v) ∧ (k ++ '=' :: v).getLast? ≠ some '\x0d' := by
  constructor
  · intro hcon
    rcases List.mem_append.mp hcon with h | h
    · exact hknl h
    · rcases List.mem_cons.mp h with h2 | h2
      · exact absurd h2 (by decide)
      · exact hv.1 h2
  · intro hcon
    rw [List.getLast?_append_cons] at hcon
    cases hvv : v with
    | nil =>
      rw [hvv] at hcon
      simp at hcon
    | cons x xs =>
      rw [hvv] at hcon
      rw [List.getLast?_cons_cons] at hcon
      have := hv.2 '\x0d' (by rw [hvv]; exact hcon)
      exact absurd this (by decide)

theorem forall_mem_append2 {α : Type} {P : α → Prop} {A B : List α}
    (ha : ∀ x ∈ A, P x) (hb : ∀ x ∈ B, P x) : ∀ x ∈ A ++ B, P x := by
  intro x hx
  rcases List.mem_append.mp hx with h | h
  · exact ha x h
  · exact hb x h

theorem forall_mem_single {α : Type} {P : α → Prop} (x : α) (h : P x) :
    ∀ y ∈ [x], P y := by
  intro y hy
  simp at hy
  rw [hy]
  exact h

theorem forall_mem_ite_single {α : Type} {P : α → Prop} (c : Prop) [Decidable c]
    (x : α) (h : ¬c → P x) : ∀ y ∈ (if c then [] else [x]), P y := by
  split
  · intro y hy
    simp at hy
  · rename_i hc
    exact forall_mem_single x (h hc)

theorem forall_mem_match_opt {α β : Type} {P : β → Prop} (o : Option α)
    (f : α → β) (h : ∀ a, o = some a → P (f a)) :
    ∀ y ∈ (match o with
           | some a => [f a]
           | none => ([] : List β)), P y := by
  cases o with
  | none => intro y hy; simp at hy
  | some a => exact forall_mem_single _ (h a rfl)

theorem chunkstep_defined_phases (v : Str) (st : RawFields) (hv : lineValOk v) :
    [chars "DEFINED_PHASES=" ++ v].foldl applyLine st = { st with defined_phases := v } := by
  show applyLine st (chars "DEFINED_PHASES=" ++ v) = _
  rw [show chars "DEFINED_PHASES=" ++ v = chars "DEFINED_PHASES" ++ '=' :: v from rfl]
  rw [applyLine_key st _ _ (by decide) (by decide) (by decide) hv]
  rw [setKV_full_defined_phases]

theorem chunkstep_description (v : Str) (st : RawFields) (hv : lineValOk v) :
    [chars "DESCRIPTION=" ++ v].foldl applyLine st = { st with description := some v } := by
  show applyLine st (chars "DESCRIPTION=" ++ v) = _
  rw [show chars "DESCRIPTION=" ++ v = chars "DESCRIPTION" ++ '=' :: v from rfl]
  rw [applyLine_key st _ _ (by decide) (by decide) (by decide) hv]
  rw [setKV_full_description]

theorem chunkstep_eapi (v : Str) (st : RawFields) (hv : lineValOk v) :
    [chars "EAPI=" ++ v].foldl applyLine st = { st with eapi := some v } := by
  show applyLine st (chars "EAPI=" ++ v) = _
  rw [show chars "EAPI=" ++ v = chars "EAPI" ++ '=' :: v from rfl]
  rw [applyLine_key st _ _ (by decide) (by decide) (by decide) hv]
  rw [setKV_full_eapi]

theorem chunkstep_slot (v : Str) (st : RawFields) (hv : lineValOk v) :
    [chars "SLOT=" ++ v].foldl applyLine st = { st with slot := some v } := by
  show applyLine st (chars "SLOT=" ++ v) = _
  rw [show chars "SLOT=" ++ v = chars "SLOT" ++ '=' :: v from rfl]
  rw [applyLine_key st _ _ (by decide) (by decide) (by decide) hv]
  rw [setKV_full_slot]

theorem chunkstep_depend (c : Bool) (v : Str) (st : RawFields)
    (hst : st.depend = [])
    (hv : ¬(c = true) → lineValOk v) :
    (if c = true then [] else [chars "DEPEND=" ++ v]).foldl applyLine st
      = { st with depend := if c = true then [] else v } := by
  by_cases hc : c = true
  · rw [if_pos hc, if_pos hc, ← hst]
    rfl
  · rw [if_neg hc, if_neg hc]
    show applyLine st (chars "DEPEND=" ++ v) = _
    rw [show chars "DEPEND=" ++ v = chars "DEPEND" ++ '=' :: v from rfl]
    rw [applyLine_key st _ _ (by decide) (by decide) (by decide) (hv hc)]
    rw [setKV_full_depend]

theorem chunkstep_homepage (c : Bool) (v : Str) (st : RawFields)
    (hst : st.homepage = [])
    (hv : ¬(c = true) → lineValOk v) :
    (if c = true then [] else [chars "HOMEPAGE=" ++ v]).foldl applyLine st
      = { st with homepage := if c = true then [] else v } := by
  by_cases hc : c = true
  · rw [if_pos hc, if_pos hc, ← hst]
    rfl
  · rw [if_neg hc, if_neg hc]
    show applyLine st (chars "HOMEPAGE=" ++ v) = _
    rw [show chars "HOMEPAGE=" ++ v = chars "HOMEPAGE" ++ '=' :: v from rfl]
    rw [applyLine_key st _ _ (by decide) (by decide) (by decide) (hv hc)]
    rw [setKV_full_homepage]

theorem chunkstep_iuse (c : Bool) (v : Str) (st : RawFields)
    (hst : st.iuse = [])
    (hv : ¬(c = true) → lineValOk v) :
    (if c = true then [] else [chars "IUSE=" ++ v]).foldl applyLine st
      = { st with iuse := if c = true then [] else v } := by
  by_cases hc : c = true
  · rw [if_pos hc, if_pos hc, ← hst]
    rfl
  · rw [if_neg hc, if_neg hc]
    show applyLine st (chars "IUSE=" ++ v) = _
    rw [show chars "IUSE=" ++ v = chars "IUSE" ++ '=' :: v from rfl]
    rw [applyLine_key st _ _ (by decide) (by decide) (by decide) (hv hc)]
    rw [setKV_full_iuse]

theorem chunkstep_keywords (c : Bool) (v : Str) (st : RawFields)
    (hst : st.keywords = [])
    (hv : ¬(c = true) → lineValOk v) :
    (if c = true then [] else [chars "KEYWORDS=" ++ v]).foldl applyLine st
      = { st with keywords := if c = true then [] else v } := by
  by_cases hc : c = true
  · rw [if_pos hc, if_pos hc, ← hst]
    rfl
  · rw [if_neg hc, if_neg hc]
    show applyLine st (chars "KEYWORDS=" ++ v) = _
    rw [show chars "KEYWORDS=" ++ v = chars "KEYWORDS" ++ '=' :: v from rfl]
    rw [applyLine_key st _ _ (by decide) (by decide) (by decide) (hv hc)]
    rw [setKV_full_keywords]

theorem chunkstep_pdepend (c : Bool) (v : Str) (st : RawFields)
    (hst : st.pdepend = [])
    (hv : ¬(c = true) → lineValOk v) :
    (if c = true then [] else [chars "PDEPEND=" ++ v]).foldl applyLine st
      = { st with pdepend := if c = true then [] else v } := by
  by_cases hc : c = true
  · rw [if_pos hc, if_pos hc, ← hst]
    rfl
  · rw [if_neg hc, if_neg hc]
    show applyLine st (chars "PDEPEND=" ++ v) = _
    rw [show chars "PDEPEND=" ++ v = chars "PDEPEND" ++ '=' :: v from rfl]
    rw [applyLine_key st _ _ (by decide) (by decide) (by decide) (hv hc)]
    rw [setKV_full_pdepend]

theorem chunkstep_rdepend (c : Bool) (v : Str) (st : RawFields)
    (hst : st.rdepend = [])
    (hv : ¬(c = true) → lineValOk v) :
    (if c = true then [] else [chars "RDEPEND=" ++ v]).foldl applyLine st
      = { st with rdepend := if c = true then [] else v } := by
  by_cases hc : c = true
  · rw [if_pos hc, if_pos hc, ← hst]
    rfl
  · rw [if_neg hc, if_neg hc]
    show applyLine st (chars "RDEPEND=" ++ v) = _
    rw [show chars "RDEPEND=" ++ v = chars "RDEPEND" ++ '=' :: v from rfl]
    rw [applyLine_key st _ _ (by decide) (by decide) (by decide) (hv hc)]
    rw [setKV_full_rdepend]

theorem chunkstep_restrict (c : Bool) (v : Str) (st : RawFields)
    (hst : st.restrict = [])
    (hv : ¬(c = true) → lineValOk v) :
    (if c = true then [] else [chars "RESTRICT=" ++ v]).foldl applyLine st
      = { st with restrict := if c = true then [] else v } := by
  by_cases hc : c = true
  · rw [if_pos hc, if_pos hc, ← hst]
    rfl
  · rw [if_neg hc, if_neg hc]
    show applyLine st (chars "RESTRICT=" ++ v) = _
    rw [show chars "RESTRICT=" ++ v = chars "RESTRICT" ++ '=' :: v from rfl]
    rw [applyLine_key st _ _ (by decide) (by decide) (by decide) (hv hc)]
    rw [setKV_full_restrict]

theorem chunkstep_src_uri (c : Bool) (v : Str) (st : RawFields)
    (hst : st.src_uri = [])
    (hv : ¬(c = true) → lineValOk v) :
    (if c = true then [] else [chars "SRC_URI=" ++ v]).foldl applyLine st
      = { st with src_uri := if c = true then [] else v } := by
  by_cases hc : c = true
  · rw [if_pos hc, if_pos hc, ← hst]
    rfl
  · rw [if_neg hc, if_neg hc]
    show applyLine st (chars "SRC_URI=" ++ v) = _
    rw [show chars "SRC_URI=" ++ v = chars "SRC_URI" ++ '=' :: v from rfl]
    rw [applyLine_key st _ _ (by decide) (by decide) (by decide) (hv hc)]
    rw [setKV_full_src_uri]

theorem chunkstep_bdepend (c : Bool) (v : Str) (st : RawFields)
    (hst : st.bdepend = [])
    (hv : ¬(c = true) → lineValOk v) :
    (if c = true then [] else [chars "BDEPEND=" ++ v]).foldl applyLine st
      = { st with bdepend := if c = true then [] else v } := by
  by_cases hc : c = true
  · rw [if_pos hc, if_pos hc, ← hst]
    rfl
  · rw [if_neg hc, if_neg hc]
    show applyLine st (chars "BDEPEND=" ++ v) = _
    rw [show chars "BDEPEND=" ++ v = chars "BDEPEND" ++ '=' :: v from rfl]
    rw [applyLine_key st _ _ (by decide) (by decide) (by decide) (hv hc)]
    rw [setKV_full_bdepend]

theorem chunkstep_idepend (c : Bool) (v : Str) (st : RawFields)
    (hst : st.idepend = [])
    (hv : ¬(c = true) → lineValOk v) :
    (if c = true then [] else [chars "IDEPEND=" ++ v]).foldl applyLine st
      = { st with idepend := if c = true then [] else v } := by
  by_cases hc : c = true
  · rw [if_pos hc, if_pos hc, ← hst]
    rfl
  · rw [if_neg hc, if_neg hc]
    show applyLine st (chars "IDEPEND=" ++ v) = _
    rw [show chars "IDEPEND=" ++ v = chars "IDEPEND" ++ '=' :: v from rfl]
    rw [applyLine_key st _ _ (by decide) (by decide) (by decide) (hv hc)]
    rw [setKV_full_idepend]

theorem chunkstep_properties (c : Bool) (v : Str) (st : RawFields)
    (hst : st.properties = [])
    (hv : ¬(c = true) → lineValOk v) :
    (if c = true then [] else [chars "PROPERTIES=" ++ v]).foldl applyLine st
      = { st with properties := if c = true then [] else v } := by
  by_cases hc : c = true
  · rw [if_pos hc, if_pos hc, ← hst]
    rfl
  · rw [if_neg hc, if_neg hc]
    show applyLine st (chars "PROPERTIES=" ++ v) = _
    rw [show chars "PROPERTIES=" ++ v = chars "PROPERTIES" ++ '=' :: v from rfl]
    rw [applyLine_key st _ _ (by decide) (by decide) (by decide) (hv hc)]
    rw [setKV_full_properties]

theorem chunkstep_inherited (c : Bool) (v : Str) (st : RawFields)
    (hst : st.inherited = [])
    (hv : ¬(c = true) → lineValOk v) :
    (if c = true then [] else [chars "INHERITED=" ++ v]).foldl applyLine st
      = { st with inherited := if c = true then [] else v } := by
  by_cases hc : c = true
  · rw [if_pos hc, if_pos hc, ← hst]
    rfl
  · rw [if_neg hc, if_neg hc]
    show applyLine st (chars "INHERITED=" ++ v) = _
    rw [show chars "INHERITED=" ++ v = chars "INHERITED" ++ '=' :: v from rfl]
    rw [applyLine_key st _ _ (by decide) (by decide) (by decide) (hv hc)]
    rw [setKV_full_inherited]

theorem chunkstep_eclasses_raw (c : Bool) (v : Str) (st : RawFields)
    (hst : st.eclasses_raw = [])
    (hv : ¬(c = true) → lineValOk v) :
    (if c = true then [] else [chars "_eclasses_=" ++ v]).foldl applyLine st
      = { st with eclasses_raw := if c = true then [] else v } := by
  by_cases hc : c = true
  · rw [if_pos hc, if_pos hc, ← hst]
    rfl
  · rw [if_neg hc, if_neg hc]
    show applyLine st (chars "_eclasses_=" ++ v) = _
    rw [show chars "_eclasses_=" ++ v = chars "_eclasses_" ++ '=' :: v from rfl]
    rw [applyLine_key st _ _ (by decide) (by decide) (by decide) (hv hc)]
    rw [setKV_full_eclasses_raw]

theorem chunkstep_license (o : Option LicenseExpr) (st : RawFields)
    (hst : st.license = [])
    (hv : ∀ lic, o = some lic → lineValOk (LicenseExpr.render lic)) :
    (match o with
     | some lic => [chars "LICENSE=" ++ lic.render]
     | none => []).foldl applyLine st
      = { st with license := renderOpt LicenseExpr.render o } := by
  cases o with
  | none =>
    show st = { st with license := renderOpt LicenseExpr.render none }
    rw [show renderOpt LicenseExpr.render none = ([] : Str) from rfl, ← hst]
  | some lic =>
    show applyLine st (chars "LICENSE=" ++ lic.render) = _
    rw [show chars "LICENSE=" ++ lic.render
        = chars "LICENSE" ++ '=' :: lic.render from rfl]
    rw [applyLine_key st _ _ (by decide) (by decide) (by decide) (hv lic rfl)]
    rw [setKV_full_license]
    rfl

theorem chunkstep_required_use (o : Option RequiredUseExpr) (st : RawFields)
    (hst : st.required_use = [])
    (hv : ∀ ru, o = some ru → lineValOk (RequiredUseExpr.render ru)) :
    (match o with
     | some ru => [chars "REQUIRED_USE=" ++ ru.render]
     | none => []).foldl applyLine st
      = { st with required_use := renderOpt RequiredUseExpr.render o } := by
  cases o with
  | none =>
    show st = { st with required_use := renderOpt RequiredUseExpr.render none }
    rw [show renderOpt RequiredUseExpr.render none = ([] : Str) from rfl, ← hst]
  | some ru =>
    show applyLine st (chars "REQUIRED_USE=" ++ ru.render) = _
    rw [show chars "REQUIRED_USE=" ++ ru.render
        = chars "REQUIRED_USE" ++ '=' :: ru.render from rfl]
    rw [applyLine_key st _ _ (by decide) (by decide) (by decide) (hv ru rfl)]
    rw [setKV_full_required_use]
    rfl

theorem chunkstep_md5 (o : Option Str) (st : RawFields)
    (hst : st.md5 = none)
    (hv : ∀ v, o = some v → lineValOk v) :
    (match o with
     | some v => [chars "_md5_=" ++ v]
     | none => []).foldl applyLine st
      = { st with md5 := o } := by
  cases o with
  | none =>
    show st = { st with md5 := none }
    rw [← hst]
  | some v =>
    show applyLine st (chars "_md5_=" ++ v) = _
    rw [show chars "_md5_=" ++ v = chars "_md5_" ++ '=' :: v from rfl]
    rw [applyLine_key st _ _ (by decide) (by decide) (by decide) (hv v rfl)]
    rw [setKV_full_md5]

/-! ## The serialized values are single-line and end-trimmed -/

theorem eapi_lineValOk (e : Eapi) : lineValOk (Eapi.render e) :=
  lineValOk_of_all_nonws _ (eapi_render_facts e).2

theorem phases_lineValOk (ps : List Phase) : lineValOk (formatPhases ps) := by
  unfold formatPhases
  split
  · refine ⟨by decide, ?_⟩
    intro c hc
    simp [chars] at hc
    rw [← hc]
    rfl
  · refine lineValOk_join_nonws _ ?_
    intro t ht
    simp only [List.mem_map] at ht
    obtain ⟨p, _, rfl⟩ := ht
    exact phase_render_facts p

theorem depField_lineValOk (v : Str) (es : List DepEntry)
    (h : parseDepField v = .ok es) : lineValOk (formatDepEntries es) := by
  unfold parseDepField at h
  split at h
  · simp only [Except.ok.injEq] at h
    rw [← h]
    exact lineValOk_nil
  · simp only [Except.ok.injEq] at h
    have hmap : es.map DepEntry.render = splitWs v := by
      rw [← h, List.map_map]
      rw [show (splitWs v).map (DepEntry.render ∘ DepEntry.mk)
          = (splitWs v).map id from rfl]
      exact List.map_id _
    unfold formatDepEntries
    rw [hmap]
    exact lineValOk_join_nonws _ (splitWs_mem v)

theorem wsField_lineValOk (v : Str) (xs : List Str)
    (h : (if v.isEmpty then [] else splitWs v) = xs) :
    lineValOk (joinSep ' ' xs) := by
  by_cases hv : v.isEmpty
  · rw [if_pos hv] at h
    rw [← h]
    exact lineValOk_nil
  · rw [if_neg hv] at h
    rw [← h]
    exact lineValOk_join_nonws _ (splitWs_mem v)

theorem keywordsField_lineValOk (v : Str) (ks : List Keyword)
    (h : optionalField Keyword.parseLine v = .ok ks) :
    lineValOk (joinSep ' ' (ks.map Keyword.render)) := by
  unfold optionalField at h
  split at h
  · simp only [pure, Except.pure, Except.ok.injEq] at h
    rw [← h]
    exact lineValOk_nil
  · unfold Keyword.parseLine at h
    have hmap := mapM_render_eq Keyword.fromStr Keyword.render
      keyword_fromStr_render _ _ h
    rw [hmap]
    exact lineValOk_join_nonws _ (splitWs_mem v)

theorem iuseField_lineValOk (v : Str) (is2 : List IUse)
    (h : optionalField IUse.parseLine v = .ok is2) :
    lineValOk (joinSep ' ' (is2.map IUse.render)) := by
  unfold optionalField at h
  split at h
  · simp only [pure, Except.pure, Except.ok.injEq] at h
    rw [← h]
    exact lineValOk_nil
  · unfold IUse.parseLine at h
    have hmap := mapM_render_eq IUse.fromStr IUse.render
      iuse_fromStr_render _ _ h
    rw [hmap]
    exact lineValOk_join_nonws _ (splitWs_mem v)

theorem restrictField_lineValOk (es : List RestrictExpr)
    (hwf : Restrict.wfEntries es = true) (hne : noEmptyTokList es = true) :
    lineValOk (renderRestrictList es) := by
  cases es with
  | nil => exact lineValOk_nil
  | cons e es' =>
    have h := (restrict_render_lineOk (sizeOf (e :: es'))).2 _ (Nat.le_refl _)
      hwf hne
    exact lineValOk_of_lineChar _ h.1 (h.2 (by simp)).2

theorem srcuriField_lineValOk (es : List SrcUriEntry)
    (hwf : SrcUri.wfEntries es = true) :
    lineValOk (renderSrcUriList es) := by
  cases es with
  | nil => exact lineValOk_nil
  | cons e es' =>
    have h := (su_render_lineOk (sizeOf (e :: es'))).2 _ (Nat.le_refl _) hwf
    exact lineValOk_of_lineChar _ h.1 (h.2 (by simp)).2

theorem splitChar_mem_subset (sep : Char) :
    ∀ (s : Str), ∀ t ∈ splitChar sep s, ∀ c ∈ t, c ∈ s := by
  intro s
  induction s with
  | nil =>
    intro t ht c hc
    simp [splitChar] at ht
    rw [ht] at hc
    simp at hc
  | cons a rest ih =>
    intro t ht c hc
    by_cases ha : a = sep
    · rw [show splitChar sep (a :: rest) = [] :: splitChar sep rest by
        simp [splitChar, ha]] at ht
      rcases List.mem_cons.mp ht with rfl | h2
      · simp at hc
      · exact List.mem_cons_of_mem _ (ih t h2 c hc)
    · simp only [splitChar, if_neg ha] at ht
      cases hrec : splitChar sep rest with
      | nil =>
        rw [hrec] at ht
        simp at ht
        rw [ht] at hc
        simp at hc
        simp [hc]
      | cons g gs =>
        rw [hrec] at ht
        rcases List.mem_cons.mp ht with rfl | h2
        · rcases List.mem_cons.mp hc with rfl | h3
          · simp
          · exact List.mem_cons_of_mem _ (ih g (by rw [hrec]; simp) c h3)
        · exact List.mem_cons_of_mem _
            (ih t (by rw [hrec]; exact List.mem_cons_of_mem _ h2) c hc)

theorem eclassesField_lineValOk (v : Str) (ecl : List (Str × Str))
    (hv : lineValOk v) (h : parseEclasses v = ecl)
    (hok : eclassesValueOk ecl = true) :
    lineValOk (joinSep '\t' (eclassTokens ecl)) := by
  constructor
  · intro hcon
    rcases joinSep_mem '\t' _ '\n' hcon with hc | ⟨t, ht, hc⟩
    · exact absurd hc (by decide)
    · obtain ⟨q, hq, hor⟩ := eclassTokens_mem _ t ht
      unfold parseEclasses at h
      split at h
      · rw [← h] at hq
        simp at hq
      · rw [← h] at hq
        have hmem := chunkPairs_mem _ q hq
        have hcv : '\n' ∈ v := by
          rcases hor with rfl | rfl
          · exact splitChar_mem_subset '\t' v _ hmem.1 _ hc
          · exact splitChar_mem_subset '\t' v _ hmem.2 _ hc
        exact hv.1 hcv
  · intro c hc
    unfold eclassesValueOk at hok
    rw [hc] at hok
    simpa using hok

theorem serialize_fold (r : CacheEntry)
    (gph : lineValOk (formatPhases r.metadata.defined_phases))
    (gdep : lineValOk (formatDepEntries r.metadata.depend))
    (gdesc : lineValOk r.metadata.description)
    (geapi : lineValOk (Eapi.render r.metadata.eapi))
    (ghp : lineValOk (joinSep ' ' r.metadata.homepage))
    (giuse : lineValOk (joinSep ' ' (r.metadata.iuse.map IUse.render)))
    (gkw : lineValOk (joinSep ' ' (r.metadata.keywords.map Keyword.render)))
    (glic : ∀ lic, r.metadata.license = some lic →
      lineValOk (LicenseExpr.render lic))
    (gpdep : lineValOk (formatDepEntries r.metadata.pdepend))
    (grdep : lineValOk (formatDepEntries r.metadata.rdepend))
    (gru : ∀ ru, r.metadata.required_use = some ru →
      lineValOk (RequiredUseExpr.render ru))
    (gres : lineValOk (renderRestrictList r.metadata.restrict))
    (gslot : lineValOk (Slot.render r.metadata.slot))
    (gsu : lineValOk (renderSrcUriList r.metadata.src_uri))
    (gbdep : lineValOk (formatDepEntries r.metadata.bdepend))
    (gidep : lineValOk (formatDepEntries r.metadata.idepend))
    (gprops : lineValOk (renderRestrictList r.metadata.properties))
    (ginh : lineValOk (joinSep ' ' r.metadata.inherited))
    (gecl : lineValOk (joinSep '\t' (eclassTokens r.eclasses)))
    (gmd5 : ∀ v, r.md5 = some v → lineValOk v) :
    CacheEntry.parse (CacheEntry.serialize r) = assemble (renderedRaw r) := by
  have hlineP : ∀ l ∈ ([chars "DEFINED_PHASES=" ++ formatPhases r.metadata.defined_phases] ++
      (if r.metadata.depend.isEmpty then []
       else [chars "DEPEND=" ++ formatDepEntries r.metadata.depend]) ++
      [chars "DESCRIPTION=" ++ r.metadata.description] ++
      [chars "EAPI=" ++ Eapi.render r.metadata.eapi] ++
      (if r.metadata.homepage.isEmpty then []
       else [chars "HOMEPAGE=" ++ joinSep ' ' r.metadata.homepage]) ++
      (if r.metadata.iuse.isEmpty then []
       else [chars "IUSE=" ++ joinSep ' ' (r.metadata.iuse.map IUse.render)]) ++
      (if r.metadata.keywords.isEmpty then []
       else [chars "KEYWORDS=" ++ joinSep ' ' (r.metadata.keywords.map Keyword.render)]) ++
      (match r.metadata.license with
       | some lic => [chars "LICENSE=" ++ lic.render]
       | none => []) ++
      (if r.metadata.pdepend.isEmpty then []
       else [chars "PDEPEND=" ++ formatDepEntries r.metadata.pdepend]) ++
      (if r.metadata.rdepend.isEmpty then []
       else [chars "RDEPEND=" ++ formatDepEntries r.metadata.rdepend]) ++
      (match r.metadata.required_use with
       | some ru => [chars "REQUIRED_USE=" ++ ru.render]
       | none => []) ++
      (if r.metadata.restrict.isEmpty then []
       else [chars "RESTRICT=" ++ renderRestrictList r.metadata.restrict]) ++
      [chars "SLOT=" ++ Slot.render r.metadata.slot] ++
      (if r.metadata.src_uri.isEmpty then []
       else [chars "SRC_URI=" ++ renderSrcUriList r.metadata.src_uri]) ++
      (if r.metadata.bdepend.isEmpty then []
       else [chars "BDEPEND=" ++ formatDepEntries r.metadata.bdepend]) ++
      (if r.metadata.idepend.isEmpty then []
       else [chars "IDEPEND=" ++ formatDepEntries r.metadata.idepend]) ++
      (if r.metadata.properties.isEmpty then []
       else [chars "PROPERTIES=" ++ renderRestrictList r.metadata.properties]) ++
      (if r.metadata.inherited.isEmpty then []
       else [chars "INHERITED=" ++ joinSep ' ' r.metadata.inherited]) ++
      (if r.eclasses.isEmpty then []
       else [chars "_eclasses_=" ++ joinSep '\t' (eclassTokens r.eclasses)]) ++
      (match r.md5 with
       | some md5 => [chars "_md5_=" ++ md5]
       | none => [])),
      '\n' ∉ l ∧ l.getLast? ≠ some '\x0d' := by
    refine forall_mem_append2 (forall_mem_append2 (forall_mem_append2 (forall_mem_append2 (forall_mem_append2 (forall_mem_append2 (forall_mem_append2 (forall_mem_append2 (forall_mem_append2 (forall_mem_append2 (forall_mem_append2 (forall_mem_append2 (forall_mem_append2 (forall_mem_append2 (forall_mem_append2 (forall_mem_append2 (forall_mem_append2 (forall_mem_append2 (forall_mem_append2 (?_) ?_) ?_) ?_) ?_) ?_) ?_) ?_) ?_) ?_) ?_) ?_) ?_) ?_) ?_) ?_) ?_) ?_) ?_) ?_
    · exact forall_mem_single _ (line_good (chars "DEFINED_PHASES") _ (by decide) gph)
    · exact forall_mem_ite_single _ _ (fun _ => line_good (chars "DEPEND") _ (by decide) gdep)
    · exact forall_mem_single _ (line_good (chars "DESCRIPTION") _ (by decide) gdesc)
    · exact forall_mem_single _ (line_good (chars "EAPI") _ (by decide) geapi)
    · exact forall_mem_ite_single _ _ (fun _ => line_good (chars "HOMEPAGE") _ (by decide) ghp)
    · exact forall_mem_ite_single _ _ (fun _ => line_good (chars "IUSE") _ (by decide) giuse)
    · exact forall_mem_ite_single _ _ (fun _ => line_good (chars "KEYWORDS") _ (by decide) gkw)
    · intro y hy
      cases hl : r.metadata.license with
      | none =>
        rw [hl] at hy
        simp at hy
      | some lic =>
        rw [hl] at hy
        simp only [List.mem_singleton] at hy
        subst hy
        exact line_good (chars "LICENSE") (LicenseExpr.render lic) (by decide)
          (glic lic hl)
    · exact forall_mem_ite_single _ _ (fun _ => line_good (chars "PDEPEND") _ (by decide) gpdep)
    · exact forall_mem_ite_single _ _ (fun _ => line_good (chars "RDEPEND") _ (by decide) grdep)
    · intro y hy
      cases hl : r.metadata.required_use with
      | none =>
        rw [hl] at hy
        simp at hy
      | some ru =>
        rw [hl] at hy
        simp only [List.mem_singleton] at hy
        subst hy
        exact line_good (chars "REQUIRED_USE") (RequiredUseExpr.render ru)
          (by decide) (gru ru hl)
    · exact forall_mem_ite_single _ _ (fun _ => line_good (chars "RESTRICT") _ (by decide) gres)
    · exact forall_mem_single _ (line_good (chars "SLOT") _ (by decide) gslot)
    · exact forall_mem_ite_single _ _ (fun _ => line_good (chars "SRC_URI") _ (by decide) gsu)
    · exact forall_mem_ite_single _ _ (fun _ => line_good (chars "BDEPEND") _ (by decide) gbdep)
    · exact forall_mem_ite_single _ _ (fun _ => line_good (chars "IDEPEND") _ (by decide) gidep)
    · exact forall_mem_ite_single _ _ (fun _ => line_good (chars "PROPERTIES") _ (by decide) gprops)
    · exact forall_mem_ite_single _ _ (fun _ => line_good (chars "INHERITED") _ (by decide) ginh)
    · exact forall_mem_ite_single _ _ (fun _ => line_good (chars "_eclasses_") _ (by decide) gecl)
    · intro y hy
      cases hl : r.md5 with
      | none =>
        rw [hl] at hy
        simp at hy
      | some v =>
        rw [hl] at hy
        simp only [List.mem_singleton] at hy
        subst hy
        exact line_good (chars "_md5_") v (by decide) (gmd5 v hl)
  unfold CacheEntry.parse
  rw [show CacheEntry.serialize r = joinSep '\n' (CacheEntry.serializeLines r)
    from rfl]
  rw [show CacheEntry.serializeLines r = ([chars "DEFINED_PHASES=" ++ formatPhases r.metadata.defined_phases] ++
      (if r.metadata.depend.isEmpty then []
       else [chars "DEPEND=" ++ formatDepEntries r.metadata.depend]) ++
      [chars "DESCRIPTION=" ++ r.metadata.description] ++
      [chars "EAPI=" ++ Eapi.render r.metadata.eapi] ++
      (if r.metadata.homepage.isEmpty then []
       else [chars "HOMEPAGE=" ++ joinSep ' ' r.metadata.homepage]) ++
      (if r.metadata.iuse.isEmpty then []
       else [chars "IUSE=" ++ joinSep ' ' (r.metadata.iuse.map IUse.render)]) ++
      (if r.metadata.keywords.isEmpty then []
       else [chars "KEYWORDS=" ++ joinSep ' ' (r.metadata.keywords.map Keyword.render)]) ++
      (match r.metadata.license with
       | some lic => [chars "LICENSE=" ++ lic.render]
       | none => []) ++
      (if r.metadata.pdepend.isEmpty then []
       else [chars "PDEPEND=" ++ formatDepEntries r.metadata.pdepend]) ++
      (if r.metadata.rdepend.isEmpty then []
       else [chars "RDEPEND=" ++ formatDepEntries r.metadata.rdepend]) ++
      (match r.metadata.required_use with
       | some ru => [chars "REQUIRED_USE=" ++ ru.render]
       | none => []) ++
      (if r.metadata.restrict.isEmpty then []
       else [chars "RESTRICT=" ++ renderRestrictList r.metadata.restrict]) ++
      [chars "SLOT=" ++ Slot.render r.metadata.slot] ++
      (if r.metadata.src_uri.isEmpty then []
       else [chars "SRC_URI=" ++ renderSrcUriList r.metadata.src_uri]) ++
      (if r.metadata.bdepend.isEmpty then []
       else [chars "BDEPEND=" ++ formatDepEntries r.metadata.bdepend]) ++
      (if r.metadata.idepend.isEmpty then []
       else [chars "IDEPEND=" ++ formatDepEntries r.metadata.idepend]) ++
      (if r.metadata.properties.isEmpty then []
       else [chars "PROPERTIES=" ++ renderRestrictList r.metadata.properties]) ++
      (if r.metadata.inherited.isEmpty then []
       else [chars "INHERITED=" ++ joinSep ' ' r.metadata.inherited]) ++
      (if r.eclasses.isEmpty then []
       else [chars "_eclasses_=" ++ joinSep '\t' (eclassTokens r.eclasses)]) ++
      (match r.md5 with
       | some md5 => [chars "_md5_=" ++ md5]
       | none => [])) ++ [[]] from rfl]
  rw [linesOf_joinSep _ (fun l hl => (hlineP l hl).1) (fun l hl => (hlineP l hl).2)]
  simp only [List.foldl_append]
  rw [chunkstep_defined_phases _ _ gph]
  rw [chunkstep_depend _ _ _ rfl (fun _ => gdep)]
  rw [chunkstep_description _ _ gdesc]
  rw [chunkstep_eapi _ _ geapi]
  rw [chunkstep_homepage _ _ _ rfl (fun _ => ghp)]
  rw [chunkstep_iuse _ _ _ rfl (fun _ => giuse)]
  rw [chunkstep_keywords _ _ _ rfl (fun _ => gkw)]
  rw [chunkstep_license _ _ rfl glic]
  rw [chunkstep_pdepend _ _ _ rfl (fun _ => gpdep)]
  rw [chunkstep_rdepend _ _ _ rfl (fun _ => grdep)]
  rw [chunkstep_required_use _ _ rfl gru]
  rw [chunkstep_restrict _ _ _ rfl (fun _ => gres)]
  rw [chunkstep_slot _ _ gslot]
  rw [chunkstep_src_uri _ _ _ rfl (fun _ => gsu)]
  rw [chunkstep_bdepend _ _ _ rfl (fun _ => gbdep)]
  rw [chunkstep_idepend _ _ _ rfl (fun _ => gidep)]
  rw [chunkstep_properties _ _ _ rfl (fun _ => gprops)]
  rw [chunkstep_inherited _ _ _ rfl (fun _ => ginh)]
  rw [chunkstep_eclasses_raw _ _ _ rfl (fun _ => gecl)]
  rw [chunkstep_md5 _ _ rfl gmd5]
  rfl

/-- C1 (amended): serializing a successfully parsed cache record and
re-parsing gives back the same record, provided the record avoids the lossy
corner cases: no empty-string token in RESTRICT or PROPERTIES, LICENSE and
REQUIRED_USE are not the empty bare group, and the joined eclasses value
does not end in whitespace. -/
theorem c1_roundtrip (input : Str) (r : CacheEntry)
    (h : CacheEntry.parse input = .ok r)
    (hres : noEmptyTokList r.metadata.restrict = true)
    (hprop : noEmptyTokList r.metadata.properties = true)
    (hlic : r.metadata.license ≠ some (.All []))
    (hru : r.metadata.required_use ≠ some (.All []))
    (hecl : eclassesValueOk r.eclasses = true) :
    CacheEntry.parse (CacheEntry.serialize r) = .ok r := by
  unfold CacheEntry.parse at h
  have hgood := foldl_values_good (linesOf input) {} (linesOf_no_nl input)
    (by intro v hv; exact absurd hv (by simp))
    (by intro v hv; exact absurd hv (by simp))
    (by intro v hv; exact absurd hv (by simp))
    lineValOk_nil
  obtain ⟨hgd, hgs, hgm, hge⟩ := hgood
  obtain ⟨he, hd, hs, hhp, hsu, hl, hk, hi, hr8, hrs, hpr, hdep, hrdep, hbdep,
    hpdep, hidep, hinh, hph, hmd, heclv⟩ := assemble_ok_inv _ r h
  have gdesc : lineValOk r.metadata.description := by
    cases hsd : ((linesOf input).foldl applyLine {}).description with
    | none =>
      rw [hsd] at hd
      simp [descriptionField] at hd
    | some d =>
      rw [hsd] at hd
      simp only [descriptionField, Pure.pure, Except.pure, Except.ok.injEq] at hd
      rw [← hd]
      exact hgd d hsd
  have gslot : lineValOk (Slot.render r.metadata.slot) := by
    cases hss : ((linesOf input).foldl applyLine {}).slot with
    | none =>
      rw [hss] at hs
      simp [slotField] at hs
    | some v =>
      rw [hss] at hs
      simp only [slotField] at hs
      rw [(parseSlot_ok v _ hs).1]
      exact hgs v hss
  have gmd5 : ∀ v, r.md5 = some v → lineValOk v := by
    intro v hv
    rw [← hmd] at hv
    exact hgm v hv
  have gecl : lineValOk (joinSep '\t' (eclassTokens r.eclasses)) :=
    eclassesField_lineValOk _ _ hge heclv hecl
  have glic : ∀ lic, r.metadata.license = some lic →
      lineValOk (LicenseExpr.render lic) := by
    intro lic hv
    rw [hv] at hl
    unfold optionalExprField at hl
    split at hl
    · simp [pure, Except.pure] at hl
    · obtain ⟨lic2, hp, h2⟩ := Except.bind_ok_inv hl
      simp only [pure, Except.pure, Except.ok.injEq, Option.some.injEq] at h2
      subst h2
      have hwf := license_parse_wfTree _ lic2 hp
      have hlicne : lic2 ≠ .All [] := by
        intro hcon
        exact hlic (by rw [hv, hcon])
      have hf := license_tree_lineOk lic2 hwf hlicne
      exact lineValOk_of_lineChar _ hf.2.1 hf.2.2
  have gru : ∀ ru, r.metadata.required_use = some ru →
      lineValOk (RequiredUseExpr.render ru) := by
    intro ru hv
    rw [hv] at hr8
    unfold optionalExprField at hr8
    split at hr8
    · simp [pure, Except.pure] at hr8
    · obtain ⟨ru2, hp, h2⟩ := Except.bind_ok_inv hr8
      simp only [pure, Except.pure, Except.ok.injEq, Option.some.injEq] at h2
      subst h2
      have hwf := ru_parse_wfTree _ ru2 hp
      have hrune : ru2 ≠ .All [] := by
        intro hcon
        exact hru (by rw [hv, hcon])
      have hf := ru_tree_lineOk ru2 hwf hrune
      exact lineValOk_of_lineChar _ hf.2.1 hf.2.2
  have gres : lineValOk (renderRestrictList r.metadata.restrict) := by
    refine restrictField_lineValOk _ ?_ hres
    unfold optionalField at hrs
    split at hrs
    · simp only [pure, Except.pure, Except.ok.injEq] at hrs
      rw [← hrs]
      rfl
    · exact restrict_parse_wf _ _ hrs
  have gprops : lineValOk (renderRestrictList r.metadata.properties) := by
    refine restrictField_lineValOk _ ?_ hprop
    unfold optionalField at hpr
    split at hpr
    · simp only [pure, Except.pure, Except.ok.injEq] at hpr
      rw [← hpr]
      rfl
    · exact restrict_parse_wf _ _ hpr
  have gsu : lineValOk (renderSrcUriList r.metadata.src_uri) := by
    refine srcuriField_lineValOk _ ?_
    unfold optionalField at hsu
    split at hsu
    · simp only [pure, Except.pure, Except.ok.injEq] at hsu
      rw [← hsu]
      rfl
    · exact su_parse_wf _ _ hsu
  exact (serialize_fold r (phases_lineValOk _) (depField_lineValOk _ _ hdep)
    gdesc (eapi_lineValOk _) (wsField_lineValOk _ _ hhp)
    (iuseField_lineValOk _ _ hi) (keywordsField_lineValOk _ _ hk) glic
    (depField_lineValOk _ _ hpdep) (depField_lineValOk _ _ hrdep) gru gres
    gslot gsu (depField_lineValOk _ _ hbdep) (depField_lineValOk _ _ hidep)
    gprops (wsField_lineValOk _ _ hinh) gecl gmd5).trans
    (assemble_renderedRaw _ r h hres hprop hlic hru)

/-- C1 counterexample: the record parsed from the input whose RESTRICT
line carries the bare group of two tokens holds the one-element restrict
list with the empty token, but serializing that record and re-parsing
yields the empty restrict list, so parse-serialize-parse is not the
identity claimed by the spec. -/
theorem c1_counterexample :
    CacheEntry.parse (chars "DESCRIPTION=x\nSLOT=0\nRESTRICT=( a b )\n")
      = .ok ⟨⟨.Zero, chars "x", Slot.new (chars "0"), [], [], none, [], [], none,
          [.Token []], [], [], [], [], [], [], [], []⟩, none, []⟩ ∧
    CacheEntry.parse (CacheEntry.serialize
        ⟨⟨.Zero, chars "x", Slot.new (chars "0"), [], [], none, [], [], none,
          [.Token []], [], [], [], [], [], [], [], []⟩, none, []⟩)
      = .ok ⟨⟨.Zero, chars "x", Slot.new (chars "0"), [], [], none, [], [], none,
          [], [], [], [], [], [], [], [], []⟩, none, []⟩ ∧
    ([] : List RestrictExpr) ≠ [.Token []] := by
  have hres : RestrictExpr.parse (chars "( a b )") = .ok [RestrictExpr.Token []] := by
    have h1 := restrict_bare_group [RestrictExpr.Token ['a'], RestrictExpr.Token ['b']]
      (by decide) (by decide)
    rw [show chars "( " ++
        renderRestrictList [RestrictExpr.Token ['a'], RestrictExpr.Token ['b']] ++
        chars " )" = chars "( a b )" from rfl] at h1
    exact h1
  refine ⟨?_, by rfl, by simp⟩
  unfold CacheEntry.parse
  rw [show (linesOf (chars "DESCRIPTION=x\nSLOT=0\nRESTRICT=( a b )\n")).foldl
      applyLine {}
      = ({ description := some (chars "x"), slot := some (chars "0"),
           restrict := chars "( a b )" } : RawFields) from rfl]
  have hve : (chars "0").isEmpty = false := rfl
  have hsp : splitOnceChar '/' (chars "0") = none := rfl
  have hrne : (chars "( a b )").isEmpty = false := rfl
  simp [assemble, eapiField, descriptionField, slotField, parseSlot, hve, hsp, hrne,
    optionalField, optionalExprField, parseDepField, parseEclasses, Phase.parseLine,
    trimWs, trimStart, trimEnd, Bind.bind, Except.bind, Pure.pure, Except.pure,
    Slot.new, hres]

/-- Witness for the amended C1 at the minimal record parsed from
DESCRIPTION-and-SLOT-only input. -/
theorem c1_witness :
    CacheEntry.parse (chars "DESCRIPTION=x\nSLOT=0\n") = .ok minimalCacheEntry ∧
    noEmptyTokList minimalCacheEntry.metadata.restrict = true ∧
    noEmptyTokList minimalCacheEntry.metadata.properties = true ∧
    minimalCacheEntry.metadata.license ≠ some (.All []) ∧
    minimalCacheEntry.metadata.required_use ≠ some (.All []) ∧
    eclassesValueOk minimalCacheEntry.eclasses = true ∧
    CacheEntry.parse (CacheEntry.serialize minimalCacheEntry)
      = .ok minimalCacheEntry := by
  refine ⟨by rfl, by rfl, by rfl, fun hcon => Option.noConfusion hcon,
    fun hcon => Option.noConfusion hcon, by rfl, ?_⟩
  exact c1_roundtrip (chars "DESCRIPTION=x\nSLOT=0\n") minimalCacheEntry (by rfl)
    (by rfl) (by rfl) (fun hcon => Option.noConfusion hcon)
    (fun hcon => Option.noConfusion hcon) (by rfl)
